import Mathlib

/-!
# Ranger: a shallow embedding of the bucket builder, the appendix, the database
builder and the bucket / database readers

Machine integers are natural numbers, reduced modulo `2 ^ w` wherever the C++
code can wrap.  Bytes are natural numbers below 256, memory blocks are lists of
bytes, and pointers are addresses (`0` is the null pointer).
-/

set_option maxRecDepth 1000000
set_option maxHeartbeats 4000000

namespace Ranger

/-! ## Little-endian bytes -/

/-- The `n` little-endian bytes of `x` (the object representation `appendix::push`
and `binstream::write` copy byte by byte). -/
def le_bytes : Nat → Nat → List Nat
  | 0, _ => []
  | n + 1, x => (x % 256) :: le_bytes n (x / 256)

/-- The unsigned integer whose little-endian bytes are `bs`. -/
def of_le_bytes : List Nat → Nat
  | [] => 0
  | b :: bs => b + 256 * of_le_bytes bs

/-! ## hash-methods.h -/

/-- Rotate left on `uint32_t`. -/
def hash_rot (x k : Nat) : Nat :=
  ((x <<< k) % 2 ^ 32) ||| (x >>> (32 - k))

def mhash_add__ (hash data : Nat) : Nat :=
  if data = 0 then hash
  else
    let data1 := (data * 0xcc9e2d51) % 2 ^ 32
    let data2 := hash_rot data1 15
    let data3 := (data2 * 0x1b873593) % 2 ^ 32
    hash ^^^ data3

def mhash_add (hash data : Nat) : Nat :=
  let hash1 := mhash_add__ hash data
  let hash2 := hash_rot hash1 13
  (hash2 * 5 + 0xe6546b64) % 2 ^ 32

/-- One bit of the CRC-32C division (reflected polynomial `0x82F63B78`). -/
def crc32c_step (x : Nat) : Nat :=
  if x % 2 = 1 then (x / 2) ^^^ 0x82F63B78 else x / 2

def crc32c_bits : Nat → Nat → Nat
  | 0, x => x
  | n + 1, x => crc32c_bits n (crc32c_step x)

/-- The SSE4.2 intrinsic `_mm_crc32_u64` (the `crc32` instruction on a 64-bit
operand): the CRC-32C of the eight bytes of `v`, low byte first, accumulated
onto the low 32 bits of `crc`, without initial or final inversion. -/
def _mm_crc32_u64 (crc v : Nat) : Nat :=
  crc32c_bits 64 ((crc % 2 ^ 32) ^^^ (v % 2 ^ 64))

/-- The body works on the `uint64_t` parameter `hash`; the result is truncated
to `uint32_t` on return. -/
def hash_finish (hash final : Nat) : Nat :=
  let hash1 := (_mm_crc32_u64 hash final * 0x805204f3) % 2 ^ 64
  (hash1 ^^^ ((hash1 % 2 ^ 32) >>> 16)) % 2 ^ 32

def hash_add (hash data : Nat) : Nat :=
  mhash_add hash data

/-- The argument `data` of type `uint64_t` is narrowed to the `uint32_t`
parameter of `hash_add` in both calls. -/
def hash_add64 (hash data : Nat) : Nat :=
  hash_add (hash_add hash (data % 2 ^ 32)) ((data >>> 32) % 2 ^ 32)

def hash_uint64_basis (x basis : Nat) : Nat :=
  hash_finish (hash_add64 basis x) 8

def hash_uint64 (x : Nat) : Nat :=
  hash_uint64_basis x 0

/-- Subtraction on `uint64_t`. -/
def sub64 (a b : Nat) : Nat :=
  (a % 2 ^ 64 + (2 ^ 64 - b % 2 ^ 64)) % 2 ^ 64

def hash_15bit_key (key base_range : Nat) : Nat :=
  let out := (hash_uint64 (sub64 key base_range) % 2 ^ 16) &&& 0xFFFE
  if out ≠ 0 then out else 2

/-- The argument is the 16-bit word the pointer addresses. -/
def hash_15bit_read (word : Nat) : Nat :=
  word &&& 0xFFFE

/-! ## record.h -/

structure record where
  key : Nat
  value : Nat
deriving DecidableEq, Repr

/-- The fields of a `record` are `uint64_t`. -/
def record.wf (m : record) : Prop :=
  m.key < 2 ^ 64 ∧ m.value < 2 ^ 64

instance (m : record) : Decidable m.wf := by
  unfold record.wf; exact inferInstance

/-! ## The C library `qsort` / `qsort_r` -/

/-- The merge loop of glibc's `msort_with_tmp`: the head of the left run is
taken when `cmp left right <= 0`, otherwise the head of the right run; when
one run is used up the rest of the other follows.  Each turn of the loop moves
one element, so `fuel`, the number of elements of the two runs, bounds the
number of turns. -/
def qsort_merge {α : Type} (cmp : α → α → Int) : Nat → List α → List α → List α
  | 0, l, r => l ++ r
  | _ + 1, [], r => r
  | _ + 1, a :: l, [] => a :: l
  | fuel + 1, a :: l, b :: r =>
    if cmp a b ≤ 0 then a :: qsort_merge cmp fuel l (b :: r)
    else b :: qsort_merge cmp fuel (a :: l) r

/-- The recursion of glibc's `msort_with_tmp` on `n = l.length` elements:
`n1 = n / 2` elements to the left, the rest to the right. -/
def msort_with_tmp {α : Type} (cmp : α → α → Int) : Nat → List α → List α
  | 0, l => l
  | fuel + 1, l =>
    if l.length ≤ 1 then l
    else
      let n1 := l.length / 2
      qsort_merge cmp l.length (msort_with_tmp cmp fuel (l.take n1))
        (msort_with_tmp cmp fuel (l.drop n1))

/-- The C library `qsort` (and `qsort_r`, the extra argument being part of
`cmp`), as glibc implements it: a top-down merge sort.  Used where the
comparator only reads the two elements it is given. -/
def qsort {α : Type} (cmp : α → α → Int) (l : List α) : List α :=
  msort_with_tmp cmp l.length l

/-! ## appendix.h / appendix.cpp -/

structure appendix where
  data : List Nat
deriving DecidableEq, Repr

/-- The template `appendix::push<T>`, with `size = sizeof(T)`. -/
def appendix.push (a : appendix) (size elem : Nat) : appendix :=
  { data := a.data ++ le_bytes size elem }

def appendix.get_size (a : appendix) : Nat :=
  a.data.length

/-- The comparator returns the `bool` `a >= b` as an `int`. -/
def compare_uint64 (a b : Nat) : Int :=
  if a ≥ b then 1 else 0

/-- Returns the handle, the appendix after the call and the vector `vals`,
which `qsort` sorts in place. -/
def appendix.add_element64 (a : appendix) (vals : List Nat) : Nat × appendix × List Nat :=
  let vals1 := qsort compare_uint64 vals
  let out := ((a.data.length <<< 32) % 2 ^ 64) ||| (vals1.length % 2 ^ 32)
  (out, vals1.foldl (fun acc e => acc.push 8 e) a, vals1)

/-- The 8 bytes `compare_uint64` reads at element `i` of a `uint32_t` array:
the element and its successor in memory; `oob` stands for the 4 bytes that
follow the last element of the vector. -/
def read64_at (arr : List Nat) (oob i : Nat) : Nat :=
  arr.getD i 0 + 2 ^ 32 * (if i + 1 < arr.length then arr.getD (i + 1) 0 else oob)

/-- The merge loop of `msort_with_tmp` on the array positions `i1 < e1` (left
run) and `i2 < e2` (right run); returns the temporary buffer, into which the
rest of the left run is copied at the end, the rest of the right run staying
in place. -/
def merge32 (arr : List Nat) (oob : Nat) : Nat → Nat → Nat → Nat → Nat → List Nat
  | 0, _, _, _, _ => []
  | fuel + 1, i1, e1, i2, e2 =>
    if i1 < e1 ∧ i2 < e2 then
      if compare_uint64 (read64_at arr oob i1) (read64_at arr oob i2) ≤ 0 then
        arr.getD i1 0 :: merge32 arr oob fuel (i1 + 1) e1 i2 e2
      else
        arr.getD i2 0 :: merge32 arr oob fuel i1 e1 (i2 + 1) e2
    else if i1 < e1 then (arr.drop i1).take (e1 - i1)
    else []

/-- Copies `tmp` over the array from position `lo` on. -/
def write_back (arr : List Nat) (lo : Nat) (tmp : List Nat) : List Nat :=
  arr.take lo ++ tmp ++ arr.drop (lo + tmp.length)

/-- The in-place `msort_with_tmp` on `n` `uint32_t` elements from position `lo`. -/
def msort32 (oob : Nat) : Nat → List Nat → Nat → Nat → List Nat
  | 0, arr, _, _ => arr
  | fuel + 1, arr, lo, n =>
    if n ≤ 1 then arr
    else
      let n1 := n / 2
      let arr1 := msort32 oob fuel arr lo n1
      let arr2 := msort32 oob fuel arr1 (lo + n1) (n - n1)
      write_back arr2 lo (merge32 arr2 oob (n + 1) lo (lo + n1) (lo + n1) (lo + n))

/-- The call `qsort(&vals[0], vals.size(), sizeof(uint32_t), compare_uint64)`:
the elements are 4 bytes wide while the comparator reads 8 bytes at each, so
the outcome depends on the positions in memory. -/
def qsort32 (oob : Nat) (vals : List Nat) : List Nat :=
  msort32 oob vals.length vals 0 vals.length

/-- Returns the `uint32_t` result, the appendix after the call and the sorted
vector.  The count is pushed first (4 bytes), `out` is taken after that, and
each element is pushed through a `uint64_t` loop variable (8 bytes). -/
def appendix.add_element32 (oob : Nat) (a : appendix) (vals : List Nat) :
    Nat × appendix × List Nat :=
  let size := vals.length % 2 ^ 32
  let a1 := a.push 4 size
  let vals1 := qsort32 oob vals
  let out := a1.data.length % 2 ^ 32
  (out, vals1.foldl (fun acc e => acc.push 8 e) a1, vals1)

/-! ## bucket-builder.h / bucket-builder.cpp -/

def MAX_KEYS_IN_PAGE : Nat := 32

def CACHE_LINE_SIZE : Nat := 64

/-- The constructor `attr::attr()` gives the all-zero value `attr.new`. -/
structure attr where
  count : Nat
  hash : Nat
  saved_val64 : Nat
  saved_val32 : Nat
  values64 : List Nat
  values32 : List Nat
deriving DecidableEq, Repr

def attr.new : attr :=
  { count := 0, hash := 0, saved_val64 := 0, saved_val32 := 0, values64 := [], values32 := [] }

/-- The member `keys` is a `std::map<uint64_t, attr*>`: here the list of its
entries in iteration order, which is ascending key order. -/
structure bucket_builder where
  use_64bit : Bool
  smallest_key : Nat
  keys : List (Nat × attr)
deriving DecidableEq, Repr

/-- The lookup `keys.find(key)`. -/
def map_find (keys : List (Nat × attr)) (key : Nat) : Option attr :=
  match keys with
  | [] => none
  | (k, a) :: rest => if k = key then some a else map_find rest key

/-- The assignment `keys[key] = a`: replaces the entry of `key`, or inserts it
at its place in key order. -/
def map_set (keys : List (Nat × attr)) (key : Nat) (a : attr) : List (Nat × attr) :=
  match keys with
  | [] => [(key, a)]
  | (k, b) :: rest =>
    if key < k then (key, a) :: (k, b) :: rest
    else if key = k then (key, a) :: rest
    else (k, b) :: map_set rest key a

/-- The call `keys.erase(key)`. -/
def map_erase (keys : List (Nat × attr)) (key : Nat) : List (Nat × attr) :=
  keys.filter (fun it => it.1 ≠ key)

/-- The constructor `bucket_builder(use_64bit)`. -/
def bucket_builder.new (use_64bit : Bool) : bucket_builder :=
  { use_64bit := use_64bit, smallest_key := 0, keys := [] }

def bucket_builder.clear (b : bucket_builder) : bucket_builder :=
  { b with smallest_key := 0, keys := [] }

/-- Returns `none` for `nullptr`; otherwise the builder, in which a new key has
received fresh attributes.  The pointer returned by the C++ function is the
entry of `key` in the returned builder. -/
def bucket_builder.get_key_attr (b : bucket_builder) (key : Nat) : Option bucket_builder :=
  match map_find b.keys key with
  | none =>
    if b.keys.length ≥ MAX_KEYS_IN_PAGE then none
    else some { b with keys := map_set b.keys key attr.new }
  | some _ => some b

/-- The argument `key_attr` of the C++ function is the entry of `m.key`, which
is where `try_insert` takes it from; `it.second != key_attr` compares the
entries by identity, that is by key.  Returns the result and the builder. -/
def bucket_builder.populate_record (b : bucket_builder) (m : record) : Nat × bucket_builder :=
  match map_find b.keys m.key with
  | none => (1, b)
  | some key_attr =>
    let hash := hash_15bit_key m.key b.smallest_key
    if key_attr.count = 0 ∧
        b.keys.any (fun it => it.1 ≠ m.key ∧ hash_15bit_read it.2.hash = hash) = true then
      (1, b)
    else
      let a1 := if key_attr.count = 0 then { key_attr with hash := hash } else key_attr
      let a2 := { a1 with count := a1.count + 1 }
      let a3 :=
        if b.use_64bit then
          { a2 with values64 := a2.values64 ++ [m.value],
                    saved_val64 := (a2.values64 ++ [m.value]).getD 0 0 }
        else
          { a2 with values32 := a2.values32 ++ [m.value % 2 ^ 32],
                    saved_val32 := (a2.values32 ++ [m.value % 2 ^ 32]).getD 0 0 }
      (0, { b with keys := map_set b.keys m.key a3 })

def bucket_builder.try_insert (b : bucket_builder) (m : record) : Nat × bucket_builder :=
  match b.get_key_attr m.key with
  | none => (1, b)
  | some b1 =>
    let r := b1.populate_record m
    if r.1 = 0 then (0, r.2)
    else (1, { r.2 with keys := map_erase r.2.keys m.key })

def bucket_builder.push (b : bucket_builder) (m : record) : Nat × bucket_builder :=
  let b1 := if b.keys.length = 0 then { b with smallest_key := m.key } else b
  b1.try_insert m

def bucket_builder.get_size_bytes (use_64bit : Bool) : Nat :=
  if use_64bit then 320 else 192

def bucket_builder.get_distinct_key_num (b : bucket_builder) : Nat :=
  b.keys.length

def bucket_builder.get_total_key_num (b : bucket_builder) : Nat :=
  b.keys.foldl (fun count it => count + it.2.count) 0

def bucket_builder.get_smallest_key (b : bucket_builder) : Nat :=
  b.smallest_key

def bucket_builder.get_used_bytes (b : bucket_builder) : Nat :=
  b.keys.length * 10

def bucket_builder.get_singleton_num (b : bucket_builder) : Nat :=
  b.keys.foldl (fun count it => count + (if it.2.count = 1 then 1 else 0)) 0

/-- The index of the most significant set bit (`__bsrq`), 0 for 0. -/
def BSR64 (x : Nat) : Nat :=
  Nat.log2 x

def bucket_builder.get_common_prefix_bits (b : bucket_builder) : Nat :=
  let largest_key := b.keys.foldl (fun l it => if it.1 > l then it.1 else l) b.smallest_key
  let diff := sub64 largest_key b.smallest_key
  if diff = 0 then 64 else (63 - BSR64 diff) % 256

/-- The comparator of `get_key_order`; `keys->at(k)` is the entry of `k`. -/
def bucket_builder.key_sort (b : bucket_builder) (ka kb : Nat) : Int :=
  let a := (map_find b.keys ka).getD attr.new
  let c := (map_find b.keys kb).getD attr.new
  if a.count < c.count then 1
  else if b.use_64bit then
    (if a.values64.getD 0 0 < c.values64.getD 0 0 then 1 else 0)
  else
    (if a.values32.getD 0 0 < c.values32.getD 0 0 then 1 else 0)

def bucket_builder.get_key_order (b : bucket_builder) : List Nat :=
  qsort b.key_sort (b.keys.map (fun it => it.1))

/-- The loop of `populate_appendix` over the entries of the map, in key
order; returns the entries and the appendix. -/
def populate_entries (use_64bit : Bool) (oob : Nat) :
    List (Nat × attr) → appendix → List (Nat × attr) × appendix
  | [], a => ([], a)
  | (k, it) :: rest, a =>
    if it.count ≤ 1 then
      let r := populate_entries use_64bit oob rest a
      ((k, it) :: r.1, r.2)
    else if use_64bit then
      let e := a.add_element64 it.values64
      let r := populate_entries use_64bit oob rest e.2.1
      ((k, { it with saved_val64 := e.1, values64 := e.2.2, hash := it.hash ||| 1 }) :: r.1, r.2)
    else
      let e := a.add_element32 oob it.values32
      let r := populate_entries use_64bit oob rest e.2.1
      ((k, { it with saved_val32 := e.1, values32 := e.2.2, hash := it.hash ||| 1 }) :: r.1, r.2)

/-- Returns the builder (tags flagged, handles saved, value vectors sorted in
place) and the appendix. -/
def bucket_builder.populate_appendix (b : bucket_builder) (oob : Nat) (a : appendix) :
    bucket_builder × appendix :=
  let r := populate_entries b.use_64bit oob b.keys a
  ({ b with keys := r.1 }, r.2)

/-- Stores the bytes `bs` at offset `off` of a block. -/
def store_bytes (page : List Nat) (off : Nat) (bs : List Nat) : List Nat :=
  match bs with
  | [] => page
  | x :: rest => store_bytes (page.set off x) (off + 1) rest

/-- The stores of the loop of `pack`, as (offset, bytes) pairs in program
order: for each key of `order` the tag at the hash cursor and the saved value
at the value cursor. -/
def pack_writes (b : bucket_builder) : List Nat → Nat → Nat → List (Nat × List Nat)
  | [], _, _ => []
  | k :: order, hash_cursor, val_cursor =>
    let a := (map_find b.keys k).getD attr.new
    if b.use_64bit then
      (hash_cursor, le_bytes 2 a.hash) :: (val_cursor, le_bytes 8 a.saved_val64) ::
        pack_writes b order (hash_cursor + 2) (val_cursor + 8)
    else
      (hash_cursor, le_bytes 2 a.hash) :: (val_cursor, le_bytes 4 a.saved_val32) ::
        pack_writes b order (hash_cursor + 2) (val_cursor + 4)

/-- The page `pack` leaves at `ptr`: zeroed by `memset`, then the stores. -/
def bucket_builder.pack (b : bucket_builder) : List Nat :=
  (pack_writes b b.get_key_order 0 CACHE_LINE_SIZE).foldl
    (fun page w => store_bytes page w.1 w.2)
    (List.replicate (bucket_builder.get_size_bytes b.use_64bit) 0)

/-! ## Memory and the SIMD macros of simd.h (the AVX2 configuration)

A register is the list of its 16-bit lanes, lowest first. -/

/-- The byte stored at each address. -/
abbrev Memory := Nat → Nat

def load_bytes (mem : Memory) (addr n : Nat) : List Nat :=
  (List.range n).map (fun i => mem (addr + i))

def load_u16 (mem : Memory) (addr : Nat) : Nat :=
  of_le_bytes (load_bytes mem addr 2)

def load_u32 (mem : Memory) (addr : Nat) : Nat :=
  of_le_bytes (load_bytes mem addr 4)

def load_u64 (mem : Memory) (addr : Nat) : Nat :=
  of_le_bytes (load_bytes mem addr 8)

/-- The `n` consecutive `uint64_t` values at `addr`: what a caller reads through
the pointer a lookup returns. -/
def load_u64s (mem : Memory) (addr n : Nat) : List Nat :=
  (List.range n).map (fun j => load_u64 mem (addr + 8 * j))

/-- The memory that holds the block `bytes` at address `base` (zero elsewhere). -/
def block_at (base : Nat) (bytes : List Nat) : Memory :=
  fun a => if base ≤ a then bytes.getD (a - base) 0 else 0

/-- Number of 32-bit integers in a register (`__AVX__`). -/
def SIMD_WIDTH : Nat := 8

/-- The constant `SIMD_WIDTH*sizeof(int)`. -/
def ITERATION_BYTES : Nat := SIMD_WIDTH * 4

def SIMD_LOADU_SI (mem : Memory) (addr : Nat) : List Nat :=
  (List.range (ITERATION_BYTES / 2)).map (fun j => load_u16 mem (addr + 2 * j))

def SIMD_SET1_EPI16 (a : Nat) : List Nat :=
  List.replicate (ITERATION_BYTES / 2) (a % 2 ^ 16)

def SIMD_AND_SI (a b : List Nat) : List Nat :=
  List.zipWith (fun x y => x &&& y) a b

/-- Lane-wise equality: `0xffff` where the lanes are equal, `0` elsewhere. -/
def SIMD_CMPEQ_EPI16 (b c : List Nat) : List Nat :=
  List.zipWith (fun x y => if x = y then 0xFFFF else 0) b c

/-- One mask bit per byte of the register, its most significant bit: two bits
per 16-bit lane. -/
def SIMD_MOVE_MASK_EPI8 : List Nat → Nat
  | [] => 0
  | x :: rest => (x >>> 7) % 2 + 2 * ((x >>> 15) % 2) + 4 * SIMD_MOVE_MASK_EPI8 rest

def bsf_aux : Nat → Nat → Nat
  | 0, _ => 0
  | n + 1, x => if x % 2 = 1 then 0 else 1 + bsf_aux n (x / 2)

/-- The index of the least significant set bit (`__bsfq`). -/
def BSF64 (x : Nat) : Nat :=
  bsf_aux 64 x

/-- Conversion of an `int` to `uint64_t`. -/
def int_to_u64 (x : Int) : Nat :=
  (x % 2 ^ 64).toNat

/-- Conversion of a `uint32_t` to `int`. -/
def u32_to_int (x : Nat) : Int :=
  if x % 2 ^ 32 < 2 ^ 31 then (x % 2 ^ 32 : Nat) else (x % 2 ^ 32 : Nat) - 2 ^ 32

/-! ## bucket-reader.h / bucket-reader.cpp -/

/-- Modelled from the spec: the batch size `LNMU_BATCH_SIZE` of the header
libnuevomatchup.h, which is not part of the sources; the specification gives
N = 4. -/
def N : Nat := 4

structure bucket_reader where
  use_64bit : Bool
  data : Nat
  apdx : Nat
deriving DecidableEq, Repr

/-- `get_bucket_ptr`: the address of page `bucket_index`.  The product is taken
in `uint64_t` and wraps at `2^64`.  Where it has wrapped (a negative search
result, converted to `uint64_t`) the pointer sum wraps as well, which puts the
page below `data`.  Where it has not, the page starts that many bytes above
`data` and the sum is taken as it is, the addresses of a block being below
`2^64`. -/
def get_bucket_ptr (data bucket_index : Nat) (use_64bit : Bool) : Nat :=
  if bucket_index * bucket_builder.get_size_bytes use_64bit < 2 ^ 64 then
    data + bucket_index * bucket_builder.get_size_bytes use_64bit
  else
    (data + bucket_index * bucket_builder.get_size_bytes use_64bit % 2 ^ 64) % 2 ^ 64

/-- The inner loop of `lookup_batch`, which populates `fullmask`; `iters` is
the number of iterations left and `ofst` the current offset. -/
def lookup_fullmask (mem : Memory) (bucket : Nat) (hash_reg hashmask : List Nat) :
    Nat → Nat → Nat → Nat
  | 0, _, fullmask => fullmask
  | iters + 1, ofst, fullmask =>
    let phashes := SIMD_LOADU_SI mem (bucket + ofst)
    let phashes1 := SIMD_AND_SI phashes hashmask
    let result := SIMD_CMPEQ_EPI16 hash_reg phashes1
    let mask := SIMD_MOVE_MASK_EPI8 result % 2 ^ 32
    lookup_fullmask mem bucket hash_reg hashmask iters (ofst + ITERATION_BYTES)
      (fullmask ||| ((mask <<< ofst) % 2 ^ 64))

/-- The body of the second loop of `lookup_batch` for one index `i`: takes
`keys[i]`, `search_results[i]`, `base_ranges[i]` and the content of `ptr[i]` on
entry, and returns the contents of `num[i]` and `ptr[i]` afterwards (`num[i]`
is assigned on every path). -/
def bucket_reader.lookup_one (mem : Memory) (r : bucket_reader) (key : Nat)
    (search_result : Int) (base_range : Nat) (ptr_i : Nat) : Int × Nat :=
  let hashmask := SIMD_SET1_EPI16 0xFFFE
  let bucket := get_bucket_ptr r.data (int_to_u64 search_result) r.use_64bit
  let hash := hash_15bit_key key base_range
  let hash_reg := SIMD_SET1_EPI16 hash
  let fullmask := lookup_fullmask mem bucket hash_reg hashmask
    (CACHE_LINE_SIZE / ITERATION_BYTES) 0 0
  if fullmask = 0 then (0, ptr_i)
  else
    let fullmask1 := BSF64 fullmask
    let ptr1 := bucket + CACHE_LINE_SIZE + 4 * fullmask1
    let hash_word := load_u16 mem (bucket + fullmask1)
    if hash_word &&& 1 = 0 then (1, ptr1)
    else if r.use_64bit then
      let fullmask2 := load_u64 mem ptr1
      (u32_to_int fullmask2, r.apdx + (fullmask2 >>> 32))
    else
      let fullmask2 := load_u32 mem ptr1
      (u32_to_int (load_u32 mem (r.apdx + fullmask2)), r.apdx + fullmask2 + 4)

/-- One iteration of the second loop of `lookup_batch` on the arrays `num` and
`ptr` (the pair `np`): index `i` of both is assigned what the loop body,
`probe i`, returns for the content of `ptr[i]`. -/
def lookup_iter (probe : Nat → Nat → Int × Nat) (np : List Int × List Nat) (i : Nat) :
    List Int × List Nat :=
  let o := probe i (np.2.getD i 0)
  (np.1.set i o.1, np.2.set i o.2)

/-- Returns the arrays `num` and `ptr` after the call. -/
def bucket_reader.lookup_batch (mem : Memory) (r : bucket_reader) (keys : List Nat)
    (search_results : List Int) (base_ranges : List Nat) (num : List Int) (ptr : List Nat) :
    List Int × List Nat :=
  (List.range N).foldl
    (lookup_iter (fun i ptr_i =>
      r.lookup_one mem (keys.getD i 0) (search_results.getD i 0) (base_ranges.getD i 0) ptr_i))
    (num, ptr)

/-! ## binstream.h -/

/-- The bytes written so far (`ptr[0 .. size)`) and the read cursor.  A
`binstream` built over a `mem_binstream` shares its data, so one value stands
for both. -/
structure mem_binstream where
  data : List Nat
  cursor : Nat
deriving DecidableEq, Repr

def mem_binstream.new : mem_binstream :=
  { data := [], cursor := 0 }

def mem_binstream.write (s : mem_binstream) (bytes : List Nat) : mem_binstream :=
  { s with data := s.data ++ bytes }

/-- Returns the `size` bytes at the cursor (zero beyond the data) and the stream. -/
def mem_binstream.read (s : mem_binstream) (size : Nat) : List Nat × mem_binstream :=
  ((List.range size).map (fun i => s.data.getD (s.cursor + i) 0),
   { s with cursor := s.cursor + size })

def mem_binstream.detach_data (s : mem_binstream) : List Nat × mem_binstream :=
  (s.data, { data := [], cursor := 0 })

/-- The constant `binstream::header_length`. -/
def header_length : Nat := 16

/-- The bytes `strlen` counts: those before the first NUL. -/
def c_string (name : List Nat) : List Nat :=
  name.takeWhile (fun c => c ≠ 0)

def binstream_write_header (s : mem_binstream) (header_name : List Nat) (version : Nat) :
    mem_binstream :=
  let len := min (c_string header_name).length header_length
  let header := (c_string header_name).take len ++ List.replicate (header_length - len) 0
  ((s.write header).write (le_bytes 2 1)).write (le_bytes 2 version)

/-- Whether `strncmp(a, b, n)` is zero; a string ends at its first NUL or at the
end of the list. -/
def strncmp_zero : Nat → List Nat → List Nat → Bool
  | 0, _, _ => true
  | n + 1, a, b =>
    if a.headD 0 ≠ b.headD 0 then false
    else if a.headD 0 = 0 then true
    else strncmp_zero n a.tail b.tail

/-- Returns `none` when the C++ function throws, otherwise the version; and the
stream. -/
def binstream_read_header (s : mem_binstream) (header_name : List Nat) :
    Option Nat × mem_binstream :=
  let h := s.read header_length
  if strncmp_zero header_length h.1 header_name = false then (none, h.2)
  else
    let e := h.2.read 2
    if of_le_bytes e.1 ≠ 1 then (none, e.2)
    else
      let v := e.2.read 2
      (some (of_le_bytes v.1), v.2)

/-- The operator `<<` on a `std::vector<uint64_t>`. -/
def binstream_write_vec64 (s : mem_binstream) (vec : List Nat) : mem_binstream :=
  vec.foldl (fun acc e => acc.write (le_bytes 8 e)) (s.write (le_bytes 8 vec.length))

/-- The loop of the operator `>>` on a `std::vector<uint64_t>`. -/
def binstream_read_u64s : Nat → mem_binstream → List Nat × mem_binstream
  | 0, s => ([], s)
  | n + 1, s =>
    let e := s.read 8
    let r := binstream_read_u64s n e.2
    (of_le_bytes e.1 :: r.1, r.2)

def binstream_read_vec64 (s : mem_binstream) : List Nat × mem_binstream :=
  let n := s.read 8
  binstream_read_u64s (of_le_bytes n.1) n.2

/-! ## db-builder.h / db-builder.cpp -/

/-- The members of `db_builder` (the model handles, the callback and the
`binstream` over `mstream` apart). -/
structure db_builder where
  ranges : List Nat
  rqrmi_size : List Int
  prefix_bits : List Nat
  mstream : mem_binstream
  compression : Int
  use_64bit : Bool
  distinct_key_num : Nat
  bucket_num : Nat
  used_bytes : Nat
  singleton_num : Nat
  total_key_num : Nat
  apdx : appendix
deriving DecidableEq, Repr

/-- The constructor `db_builder(use_64bit)`. -/
def db_builder.new (use_64bit : Bool) : db_builder :=
  { ranges := [], rqrmi_size := [], prefix_bits := [], mstream := mem_binstream.new,
    compression := 1, use_64bit := use_64bit, distinct_key_num := 0, bucket_num := 0,
    used_bytes := 0, singleton_num := 0, total_key_num := 0, apdx := { data := [] } }

def db_builder.clear (db : db_builder) : db_builder :=
  { db with ranges := [], rqrmi_size := [], prefix_bits := [], used_bytes := 0,
            distinct_key_num := 0, singleton_num := 0, total_key_num := 0,
            mstream := mem_binstream.new }

def db_builder.get_db_size (db : db_builder) : Nat :=
  db.bucket_num * bucket_builder.get_size_bytes db.use_64bit

def db_builder.set_compression (db : db_builder) (value : Int) : db_builder :=
  { db with compression := value }

def db_builder.get_ranges (db : db_builder) : List Nat :=
  db.ranges

/-- Returns the builder, the bucket builder and the packed `blob`. -/
def db_builder.add_bucket (db : db_builder) (oob : Nat) (bucket_b : bucket_builder) :
    db_builder × bucket_builder × List Nat :=
  let p := bucket_b.populate_appendix oob db.apdx
  ({ db with apdx := p.2, ranges := db.ranges ++ [p.1.get_smallest_key],
             bucket_num := db.bucket_num + 1 },
   p.1, p.1.pack)

def db_builder.update_stats (db : db_builder) (bucket_b : bucket_builder) : db_builder :=
  { db with used_bytes := db.used_bytes + bucket_b.get_used_bytes,
            singleton_num := db.singleton_num + bucket_b.get_singleton_num,
            distinct_key_num := db.distinct_key_num + bucket_b.get_distinct_key_num,
            total_key_num := db.total_key_num + bucket_b.get_total_key_num,
            prefix_bits := db.prefix_bits ++ [bucket_b.get_common_prefix_bits] }

/-- The three statements that emit the current bucket: `add_bucket`, the write
of the blob to `bstream` and `update_stats`. -/
def db_builder.emit (db : db_builder) (oob : Nat) (bucket_b : bucket_builder) :
    db_builder × bucket_builder :=
  let r := db.add_bucket oob bucket_b
  let db1 := { r.1 with mstream := r.1.mstream.write r.2.2 }
  (db1.update_stats r.2.1, r.2.1)

/-- The loop of `build`: `n` iterations are left, `stream` holds the records
`get_next` has not yet delivered (at its end `get_next` returns non-zero). -/
def build_loop (oob : Nat) : Nat → List record → db_builder → bucket_builder →
    db_builder × bucket_builder
  | 0, _, db, bucket_b => (db, bucket_b)
  | _ + 1, [], db, bucket_b => (db, bucket_b)
  | n + 1, m :: stream, db, bucket_b =>
    let p := bucket_b.push m
    if p.1 = 0 then build_loop oob n stream db p.2
    else
      let e := db.emit oob p.2
      build_loop oob n stream e.1 (e.2.clear.push m).2

/-- The progress callback (which only reads the builder) apart. -/
def db_builder.build (db : db_builder) (oob : Nat) (record_num : Nat) (stream : List record) :
    db_builder :=
  let l := build_loop oob record_num stream db.clear (bucket_builder.new db.use_64bit)
  if l.2.get_used_bytes ≠ 0 then (l.1.emit oob l.2).1 else l.1

/-- The conversion of an `int` to the 4 bytes `binstream` writes. -/
def int_to_u32 (x : Int) : Nat :=
  (x % 2 ^ 32).toNat

/-- Returns the builder and the stream `s`.  The two `double` statistics are
written as the 8 bytes of `prefix_stats db.prefix_bits`, and `model_blob` is
what `lnmu_rqrmi64_store` returns for the trained model. -/
def db_builder.write (db : db_builder) (prefix_stats : List Nat → Nat × Nat)
    (model_blob : List Nat) (s : mem_binstream) : db_builder × mem_binstream :=
  let apdx_size := db.apdx.get_size
  let size := (db.get_db_size + apdx_size) % 2 ^ 64
  let s1 := binstream_write_header s [100, 98] 1
  let s2 := ((((s1.write (le_bytes 8 size)).write (le_bytes 1 (if db.use_64bit then 1 else 0))).write
    (le_bytes 8 apdx_size)).write (le_bytes 8 db.bucket_num)).write
    (le_bytes 4 (int_to_u32 db.compression))
  let s3 := (((s2.write (le_bytes 8 db.total_key_num)).write (le_bytes 8 db.distinct_key_num)).write
    (le_bytes 8 db.singleton_num)).write (le_bytes 8 db.used_bytes)
  let s4 := (s3.write (le_bytes 8 (prefix_stats db.prefix_bits).1)).write
    (le_bytes 8 (prefix_stats db.prefix_bits).2)
  let s5 := s4.write [98, 108, 98, 0]
  let d := db.mstream.detach_data
  let s6 := s5.write d.1
  let s7 := s6.write db.apdx.data
  let s8 := binstream_write_vec64 s7 db.ranges
  let s9 := (s8.write (le_bytes 8 model_blob.length)).write model_blob
  ({ db with mstream := d.2 }, s9)

/-! ## db-reader.h / db-reader.cpp -/

/-- The members of `db_reader`; `ranges` and `model` stand for the handles of
the range array and of the model (the values they were initialised from), and
`buffer` is the content of the block allocated at address `data`.  The five
`stats_` members are of type `double` in the source.  The four sums are written
by `query_perf` alone and keep their initial value 0 here; `stats_counter`
holds a count of calls, a whole number, which a `double` carries exactly up to
`2^53`. -/
structure db_reader where
  bucket_num : Nat
  compression : Int
  use_64bit : Bool
  data : Nat
  apdx : Nat
  buffer : List Nat
  ranges : List Nat
  model : List Nat
  preader : bucket_reader
  min : Nat
  max : Nat
  total_bytes : Nat
  appendix_bytes : Nat
  distinct_key_num : Nat
  used_bytes : Nat
  singleton_num : Nat
  total_key_num : Nat
  prefix_bits_mean : Nat
  prefix_bits_stddev : Nat
  stats_inference : Nat
  stats_search : Nat
  stats_validate : Nat
  stats_lookup : Nat
  stats_counter : Nat
deriving DecidableEq, Repr

/-- The constructor `db_reader()`. -/
def db_reader.new : db_reader :=
  { bucket_num := 0, compression := 1, use_64bit := true, data := 0, apdx := 0, buffer := [],
    ranges := [], model := [], preader := { use_64bit := true, data := 0, apdx := 0 },
    min := 0, max := 0, total_bytes := 0, appendix_bytes := 0, distinct_key_num := 0,
    used_bytes := 0, singleton_num := 0, total_key_num := 0, prefix_bits_mean := 0,
    prefix_bits_stddev := 0, stats_inference := 0, stats_search := 0, stats_validate := 0,
    stats_lookup := 0, stats_counter := 0 }

/-- The memory a loaded reader's pointers refer to. -/
def db_reader.memory (r : db_reader) : Memory :=
  block_at r.data r.buffer

/-- Returns the result, the reader and the stream; `addr` is the address
`xmalloc_cacheline` returns.  The result is `none` where the call does not
return a value: when `read_header` throws, and when the range vector read from
the stream is empty, where `rlst.front()`, `rlst.back()` and `&rlst[0]` have no
defined behaviour. -/
def db_reader.read (r : db_reader) (addr : Nat) (s : mem_binstream) :
    Option Int × db_reader × mem_binstream :=
  let h := binstream_read_header s [100, 98]
  match h.1 with
  | none => (none, r, h.2)
  | some version =>
    if version ≠ 1 then (some 1, r, h.2)
    else
      let x1 := h.2.read 8
      let size := of_le_bytes x1.1
      let x2 := x1.2.read 1
      let x3 := x2.2.read 8
      let x4 := x3.2.read 8
      let x5 := x4.2.read 4
      let x6 := x5.2.read 8
      let x7 := x6.2.read 8
      let x8 := x7.2.read 8
      let x9 := x8.2.read 8
      let x10 := x9.2.read 8
      let x11 := x10.2.read 8
      let r1 := { r with use_64bit := decide (of_le_bytes x2.1 ≠ 0),
                         appendix_bytes := of_le_bytes x3.1,
                         bucket_num := of_le_bytes x4.1,
                         compression := u32_to_int (of_le_bytes x5.1),
                         total_bytes := size,
                         total_key_num := of_le_bytes x6.1,
                         distinct_key_num := of_le_bytes x7.1,
                         singleton_num := of_le_bytes x8.1,
                         used_bytes := of_le_bytes x9.1,
                         prefix_bits_mean := of_le_bytes x10.1,
                         prefix_bits_stddev := of_le_bytes x11.1 }
      let r2 := { r1 with data := addr,
                          apdx := addr + bucket_builder.get_size_bytes r1.use_64bit * r1.bucket_num }
      let blob := x11.2.read 4
      if strncmp_zero 4 blob.1 [98, 108, 98] = false then
        (some 1, { r2 with buffer := [] }, blob.2)
      else
        let d := blob.2.read size
        let rl := binstream_read_vec64 d.2
        let rlst := rl.1
        if rlst = [] then (none, { r2 with buffer := d.1 }, rl.2)
        else
          let r3 := { r2 with buffer := d.1, min := rlst.headD 0, max := rlst.getLastD 0,
                              ranges := rlst,
                              total_bytes := r2.total_bytes + rlst.length * 8,
                              used_bytes := r2.used_bytes + rlst.length * 8 + r2.appendix_bytes }
          let sz := rl.2.read 8
          let b := sz.2.read (of_le_bytes sz.1)
          let r4 := { r3 with model := b.1,
                              total_bytes := r3.total_bytes + of_le_bytes sz.1,
                              used_bytes := r3.used_bytes + of_le_bytes sz.1,
                              preader := { use_64bit := r3.use_64bit, data := r3.data,
                                           apdx := r3.apdx } }
          (some 0, r4, b.2)

/-- The three calls `lnmu_rqrmi64_inference_batch`, `lnmu_range_array_search_batch`
and `lnmu_range_array_validate_batch` of `query`, taken together: from the
reader's range array, compression and model and the batch of keys to the
arrays `base_ranges` and `val_results`. -/
structure lnmu_oracle where
  locate : List Nat → Int → List Nat → List Nat → List Nat × List Int

/-- Returns the reader and the arrays `num` and `ptr` after the call.  The last
statement, `stats_counter++`, is an increment of a `double`: it adds one to a
count below `2^53` and leaves `2^53`, which a count that starts at 0 does not
pass, as it is (the sum rounds to even). -/
def db_reader.query (o : lnmu_oracle) (r : db_reader) (keys : List Nat)
    (num : List Int) (ptr : List Nat) : db_reader × List Int × List Nat :=
  let l := o.locate r.ranges r.compression r.model keys
  let out := r.preader.lookup_batch r.memory keys l.2 l.1 num ptr
  ({ r with stats_counter :=
      if r.stats_counter < 2 ^ 53 then r.stats_counter + 1 else r.stats_counter },
    out.1, out.2)


/-! ## Vocabulary of the statements -/

/-- The keys of a bucket builder, in map order. -/
def bucket_builder.keys_of (b : bucket_builder) : List Nat :=
  b.keys.map (fun it => it.1)

/-- The builder states that calls of `push`, `clear` and `populate_appendix`
can reach from a newly constructed builder. -/
inductive bucket_builder.reachable : bucket_builder → Prop
  | new (use_64bit : Bool) : bucket_builder.reachable (bucket_builder.new use_64bit)
  | push (b : bucket_builder) (m : record) :
      bucket_builder.reachable b → bucket_builder.reachable (b.push m).2
  | clear (b : bucket_builder) :
      bucket_builder.reachable b → bucket_builder.reachable b.clear
  | populate (b : bucket_builder) (oob : Nat) (a : appendix) :
      bucket_builder.reachable b → bucket_builder.reachable (b.populate_appendix oob a).1

/-- The 16-bit tag word `i` of a page. -/
def page_tag (page : List Nat) (i : Nat) : Nat :=
  page.getD (2 * i) 0 + 256 * page.getD (2 * i + 1) 0

/-- The attributes of a key after `populate_record` has added `value` to them. -/
def attr.pushed (use_64bit : Bool) (a : attr) (value : Nat) : attr :=
  if use_64bit then
    { a with count := a.count + 1, values64 := a.values64 ++ [value],
             saved_val64 := (a.values64 ++ [value]).getD 0 0 }
  else
    { a with count := a.count + 1, values32 := a.values32 ++ [value % 2 ^ 32],
             saved_val32 := (a.values32 ++ [value % 2 ^ 32]).getD 0 0 }

/-- Some key of the builder has the tag `hash`, bit 0 ignored. -/
def bucket_builder.has_tag (b : bucket_builder) (hash : Nat) : Prop :=
  ∃ it ∈ b.keys, hash_15bit_read it.2.hash = hash

/-- The attributes of a new key with its tag, before its first value. -/
def attr.fresh (hash : Nat) : attr :=
  { count := 0, hash := hash, saved_val64 := 0, saved_val32 := 0, values64 := [], values32 := [] }

/-- The value of `smallest_key` that `push` works with for the record `m`. -/
def bucket_builder.base_for (b : bucket_builder) (m : record) : Nat :=
  if b.keys.length = 0 then m.key else b.smallest_key

/-- What holds of every reachable builder: the map is in strict key order and
has at most 32 entries, every entry has a value, its tag is the hash of its
key relative to `smallest_key` (bit 0 apart), and no two tags are equal (bit 0
apart). -/
structure bucket_builder.inv (b : bucket_builder) : Prop where
  sorted : b.keys_of.Pairwise (· < ·)
  bound : b.keys.length ≤ MAX_KEYS_IN_PAGE
  counts : ∀ it ∈ b.keys, it.2.count ≠ 0
  tags : ∀ it ∈ b.keys, hash_15bit_read it.2.hash = hash_15bit_key it.1 b.smallest_key
  distinct : (b.keys.map (fun it => hash_15bit_read it.2.hash)).Nodup

/-- A 64-bit builder after the records (10, 7), (10, 3), (10, 5) and (11, 99). -/
def example_bucket : bucket_builder :=
  (((((bucket_builder.new true).push ⟨10, 7⟩).2.push ⟨10, 3⟩).2.push ⟨10, 5⟩).2.push ⟨11, 99⟩).2

/-- The `n` bytes at offset `off` of a block. -/
def bytes_at (l : List Nat) (off n : Nat) : List Nat :=
  (l.drop off).take n

/-- The memory `mem` holds the block `bytes` at address `base`. -/
def holds (mem : Memory) (base : Nat) (bytes : List Nat) : Prop :=
  ∀ i, i < bytes.length → mem (base + i) = bytes.getD i 0

/-- The attributes of the key `k` in the builder. -/
def bucket_builder.attr_of (b : bucket_builder) (k : Nat) : attr :=
  (map_find b.keys k).getD attr.new

/-- The width of a value slot of a page. -/
def slot_width (use_64bit : Bool) : Nat :=
  if use_64bit then 8 else 4

/-- What `pack` stores in the value slot of the key `k`. -/
def bucket_builder.saved_of (b : bucket_builder) (k : Nat) : Nat :=
  if b.use_64bit then (b.attr_of k).saved_val64 else (b.attr_of k).saved_val32

/-- The stores of `pack` for a slot width `w`, a tag function and a saved-value
function. -/
def slot_writes (w : Nat) (tag sv : Nat → Nat) : List Nat → Nat → Nat → List (Nat × List Nat)
  | [], _, _ => []
  | k :: order, hc, vc =>
    (hc, le_bytes 2 (tag k)) :: (vc, le_bytes w (sv k)) :: slot_writes w tag sv order (hc + 2) (vc + w)

/-- The bucket builders the loop of `build` hands to `add_bucket`, in order, and
the builder it ends with: the same loop as `build_loop`, which records the
builder where `build_loop` emits it. -/
def build_loop_buckets : Nat → List record → bucket_builder →
    List bucket_builder × bucket_builder
  | 0, _, bucket_b => ([], bucket_b)
  | _ + 1, [], bucket_b => ([], bucket_b)
  | n + 1, m :: stream, bucket_b =>
    let p := bucket_b.push m
    if p.1 = 0 then build_loop_buckets n stream p.2
    else
      let r := build_loop_buckets n stream (p.2.clear.push m).2
      (p.2 :: r.1, r.2)

/-- The bucket builders `build` hands to `add_bucket`, in order: bucket `i` of
the database is packed from element `i`. -/
def build_buckets (use_64bit : Bool) (record_num : Nat) (stream : List record) :
    List bucket_builder :=
  let l := build_loop_buckets record_num stream (bucket_builder.new use_64bit)
  if l.2.get_used_bytes ≠ 0 then l.1 ++ [l.2] else l.1

/-- The builder after the buckets `bs` have been emitted one after the other. -/
def emit_all (oob : Nat) (db : db_builder) (bs : List bucket_builder) : db_builder :=
  bs.foldl (fun d b => (d.emit oob b).1) db

/-- The attributes of a key with the tag `hash` whose records carry the values
`vals`, in the order of the records. -/
def attr_spec (use_64bit : Bool) (hash : Nat) (vals : List Nat) : attr :=
  if use_64bit then
    { count := vals.length, hash := hash, saved_val64 := vals.getD 0 0, saved_val32 := 0,
      values64 := vals, values32 := [] }
  else
    { count := vals.length, hash := hash, saved_val64 := 0,
      saved_val32 := (vals.map (fun v => v % 2 ^ 32)).getD 0 0,
      values64 := [], values32 := vals.map (fun v => v % 2 ^ 32) }

/-- The values of the records of `l` with key `k`, in order. -/
def values_of (l : List record) (k : Nat) : List Nat :=
  (l.filter (fun m => m.key = k)).map (fun m => m.value)

/-- The invariant of the loop of `build` for sorted records: `pre` are the
records consumed so far and `L` the buckets emitted so far followed by the
current one.  The keys of the buckets, taken in order, increase strictly; they
are the keys of `pre`; the attributes of each key carry all the values of the
key in `pre`; and `smallest_key` is the least key of each bucket. -/
structure good (u : Bool) (pre : List record) (L : List bucket_builder) : Prop where
  sorted : (L.flatMap bucket_builder.keys_of).Pairwise (· < ·)
  cover : ∀ m ∈ pre, m.key ∈ L.flatMap bucket_builder.keys_of
  sound : ∀ k ∈ L.flatMap bucket_builder.keys_of, ∃ m ∈ pre, m.key = k
  attrs : ∀ b ∈ L, ∀ it ∈ b.keys,
    it.2 = attr_spec u (hash_15bit_key it.1 b.smallest_key) (values_of pre it.1)
  each : ∀ b ∈ L, b.inv ∧ b.use_64bit = u ∧ (∀ k ∈ b.keys_of, b.smallest_key ≤ k) ∧
    (b.keys ≠ [] → b.smallest_key ∈ b.keys_of)

/-- The builder with the attributes of `k` set to `a`. -/
def bucket_builder.set_attr (b : bucket_builder) (k : Nat) (a : attr) : bucket_builder :=
  { b with keys := map_set b.keys k a }

/-- The builder with `smallest_key` set to `sk`. -/
def bucket_builder.rebase (b : bucket_builder) (sk : Nat) : bucket_builder :=
  { b with smallest_key := sk }

/-- The 32 tag words of the page at address `bucket`. -/
def page_tags (mem : Memory) (bucket : Nat) : List Nat :=
  (List.range 32).map (fun j => load_u16 mem (bucket + 2 * j))

/-- The mask of `lookup_batch` for a list of tag words: the bits `0b11` for
each word that equals `hash` once its bit 0 is masked off. -/
def matchmask (hash : Nat) : List Nat → Nat
  | [] => 0
  | x :: rest => (if hash = x &&& 0xFFFE then 3 else 0) + 4 * matchmask hash rest

/-- A 64-bit builder as it is before `populate_appendix`: it satisfies the
invariant, and the attributes of each key `k` are those of its tag and of the
non-empty list `vals k` of 64-bit values. -/
structure filled (b : bucket_builder) (vals : Nat → List Nat) : Prop where
  inv : b.inv
  mode : b.use_64bit = true
  attrs : ∀ it ∈ b.keys,
    it.2 = attr_spec true (hash_15bit_key it.1 b.smallest_key) (vals it.1)
  nonempty : ∀ it ∈ b.keys, vals it.1 ≠ []
  typed : ∀ it ∈ b.keys, ∀ v ∈ vals it.1, v < 2 ^ 64

/-- The handle `add_element64` returns for a list of `count` values stored at
offset `off`. -/
def handle64 (off count : Nat) : Nat :=
  ((off <<< 32) % 2 ^ 64) ||| (count % 2 ^ 32)

/-- The 40 singleton records with the keys 100 .. 139. -/
def records_100_139 : List record :=
  (List.range 40).map (fun i => ⟨100 + i, i⟩)

/-- The builder after the records of `l` have been pushed one after the other,
if every push succeeded. -/
def push_all (b : bucket_builder) : List record → Option bucket_builder
  | [] => some b
  | m :: l => if (b.push m).1 = 0 then push_all (b.push m).2 l else none

/-- The memory of a reader of `example_bucket`: the packed page at address 4096
and, right behind it, the appendix that `populate_appendix` filled. -/
def example_memory : Memory :=
  block_at 4096 ((example_bucket.populate_appendix 0 ⟨[]⟩).1.pack ++
    (example_bucket.populate_appendix 0 ⟨[]⟩).2.data)

/-- An appendix that already holds 2^32 bytes, all of them zero. -/
def full_appendix : appendix :=
  ⟨List.replicate (2 ^ 32) 0⟩

/-- A 64-bit builder after the records (1, 5) and (1, 6). -/
def pair_bucket : bucket_builder :=
  (((bucket_builder.new true).push ⟨1, 5⟩).2.push ⟨1, 6⟩).2

/-- The memory of a reader of `pair_bucket` populated into `full_appendix`:
the packed page at address 4096 and the appendix right behind it. -/
def pair_memory : Memory :=
  block_at 4096 ((pair_bucket.populate_appendix 0 full_appendix).1.pack ++
    (pair_bucket.populate_appendix 0 full_appendix).2.data)

/-- An oracle for examples: for each key the index of the last range not above
the key, found by counting the ranges not above it (index 0 when there is
none), and the range at that index. -/
def search_oracle : lnmu_oracle :=
  ⟨fun ranges _ _ keys =>
    (keys.map (fun k => ranges.getD ((ranges.filter (fun x => x ≤ k)).length - 1) 0),
     keys.map (fun k => (((ranges.filter (fun x => x ≤ k)).length - 1 : Nat) : Int)))⟩

/-- The reader loaded at address 4096 from the database built from the records
(10, 7), (10, 3), (10, 5) and (11, 99), written with an empty model. -/
def example_reader : db_reader :=
  (db_reader.new.read 4096
    (((db_builder.new true).build 0 4 [⟨10, 7⟩, ⟨10, 3⟩, ⟨10, 5⟩, ⟨11, 99⟩]).write
      (fun _ => (0, 0)) [] mem_binstream.new).2).2.1

/-- A stream of 2^29 records with the key 1 and the value 0, followed by the
records (2, 5) and (2, 6). -/
def big_stream : List record :=
  List.replicate (2 ^ 29) ⟨1, 0⟩ ++ [⟨2, 5⟩, ⟨2, 6⟩]

/-- The appendix after a sequence of calls: each call is `add_element64`
(`true`) or `add_element32` (`false`) on a vector of values. -/
def appendix.add_elements (oob : Nat) (a : appendix) (calls : List (Bool × List Nat)) :
    appendix :=
  calls.foldl (fun acc c =>
    if c.1 then (acc.add_element64 c.2).2.1 else (appendix.add_element32 oob acc c.2).2.1) a

/-- A 32-bit builder after the records (7, 1), (7, 2), (7, 3), (7, 4) and (7, 5). -/
def five_bucket : bucket_builder :=
  ((((((bucket_builder.new false).push ⟨7, 1⟩).2.push ⟨7, 2⟩).2.push ⟨7, 3⟩).2.push
    ⟨7, 4⟩).2.push ⟨7, 5⟩).2

/-- The reader loaded at address 4096 from the 32-bit database built from the
records (7, 1), (7, 2), (7, 3), (7, 4) and (7, 5), written with an empty model;
the 4 bytes behind the value vector are taken as zero. -/
def five_reader : db_reader :=
  (db_reader.new.read 4096
    (((db_builder.new false).build 0 5 [⟨7, 1⟩, ⟨7, 2⟩, ⟨7, 3⟩, ⟨7, 4⟩, ⟨7, 5⟩]).write
      (fun _ => (0, 0)) [] mem_binstream.new).2).2.1

/-- A 32-bit builder after the records (10, 111) and (11, 222), populated. -/
def two_bucket : bucket_builder :=
  ((((bucket_builder.new false).push ⟨10, 111⟩).2.push ⟨11, 222⟩).2.populate_appendix 0 ⟨[]⟩).1

/-- The `n` consecutive `uint32_t` values at `addr`. -/
def load_u32s (mem : Memory) (addr n : Nat) : List Nat :=
  (List.range n).map (fun j => load_u32 mem (addr + 4 * j))

/-- The builder as `libranger_build` has it before `write`: constructed for the
mode, `set_compression` called, and `build` run on the records. -/
def built_db (use_64bit : Bool) (compression : Int) (oob record_num : Nat)
    (stream : List record) : db_builder :=
  ((db_builder.new use_64bit).set_compression compression).build oob record_num stream


/-! ## Further definitions: binstream.h vectors, bucket-reader.cpp contents -/

/-- The operator `<<` on a `std::vector<T>` whose elements take `w` bytes: the
size as a `size_t`, then the elements in index order. -/
def binstream_write_vec (w : Nat) (s : mem_binstream) (vec : List Nat) : mem_binstream :=
  vec.foldl (fun acc e => acc.write (le_bytes w e)) (s.write (le_bytes 8 vec.length))

/-- The loop of the operator `>>` on a `std::vector<T>` whose elements take `w`
bytes, with `n` elements left to read. -/
def binstream_read_elems (w : Nat) : Nat → mem_binstream → List Nat × mem_binstream
  | 0, s => ([], s)
  | n + 1, s =>
    let e := s.read w
    let r := binstream_read_elems w n e.2
    (of_le_bytes e.1 :: r.1, r.2)

/-- The operator `>>` on a `std::vector<T>` whose elements take `w` bytes. -/
def binstream_read_vec (w : Nat) (s : mem_binstream) : List Nat × mem_binstream :=
  let n := s.read 8
  binstream_read_elems w (of_le_bytes n.1) n.2

/-- Equality of the 32-bit lanes: a 32-bit lane is two consecutive 16-bit
lanes, and both are set to `0xffff` where the 32-bit lanes are equal. -/
def SIMD_CMPEQ_EPI32 : List Nat → List Nat → List Nat
  | x0 :: x1 :: b, y0 :: y1 :: c =>
    (if x0 = y0 ∧ x1 = y1 then [0xFFFF, 0xFFFF] else [0, 0]) ++ SIMD_CMPEQ_EPI32 b c
  | _, _ => []

/-- The lanes of `~a & b`. -/
def SIMD_ANDNOT_SI (a b : List Nat) : List Nat :=
  List.zipWith (fun x y => (0xFFFF - x % 2 ^ 16) &&& y) a b

def bsr_aux : Nat → Nat → Nat
  | 0, _ => 0
  | n + 1, x => if x < 2 then 0 else 1 + bsr_aux n (x / 2)

/-- The index of the most significant set bit of a 32-bit value (`__bsrd`). -/
def BSR32 (x : Nat) : Nat :=
  bsr_aux 32 x

/-- The body of the loop of `get_bucket_key_num` behind the load: from the
register `bucket` and the value of `result` to the new value of `result`. -/
def key_num_step (bucket : List Nat) (result : Nat) : Nat :=
  let zeros := SIMD_SET1_EPI16 0
  let ones := SIMD_SET1_EPI16 0xFFFF
  let bucket1 := SIMD_CMPEQ_EPI32 bucket zeros
  let bucket2 := SIMD_ANDNOT_SI bucket1 ones
  let tmp := SIMD_MOVE_MASK_EPI8 bucket2 % 2 ^ 32
  if tmp ≠ 0 then (result + (BSR32 tmp >>> 1)) % 2 ^ 32 else result

/-- The loop of `get_bucket_key_num`; `iters` is the number of iterations left
and `ofst` the current offset. -/
def get_bucket_key_num_loop (mem : Memory) (ptr : Nat) : Nat → Nat → Nat → Nat
  | 0, _, result => result
  | iters + 1, ofst, result =>
    get_bucket_key_num_loop mem ptr iters (ofst + ITERATION_BYTES)
      (key_num_step (SIMD_LOADU_SI mem (ptr + ofst)) result)

def get_bucket_key_num (mem : Memory) (ptr : Nat) : Nat :=
  get_bucket_key_num_loop mem ptr (CACHE_LINE_SIZE / ITERATION_BYTES) 0 0

/-- The `struct element` of bucket-reader.h; `vals` is the pointer the branch
taken sets (`vals64` or `vals32`). -/
structure element where
  vals : Nat
  count : Nat
  hash : Nat
deriving DecidableEq, Repr

/-- The loop of `get_bucket_contents64` from index `i` on, with `n` iterations
left; the cursors are `ptr + 2 * i` and `ptr + CACHE_LINE_SIZE + 8 * i`. -/
def contents64_loop (mem : Memory) (apdx ptr : Nat) : Nat → Nat → List element
  | 0, _ => []
  | n + 1, i =>
    let hash_cursor := ptr + 2 * i
    let val_cursor := ptr + CACHE_LINE_SIZE + 8 * i
    let elem : element :=
      if load_u16 mem hash_cursor &&& 1 ≠ 0 then
        { hash := hash_15bit_read (load_u16 mem hash_cursor),
          count := load_u64 mem val_cursor % 2 ^ 32,
          vals := apdx + (load_u64 mem val_cursor >>> 32) }
      else
        { hash := hash_15bit_read (load_u16 mem hash_cursor), count := 1, vals := val_cursor }
    elem :: contents64_loop mem apdx ptr n (i + 1)

def bucket_reader.get_bucket_contents64 (mem : Memory) (r : bucket_reader) (ptr : Nat) :
    List element :=
  contents64_loop mem r.apdx ptr (get_bucket_key_num mem ptr) 0

/-- The loop of `get_bucket_contents32` from index `i` on, with `n` iterations
left; the cursors are `ptr + 2 * i` and `ptr + CACHE_LINE_SIZE + 4 * i`. -/
def contents32_loop (mem : Memory) (apdx ptr : Nat) : Nat → Nat → List element
  | 0, _ => []
  | n + 1, i =>
    let hash_cursor := ptr + 2 * i
    let val_cursor := ptr + CACHE_LINE_SIZE + 4 * i
    let elem : element :=
      if load_u16 mem hash_cursor &&& 1 ≠ 0 then
        { hash := hash_15bit_read (load_u16 mem hash_cursor),
          count := load_u32 mem (apdx + load_u32 mem val_cursor),
          vals := apdx + load_u32 mem val_cursor + 4 }
      else
        { hash := hash_15bit_read (load_u16 mem hash_cursor), count := 1, vals := val_cursor }
    elem :: contents32_loop mem apdx ptr n (i + 1)

def bucket_reader.get_bucket_contents32 (mem : Memory) (r : bucket_reader) (ptr : Nat) :
    List element :=
  contents32_loop mem r.apdx ptr (get_bucket_key_num mem ptr) 0

/-- The argument `base_range` of the C++ function is not used. -/
def bucket_reader.get_occurence_list (mem : Memory) (r : bucket_reader) (bkt_idx : Nat) :
    List Nat :=
  let ptr := get_bucket_ptr r.data bkt_idx r.use_64bit
  let bcv := if r.use_64bit then r.get_bucket_contents64 mem ptr
    else r.get_bucket_contents32 mem ptr
  bcv.map (fun it => it.count)

/-- The counts of all buckets in bucket order, sorted; `std::sort` is taken as
insertion sort, which gives the same ascending result. -/
def db_reader.get_occurence_list (r : db_reader) : List Nat :=
  (((List.range r.bucket_num).map (fun i => r.preader.get_occurence_list r.memory i)).flatten
    ).insertionSort (fun a b => a ≤ b)

def db_reader.is_in_appendix (r : db_reader) (value : Nat) : Bool :=
  decide (value > r.apdx)

def db_reader.get_distinct_key_num (r : db_reader) : Nat :=
  r.distinct_key_num

/-- The number of leading bits, counted from bit 63 downwards over `n` bits,
in which the 64-bit representations of `a` and `b` agree. -/
def common_leading_bits_aux (a b : Nat) : Nat → Nat
  | 0 => 0
  | n + 1 =>
    if (a >>> n) % 2 = (b >>> n) % 2 then 1 + common_leading_bits_aux a b n else 0

/-- The words of the specification of `common_prefix_bits`: the number of
leading (most significant) bits that the 64-bit representations of `a` and `b`
have in common. -/
def common_leading_bits (a b : Nat) : Nat :=
  common_leading_bits_aux a b 64

/-- The stream of the database built from the records (10, 7), (10, 3),
(10, 5) and (11, 99), written with an empty model, in which the byte at offset
97, the first of the four bytes "blb\0" behind the statistics, is 120. -/
def bad_blob_stream : mem_binstream :=
  ⟨((built_db true 1 0 4 [⟨10, 7⟩, ⟨10, 3⟩, ⟨10, 5⟩, ⟨11, 99⟩]).write
    (fun _ => (0, 0)) [] mem_binstream.new).2.data.set 97 120, 0⟩

/-- A 64-bit builder after the records (7, 1) and (8, 2). -/
def seven_eight_bucket : bucket_builder :=
  (((bucket_builder.new true).push ⟨7, 1⟩).2.push ⟨8, 2⟩).2

/-- A 64-bit builder after the records (10, 222) and (11, 111), populated. -/
def descending_bucket : bucket_builder :=
  ((((bucket_builder.new true).push ⟨10, 222⟩).2.push ⟨11, 111⟩).2.populate_appendix 0 ⟨[]⟩).1

/-- A 64-bit builder after the records (10, 100), (10, 30) and (11, 5),
populated into an empty appendix. -/
def multi_first_bucket : bucket_builder :=
  (((((bucket_builder.new true).push ⟨10, 100⟩).2.push ⟨10, 30⟩).2.push
    ⟨11, 5⟩).2.populate_appendix 0 ⟨[]⟩).1

/-- The builder after two calls of `build`, one after the other, on the
records (10, 7), (10, 3), (10, 5) and (11, 99). -/
def rebuilt_db : db_builder :=
  (built_db true 1 0 4 [⟨10, 7⟩, ⟨10, 3⟩, ⟨10, 5⟩, ⟨11, 99⟩]).build 0 4
    [⟨10, 7⟩, ⟨10, 3⟩, ⟨10, 5⟩, ⟨11, 99⟩]

/-- A page whose tag word 0 is the tag of the key 10 relative to the base 10
with bit 0 set, and whose other bytes, the value slots among them, are zero. -/
def zero_count_page : List Nat :=
  le_bytes 2 (hash_15bit_key 10 10 ||| 1) ++ List.replicate 318 0

/-- The builder of the example after its first `write`: built once from the
records (10, 7), (10, 3), (10, 5) and (11, 99) and written with an empty
model. -/
def written_db : db_builder :=
  ((built_db true 1 0 4 [⟨10, 7⟩, ⟨10, 3⟩, ⟨10, 5⟩, ⟨11, 99⟩]).write (fun _ => (0, 0)) []
    mem_binstream.new).1

/-- A model blob of 320 bytes: 296 zero bytes followed by the 64-bit numbers 1,
77 and 0. -/
def padded_blob : List Nat :=
  List.replicate 296 0 ++ (le_bytes 8 1 ++ (le_bytes 8 77 ++ le_bytes 8 0))

/-! # Theorems -/

/-! ## Bytes and bit masks -/

theorem le_bytes_length (n x : Nat) : (le_bytes n x).length = n := by
  induction n generalizing x with
  | zero => rfl
  | succ n ih => simp [le_bytes, ih]

theorem of_le_bytes_le_bytes (n x : Nat) : of_le_bytes (le_bytes n x) = x % 256 ^ n := by
  induction n generalizing x with
  | zero => simp [le_bytes, of_le_bytes, Nat.mod_one]
  | succ n ih =>
    simp only [le_bytes, of_le_bytes, ih]
    rw [pow_succ, Nat.mul_comm (256 ^ n) 256, Nat.mod_mul]

theorem and_fffe (y : Nat) (hy : y < 2 ^ 16) : y &&& 0xFFFE = y - y % 2 := by
  have h1 : y = Nat.bit (Nat.bodd y) (Nat.div2 y) := (Nat.bit_decomp y).symm
  have h2 : (0xFFFE : Nat) = Nat.bit false 0x7FFF := by decide
  have h3 : y &&& 0xFFFE = Nat.bit (Nat.bodd y && false) (Nat.div2 y &&& 0x7FFF) := by
    rw [h2]
    conv_lhs => rw [h1]
    exact Nat.land_bit _ _ _ _
  rw [h3]
  have h4 : (0x7FFF : Nat) = 2 ^ 15 - 1 := by decide
  rw [h4, Nat.and_pow_two_sub_one_eq_mod, Nat.div2_val]
  simp only [Bool.and_false, Nat.bit_false]
  omega

theorem or_one_even (h : Nat) (he : h % 2 = 0) : h ||| 1 = h + 1 := by
  have := Nat.mul_add_lt_is_or (i := 1) (b := 1) (by decide) (h / 2)
  have h2 : 2 ^ 1 * (h / 2) = h := by omega
  rw [h2] at this
  exact this.symm

theorem hash_15bit_key_lt (key base : Nat) : hash_15bit_key key base < 2 ^ 16 := by
  unfold hash_15bit_key
  simp only []
  have hy : hash_uint64 (sub64 key base) % 2 ^ 16 < 2 ^ 16 := Nat.mod_lt _ (by decide)
  rw [and_fffe _ hy]
  split <;> omega

theorem hash_15bit_key_even (key base : Nat) : hash_15bit_key key base % 2 = 0 := by
  unfold hash_15bit_key
  simp only []
  have hy : hash_uint64 (sub64 key base) % 2 ^ 16 < 2 ^ 16 := Nat.mod_lt _ (by decide)
  rw [and_fffe _ hy]
  split <;> omega

theorem hash_15bit_key_ne_zero (key base : Nat) : hash_15bit_key key base ≠ 0 := by
  unfold hash_15bit_key
  simp only []
  split
  · assumption
  · decide

/-- A tag read back with bit 0 masked off is the tag, for an even 16-bit tag
with or without the appendix flag. -/
theorem hash_15bit_read_even (h : Nat) (hl : h < 2 ^ 16) (he : h % 2 = 0) :
    hash_15bit_read h = h ∧ hash_15bit_read (h ||| 1) = h := by
  unfold hash_15bit_read
  rw [or_one_even h he, and_fffe h hl, and_fffe (h + 1) (by omega)]
  omega

/-- C10: for every key and base, the tag `hash_15bit_key key base` is non-zero
and has bit 0 clear; it is the low 16 bits of `hash_uint64 (key - base)`, the
difference taken modulo 2^64, with bit 0 cleared, except that a zero result is
replaced by 2. -/
theorem C10_hash_15bit_key (key base : Nat) :
    hash_15bit_key key base ≠ 0 ∧
    hash_15bit_key key base &&& 1 = 0 ∧
    (sub64 key base < 2 ^ 64 ∧ (sub64 key base + base) % 2 ^ 64 = key % 2 ^ 64) ∧
    hash_15bit_key key base =
      (if hash_uint64 (sub64 key base) % 2 ^ 16 - hash_uint64 (sub64 key base) % 2 = 0 then 2
       else hash_uint64 (sub64 key base) % 2 ^ 16 - hash_uint64 (sub64 key base) % 2) := by
  refine ⟨hash_15bit_key_ne_zero key base, ?_, ⟨?_, ?_⟩, ?_⟩
  · rw [Nat.and_one_is_mod]; exact hash_15bit_key_even key base
  · unfold sub64; exact Nat.mod_lt _ (by decide)
  · unfold sub64; omega
  · unfold hash_15bit_key
    simp only []
    have hy : hash_uint64 (sub64 key base) % 2 ^ 16 < 2 ^ 16 := Nat.mod_lt _ (by decide)
    rw [and_fffe _ hy]
    have : hash_uint64 (sub64 key base) % 2 ^ 16 % 2 = hash_uint64 (sub64 key base) % 2 := by
      omega
    rw [this]
    split <;> simp_all


/-! ## The map of a bucket builder -/

theorem map_find_none_iff (l : List (Nat × attr)) (k : Nat) :
    map_find l k = none ↔ k ∉ l.map (fun it => it.1) := by
  induction l with
  | nil => simp [map_find]
  | cons x l ih =>
    obtain ⟨k1, a1⟩ := x
    simp only [map_find, List.map_cons, List.mem_cons]
    by_cases h : k1 = k
    · simp [h]
    · simp only [h, if_false, ih]
      constructor
      · intro h1 h2
        rcases h2 with h2 | h2
        · exact h h2.symm
        · exact h1 h2
      · intro h1 h2
        exact h1 (Or.inr h2)

theorem map_find_some_mem (l : List (Nat × attr)) (k : Nat) (a : attr)
    (h : map_find l k = some a) : (k, a) ∈ l := by
  induction l with
  | nil => simp [map_find] at h
  | cons x l ih =>
    obtain ⟨k1, a1⟩ := x
    simp only [map_find] at h
    by_cases h1 : k1 = k
    · simp only [h1, if_true, Option.some.injEq] at h
      simp [h1, h]
    · simp only [h1, if_false] at h
      exact List.mem_cons_of_mem _ (ih h)

theorem map_find_of_mem (l : List (Nat × attr)) (k : Nat) (a : attr)
    (hs : (l.map (fun it => it.1)).Pairwise (· < ·)) (h : (k, a) ∈ l) :
    map_find l k = some a := by
  induction l with
  | nil => simp at h
  | cons x l ih =>
    obtain ⟨k1, a1⟩ := x
    simp only [List.map_cons, List.pairwise_cons] at hs
    simp only [map_find]
    rcases List.mem_cons.mp h with h1 | h1
    · simp only [Prod.mk.injEq] at h1
      simp [h1.1, h1.2]
    · have hk : k ∈ l.map (fun it => it.1) := List.mem_map.mpr ⟨(k, a), h1, rfl⟩
      have := hs.1 k hk
      have hne : k1 ≠ k := by omega
      simp only [hne, if_false]
      exact ih hs.2 h1

theorem mem_map_set (l : List (Nat × attr)) (k : Nat) (a : attr)
    (hs : (l.map (fun it => it.1)).Pairwise (· < ·)) (x : Nat × attr) :
    x ∈ map_set l k a ↔ x = (k, a) ∨ (x ∈ l ∧ x.1 ≠ k) := by
  induction l with
  | nil => simp [map_set]
  | cons y l ih =>
    obtain ⟨k1, a1⟩ := y
    simp only [List.map_cons, List.pairwise_cons] at hs
    simp only [map_set]
    by_cases h1 : k < k1
    · simp only [h1, if_true, List.mem_cons]
      constructor
      · rintro (h | h | h)
        · exact Or.inl h
        · refine Or.inr ⟨Or.inl h, ?_⟩
          rw [h]; simp; omega
        · refine Or.inr ⟨Or.inr h, ?_⟩
          have := hs.1 x.1 (List.mem_map.mpr ⟨x, h, rfl⟩)
          omega
      · rintro (h | ⟨h | h, _⟩)
        · exact Or.inl h
        · exact Or.inr (Or.inl h)
        · exact Or.inr (Or.inr h)
    · simp only [h1, if_false]
      by_cases h2 : k = k1
      · simp only [h2, if_true, List.mem_cons]
        constructor
        · rintro (h | h)
          · exact Or.inl h
          · refine Or.inr ⟨Or.inr h, ?_⟩
            have := hs.1 x.1 (List.mem_map.mpr ⟨x, h, rfl⟩)
            omega
        · rintro (h | ⟨h | h, hne⟩)
          · exact Or.inl h
          · rw [h] at hne; simp at hne
          · exact Or.inr h
      · simp only [h2, if_false, List.mem_cons, ih hs.2]
        constructor
        · rintro (h | h | h)
          · refine Or.inr ⟨Or.inl h, ?_⟩
            rw [h]; simp; omega
          · exact Or.inl h
          · exact Or.inr ⟨Or.inr h.1, h.2⟩
        · rintro (h | ⟨h | h, hne⟩)
          · exact Or.inr (Or.inl h)
          · exact Or.inl h
          · exact Or.inr (Or.inr ⟨h, hne⟩)

theorem map_set_sorted (l : List (Nat × attr)) (k : Nat) (a : attr)
    (hs : (l.map (fun it => it.1)).Pairwise (· < ·)) :
    ((map_set l k a).map (fun it => it.1)).Pairwise (· < ·) := by
  induction l with
  | nil => simp [map_set]
  | cons y l ih =>
    obtain ⟨k1, a1⟩ := y
    have hs0 := hs
    simp only [List.map_cons, List.pairwise_cons] at hs
    simp only [map_set]
    by_cases h1 : k < k1
    · simp only [h1, if_true, List.map_cons, List.pairwise_cons]
      refine ⟨?_, hs⟩
      intro z hz
      rcases List.mem_cons.mp hz with h | h
      · omega
      · have := hs.1 z h; omega
    · simp only [h1, if_false]
      by_cases h2 : k = k1
      · simp only [h2, if_true, List.map_cons, List.pairwise_cons]
        exact hs
      · simp only [h2, if_false, List.map_cons, List.pairwise_cons]
        refine ⟨?_, ih hs.2⟩
        intro z hz
        obtain ⟨x, hx, rfl⟩ := List.mem_map.mp hz
        rcases (mem_map_set l k a hs.2 x).mp hx with h | h
        · rw [h]; simp; omega
        · exact hs.1 x.1 (List.mem_map.mpr ⟨x, h.1, rfl⟩)

theorem map_find_map_set (l : List (Nat × attr)) (k : Nat) (a : attr) (k2 : Nat) :
    map_find (map_set l k a) k2 = if k2 = k then some a else map_find l k2 := by
  induction l with
  | nil =>
    simp only [map_set, map_find]
    by_cases h : k = k2
    · simp [h]
    · have : ¬ k2 = k := fun e => h e.symm
      simp [h, this]
  | cons y l ih =>
    obtain ⟨k1, a1⟩ := y
    simp only [map_set]
    by_cases h1 : k < k1
    · simp only [h1, if_true, map_find]
      by_cases h : k = k2
      · simp [h]
      · have : ¬ k2 = k := fun e => h e.symm
        simp [h, this]
    · simp only [h1, if_false]
      by_cases h2 : k = k1
      · simp only [h2, if_true, map_find]
        by_cases h : k1 = k2
        · simp [h]
        · have : ¬ k2 = k1 := fun e => h e.symm
          simp [h, this]
      · simp only [h2, if_false, map_find, ih]
        by_cases h : k1 = k2
        · have : ¬ k2 = k := by omega
          simp [h, this]
        · simp [h]

theorem map_set_length_new (l : List (Nat × attr)) (k : Nat) (a : attr)
    (hk : map_find l k = none) : (map_set l k a).length = l.length + 1 := by
  induction l with
  | nil => simp [map_set]
  | cons y l ih =>
    obtain ⟨k1, a1⟩ := y
    simp only [map_find] at hk
    by_cases h : k1 = k
    · simp [h] at hk
    · simp only [h, if_false] at hk
      simp only [map_set]
      by_cases h1 : k < k1
      · simp [h1]
      · have h2 : ¬ k = k1 := fun e => h e.symm
        simp [h1, h2, ih hk]

theorem map_set_length_old (l : List (Nat × attr)) (k : Nat) (a b : attr)
    (hs : (l.map (fun it => it.1)).Pairwise (· < ·))
    (hk : map_find l k = some b) : (map_set l k a).length = l.length := by
  induction l with
  | nil => simp [map_find] at hk
  | cons y l ih =>
    obtain ⟨k1, a1⟩ := y
    simp only [List.map_cons, List.pairwise_cons] at hs
    simp only [map_find] at hk
    simp only [map_set]
    by_cases h : k1 = k
    · have : ¬ k < k1 := by omega
      simp [this, h]
    · simp only [h, if_false] at hk
      have hmem := map_find_some_mem l k b hk
      have := hs.1 k (List.mem_map.mpr ⟨(k, b), hmem, rfl⟩)
      have h1 : ¬ k < k1 := by omega
      have h2 : ¬ k = k1 := fun e => h e.symm
      simp [h1, h2, ih hs.2 hk]

theorem map_erase_cons (x : Nat × attr) (l : List (Nat × attr)) (k : Nat) :
    map_erase (x :: l) k = if x.1 = k then map_erase l k else x :: map_erase l k := by
  unfold map_erase
  by_cases h : x.1 = k <;> simp [List.filter_cons, h]

theorem map_erase_absent (l : List (Nat × attr)) (k : Nat)
    (hk : map_find l k = none) : map_erase l k = l := by
  induction l with
  | nil => rfl
  | cons y l ih =>
    obtain ⟨k1, a1⟩ := y
    simp only [map_find] at hk
    by_cases h : k1 = k
    · simp [h] at hk
    · simp only [h, if_false] at hk
      rw [map_erase_cons]
      simp [h, ih hk]

theorem map_erase_map_set (l : List (Nat × attr)) (k : Nat) (a : attr)
    (hk : map_find l k = none) : map_erase (map_set l k a) k = l := by
  induction l with
  | nil => simp [map_set, map_erase]
  | cons y l ih =>
    obtain ⟨k1, a1⟩ := y
    simp only [map_find] at hk
    by_cases h : k1 = k
    · simp [h] at hk
    · simp only [h, if_false] at hk
      simp only [map_set]
      by_cases h1 : k < k1
      · simp only [h1, if_true]
        rw [map_erase_cons, map_erase_cons]
        simp [h, map_erase_absent l k hk]
      · have h2 : ¬ k = k1 := fun e => h e.symm
        simp only [h1, h2, if_false]
        rw [map_erase_cons]
        simp [h, ih hk]

theorem map_set_map_set (l : List (Nat × attr)) (k : Nat) (a b : attr) :
    map_set (map_set l k a) k b = map_set l k b := by
  induction l with
  | nil => simp [map_set]
  | cons y l ih =>
    obtain ⟨k1, a1⟩ := y
    simp only [map_set]
    by_cases h1 : k < k1
    · simp [h1, map_set]
    · by_cases h2 : k = k1
      · simp [h2, map_set]
      · simp [h1, h2, map_set, ih]


/-! ## One `push` -/

theorem mem_map_set_new (l : List (Nat × attr)) (k : Nat) (a : attr)
    (hk : map_find l k = none) (x : Nat × attr) :
    x ∈ map_set l k a ↔ x = (k, a) ∨ x ∈ l := by
  induction l with
  | nil => simp [map_set]
  | cons y l ih =>
    obtain ⟨k1, a1⟩ := y
    simp only [map_find] at hk
    by_cases h : k1 = k
    · simp [h] at hk
    · simp only [h, if_false] at hk
      simp only [map_set]
      by_cases h1 : k < k1
      · simp [h1]
      · have h2 : ¬ k = k1 := fun e => h e.symm
        simp only [h1, h2, if_false, List.mem_cons, ih hk]
        tauto

theorem any_collision_iff (l : List (Nat × attr)) (k : Nat) (a : attr) (hash : Nat)
    (hk : map_find l k = none) :
    (map_set l k a).any (fun it => decide (it.1 ≠ k ∧ hash_15bit_read it.2.hash = hash)) = true ↔
      ∃ it ∈ l, hash_15bit_read it.2.hash = hash := by
  rw [List.any_eq_true]
  have habs := (map_find_none_iff l k).mp hk
  constructor
  · rintro ⟨x, hx, hd⟩
    simp only [decide_eq_true_eq] at hd
    rcases (mem_map_set_new l k a hk x).mp hx with h | h
    · rw [h] at hd; exact absurd rfl hd.1
    · exact ⟨x, h, hd.2⟩
  · rintro ⟨x, hx, hd⟩
    refine ⟨x, (mem_map_set_new l k a hk x).mpr (Or.inr hx), ?_⟩
    simp only [decide_eq_true_eq]
    refine ⟨?_, hd⟩
    intro e
    exact habs (List.mem_map.mpr ⟨x, hx, e⟩)

theorem try_insert_existing (b : bucket_builder) (m : record) (a : attr)
    (hf : map_find b.keys m.key = some a) (hc : a.count ≠ 0) :
    b.try_insert m =
      (0, { b with keys := map_set b.keys m.key (attr.pushed b.use_64bit a m.value) }) := by
  unfold bucket_builder.try_insert bucket_builder.get_key_attr
  simp only [hf]
  unfold bucket_builder.populate_record
  simp only [hf, hc, false_and, if_false]
  unfold attr.pushed
  cases hu : b.use_64bit <;> simp

theorem try_insert_new_full (b : bucket_builder) (m : record)
    (hf : map_find b.keys m.key = none) (hl : b.keys.length ≥ MAX_KEYS_IN_PAGE) :
    b.try_insert m = (1, b) := by
  unfold bucket_builder.try_insert bucket_builder.get_key_attr
  simp only [hf, hl, if_true]

theorem try_insert_new_collides (b : bucket_builder) (m : record)
    (hf : map_find b.keys m.key = none) (hl : b.keys.length < MAX_KEYS_IN_PAGE)
    (hc : b.has_tag (hash_15bit_key m.key b.smallest_key)) :
    b.try_insert m = (1, b) := by
  have hl2 : ¬ b.keys.length ≥ MAX_KEYS_IN_PAGE := by omega
  unfold bucket_builder.try_insert bucket_builder.get_key_attr
  simp only [hf, hl2, if_false]
  unfold bucket_builder.populate_record
  simp only [map_find_map_set, if_true]
  have hany := (any_collision_iff b.keys m.key attr.new
    (hash_15bit_key m.key b.smallest_key) hf).mpr hc
  simp only [attr.new, true_and]
  simp only [attr.new] at hany
  rw [if_pos hany]
  simp only [Nat.one_ne_zero, if_false]
  rw [map_erase_map_set _ _ _ hf]

theorem try_insert_new_ok (b : bucket_builder) (m : record)
    (hf : map_find b.keys m.key = none) (hl : b.keys.length < MAX_KEYS_IN_PAGE)
    (hc : ¬ b.has_tag (hash_15bit_key m.key b.smallest_key)) :
    b.try_insert m = (0, { b with
      keys := map_set b.keys m.key
        (attr.pushed b.use_64bit (attr.fresh (hash_15bit_key m.key b.smallest_key)) m.value) }) := by
  have hl2 : ¬ b.keys.length ≥ MAX_KEYS_IN_PAGE := by omega
  unfold bucket_builder.try_insert bucket_builder.get_key_attr
  simp only [hf, hl2, if_false]
  unfold bucket_builder.populate_record
  simp only [map_find_map_set, if_true]
  have hany : ¬ ((map_set b.keys m.key attr.new).any (fun it =>
      decide (it.1 ≠ m.key ∧ hash_15bit_read it.2.hash =
        hash_15bit_key m.key b.smallest_key)) = true) :=
    fun h => hc ((any_collision_iff b.keys m.key attr.new _ hf).mp h)
  simp only [attr.new, true_and]
  simp only [attr.new] at hany
  rw [if_neg hany]
  simp only [if_true, map_set_map_set]
  unfold attr.pushed attr.fresh
  cases hu : b.use_64bit <;> simp

theorem push_eq_try_insert (b : bucket_builder) (m : record) :
    b.push m = ({ b with smallest_key := b.base_for m } : bucket_builder).try_insert m := by
  unfold bucket_builder.push bucket_builder.base_for
  by_cases h : b.keys.length = 0 <;> simp [h]

theorem keys_nonempty_of_find (b : bucket_builder) (k : Nat) (a : attr)
    (hf : map_find b.keys k = some a) : b.keys.length ≠ 0 := by
  intro h
  have : b.keys = [] := List.length_eq_zero.mp h
  rw [this] at hf
  simp [map_find] at hf

theorem push_existing (b : bucket_builder) (m : record) (a : attr)
    (hf : map_find b.keys m.key = some a) (hc : a.count ≠ 0) :
    b.push m = (0, b.set_attr m.key (attr.pushed b.use_64bit a m.value)) := by
  have hne := keys_nonempty_of_find b m.key a hf
  unfold bucket_builder.set_attr
  rw [push_eq_try_insert]
  have hb : ({ b with smallest_key := b.base_for m } : bucket_builder) = b := by
    unfold bucket_builder.base_for; simp [hne]
  rw [hb]
  exact try_insert_existing b m a hf hc

theorem push_new_full (b : bucket_builder) (m : record)
    (hf : map_find b.keys m.key = none) (hl : b.keys.length ≥ MAX_KEYS_IN_PAGE) :
    b.push m = (1, b) := by
  have hne : b.keys.length ≠ 0 := by unfold MAX_KEYS_IN_PAGE at hl; omega
  rw [push_eq_try_insert]
  have hb : ({ b with smallest_key := b.base_for m } : bucket_builder) = b := by
    unfold bucket_builder.base_for; simp [hne]
  rw [hb]
  exact try_insert_new_full b m hf hl

theorem push_new_collides (b : bucket_builder) (m : record)
    (hf : map_find b.keys m.key = none)
    (hc : b.has_tag (hash_15bit_key m.key b.smallest_key)) :
    b.push m = (1, b) := by
  have hne : b.keys.length ≠ 0 := by
    intro h
    have : b.keys = [] := List.length_eq_zero.mp h
    obtain ⟨it, hit, _⟩ := hc
    rw [this] at hit
    simp at hit
  by_cases hl : b.keys.length ≥ MAX_KEYS_IN_PAGE
  · exact push_new_full b m hf hl
  · rw [push_eq_try_insert]
    have hb : ({ b with smallest_key := b.base_for m } : bucket_builder) = b := by
      unfold bucket_builder.base_for; simp [hne]
    rw [hb]
    exact try_insert_new_collides b m hf (by omega) hc

theorem push_new_ok (b : bucket_builder) (m : record)
    (hf : map_find b.keys m.key = none) (hl : b.keys.length < MAX_KEYS_IN_PAGE)
    (hc : ¬ b.has_tag (hash_15bit_key m.key (b.base_for m))) :
    b.push m = (0, (b.rebase (b.base_for m)).set_attr m.key
      (attr.pushed b.use_64bit (attr.fresh (hash_15bit_key m.key (b.base_for m))) m.value)) := by
  unfold bucket_builder.set_attr bucket_builder.rebase
  rw [push_eq_try_insert]
  exact try_insert_new_ok _ m hf hl hc

/-- A push into a builder without keys succeeds. -/
theorem push_empty (b : bucket_builder) (m : record) (h0 : b.keys = []) :
    b.push m = (0, (b.rebase m.key).set_attr m.key
      (attr.pushed b.use_64bit (attr.fresh (hash_15bit_key m.key m.key)) m.value)) := by
  have hf : map_find b.keys m.key = none := by rw [h0]; rfl
  have hl : b.keys.length < MAX_KEYS_IN_PAGE := by rw [h0]; decide
  have hc : ¬ b.has_tag (hash_15bit_key m.key (b.base_for m)) := by
    rintro ⟨it, hit, _⟩
    rw [h0] at hit
    simp at hit
  rw [push_new_ok b m hf hl hc]
  unfold bucket_builder.base_for
  simp [h0]


/-! ## The invariant of the bucket builder -/

theorem hash_15bit_read_or_one (h : Nat) : hash_15bit_read (h ||| 1) = hash_15bit_read h := by
  unfold hash_15bit_read
  apply Nat.eq_of_testBit_eq
  intro i
  simp only [Nat.testBit_and, Nat.testBit_or]
  cases i with
  | zero =>
    have : Nat.testBit 0xFFFE 0 = false := by decide
    simp [this]
  | succ i =>
    have : Nat.testBit 1 (i + 1) = false := by
      rw [Nat.testBit_succ]; simp
    simp [this]

theorem map_set_perm_new (l : List (Nat × attr)) (k : Nat) (a : attr)
    (hk : map_find l k = none) : (map_set l k a).Perm ((k, a) :: l) := by
  induction l with
  | nil => simp [map_set]
  | cons y l ih =>
    obtain ⟨k1, a1⟩ := y
    simp only [map_find] at hk
    by_cases h : k1 = k
    · simp [h] at hk
    · simp only [h, if_false] at hk
      simp only [map_set]
      by_cases h1 : k < k1
      · simp [h1]
      · have h2 : ¬ k = k1 := fun e => h e.symm
        simp only [h1, h2, if_false]
        exact ((ih hk).cons (k1, a1)).trans (List.Perm.swap _ _ _)

theorem map_set_map_old {β : Type} (g : Nat × attr → β) (l : List (Nat × attr)) (k : Nat)
    (a a0 : attr) (hs : (l.map (fun it => it.1)).Pairwise (· < ·))
    (hk : map_find l k = some a0) (hg : g (k, a) = g (k, a0)) :
    (map_set l k a).map g = l.map g := by
  induction l with
  | nil => simp [map_find] at hk
  | cons y l ih =>
    obtain ⟨k1, a1⟩ := y
    simp only [List.map_cons, List.pairwise_cons] at hs
    simp only [map_find] at hk
    simp only [map_set]
    by_cases h : k1 = k
    · simp only [h, if_true, Option.some.injEq] at hk
      have : ¬ k < k1 := by omega
      simp [this, h, hg, hk]
    · simp only [h, if_false] at hk
      have hmem := map_find_some_mem l k a0 hk
      have := hs.1 k (List.mem_map.mpr ⟨(k, a0), hmem, rfl⟩)
      have h1 : ¬ k < k1 := by omega
      have h2 : ¬ k = k1 := fun e => h e.symm
      simp [h1, h2, ih hs.2 hk]

theorem populate_entries_map (use_64bit : Bool) (oob : Nat) (l : List (Nat × attr)) (a : appendix) :
    (populate_entries use_64bit oob l a).1.map
        (fun it => (it.1, it.2.count, hash_15bit_read it.2.hash)) =
      l.map (fun it => (it.1, it.2.count, hash_15bit_read it.2.hash)) := by
  induction l generalizing a with
  | nil => rfl
  | cons y l ih =>
    obtain ⟨k, it⟩ := y
    simp only [populate_entries]
    by_cases h : it.count ≤ 1
    · simp [h, ih]
    · cases use_64bit <;> simp [h, ih, hash_15bit_read_or_one]

theorem inv_new (use_64bit : Bool) : (bucket_builder.new use_64bit).inv := by
  constructor <;> simp [bucket_builder.new, bucket_builder.keys_of, MAX_KEYS_IN_PAGE]

theorem inv_clear (b : bucket_builder) : b.clear.inv := by
  constructor <;> simp [bucket_builder.clear, bucket_builder.keys_of, MAX_KEYS_IN_PAGE]

theorem attr_pushed_hash (u : Bool) (a : attr) (v : Nat) : (attr.pushed u a v).hash = a.hash := by
  unfold attr.pushed; cases u <;> rfl

theorem attr_pushed_count (u : Bool) (a : attr) (v : Nat) :
    (attr.pushed u a v).count = a.count + 1 := by
  unfold attr.pushed; cases u <;> rfl

theorem inv_push (b : bucket_builder) (m : record) (hb : b.inv) : (b.push m).2.inv := by
  cases hf : map_find b.keys m.key with
  | some a =>
    have hmem := map_find_some_mem _ _ _ hf
    have hc := hb.counts _ hmem
    rw [push_existing b m a hf hc]
    unfold bucket_builder.set_attr
    have hs : (b.keys.map (fun it => it.1)).Pairwise (· < ·) := hb.sorted
    constructor
    · exact map_set_sorted _ _ _ hs
    · show (map_set b.keys m.key _).length ≤ _
      rw [map_set_length_old _ _ _ a hs hf]; exact hb.bound
    · intro it hit
      rcases (mem_map_set _ _ _ hs it).mp hit with h | h
      · rw [h]; simp [attr_pushed_count]
      · exact hb.counts it h.1
    · intro it hit
      rcases (mem_map_set _ _ _ hs it).mp hit with h | h
      · rw [h]; simp only [attr_pushed_hash]; exact hb.tags _ hmem
      · exact hb.tags it h.1
    · show ((map_set b.keys m.key _).map _).Nodup
      rw [map_set_map_old (fun it => hash_15bit_read it.2.hash) _ _ _ a hs hf
        (by simp [attr_pushed_hash])]
      exact hb.distinct
  | none =>
    by_cases hl : b.keys.length ≥ MAX_KEYS_IN_PAGE
    · rw [push_new_full b m hf hl]; exact hb
    · by_cases hc : b.has_tag (hash_15bit_key m.key (b.base_for m))
      · have hne : b.keys.length ≠ 0 := by
          intro h
          have : b.keys = [] := List.length_eq_zero.mp h
          obtain ⟨it, hit, _⟩ := hc
          rw [this] at hit
          simp at hit
        have hbase : b.base_for m = b.smallest_key := by
          unfold bucket_builder.base_for; simp [hne]
        rw [hbase] at hc
        rw [push_new_collides b m hf hc]; exact hb
      · rw [push_new_ok b m hf (by omega) hc]
        unfold bucket_builder.set_attr bucket_builder.rebase
        have hs : (b.keys.map (fun it => it.1)).Pairwise (· < ·) := hb.sorted
        have hH := hash_15bit_read_even _ (hash_15bit_key_lt m.key (b.base_for m))
          (hash_15bit_key_even m.key (b.base_for m))
        constructor
        · exact map_set_sorted _ _ _ hs
        · show (map_set b.keys m.key _).length ≤ _
          rw [map_set_length_new _ _ _ hf]; omega
        · intro it hit
          rcases (mem_map_set_new _ _ _ hf it).mp hit with h | h
          · rw [h]; simp [attr_pushed_count]
          · exact hb.counts it h
        · intro it hit
          rcases (mem_map_set_new _ _ _ hf it).mp hit with h | h
          · rw [h]; simp only [attr_pushed_hash, attr.fresh]; exact hH.1
          · have hne : b.keys.length ≠ 0 := by
              intro h0
              have : b.keys = [] := List.length_eq_zero.mp h0
              rw [this] at h
              simp at h
            have hbase : b.base_for m = b.smallest_key := by
              unfold bucket_builder.base_for; simp [hne]
            show hash_15bit_read it.2.hash = hash_15bit_key it.1 (b.base_for m)
            rw [hbase]; exact hb.tags it h
        · show ((map_set b.keys m.key _).map _).Nodup
          have hp := (map_set_perm_new b.keys m.key
            (attr.pushed b.use_64bit (attr.fresh (hash_15bit_key m.key (b.base_for m))) m.value)
            hf).map (fun it => hash_15bit_read it.2.hash)
          rw [hp.nodup_iff]
          simp only [List.map_cons, List.nodup_cons, attr_pushed_hash, attr.fresh, hH.1]
          refine ⟨?_, hb.distinct⟩
          intro hin
          obtain ⟨it, hit, he⟩ := List.mem_map.mp hin
          exact hc ⟨it, hit, he⟩

theorem inv_populate (b : bucket_builder) (oob : Nat) (a : appendix) (hb : b.inv) :
    (b.populate_appendix oob a).1.inv := by
  have hm := populate_entries_map b.use_64bit oob b.keys a
  have h1 : (populate_entries b.use_64bit oob b.keys a).1.map (fun it => it.1) =
      b.keys.map (fun it => it.1) := by
    have := congrArg (List.map (fun t : Nat × Nat × Nat => t.1)) hm
    simpa [List.map_map, Function.comp] using this
  have h3 : (populate_entries b.use_64bit oob b.keys a).1.map
      (fun it => hash_15bit_read it.2.hash) = b.keys.map (fun it => hash_15bit_read it.2.hash) := by
    have := congrArg (List.map (fun t : Nat × Nat × Nat => t.2.2)) hm
    simpa [List.map_map, Function.comp] using this
  have hmem : ∀ it ∈ (populate_entries b.use_64bit oob b.keys a).1,
      ∃ it0 ∈ b.keys, it0.1 = it.1 ∧ it0.2.count = it.2.count ∧
        hash_15bit_read it0.2.hash = hash_15bit_read it.2.hash := by
    intro it hit
    have : (it.1, it.2.count, hash_15bit_read it.2.hash) ∈
        b.keys.map (fun it => (it.1, it.2.count, hash_15bit_read it.2.hash)) := by
      rw [← hm]; exact List.mem_map.mpr ⟨it, hit, rfl⟩
    obtain ⟨it0, h0, he⟩ := List.mem_map.mp this
    simp only [Prod.mk.injEq] at he
    exact ⟨it0, h0, he.1, he.2.1, he.2.2⟩
  constructor
  · show ((populate_entries b.use_64bit oob b.keys a).1.map _).Pairwise _
    rw [h1]; exact hb.sorted
  · show (populate_entries b.use_64bit oob b.keys a).1.length ≤ _
    have := congrArg List.length h1
    simp only [List.length_map] at this
    rw [this]; exact hb.bound
  · intro it hit
    obtain ⟨it0, h0, _, hc, _⟩ := hmem it hit
    have := hb.counts it0 h0
    show it.2.count ≠ 0
    omega
  · intro it hit
    obtain ⟨it0, h0, hk, _, hh⟩ := hmem it hit
    show hash_15bit_read it.2.hash = hash_15bit_key it.1 b.smallest_key
    rw [← hh, ← hk]; exact hb.tags it0 h0
  · show ((populate_entries b.use_64bit oob b.keys a).1.map _).Nodup
    rw [h3]; exact hb.distinct

theorem reachable_inv (b : bucket_builder) (h : b.reachable) : b.inv := by
  induction h with
  | new u => exact inv_new u
  | push b m _ ih => exact inv_push b m ih
  | clear b _ _ => exact inv_clear b
  | populate b oob a _ ih => exact inv_populate b oob a ih

theorem example_bucket_reachable : example_bucket.reachable :=
  .push _ _ (.push _ _ (.push _ _ (.push _ _ (.new true))))


/-! ## C9: when `push` fails -/

theorem qsort_merge_perm {α : Type} (cmp : α → α → Int) (fuel : Nat) (l r : List α) :
    (qsort_merge cmp fuel l r).Perm (l ++ r) := by
  induction fuel generalizing l r with
  | zero => simp [qsort_merge]
  | succ fuel ih =>
    match l, r with
    | [], r => simp [qsort_merge]
    | a :: l, [] => simp [qsort_merge]
    | a :: l, b :: r =>
      simp only [qsort_merge]
      split
      · exact (ih l (b :: r)).cons a
      · refine ((ih (a :: l) r).cons b).trans ?_
        exact (@List.perm_middle _ b (a :: l) r).symm

theorem msort_with_tmp_perm {α : Type} (cmp : α → α → Int) (fuel : Nat) (l : List α) :
    (msort_with_tmp cmp fuel l).Perm l := by
  induction fuel generalizing l with
  | zero => exact List.Perm.refl _
  | succ fuel ih =>
    simp only [msort_with_tmp]
    split
    · exact List.Perm.refl _
    · refine (qsort_merge_perm cmp _ _ _).trans ?_
      refine ((ih _).append (ih _)).trans ?_
      rw [List.take_append_drop]

theorem qsort_perm {α : Type} (cmp : α → α → Int) (l : List α) : (qsort cmp l).Perm l :=
  msort_with_tmp_perm cmp l.length l

theorem qsort_merge_sorted (fuel : Nat) (l r : List Nat) (hf : l.length + r.length ≤ fuel)
    (hl : l.Pairwise (· ≤ ·)) (hr : r.Pairwise (· ≤ ·)) :
    (qsort_merge compare_uint64 fuel l r).Pairwise (· ≤ ·) := by
  induction fuel generalizing l r with
  | zero =>
    have h1 : l = [] := List.length_eq_zero.mp (by omega)
    have h2 : r = [] := List.length_eq_zero.mp (by omega)
    simp [qsort_merge, h1, h2]
  | succ fuel ih =>
    match l, r, hf, hl, hr with
    | [], r, _, _, hr => simpa [qsort_merge] using hr
    | a :: l, [], _, hl, _ => simpa [qsort_merge] using hl
    | a :: l, b :: r, hf, hl, hr =>
      simp only [List.length_cons] at hf
      simp only [qsort_merge]
      by_cases hc : compare_uint64 a b ≤ 0
      · simp only [hc, if_true, List.pairwise_cons]
        have hab : a < b := by
          unfold compare_uint64 at hc
          by_cases h : a ≥ b
          · simp [h] at hc
          · omega
        refine ⟨?_, ih l (b :: r) (by simp only [List.length_cons]; omega)
          (List.pairwise_cons.mp hl).2 hr⟩
        intro x hx
        have := (qsort_merge_perm compare_uint64 fuel l (b :: r)).mem_iff.mp hx
        rcases List.mem_append.mp this with h | h
        · exact (List.pairwise_cons.mp hl).1 x h
        · rcases List.mem_cons.mp h with h | h
          · omega
          · have := (List.pairwise_cons.mp hr).1 x h; omega
      · simp only [hc, if_false, List.pairwise_cons]
        have hab : b ≤ a := by
          unfold compare_uint64 at hc
          by_cases h : a ≥ b
          · exact h
          · simp [h] at hc
        refine ⟨?_, ih (a :: l) r (by simp only [List.length_cons]; omega) hl
          (List.pairwise_cons.mp hr).2⟩
        intro x hx
        have := (qsort_merge_perm compare_uint64 fuel (a :: l) r).mem_iff.mp hx
        rcases List.mem_append.mp this with h | h
        · rcases List.mem_cons.mp h with h | h
          · omega
          · have := (List.pairwise_cons.mp hl).1 x h; omega
        · exact (List.pairwise_cons.mp hr).1 x h

theorem msort_with_tmp_sorted (fuel : Nat) (l : List Nat) (hf : l.length ≤ fuel) :
    (msort_with_tmp compare_uint64 fuel l).Pairwise (· ≤ ·) := by
  induction fuel generalizing l with
  | zero =>
    have : l = [] := List.length_eq_zero.mp (by omega)
    simp [msort_with_tmp, this]
  | succ fuel ih =>
    simp only [msort_with_tmp]
    split
    · rename_i h
      match l, h with
      | [], _ => simp
      | [x], _ => simp
      | _ :: _ :: _, h => simp at h
    · rename_i h
      apply qsort_merge_sorted
      · rw [(msort_with_tmp_perm compare_uint64 fuel _).length_eq,
          (msort_with_tmp_perm compare_uint64 fuel _).length_eq]
        simp only [List.length_take, List.length_drop]; omega
      · apply ih; simp only [List.length_take]; omega
      · apply ih; simp only [List.length_drop]; omega

theorem qsort_sorted (l : List Nat) : (qsort compare_uint64 l).Pairwise (· ≤ ·) :=
  msort_with_tmp_sorted l.length l (Nat.le_refl _)


/-! ## The page `pack` writes -/

theorem store_bytes_length (page : List Nat) (off : Nat) (bs : List Nat) :
    (store_bytes page off bs).length = page.length := by
  induction bs generalizing page off with
  | nil => rfl
  | cons x bs ih => simp [store_bytes, ih]

theorem store_bytes_zeros (T R bs : List Nat) (k : Nat) (hk : bs.length ≤ k) :
    store_bytes (T ++ List.replicate k 0 ++ R) T.length bs =
      T ++ bs ++ List.replicate (k - bs.length) 0 ++ R := by
  induction bs generalizing T k with
  | nil => simp [store_bytes]
  | cons x bs ih =>
    simp only [store_bytes]
    obtain ⟨k', rfl⟩ : ∃ k', k = k' + 1 := ⟨k - 1, by simp at hk; omega⟩
    have h1 : (T ++ List.replicate (k' + 1) 0 ++ R).set T.length x =
        (T ++ [x]) ++ List.replicate k' 0 ++ R := by
      rw [List.replicate_succ, List.append_assoc, List.set_append_right _ _ (Nat.le_refl _)]
      simp
    rw [h1]
    have h2 := ih (T ++ [x]) k' (by simp at hk; omega)
    simp only [List.length_append, List.length_singleton] at h2
    rw [h2]
    simp [Nat.add_sub_add_right]

theorem pack_writes_eq (b : bucket_builder) (order : List Nat) (hc vc : Nat) :
    pack_writes b order hc vc =
      slot_writes (slot_width b.use_64bit) (fun k => (b.attr_of k).hash) b.saved_of order hc vc := by
  induction order generalizing hc vc with
  | nil => rfl
  | cons k order ih =>
    simp only [pack_writes, slot_writes]
    cases hu : b.use_64bit <;>
      simp [hu, slot_width, bucket_builder.saved_of, bucket_builder.attr_of, ih]

theorem flatMap_le_bytes_length (w : Nat) (f : Nat → Nat) (l : List Nat) :
    (l.flatMap (fun k => le_bytes w (f k))).length = w * l.length := by
  induction l with
  | nil => simp
  | cons x l ih => simp [List.flatMap_cons, le_bytes_length, ih]; ring

theorem slot_writes_fold (w : Nat) (tag sv : Nat → Nat) (order : List Nat) (T V : List Nat)
    (hT : T.length + 2 * order.length ≤ 64) (hV : V.length + w * order.length ≤ 32 * w) :
    (slot_writes w tag sv order T.length (64 + V.length)).foldl
        (fun page x => store_bytes page x.1 x.2)
        (T ++ List.replicate (64 - T.length) 0 ++ (V ++ List.replicate (32 * w - V.length) 0)) =
      (T ++ order.flatMap (fun k => le_bytes 2 (tag k))) ++
        List.replicate (64 - T.length - 2 * order.length) 0 ++
        ((V ++ order.flatMap (fun k => le_bytes w (sv k))) ++
          List.replicate (32 * w - V.length - w * order.length) 0) := by
  induction order generalizing T V with
  | nil => simp [slot_writes]
  | cons k order ih =>
    simp only [slot_writes, List.foldl_cons, List.length_cons] at hT hV ⊢
    have e1 : store_bytes
        (T ++ List.replicate (64 - T.length) 0 ++ (V ++ List.replicate (32 * w - V.length) 0))
        T.length (le_bytes 2 (tag k)) =
        (T ++ le_bytes 2 (tag k)) ++ List.replicate (64 - (T ++ le_bytes 2 (tag k)).length) 0 ++
          (V ++ List.replicate (32 * w - V.length) 0) := by
      rw [store_bytes_zeros T _ _ _ (by rw [le_bytes_length]; omega)]
      simp only [List.length_append, le_bytes_length]
      rw [Nat.sub_sub]
    rw [e1]
    have hT2 : (T ++ le_bytes 2 (tag k)).length ≤ 64 := by
      simp only [List.length_append, le_bytes_length]; omega
    have e2 : store_bytes
        ((T ++ le_bytes 2 (tag k)) ++ List.replicate (64 - (T ++ le_bytes 2 (tag k)).length) 0 ++
          (V ++ List.replicate (32 * w - V.length) 0))
        (64 + V.length) (le_bytes w (sv k)) =
        (T ++ le_bytes 2 (tag k)) ++ List.replicate (64 - (T ++ le_bytes 2 (tag k)).length) 0 ++
          ((V ++ le_bytes w (sv k)) ++
            List.replicate (32 * w - (V ++ le_bytes w (sv k)).length) 0) := by
      have hlen : ((T ++ le_bytes 2 (tag k)) ++
          List.replicate (64 - (T ++ le_bytes 2 (tag k)).length) 0 ++ V).length =
          64 + V.length := by
        simp only [List.length_append, List.length_replicate] at hT2 ⊢
        omega
      have hmul0 : w * (order.length + 1) = w * order.length + w := by ring
      have hw : (le_bytes w (sv k)).length ≤ 32 * w - V.length := by
        rw [le_bytes_length]; omega
      have := store_bytes_zeros ((T ++ le_bytes 2 (tag k)) ++
          List.replicate (64 - (T ++ le_bytes 2 (tag k)).length) 0 ++ V) []
          (le_bytes w (sv k)) (32 * w - V.length) hw
      rw [hlen] at this
      simp only [List.append_nil, List.append_assoc] at this ⊢
      rw [this]
      simp only [List.length_append, le_bytes_length]
      rw [Nat.sub_sub]
    rw [e2]
    have e3 : (T ++ le_bytes 2 (tag k)).length = T.length + 2 := by
      simp [le_bytes_length]
    have e4 : (V ++ le_bytes w (sv k)).length = V.length + w := by
      simp [le_bytes_length]
    have hmul : w * (order.length + 1) = w * order.length + w := by ring
    have := ih (T ++ le_bytes 2 (tag k)) (V ++ le_bytes w (sv k)) (by rw [e3]; omega)
      (by rw [e4]; omega)
    rw [e3, e4] at this
    rw [e3, e4]
    have e5 : 64 + (V.length + w) = 64 + V.length + w := by omega
    rw [e5] at this
    rw [this]
    simp only [List.flatMap_cons, List.append_assoc]
    have e6 : 64 - (T.length + 2) - 2 * order.length = 64 - T.length - 2 * (order.length + 1) := by
      omega
    have e7 : 32 * w - (V.length + w) - w * order.length =
        32 * w - V.length - w * (order.length + 1) := by
      rw [hmul]; omega
    rw [e6, e7]

theorem get_key_order_perm (b : bucket_builder) : b.get_key_order.Perm b.keys_of :=
  qsort_perm _ _

theorem get_key_order_length (b : bucket_builder) : b.get_key_order.length = b.keys.length := by
  have := (get_key_order_perm b).length_eq
  simpa [bucket_builder.keys_of] using this

theorem replicate_flatMap_zero (w m : Nat) :
    (List.replicate m 0).flatMap (fun k => le_bytes w k) = List.replicate (w * m) 0 := by
  have hz : le_bytes w 0 = List.replicate w 0 := by
    induction w with
    | zero => rfl
    | succ w ih => simp [le_bytes, ih, List.replicate_succ]
  induction m with
  | zero => simp
  | succ m ih =>
    rw [List.replicate_succ, List.flatMap_cons, ih, hz, Nat.mul_succ, Nat.add_comm,
      List.replicate_add]

/-- The page in closed form: the 32 tag words, then the 32 value slots, those
of the keys in `get_key_order` first and zeros after them. -/
theorem pack_eq (b : bucket_builder) (hn : b.keys.length ≤ 32) :
    b.pack =
      ((b.get_key_order.map (fun k => (b.attr_of k).hash) ++
          List.replicate (32 - b.keys.length) 0).flatMap (fun t => le_bytes 2 t)) ++
      ((b.get_key_order.map b.saved_of ++
          List.replicate (32 - b.keys.length) 0).flatMap
            (fun v => le_bytes (slot_width b.use_64bit) v)) := by
  unfold bucket_builder.pack
  rw [pack_writes_eq]
  have hsz : bucket_builder.get_size_bytes b.use_64bit = 64 + 32 * slot_width b.use_64bit := by
    unfold bucket_builder.get_size_bytes slot_width; cases b.use_64bit <;> rfl
  have hlen := get_key_order_length b
  have := slot_writes_fold (slot_width b.use_64bit) (fun k => (b.attr_of k).hash) b.saved_of
    b.get_key_order [] [] (by simp; omega)
    (by simp only [List.length_nil, Nat.zero_add]; rw [hlen, Nat.mul_comm];
        exact Nat.mul_le_mul_right _ hn)
  simp only [List.length_nil, List.nil_append, Nat.add_zero, Nat.sub_zero] at this
  rw [hsz, List.replicate_add, CACHE_LINE_SIZE, this, hlen]
  simp only [List.flatMap_append, List.flatMap_map, replicate_flatMap_zero]
  congr 2
  · congr 1; omega
  · congr 1; rw [Nat.mul_sub, Nat.mul_comm 32]


/-! ## `build` and the buckets it emits -/

theorem populate_use_64bit (b : bucket_builder) (oob : Nat) (a : appendix) :
    (b.populate_appendix oob a).1.use_64bit = b.use_64bit := rfl

theorem populate_smallest_key (b : bucket_builder) (oob : Nat) (a : appendix) :
    (b.populate_appendix oob a).1.smallest_key = b.smallest_key := rfl

theorem populate_clear (b : bucket_builder) (oob : Nat) (a : appendix) :
    (b.populate_appendix oob a).1.clear = b.clear := rfl

theorem emit_snd (db : db_builder) (oob : Nat) (b : bucket_builder) :
    (db.emit oob b).2 = (b.populate_appendix oob db.apdx).1 := rfl

theorem build_loop_eq (oob : Nat) (n : Nat) (stream : List record) (db : db_builder)
    (bucket_b : bucket_builder) :
    build_loop oob n stream db bucket_b =
      (emit_all oob db (build_loop_buckets n stream bucket_b).1,
       (build_loop_buckets n stream bucket_b).2) := by
  induction n generalizing stream db bucket_b with
  | zero => simp [build_loop, build_loop_buckets, emit_all]
  | succ n ih =>
    cases stream with
    | nil => simp [build_loop, build_loop_buckets, emit_all]
    | cons m stream =>
      simp only [build_loop, build_loop_buckets]
      by_cases h : (bucket_b.push m).1 = 0
      · simp only [h, if_true]
        exact ih _ _ _
      · simp only [h, if_false]
        rw [ih, emit_snd, populate_clear]
        simp [emit_all]

theorem emit_all_append (oob : Nat) (db : db_builder) (l1 l2 : List bucket_builder) :
    emit_all oob db (l1 ++ l2) = emit_all oob (emit_all oob db l1) l2 := by
  simp [emit_all, List.foldl_append]

theorem build_eq (db : db_builder) (oob : Nat) (record_num : Nat) (stream : List record) :
    db.build oob record_num stream =
      emit_all oob db.clear (build_buckets db.use_64bit record_num stream) := by
  unfold db_builder.build build_buckets
  rw [build_loop_eq]
  simp only []
  split
  · rw [emit_all_append]; simp [emit_all]
  · rfl

theorem emit_all_ranges (oob : Nat) (db : db_builder) (bs : List bucket_builder) :
    (emit_all oob db bs).ranges = db.ranges ++ bs.map (fun b => b.get_smallest_key) := by
  induction bs generalizing db with
  | nil => simp [emit_all]
  | cons b bs ih =>
    have : emit_all oob db (b :: bs) = emit_all oob (db.emit oob b).1 bs := rfl
    rw [this, ih]
    simp [db_builder.emit, db_builder.add_bucket, db_builder.update_stats,
      bucket_builder.get_smallest_key, populate_smallest_key]

theorem emit_all_bucket_num (oob : Nat) (db : db_builder) (bs : List bucket_builder) :
    (emit_all oob db bs).bucket_num = db.bucket_num + bs.length := by
  induction bs generalizing db with
  | nil => simp [emit_all]
  | cons b bs ih =>
    have : emit_all oob db (b :: bs) = emit_all oob (db.emit oob b).1 bs := rfl
    rw [this, ih]
    simp [db_builder.emit, db_builder.add_bucket, db_builder.update_stats]
    omega

theorem emit_all_use_64bit (oob : Nat) (db : db_builder) (bs : List bucket_builder) :
    (emit_all oob db bs).use_64bit = db.use_64bit := by
  induction bs generalizing db with
  | nil => simp [emit_all]
  | cons b bs ih =>
    have : emit_all oob db (b :: bs) = emit_all oob (db.emit oob b).1 bs := rfl
    rw [this, ih]
    simp [db_builder.emit, db_builder.add_bucket, db_builder.update_stats]


/-! ## The loop of `build` on sorted records -/

theorem map_set_append_max (l : List (Nat × attr)) (k : Nat) (a : attr)
    (h : ∀ x ∈ l, x.1 < k) : map_set l k a = l ++ [(k, a)] := by
  induction l with
  | nil => rfl
  | cons y l ih =>
    obtain ⟨k1, a1⟩ := y
    have h1 : k1 < k := h (k1, a1) (List.mem_cons_self _ _)
    have h2 : ¬ k < k1 := by omega
    have h3 : ¬ k = k1 := by omega
    simp only [map_set, h2, h3, if_false, List.cons_append]
    rw [ih (fun x hx => h x (List.mem_cons_of_mem _ hx))]

theorem values_of_append (pre : List record) (m : record) (k : Nat) :
    values_of (pre ++ [m]) k = values_of pre k ++ (if m.key = k then [m.value] else []) := by
  unfold values_of
  rw [List.filter_append, List.map_append]
  by_cases h : m.key = k <;> simp [List.filter_cons, h]

theorem values_of_ne_nil (pre : List record) (k : Nat) (m : record) (hm : m ∈ pre)
    (hk : m.key = k) : values_of pre k ≠ [] := by
  unfold values_of
  intro h
  have h1 : m ∈ pre.filter (fun m => m.key = k) := by
    rw [List.mem_filter]; exact ⟨hm, by simp [hk]⟩
  have h2 := List.map_eq_nil_iff.mp h
  rw [h2] at h1
  simp at h1

theorem values_of_absent (pre : List record) (k : Nat) (h : ∀ m ∈ pre, m.key ≠ k) :
    values_of pre k = [] := by
  unfold values_of
  rw [List.map_eq_nil_iff, List.filter_eq_nil_iff]
  intro m hm
  simp [h m hm]

theorem attr_pushed_spec (u : Bool) (h : Nat) (vals : List Nat) (v : Nat) (hv : vals ≠ []) :
    attr.pushed u (attr_spec u h vals) v = attr_spec u h (vals ++ [v]) := by
  obtain ⟨x, vals', rfl⟩ : ∃ x vals', vals = x :: vals' := by
    cases vals with
    | nil => exact absurd rfl hv
    | cons x vals' => exact ⟨x, vals', rfl⟩
  unfold attr.pushed attr_spec
  cases u <;> simp

theorem attr_pushed_fresh (u : Bool) (h : Nat) (v : Nat) :
    attr.pushed u (attr.fresh h) v = attr_spec u h [v] := by
  unfold attr.pushed attr_spec attr.fresh
  cases u <;> simp

/-- The three outcomes of a `push`. -/
theorem push_cases (b : bucket_builder) (m : record) (hb : b.inv) :
    (∃ a, map_find b.keys m.key = some a ∧
      b.push m = (0, b.set_attr m.key (attr.pushed b.use_64bit a m.value))) ∨
    (map_find b.keys m.key = none ∧ b.keys ≠ [] ∧ b.push m = (1, b)) ∨
    (map_find b.keys m.key = none ∧ b.keys.length < MAX_KEYS_IN_PAGE ∧
      b.push m = (0, (b.rebase (b.base_for m)).set_attr m.key
        (attr.pushed b.use_64bit (attr.fresh (hash_15bit_key m.key (b.base_for m))) m.value))) := by
  cases hf : map_find b.keys m.key with
  | some a =>
    left
    exact ⟨a, rfl, push_existing b m a hf (hb.counts _ (map_find_some_mem _ _ _ hf))⟩
  | none =>
    right
    by_cases hl : b.keys.length ≥ MAX_KEYS_IN_PAGE
    · left
      refine ⟨rfl, ?_, push_new_full b m hf hl⟩
      intro h0; rw [h0] at hl; simp [MAX_KEYS_IN_PAGE] at hl
    · by_cases hc : b.has_tag (hash_15bit_key m.key (b.base_for m))
      · left
        have hne : b.keys ≠ [] := by
          intro h0
          obtain ⟨it, hit, _⟩ := hc
          rw [h0] at hit
          simp at hit
        have hbase : b.base_for m = b.smallest_key := by
          unfold bucket_builder.base_for
          have : b.keys.length ≠ 0 := fun h => hne (List.length_eq_zero.mp h)
          simp [this]
        rw [hbase] at hc
        exact ⟨rfl, hne, push_new_collides b m hf hc⟩
      · right
        exact ⟨rfl, by omega, push_new_ok b m hf (by omega) hc⟩

theorem flatMap_snoc (E : List bucket_builder) (b : bucket_builder) :
    (E ++ [b]).flatMap bucket_builder.keys_of =
      E.flatMap bucket_builder.keys_of ++ b.keys_of := by
  simp [List.flatMap_append]

theorem keys_of_map_set_old (b : bucket_builder) (k : Nat) (a a0 : attr) (hb : b.inv)
    (hf : map_find b.keys k = some a0) :
    (b.set_attr k a).keys_of = b.keys_of :=
  map_set_map_old (fun it => it.1) b.keys k a a0 hb.sorted hf rfl

theorem mem_keys_of_find (b : bucket_builder) (k : Nat) (a : attr)
    (hf : map_find b.keys k = some a) : k ∈ b.keys_of :=
  List.mem_map.mpr ⟨(k, a), map_find_some_mem _ _ _ hf, rfl⟩

theorem good_push_existing (u : Bool) (pre : List record) (E : List bucket_builder)
    (bb : bucket_builder) (m : record) (a : attr)
    (hg : good u pre (E ++ [bb])) (hf : map_find bb.keys m.key = some a) :
    good u (pre ++ [m]) (E ++ [bb.set_attr m.key (attr.pushed bb.use_64bit a m.value)]) := by
  have hbb := hg.each bb (by simp)
  have hinv := hbb.1
  have hmk : m.key ∈ bb.keys_of := mem_keys_of_find bb m.key a hf
  have hkeys : (bb.set_attr m.key (attr.pushed bb.use_64bit a m.value)).keys_of =
      bb.keys_of := keys_of_map_set_old bb m.key _ a hinv hf
  have hflat : (E ++ [bb.set_attr m.key (attr.pushed bb.use_64bit a m.value)]).flatMap
      bucket_builder.keys_of = (E ++ [bb]).flatMap bucket_builder.keys_of := by
    rw [flatMap_snoc, flatMap_snoc, hkeys]
  have hsorted := hg.sorted
  rw [flatMap_snoc] at hsorted
  have hamem := map_find_some_mem _ _ _ hf
  have ha := hg.attrs bb (by simp) (m.key, a) hamem
  simp only at ha
  have hvne : values_of pre m.key ≠ [] := by
    obtain ⟨m', hm', hk⟩ := hg.sound m.key (by rw [flatMap_snoc]; exact List.mem_append_right _ hmk)
    exact values_of_ne_nil pre m.key m' hm' hk
  constructor
  · rw [hflat]; exact hg.sorted
  · intro m' hm'
    rw [hflat]
    rcases List.mem_append.mp hm' with h | h
    · exact hg.cover m' h
    · simp only [List.mem_singleton] at h
      rw [h, flatMap_snoc]; exact List.mem_append_right _ hmk
  · intro k hk
    rw [hflat] at hk
    obtain ⟨m', hm', he⟩ := hg.sound k hk
    exact ⟨m', List.mem_append_left _ hm', he⟩
  · intro b hb it hit
    rcases List.mem_append.mp hb with h | h
    · have hit1 : it.1 ∈ E.flatMap bucket_builder.keys_of :=
        List.mem_flatMap.mpr ⟨b, h, List.mem_map.mpr ⟨it, hit, rfl⟩⟩
      have hlt := (List.pairwise_append.mp hsorted).2.2 it.1 hit1 m.key hmk
      rw [values_of_append]
      have : ¬ m.key = it.1 := by omega
      simp only [this, if_false, List.append_nil]
      exact hg.attrs b (List.mem_append_left _ h) it hit
    · simp only [List.mem_singleton] at h
      subst h
      have hsk : (bb.set_attr m.key (attr.pushed bb.use_64bit a m.value)).smallest_key =
          bb.smallest_key := rfl
      rw [hsk]
      rcases (mem_map_set _ _ _ hinv.sorted it).mp hit with h1 | h1
      · rw [h1, values_of_append]
        simp only [if_true]
        rw [ha, hbb.2.1, attr_pushed_spec _ _ _ _ hvne]
      · rw [values_of_append]
        have : ¬ m.key = it.1 := fun e => h1.2 e.symm
        simp only [this, if_false, List.append_nil]
        exact hg.attrs bb (by simp) it h1.1
  · intro b hb
    rcases List.mem_append.mp hb with h | h
    · exact hg.each b (List.mem_append_left _ h)
    · simp only [List.mem_singleton] at h
      subst h
      have hp := push_existing bb m a hf (hinv.counts _ hamem)
      have hi2 := inv_push bb m hinv
      rw [hp] at hi2
      refine ⟨hi2, hbb.2.1, ?_, ?_⟩
      · intro k hk
        rw [hkeys] at hk
        exact hbb.2.2.1 k hk
      · intro _
        rw [hkeys]
        exact hbb.2.2.2 (by intro h0; rw [h0] at hamem; simp at hamem)


theorem new_key_gt (u : Bool) (pre : List record) (E : List bucket_builder)
    (bb : bucket_builder) (m : record) (hg : good u pre (E ++ [bb]))
    (hf : map_find bb.keys m.key = none) (hle : ∀ m' ∈ pre, m'.key ≤ m.key)
    (hcur : pre ≠ [] → bb.keys ≠ []) :
    ∀ k ∈ (E ++ [bb]).flatMap bucket_builder.keys_of, k < m.key := by
  intro k hk
  obtain ⟨m', hm', he⟩ := hg.sound k hk
  have hkle : k ≤ m.key := by rw [← he]; exact hle m' hm'
  have hne : k ≠ m.key := by
    intro e
    rw [flatMap_snoc] at hk
    rcases List.mem_append.mp hk with h | h
    · have hpre : pre ≠ [] := by intro h0; rw [h0] at hm'; simp at hm'
      have hbne := hcur hpre
      obtain ⟨x, l, hx⟩ : ∃ x l, bb.keys = x :: l := by
        cases hb : bb.keys with
        | nil => exact absurd hb hbne
        | cons x l => exact ⟨x, l, rfl⟩
      have hx1 : x.1 ∈ bb.keys_of := by
        unfold bucket_builder.keys_of; rw [hx]; simp
      have hs := hg.sorted
      rw [flatMap_snoc] at hs
      have hlt := (List.pairwise_append.mp hs).2.2 k h x.1 hx1
      obtain ⟨m2, hm2, he2⟩ := hg.sound x.1 (by
        rw [flatMap_snoc]; exact List.mem_append_right _ hx1)
      have := hle m2 hm2
      omega
    · have := (map_find_none_iff bb.keys m.key).mp hf
      rw [e] at h
      exact this h
  omega

theorem good_snoc_clear (u : Bool) (pre : List record) (L : List bucket_builder)
    (bb : bucket_builder) (hu : bb.use_64bit = u) (hg : good u pre L) :
    good u pre (L ++ [bb.clear]) := by
  have hflat : (L ++ [bb.clear]).flatMap bucket_builder.keys_of =
      L.flatMap bucket_builder.keys_of := by
    rw [flatMap_snoc]; simp [bucket_builder.clear, bucket_builder.keys_of]
  constructor
  · rw [hflat]; exact hg.sorted
  · rw [hflat]; exact hg.cover
  · rw [hflat]; exact hg.sound
  · intro b hb it hit
    rcases List.mem_append.mp hb with h | h
    · exact hg.attrs b h it hit
    · simp only [List.mem_singleton] at h
      rw [h] at hit
      simp [bucket_builder.clear] at hit
  · intro b hb
    rcases List.mem_append.mp hb with h | h
    · exact hg.each b h
    · simp only [List.mem_singleton] at h
      rw [h]
      refine ⟨inv_clear bb, hu, ?_, ?_⟩
      · intro k hk; simp [bucket_builder.clear, bucket_builder.keys_of] at hk
      · intro h0; simp [bucket_builder.clear] at h0

theorem good_push_new (u : Bool) (pre : List record) (E : List bucket_builder)
    (cur : bucket_builder) (m : record) (hg : good u pre (E ++ [cur]))
    (hlt : ∀ k ∈ (E ++ [cur]).flatMap bucket_builder.keys_of, k < m.key)
    (hp : cur.push m = (0, (cur.rebase (cur.base_for m)).set_attr m.key
      (attr.pushed cur.use_64bit (attr.fresh (hash_15bit_key m.key (cur.base_for m))) m.value))) :
    good u (pre ++ [m]) (E ++ [(cur.push m).2]) := by
  have hc := hg.each cur (by simp)
  have hinv := hc.1
  have hlt2 : ∀ x ∈ cur.keys, x.1 < m.key := by
    intro x hx
    apply hlt
    rw [flatMap_snoc]
    exact List.mem_append_right _ (List.mem_map.mpr ⟨x, hx, rfl⟩)
  have hkeys : (cur.push m).2.keys = cur.keys ++ [(m.key, attr_spec u
      (hash_15bit_key m.key (cur.base_for m)) [m.value])] := by
    rw [hp]
    show map_set cur.keys m.key _ = _
    rw [map_set_append_max _ _ _ hlt2, attr_pushed_fresh, hc.2.1]
  have hsk : (cur.push m).2.smallest_key = cur.base_for m := by rw [hp]; rfl
  have hu2 : (cur.push m).2.use_64bit = cur.use_64bit := by rw [hp]; rfl
  have hkeys_of : (cur.push m).2.keys_of = cur.keys_of ++ [m.key] := by
    unfold bucket_builder.keys_of; rw [hkeys]; simp
  have hflat : (E ++ [(cur.push m).2]).flatMap bucket_builder.keys_of =
      (E ++ [cur]).flatMap bucket_builder.keys_of ++ [m.key] := by
    rw [flatMap_snoc, flatMap_snoc, hkeys_of, List.append_assoc]
  have habs : ∀ m' ∈ pre, m'.key ≠ m.key := by
    intro m' hm'
    have := hlt m'.key (hg.cover m' hm')
    omega
  have hbase : cur.keys ≠ [] → cur.base_for m = cur.smallest_key := by
    intro h0
    unfold bucket_builder.base_for
    have : cur.keys.length ≠ 0 := fun h => h0 (List.length_eq_zero.mp h)
    simp [this]
  constructor
  · rw [hflat, List.pairwise_append]
    refine ⟨hg.sorted, by simp, ?_⟩
    intro a ha b hb
    simp only [List.mem_singleton] at hb
    rw [hb]; exact hlt a ha
  · intro m' hm'
    rw [hflat]
    rcases List.mem_append.mp hm' with h | h
    · exact List.mem_append_left _ (hg.cover m' h)
    · simp only [List.mem_singleton] at h
      rw [h]; simp
  · intro k hk
    rw [hflat] at hk
    rcases List.mem_append.mp hk with h | h
    · obtain ⟨m', hm', he⟩ := hg.sound k h
      exact ⟨m', List.mem_append_left _ hm', he⟩
    · simp only [List.mem_singleton] at h
      exact ⟨m, by simp, h.symm⟩
  · intro b hb it hit
    rcases List.mem_append.mp hb with h | h
    · have hit1 : it.1 ∈ (E ++ [cur]).flatMap bucket_builder.keys_of := by
        rw [flatMap_snoc]
        exact List.mem_append_left _
          (List.mem_flatMap.mpr ⟨b, h, List.mem_map.mpr ⟨it, hit, rfl⟩⟩)
      have := hlt it.1 hit1
      rw [values_of_append]
      have hne : ¬ m.key = it.1 := by omega
      simp only [hne, if_false, List.append_nil]
      exact hg.attrs b (List.mem_append_left _ h) it hit
    · simp only [List.mem_singleton] at h
      subst h
      rw [hkeys] at hit
      rw [hsk]
      rcases List.mem_append.mp hit with h1 | h1
      · have := hlt2 it h1
        rw [values_of_append]
        have hne : ¬ m.key = it.1 := by omega
        simp only [hne, if_false, List.append_nil]
        have hcne : cur.keys ≠ [] := by intro h0; rw [h0] at h1; simp at h1
        rw [hbase hcne]
        exact hg.attrs cur (by simp) it h1
      · simp only [List.mem_singleton] at h1
        rw [h1, values_of_append, values_of_absent pre m.key habs]
        simp
  · intro b hb
    rcases List.mem_append.mp hb with h | h
    · exact hg.each b (List.mem_append_left _ h)
    · simp only [List.mem_singleton] at h
      subst h
      refine ⟨inv_push cur m hinv, by rw [hu2]; exact hc.2.1, ?_, ?_⟩
      · intro k hk
        rw [hsk]
        rw [hkeys_of] at hk
        by_cases h0 : cur.keys = []
        · have hko : cur.keys_of = [] := by unfold bucket_builder.keys_of; rw [h0]; rfl
          rw [hko] at hk
          simp only [List.nil_append, List.mem_singleton] at hk
          unfold bucket_builder.base_for
          simp [h0, hk]
        · rw [hbase h0]
          rcases List.mem_append.mp hk with h1 | h1
          · exact hc.2.2.1 k h1
          · simp only [List.mem_singleton] at h1
            have hs := hc.2.2.2 h0
            have := hlt cur.smallest_key (by
              rw [flatMap_snoc]; exact List.mem_append_right _ hs)
            omega
      · intro _
        rw [hsk, hkeys_of]
        by_cases h0 : cur.keys = []
        · unfold bucket_builder.base_for
          simp [h0]
        · rw [hbase h0]
          exact List.mem_append_left _ (hc.2.2.2 h0)


theorem map_set_ne_nil (l : List (Nat × attr)) (k : Nat) (a : attr) : map_set l k a ≠ [] := by
  cases l with
  | nil => simp [map_set]
  | cons y l =>
    obtain ⟨k1, a1⟩ := y
    simp only [map_set]
    split
    · simp
    · split <;> simp

theorem good_drop_empty (u : Bool) (pre : List record) (L : List bucket_builder)
    (b : bucket_builder) (hb : b.keys = []) (hg : good u pre (L ++ [b])) : good u pre L := by
  have hflat : (L ++ [b]).flatMap bucket_builder.keys_of = L.flatMap bucket_builder.keys_of := by
    rw [flatMap_snoc]; simp [bucket_builder.keys_of, hb]
  constructor
  · rw [← hflat]; exact hg.sorted
  · rw [← hflat]; exact hg.cover
  · rw [← hflat]; exact hg.sound
  · intro b' hb' it hit
    exact hg.attrs b' (List.mem_append_left _ hb') it hit
  · intro b' hb'
    exact hg.each b' (List.mem_append_left _ hb')

theorem build_loop_good (u : Bool) (n : Nat) (stream pre : List record)
    (E : List bucket_builder) (bb : bucket_builder)
    (hg : good u pre (E ++ [bb]))
    (hE : ∀ e ∈ E, e.keys ≠ [])
    (hcur : pre ≠ [] → bb.keys ≠ [])
    (hs : ((pre ++ stream).map (fun m => m.key)).Pairwise (· ≤ ·)) :
    good u (pre ++ stream.take n)
      (E ++ (build_loop_buckets n stream bb).1 ++ [(build_loop_buckets n stream bb).2]) ∧
    (∀ e ∈ E ++ (build_loop_buckets n stream bb).1, e.keys ≠ []) ∧
    (pre ++ stream.take n ≠ [] → (build_loop_buckets n stream bb).2.keys ≠ []) := by
  induction n generalizing stream pre E bb with
  | zero =>
    simp only [build_loop_buckets, List.take_zero, List.append_nil]
    exact ⟨hg, hE, hcur⟩
  | succ n ih =>
    cases stream with
    | nil =>
      simp only [build_loop_buckets, List.take_nil, List.append_nil]
      exact ⟨hg, hE, hcur⟩
    | cons m s =>
      have hle : ∀ m' ∈ pre, m'.key ≤ m.key := by
        intro m' hm'
        rw [List.map_append, List.pairwise_append] at hs
        exact hs.2.2 m'.key (List.mem_map.mpr ⟨m', hm', rfl⟩) m.key (by simp)
      have hs' : (((pre ++ [m]) ++ s).map (fun m => m.key)).Pairwise (· ≤ ·) := by
        rw [List.append_assoc]; exact hs
      have htake : pre ++ (m :: s).take (n + 1) = (pre ++ [m]) ++ s.take n := by
        simp
      have hinv := (hg.each bb (by simp)).1
      have hu := (hg.each bb (by simp)).2.1
      rw [htake]
      simp only [build_loop_buckets]
      rcases push_cases bb m hinv with ⟨a, hf, hp⟩ | ⟨hf, hne, hp⟩ | ⟨hf, hl, hp⟩
      · have h1 : (bb.push m).1 = 0 := by rw [hp]
        simp only [h1, if_true]
        have hg' := good_push_existing u pre E bb m a hg hf
        have hp2 : (bb.push m).2 = bb.set_attr m.key (attr.pushed bb.use_64bit a m.value) := by
          rw [hp]
        rw [hp2]
        exact ih s (pre ++ [m]) E _ hg' hE (fun _ => map_set_ne_nil _ _ _) hs'
      · have h1 : ¬ (bb.push m).1 = 0 := by rw [hp]; simp
        have hp2 : (bb.push m).2 = bb := by rw [hp]
        simp only [h1, if_false, hp2]
        have hlt := new_key_gt u pre E bb m hg hf hle hcur
        have hg1 := good_snoc_clear u pre (E ++ [bb]) bb hu hg
        have hce : bb.clear.keys = [] := rfl
        have hpe := push_empty bb.clear m hce
        have hbf : bb.clear.base_for m = m.key := by
          unfold bucket_builder.base_for; simp [hce]
        have hg2 := good_push_new u pre (E ++ [bb]) bb.clear m hg1
          (by
            intro k hk
            rw [flatMap_snoc] at hk
            have hko : bb.clear.keys_of = [] := rfl
            rw [hko, List.append_nil] at hk
            exact hlt k hk)
          (by rw [hbf]; exact hpe)
        have hne2 : (bb.clear.push m).2.keys ≠ [] := by
          rw [hpe]; exact map_set_ne_nil _ _ _
        have hE2 : ∀ e ∈ E ++ [bb], e.keys ≠ [] := by
          intro e he
          rcases List.mem_append.mp he with h | h
          · exact hE e h
          · simp only [List.mem_singleton] at h; rw [h]; exact hne
        have := ih s (pre ++ [m]) (E ++ [bb]) _ hg2 hE2 (fun _ => hne2) hs'
        simpa [List.append_assoc] using this
      · have h1 : (bb.push m).1 = 0 := by rw [hp]
        simp only [h1, if_true]
        have hlt := new_key_gt u pre E bb m hg hf hle hcur
        have hg' := good_push_new u pre E bb m hg hlt hp
        have hne2 : (bb.push m).2.keys ≠ [] := by
          rw [hp]; exact map_set_ne_nil _ _ _
        exact ih s (pre ++ [m]) E _ hg' hE (fun _ => hne2) hs'

theorem good_nil (u : Bool) : good u [] ([] ++ [bucket_builder.new u]) := by
  constructor
  · simp [bucket_builder.new, bucket_builder.keys_of]
  · simp
  · simp [bucket_builder.new, bucket_builder.keys_of]
  · simp [bucket_builder.new]
  · intro b hb
    simp only [List.nil_append, List.mem_singleton] at hb
    rw [hb]
    refine ⟨inv_new u, rfl, ?_, ?_⟩
    · simp [bucket_builder.new, bucket_builder.keys_of]
    · simp [bucket_builder.new]

/-- The buckets `build` emits for records in non-decreasing key order satisfy
the invariant for the records consumed, and none of them is empty. -/
theorem build_buckets_good (u : Bool) (n : Nat) (stream : List record)
    (hs : (stream.map (fun m => m.key)).Pairwise (· ≤ ·)) :
    good u (stream.take n) (build_buckets u n stream) ∧
    ∀ b ∈ build_buckets u n stream, b.keys ≠ [] := by
  have h := build_loop_good u n stream [] [] (bucket_builder.new u) (good_nil u)
    (by simp) (by simp) (by simpa using hs)
  simp only [List.nil_append] at h
  unfold build_buckets
  simp only []
  by_cases h0 : (build_loop_buckets n stream (bucket_builder.new u)).2.keys = []
  · have hub : (build_loop_buckets n stream (bucket_builder.new u)).2.get_used_bytes = 0 := by
      unfold bucket_builder.get_used_bytes; rw [h0]; rfl
    simp only [hub, ne_eq, not_true_eq_false, if_false]
    exact ⟨good_drop_empty u _ _ _ h0 h.1, h.2.1⟩
  · have hub : (build_loop_buckets n stream (bucket_builder.new u)).2.get_used_bytes ≠ 0 := by
      unfold bucket_builder.get_used_bytes
      have : (build_loop_buckets n stream (bucket_builder.new u)).2.keys.length ≠ 0 :=
        fun h => h0 (List.length_eq_zero.mp h)
      omega
    simp only [hub, ne_eq, not_false_eq_true, if_true]
    refine ⟨h.1, ?_⟩
    intro b hb
    rcases List.mem_append.mp hb with h1 | h1
    · exact h.2.1 b h1
    · simp only [List.mem_singleton] at h1; rw [h1]; exact h0


/-! ## C3, C5, C6: the ranges and buckets of a built database -/

theorem flatMap_blocks {α β : Type} (R : β → β → Prop) (f : α → List β) (L : List α)
    (h : (L.flatMap f).Pairwise R) (i j : Nat) (hij : i < j) (b b' : α)
    (hi : L[i]? = some b) (hj : L[j]? = some b') : ∀ x ∈ f b, ∀ y ∈ f b', R x y := by
  induction L generalizing i j with
  | nil => simp at hi
  | cons c L ih =>
    rw [List.flatMap_cons, List.pairwise_append] at h
    obtain ⟨j', rfl⟩ : ∃ j', j = j' + 1 := ⟨j - 1, by omega⟩
    simp only [List.getElem?_cons_succ] at hj
    cases i with
    | zero =>
      simp only [List.getElem?_cons_zero, Option.some.injEq] at hi
      subst hi
      intro x hx y hy
      exact h.2.2 x hx y (List.mem_flatMap.mpr ⟨b', List.getElem?_mem hj, hy⟩)
    | succ i' =>
      simp only [List.getElem?_cons_succ] at hi
      exact ih h.2.1 i' j' (by omega) hi hj

theorem build_ranges (db : db_builder) (oob n : Nat) (stream : List record) :
    (db.build oob n stream).ranges =
      (build_buckets db.use_64bit n stream).map (fun b => b.get_smallest_key) := by
  rw [build_eq, emit_all_ranges]
  rfl

theorem build_bucket_num (db : db_builder) (oob n : Nat) (stream : List record) :
    (db.build oob n stream).bucket_num =
      db.bucket_num + (build_buckets db.use_64bit n stream).length := by
  rw [build_eq, emit_all_bucket_num]
  rfl

/-- C6: the ranges of a database built from records in non-decreasing key order
increase strictly; in particular `ranges[i] <= ranges[i+1]`. -/
theorem C6_ranges_increasing (db : db_builder) (oob n : Nat) (stream : List record)
    (hs : (stream.map (fun m => m.key)).Pairwise (· ≤ ·)) :
    (∀ (i j x y : Nat), i < j → (db.build oob n stream).get_ranges[i]? = some x →
      (db.build oob n stream).get_ranges[j]? = some y → x < y) ∧
    (∀ (i x y : Nat), (db.build oob n stream).get_ranges[i]? = some x →
      (db.build oob n stream).get_ranges[i + 1]? = some y → x ≤ y) := by
  have hgood := build_buckets_good db.use_64bit n stream hs
  have key : ∀ (i j x y : Nat), i < j → (db.build oob n stream).get_ranges[i]? = some x →
      (db.build oob n stream).get_ranges[j]? = some y → x < y := by
    intro i j x y hij hi hj
    unfold db_builder.get_ranges at hi hj
    rw [build_ranges, List.getElem?_map] at hi hj
    obtain ⟨b, hb, hbx⟩ := Option.map_eq_some'.mp hi
    obtain ⟨b', hb', hby⟩ := Option.map_eq_some'.mp hj
    have h1 := (hgood.1.each b (List.getElem?_mem hb)).2.2.2
      (hgood.2 b (List.getElem?_mem hb))
    have h2 := (hgood.1.each b' (List.getElem?_mem hb')).2.2.2
      (hgood.2 b' (List.getElem?_mem hb'))
    have := flatMap_blocks (· < ·) bucket_builder.keys_of _ hgood.1.sorted i j hij b b' hb hb'
      _ h1 _ h2
    unfold bucket_builder.get_smallest_key at hbx hby
    omega
  refine ⟨key, ?_⟩
  intro i x y hi hj
  exact Nat.le_of_lt (key i (i + 1) x y (by omega) hi hj)

/-- C5: after `build` on a newly constructed builder, for records in
non-decreasing key order, the number of ranges is the number of buckets
emitted, which is `bucket_num` and `get_db_size() / bucket_size`; range `i` is
`get_smallest_key()` of bucket `i`, which is a key of that bucket and the
least of its keys. -/
theorem C5_ranges_smallest_keys (use_64bit : Bool) (oob n : Nat) (stream : List record)
    (hs : (stream.map (fun m => m.key)).Pairwise (· ≤ ·)) :
    ((db_builder.new use_64bit).build oob n stream).get_ranges.length =
      (build_buckets use_64bit n stream).length ∧
    ((db_builder.new use_64bit).build oob n stream).get_ranges.length =
      ((db_builder.new use_64bit).build oob n stream).bucket_num ∧
    ((db_builder.new use_64bit).build oob n stream).get_db_size /
        bucket_builder.get_size_bytes use_64bit =
      ((db_builder.new use_64bit).build oob n stream).bucket_num ∧
    (∀ (i : Nat) (b : bucket_builder), (build_buckets use_64bit n stream)[i]? = some b →
      ((db_builder.new use_64bit).build oob n stream).get_ranges[i]? = some b.get_smallest_key ∧
      b.get_smallest_key ∈ b.keys_of ∧
      ∀ k ∈ b.keys_of, b.get_smallest_key ≤ k) := by
  have hgood := build_buckets_good use_64bit n stream hs
  have hu : (db_builder.new use_64bit).use_64bit = use_64bit := rfl
  have hr := build_ranges (db_builder.new use_64bit) oob n stream
  have hb := build_bucket_num (db_builder.new use_64bit) oob n stream
  rw [hu] at hr hb
  have hb0 : (db_builder.new use_64bit).bucket_num = 0 := rfl
  rw [hb0, Nat.zero_add] at hb
  have hu2 : ((db_builder.new use_64bit).build oob n stream).use_64bit = use_64bit := by
    rw [build_eq, emit_all_use_64bit]; rfl
  unfold db_builder.get_ranges
  refine ⟨by rw [hr, List.length_map], by rw [hr, List.length_map, hb], ?_, ?_⟩
  · unfold db_builder.get_db_size
    rw [hu2]
    apply Nat.mul_div_cancel
    unfold bucket_builder.get_size_bytes
    cases use_64bit <;> decide
  · intro i b hi
    have hmem := List.getElem?_mem hi
    have he := hgood.1.each b hmem
    refine ⟨?_, he.2.2.2 (hgood.2 b hmem), he.2.2.1⟩
    rw [hr, List.getElem?_map, hi]
    rfl

theorem C5_ranges_smallest_keys_witness :
    (([⟨10, 7⟩, ⟨10, 3⟩, ⟨10, 5⟩, ⟨11, 99⟩] : List record).map (fun m => m.key)).Pairwise
      (· ≤ ·) ∧
    ((db_builder.new true).build 0 4 [⟨10, 7⟩, ⟨10, 3⟩, ⟨10, 5⟩, ⟨11, 99⟩]).get_ranges.length =
      ((db_builder.new true).build 0 4 [⟨10, 7⟩, ⟨10, 3⟩, ⟨10, 5⟩, ⟨11, 99⟩]).bucket_num :=
  ⟨by decide, (C5_ranges_smallest_keys true 0 4
    [⟨10, 7⟩, ⟨10, 3⟩, ⟨10, 5⟩, ⟨11, 99⟩] (by decide)).2.1⟩

theorem move_mask_cmpeq (h : Nat) (l : List Nat) :
    SIMD_MOVE_MASK_EPI8 (SIMD_CMPEQ_EPI16 (List.replicate l.length h)
      (SIMD_AND_SI l (List.replicate l.length 0xFFFE))) = matchmask h l := by
  induction l with
  | nil => rfl
  | cons x l ih =>
    simp only [List.length_cons, List.replicate_succ, SIMD_AND_SI, SIMD_CMPEQ_EPI16,
      List.zipWith_cons_cons, SIMD_MOVE_MASK_EPI8, matchmask]
    simp only [SIMD_AND_SI, SIMD_CMPEQ_EPI16] at ih
    rw [ih]
    by_cases hx : h = x &&& 0xFFFE
    · simp [hx]
    · simp [hx]

theorem matchmask_append (h : Nat) (a b : List Nat) :
    matchmask h (a ++ b) = matchmask h a + 4 ^ a.length * matchmask h b := by
  induction a with
  | nil => simp [matchmask]
  | cons x a ih =>
    show matchmask h (x :: (a ++ b)) = _
    simp only [matchmask, ih, List.length_cons, pow_succ]
    ring

theorem matchmask_lt (h : Nat) (l : List Nat) : matchmask h l < 4 ^ l.length := by
  induction l with
  | nil => simp [matchmask]
  | cons x l ih =>
    simp only [matchmask, List.length_cons, pow_succ]
    split <;> omega

theorem simd_loadu_eq (mem : Memory) (addr : Nat) :
    SIMD_LOADU_SI mem addr = (List.range 16).map (fun j => load_u16 mem (addr + 2 * j)) := rfl

theorem page_tags_split (mem : Memory) (bucket : Nat) :
    page_tags mem bucket = SIMD_LOADU_SI mem (bucket + 0) ++ SIMD_LOADU_SI mem (bucket + 32) := by
  unfold page_tags
  rw [simd_loadu_eq, simd_loadu_eq]
  have : List.range 32 = List.range 16 ++ (List.range 16).map (fun j => 16 + j) := by decide
  rw [this, List.map_append, List.map_map]
  congr 1

theorem lookup_fullmask_eq (mem : Memory) (bucket hash : Nat) (hh : hash < 2 ^ 16) :
    lookup_fullmask mem bucket (SIMD_SET1_EPI16 hash) (SIMD_SET1_EPI16 0xFFFE)
      (CACHE_LINE_SIZE / ITERATION_BYTES) 0 0 = matchmask hash (page_tags mem bucket) := by
  have hiter : CACHE_LINE_SIZE / ITERATION_BYTES = 2 := by decide
  have hib : ITERATION_BYTES = 32 := by decide
  have hset1 : SIMD_SET1_EPI16 hash = List.replicate 16 hash := by
    unfold SIMD_SET1_EPI16; rw [Nat.mod_eq_of_lt hh]; rfl
  have hset2 : SIMD_SET1_EPI16 0xFFFE = List.replicate 16 0xFFFE := by decide
  have hl0 : (SIMD_LOADU_SI mem (bucket + 0)).length = 16 := by simp [simd_loadu_eq]
  have hl1 : (SIMD_LOADU_SI mem (bucket + 32)).length = 16 := by simp [simd_loadu_eq]
  have hm0 := move_mask_cmpeq hash (SIMD_LOADU_SI mem (bucket + 0))
  have hm1 := move_mask_cmpeq hash (SIMD_LOADU_SI mem (bucket + 32))
  rw [hl0] at hm0
  rw [hl1] at hm1
  have hlt0 := matchmask_lt hash (SIMD_LOADU_SI mem (bucket + 0))
  have hlt1 := matchmask_lt hash (SIMD_LOADU_SI mem (bucket + 32))
  rw [hl0] at hlt0
  rw [hl1] at hlt1
  have h416 : (4 : Nat) ^ 16 = 2 ^ 32 := by norm_num
  rw [h416] at hlt0 hlt1
  rw [hiter, hset1, hset2]
  simp only [lookup_fullmask, hib, hm0, hm1, Nat.zero_add]
  rw [page_tags_split, matchmask_append, hl0, h416]
  rw [Nat.mod_eq_of_lt hlt0, Nat.mod_eq_of_lt hlt1, Nat.shiftLeft_zero,
    Nat.mod_eq_of_lt (by omega : matchmask hash (SIMD_LOADU_SI mem (bucket + 0)) < 2 ^ 64),
    Nat.zero_or, Nat.shiftLeft_eq]
  have hlt2 : matchmask hash (SIMD_LOADU_SI mem (bucket + 32)) * 2 ^ 32 < 2 ^ 64 := by
    calc matchmask hash (SIMD_LOADU_SI mem (bucket + 32)) * 2 ^ 32
        < 2 ^ 32 * 2 ^ 32 := by omega
      _ = 2 ^ 64 := by norm_num
  rw [Nat.mod_eq_of_lt hlt2, Nat.or_comm, Nat.mul_comm,
    ← Nat.mul_add_lt_is_or hlt0, Nat.add_comm]

theorem matchmask_zero (h : Nat) (l : List Nat) (hno : ∀ x ∈ l, h ≠ x &&& 0xFFFE) :
    matchmask h l = 0 := by
  induction l with
  | nil => rfl
  | cons x l ih =>
    have h1 := hno x (List.mem_cons_self _ _)
    simp only [matchmask, h1, if_false, Nat.zero_add]
    rw [ih (fun y hy => hno y (List.mem_cons_of_mem _ hy))]

theorem bsf_aux_four (n M : Nat) : bsf_aux (n + 2) (4 * M) = 2 + bsf_aux n M := by
  have h1 : (4 * M) % 2 ≠ 1 := by omega
  have h2 : (4 * M / 2) % 2 ≠ 1 := by omega
  have h3 : 4 * M / 2 / 2 = M := by omega
  simp only [bsf_aux, h1, h2, if_false, h3]
  omega

theorem bsf_matchmask (h : Nat) (pre : List Nat) (x : Nat) (post : List Nat) (fuel : Nat)
    (hpre : ∀ y ∈ pre, h ≠ y &&& 0xFFFE) (hx : h = x &&& 0xFFFE)
    (hf : 2 * pre.length < fuel) :
    bsf_aux fuel (matchmask h (pre ++ x :: post)) = 2 * pre.length ∧
    matchmask h (pre ++ x :: post) ≠ 0 := by
  induction pre generalizing fuel with
  | nil =>
    obtain ⟨f, rfl⟩ : ∃ f, fuel = f + 1 := ⟨fuel - 1, by simp at hf; omega⟩
    have e : matchmask h ([] ++ x :: post) = 3 + 4 * matchmask h post := by
      show matchmask h (x :: post) = _
      simp only [matchmask, if_pos hx]
    rw [e]
    have h2 : (3 + 4 * matchmask h post) % 2 = 1 := by omega
    constructor
    · simp only [bsf_aux, h2, if_true, List.length_nil]
    · omega
  | cons y pre ih =>
    have hy := hpre y (List.mem_cons_self _ _)
    simp only [List.length_cons] at hf
    obtain ⟨f, rfl⟩ : ∃ f, fuel = f + 2 := ⟨fuel - 2, by omega⟩
    have ih2 := ih f (fun z hz => hpre z (List.mem_cons_of_mem _ hz)) (by omega)
    have e : matchmask h ((y :: pre) ++ x :: post) = 4 * matchmask h (pre ++ x :: post) := by
      show matchmask h (y :: (pre ++ x :: post)) = _
      simp only [matchmask, hy, if_false, Nat.zero_add]
    rw [e, bsf_aux_four, List.length_cons]
    exact ⟨by omega, by omega⟩


theorem int_to_u64_cast (idx : Nat) (h : idx < 2 ^ 64) : int_to_u64 (idx : Int) = idx := by
  unfold int_to_u64
  have : ((idx : Int) % 2 ^ 64) = ((idx % 2 ^ 64 : Nat) : Int) := by norm_cast
  rw [this, Int.toNat_ofNat, Nat.mod_eq_of_lt h]

/-- The page of a search result that is not negative: where the product of the
index and the page size has not wrapped, `get_bucket_ptr` is the address that
many bytes above `data`. -/
theorem get_bucket_ptr_index (data idx : Nat) (u : Bool)
    (h : idx * bucket_builder.get_size_bytes u < 2 ^ 64) :
    get_bucket_ptr data (int_to_u64 (idx : Int)) u =
      data + idx * bucket_builder.get_size_bytes u := by
  have hs : 0 < bucket_builder.get_size_bytes u := by cases u <;> decide
  have hidx : idx < 2 ^ 64 := lt_of_le_of_lt (Nat.le_mul_of_pos_right idx hs) h
  unfold get_bucket_ptr
  rw [int_to_u64_cast idx hidx, if_pos h]

theorem page_tags_length (mem : Memory) (bucket : Nat) : (page_tags mem bucket).length = 32 := by
  simp [page_tags]

theorem page_tags_getElem (mem : Memory) (bucket i : Nat) (x : Nat)
    (h : (page_tags mem bucket)[i]? = some x) : load_u16 mem (bucket + 2 * i) = x := by
  unfold page_tags at h
  rw [List.getElem?_map] at h
  obtain ⟨j, hj, hx⟩ := Option.map_eq_some'.mp h
  rw [List.getElem?_range] at hj
  · simp only [Option.some.injEq] at hj
    rw [hj]; exact hx
  · by_contra hlt
    rw [List.getElem?_eq_none (by simp; omega)] at hj
    simp at hj

/-- A probe that matches no tag word: `num[i]` becomes 0 and `ptr[i]` is left
as it was. -/
theorem lookup_one_miss (mem : Memory) (r : bucket_reader) (key : Nat) (sr : Int)
    (base ptr_i : Nat)
    (hno : ∀ x ∈ page_tags mem (get_bucket_ptr r.data (int_to_u64 sr) r.use_64bit),
      hash_15bit_key key base ≠ hash_15bit_read x) :
    r.lookup_one mem key sr base ptr_i = (0, ptr_i) := by
  unfold bucket_reader.lookup_one
  simp only []
  rw [lookup_fullmask_eq _ _ _ (hash_15bit_key_lt key base), matchmask_zero _ _ hno]
  simp

/-- A probe whose first matching tag word is word `i`. -/
theorem lookup_one_hit (mem : Memory) (r : bucket_reader) (key : Nat) (sr : Int)
    (base ptr_i : Nat) (pre : List Nat) (x : Nat) (post : List Nat)
    (hp : page_tags mem (get_bucket_ptr r.data (int_to_u64 sr) r.use_64bit) = pre ++ x :: post)
    (hpre : ∀ y ∈ pre, hash_15bit_key key base ≠ hash_15bit_read y)
    (hx : hash_15bit_key key base = hash_15bit_read x) :
    r.lookup_one mem key sr base ptr_i =
      (if x &&& 1 = 0 then
        (1, get_bucket_ptr r.data (int_to_u64 sr) r.use_64bit + 64 + 8 * pre.length)
      else if r.use_64bit then
        (u32_to_int (load_u64 mem
            (get_bucket_ptr r.data (int_to_u64 sr) r.use_64bit + 64 + 8 * pre.length)),
         r.apdx + (load_u64 mem
            (get_bucket_ptr r.data (int_to_u64 sr) r.use_64bit + 64 + 8 * pre.length) >>> 32))
      else
        (u32_to_int (load_u32 mem (r.apdx + load_u32 mem
            (get_bucket_ptr r.data (int_to_u64 sr) r.use_64bit + 64 + 8 * pre.length))),
         r.apdx + load_u32 mem
            (get_bucket_ptr r.data (int_to_u64 sr) r.use_64bit + 64 + 8 * pre.length) + 4)) := by
  have hlen := page_tags_length mem (get_bucket_ptr r.data (int_to_u64 sr) r.use_64bit)
  rw [hp] at hlen
  simp only [List.length_append, List.length_cons] at hlen
  have hb := bsf_matchmask (hash_15bit_key key base) pre x post 64 hpre hx (by omega)
  have hw : load_u16 mem (get_bucket_ptr r.data (int_to_u64 sr) r.use_64bit + 2 * pre.length)
      = x := by
    apply page_tags_getElem
    rw [hp, List.getElem?_append_right (Nat.le_refl _)]
    simp
  unfold bucket_reader.lookup_one
  simp only []
  rw [lookup_fullmask_eq _ _ _ (hash_15bit_key_lt key base), hp]
  unfold BSF64
  rw [hb.1]
  simp only [hb.2, if_false, hw, CACHE_LINE_SIZE]
  have e : 4 * (2 * pre.length) = 8 * pre.length := by omega
  rw [e]


theorem list_length_four {α : Type} (l : List α) (h : l.length = 4) :
    ∃ a b c d, l = [a, b, c, d] := by
  match l, h with
  | [a, b, c, d], _ => exact ⟨a, b, c, d, rfl⟩

theorem lookup_iter_fold (f : Nat → Nat → Int × Nat) (num : List Int) (ptr : List Nat)
    (hn : num.length = 4) (hp : ptr.length = 4) (i : Nat) (hi : i < 4) :
    ((([0, 1, 2, 3] : List Nat).foldl (lookup_iter f) (num, ptr)).1.getD i 0,
     (([0, 1, 2, 3] : List Nat).foldl (lookup_iter f) (num, ptr)).2.getD i 0) =
      f i (ptr.getD i 0) := by
  obtain ⟨n0, n1, n2, n3, rfl⟩ := list_length_four num hn
  obtain ⟨p0, p1, p2, p3, rfl⟩ := list_length_four ptr hp
  interval_cases i <;> rfl

/-- Each index of a batch is looked up on its own. -/
theorem lookup_batch_getD (mem : Memory) (r : bucket_reader) (keys : List Nat)
    (srs : List Int) (bases : List Nat) (num : List Int) (ptr : List Nat)
    (hn : num.length = N) (hp : ptr.length = N) (i : Nat) (hi : i < N) :
    ((r.lookup_batch mem keys srs bases num ptr).1.getD i 0,
     (r.lookup_batch mem keys srs bases num ptr).2.getD i 0) =
      r.lookup_one mem (keys.getD i 0) (srs.getD i 0) (bases.getD i 0) (ptr.getD i 0) := by
  have hr : List.range N = [0, 1, 2, 3] := by decide
  unfold bucket_reader.lookup_batch
  rw [hr]
  exact lookup_iter_fold
    (fun j p => r.lookup_one mem (keys.getD j 0) (srs.getD j 0) (bases.getD j 0) p)
    num ptr hn hp i hi

/-- C4 (amended): for a search result that is the index `idx` of a bucket (an
`int` that is not negative) and a key whose tag matches none of the 32 tag
words of the probed bucket, the page `idx` of the reader, `lookup_batch`, and
hence `query`, sets `num[i] = 0` and leaves `ptr[i]` as it was on entry, for
every initial content of the two arrays. -/
theorem C4_missing_key (mem : Memory) (r : bucket_reader) (keys : List Nat)
    (srs : List Int) (bases : List Nat) (num : List Int) (ptr : List Nat)
    (hn : num.length = N) (hp : ptr.length = N) (i : Nat) (hi : i < N)
    (idx : Nat) (hidx : idx < 2 ^ 31) (hsr : srs.getD i 0 = (idx : Int))
    (hno : ∀ j, j < 32 →
      hash_15bit_read (load_u16 mem
        (r.data + idx * bucket_builder.get_size_bytes r.use_64bit + 2 * j)) ≠
      hash_15bit_key (keys.getD i 0) (bases.getD i 0)) :
    ((r.lookup_batch mem keys srs bases num ptr).1.getD i 0 = 0 ∧
      (r.lookup_batch mem keys srs bases num ptr).2.getD i 0 = ptr.getD i 0) ∧
    (∀ (o : lnmu_oracle) (rd : db_reader), rd.preader = r → rd.memory = mem →
      (o.locate rd.ranges rd.compression rd.model keys).2 = srs →
      (o.locate rd.ranges rd.compression rd.model keys).1 = bases →
      (db_reader.query o rd keys num ptr).2.1.getD i 0 = 0 ∧
      (db_reader.query o rd keys num ptr).2.2.getD i 0 = ptr.getD i 0) := by
  have hbp : get_bucket_ptr r.data (int_to_u64 (srs.getD i 0)) r.use_64bit =
      r.data + idx * bucket_builder.get_size_bytes r.use_64bit := by
    rw [hsr]
    apply get_bucket_ptr_index
    have hs : bucket_builder.get_size_bytes r.use_64bit ≤ 320 := by
      cases r.use_64bit <;> decide
    have := Nat.mul_le_mul_left idx hs
    omega
  have hmiss : r.lookup_one mem (keys.getD i 0) (srs.getD i 0) (bases.getD i 0) (ptr.getD i 0) =
      (0, ptr.getD i 0) := by
    apply lookup_one_miss
    rw [hbp]
    intro x hx
    obtain ⟨j, hj⟩ := List.getElem?_of_mem hx
    have hlt : j < 32 := by
      by_contra hge
      rw [List.getElem?_eq_none (by rw [page_tags_length]; omega)] at hj
      simp at hj
    have := page_tags_getElem _ _ _ _ hj
    rw [← this]
    exact fun e => hno j hlt e.symm
  have hb := (lookup_batch_getD mem r keys srs bases num ptr hn hp i hi).trans hmiss
  have hb2 := Prod.mk.inj hb
  refine ⟨hb2, ?_⟩
  intro o rd h1 h2 h3 h4
  unfold db_reader.query
  simp only [h1, h2, h3, h4]
  exact hb2

/-- The memory of the examples of a miss: all bytes zero. -/
theorem C4_missing_key_witness :
    ([7, 7, 7, 7] : List Int).length = N ∧ ([5, 5, 5, 5] : List Nat).length = N ∧
    ((⟨true, 0, 0⟩ : bucket_reader).lookup_batch (fun _ => 0) [1, 2, 3, 4] [0, 0, 0, 0]
      [0, 0, 0, 0] [7, 7, 7, 7] [5, 5, 5, 5]).1.getD 0 0 = 0 ∧
    ((⟨true, 0, 0⟩ : bucket_reader).lookup_batch (fun _ => 0) [1, 2, 3, 4] [0, 0, 0, 0]
      [0, 0, 0, 0] [7, 7, 7, 7] [5, 5, 5, 5]).2.getD 0 0 = 5 :=
  ⟨rfl, rfl, (C4_missing_key (fun _ => 0) ⟨true, 0, 0⟩ [1, 2, 3, 4] [0, 0, 0, 0] [0, 0, 0, 0]
    [7, 7, 7, 7] [5, 5, 5, 5] rfl rfl 0 (by decide) 0 (by decide) rfl (by decide)).1⟩

/-- C4 as stated fails: on an all-zero page, the page of the search result 0,
no tag matches the key 1, and `lookup_batch` leaves the non-null content 5 of
`ptr[0]` in place. -/
theorem C4_counterexample :
    (∀ j, j < 32 →
      hash_15bit_read (load_u16 (fun _ => 0)
        (0 + 0 * bucket_builder.get_size_bytes true + 2 * j)) ≠ hash_15bit_key 1 0) ∧
    ¬ (((⟨true, 0, 0⟩ : bucket_reader).lookup_batch (fun _ => 0) [1, 2, 3, 4] [0, 0, 0, 0]
        [0, 0, 0, 0] [7, 7, 7, 7] [5, 5, 5, 5]).1.getD 0 0 = 0 ∧
      ((⟨true, 0, 0⟩ : bucket_reader).lookup_batch (fun _ => 0) [1, 2, 3, 4] [0, 0, 0, 0]
        [0, 0, 0, 0] [7, 7, 7, 7] [5, 5, 5, 5]).2.getD 0 0 = 0) := by
  decide


/-! ## Reading a packed page from memory -/

theorem load_bytes_eq (mem : Memory) (addr n : Nat) (X : List Nat) (hl : X.length = n)
    (h : ∀ t, t < n → mem (addr + t) = X.getD t 0) : load_bytes mem addr n = X := by
  unfold load_bytes
  apply List.ext_getElem
  · simp [hl]
  · intro t h1 h2
    simp only [List.length_map, List.length_range] at h1
    simp only [List.getElem_map, List.getElem_range]
    rw [h t h1, List.getD_eq_getElem _ _ h2]

theorem flatMap_le_bytes_getD (w : Nat) (L R : List Nat) (j t : Nat) (hj : j < L.length)
    (ht : t < w) :
    (L.flatMap (fun x => le_bytes w x) ++ R).getD (w * j + t) 0 =
      (le_bytes w (L.getD j 0)).getD t 0 := by
  induction L generalizing j with
  | nil => simp at hj
  | cons x L ih =>
    rw [List.flatMap_cons, List.append_assoc]
    cases j with
    | zero =>
      simp only [Nat.mul_zero, Nat.zero_add, List.getD_cons_zero]
      rw [List.getD_append _ _ _ _ (by rw [le_bytes_length]; exact ht)]
    | succ j =>
      simp only [List.length_cons] at hj
      rw [List.getD_append_right _ _ _ _ (by rw [le_bytes_length, Nat.mul_succ]; omega)]
      rw [le_bytes_length, List.getD_cons_succ]
      have : w * (j + 1) + t - w = w * j + t := by rw [Nat.mul_succ]; omega
      rw [this]
      exact ih j (by omega)

theorem of_le_bytes_two (a b : Nat) : of_le_bytes [a, b] = a + 256 * b := by
  simp [of_le_bytes]

/-- The tag words of a page whose first 64 bytes are the little-endian words
`TG`. -/
theorem page_tags_of_holds (mem : Memory) (bucket : Nat) (TG R : List Nat)
    (hTG : TG.length = 32)
    (hm : holds mem bucket (TG.flatMap (fun x => le_bytes 2 x) ++ R)) :
    page_tags mem bucket = TG.map (fun x => x % 65536) := by
  unfold page_tags
  apply List.ext_getElem
  · simp [hTG]
  · intro j h1 h2
    simp only [List.length_map, List.length_range] at h1
    simp only [List.getElem_map, List.getElem_range]
    have hlen : (TG.flatMap (fun x => le_bytes 2 x) ++ R).length ≥ 64 := by
      rw [List.length_append, flatMap_le_bytes_length 2 (fun x => x) TG, hTG]; omega
    have hb : load_bytes mem (bucket + 2 * j) 2 = le_bytes 2 (TG.getD j 0) := by
      apply load_bytes_eq _ _ _ _ (le_bytes_length 2 _)
      intro t ht
      rw [Nat.add_assoc, hm (2 * j + t) (by omega)]
      exact flatMap_le_bytes_getD 2 TG R j t (by omega) ht
    unfold load_u16
    rw [hb, of_le_bytes_le_bytes, List.getD_eq_getElem _ _ (by omega)]
    norm_num

/-- The value slot `j` of a page whose bytes from offset 64 on are the
little-endian words `SL`, of `w` bytes each. -/
theorem slot_of_holds (mem : Memory) (bucket w : Nat) (T SL : List Nat)
    (hT : T.length = 64) (j : Nat) (hj : j < SL.length)
    (hm : holds mem bucket (T ++ SL.flatMap (fun x => le_bytes w x))) :
    of_le_bytes (load_bytes mem (bucket + 64 + w * j) w) = SL.getD j 0 % 256 ^ w := by
  have hb : load_bytes mem (bucket + 64 + w * j) w = le_bytes w (SL.getD j 0) := by
    apply load_bytes_eq _ _ _ _ (le_bytes_length w _)
    intro t ht
    have hlt : 64 + w * j + t < (T ++ SL.flatMap (fun x => le_bytes w x)).length := by
      rw [List.length_append, flatMap_le_bytes_length w (fun x => x) SL, hT]
      have : w * j + w ≤ w * SL.length := by
        rw [← Nat.mul_succ]; exact Nat.mul_le_mul_left _ hj
      omega
    have e : bucket + 64 + w * j + t = bucket + (64 + w * j + t) := by omega
    rw [e, hm _ hlt, List.getD_append_right _ _ _ _ (by omega), hT]
    have e2 : 64 + w * j + t - 64 = w * j + t := by omega
    rw [e2]
    have := flatMap_le_bytes_getD w SL [] j t hj ht
    rwa [List.append_nil] at this
  rw [hb, of_le_bytes_le_bytes]


/-! ## `populate_appendix` in 64-bit mode -/

theorem push_fold_data (l : List Nat) (a : appendix) :
    (l.foldl (fun acc e => acc.push 8 e) a).data = a.data ++ l.flatMap (fun v => le_bytes 8 v) := by
  induction l generalizing a with
  | nil => simp
  | cons x l ih =>
    simp only [List.foldl_cons, List.flatMap_cons]
    rw [ih]
    simp [appendix.push]

theorem add_element64_spec (a : appendix) (vals : List Nat) :
    (a.add_element64 vals).1 = handle64 a.data.length vals.length ∧
    (a.add_element64 vals).2.1.data =
      a.data ++ (qsort compare_uint64 vals).flatMap (fun v => le_bytes 8 v) ∧
    (a.add_element64 vals).2.2 = qsort compare_uint64 vals := by
  unfold appendix.add_element64 handle64
  simp only [push_fold_data, (qsort_perm compare_uint64 vals).length_eq]
  simp

theorem populate_entries_data (oob : Nat) (l : List (Nat × attr)) (a : appendix) :
    ∃ X, (populate_entries true oob l a).2.data = a.data ++ X := by
  induction l generalizing a with
  | nil => exact ⟨[], by simp [populate_entries]⟩
  | cons y l ih =>
    obtain ⟨k, it⟩ := y
    simp only [populate_entries]
    by_cases h : it.count ≤ 1
    · simp only [h, if_true]
      exact ih a
    · simp only [h, if_false, if_true]
      obtain ⟨X, hX⟩ := ih (a.add_element64 it.values64).2.1
      rw [hX, (add_element64_spec a it.values64).2.1]
      exact ⟨_, List.append_assoc _ _ _⟩

theorem bytes_at_append_self (A B C : List Nat) :
    bytes_at (A ++ B ++ C) A.length B.length = B := by
  unfold bytes_at
  rw [List.append_assoc, List.drop_left, List.take_left]

/-- What `populate_appendix` makes of each entry: an entry with one value is
kept; an entry with several values gets its tag flagged and a handle to its
sorted values, which lie in the appendix at the offset of the handle. -/
theorem populate_entries_spec (oob : Nat) (l : List (Nat × attr)) (a : appendix)
    (k : Nat) (it : attr) (hmem : (k, it) ∈ l) :
    ∃ it', (k, it') ∈ (populate_entries true oob l a).1 ∧
      (it.count ≤ 1 → it' = it) ∧
      (¬ it.count ≤ 1 → ∃ off, a.data.length ≤ off ∧
        off + 8 * it.values64.length ≤ (populate_entries true oob l a).2.data.length ∧
        it'.saved_val64 = handle64 off it.values64.length ∧
        it'.hash = it.hash ||| 1 ∧
        it'.count = it.count ∧
        bytes_at (populate_entries true oob l a).2.data off (8 * it.values64.length) =
          (qsort compare_uint64 it.values64).flatMap (fun v => le_bytes 8 v)) := by
  induction l generalizing a with
  | nil => simp at hmem
  | cons y l ih =>
    obtain ⟨k1, it1⟩ := y
    simp only [populate_entries]
    by_cases h1 : it1.count ≤ 1
    · simp only [h1, if_true]
      rcases List.mem_cons.mp hmem with h | h
      · simp only [Prod.mk.injEq] at h
        obtain ⟨rfl, rfl⟩ := h
        exact ⟨it, List.mem_cons_self _ _, fun _ => rfl, fun hn => absurd h1 hn⟩
      · obtain ⟨it', h2, h3, h4⟩ := ih a h
        exact ⟨it', List.mem_cons_of_mem _ h2, h3, h4⟩
    · simp only [h1, if_false, if_true]
      have hs := add_element64_spec a it1.values64
      obtain ⟨X, hX⟩ := populate_entries_data oob l (a.add_element64 it1.values64).2.1
      have hlenq : (qsort compare_uint64 it1.values64).length = it1.values64.length :=
        (qsort_perm compare_uint64 it1.values64).length_eq
      rcases List.mem_cons.mp hmem with h | h
      · simp only [Prod.mk.injEq] at h
        obtain ⟨rfl, rfl⟩ := h
        refine ⟨_, List.mem_cons_self _ _, fun hn => absurd hn h1, fun _ => ?_⟩
        refine ⟨a.data.length, Nat.le_refl _, ?_, hs.1, rfl, rfl, ?_⟩
        · rw [hX, hs.2.1]
          simp only [List.length_append, flatMap_le_bytes_length 8 (fun v => v), hlenq]
          omega
        · rw [hX, hs.2.1]
          have := bytes_at_append_self a.data
            ((qsort compare_uint64 it.values64).flatMap (fun v => le_bytes 8 v)) X
          rw [flatMap_le_bytes_length 8 (fun v => v), hlenq] at this
          exact this
      · obtain ⟨it', h2, h3, h4⟩ := ih (a.add_element64 it1.values64).2.1 h
        refine ⟨it', List.mem_cons_of_mem _ h2, h3, fun hn => ?_⟩
        obtain ⟨off, h5, h6⟩ := h4 hn
        refine ⟨off, ?_, h6⟩
        rw [hs.2.1, List.length_append] at h5
        omega


/-! ## The probe of a packed page -/

theorem hash_15bit_read_mod (h : Nat) : hash_15bit_read (h % 65536) = hash_15bit_read h := by
  unfold hash_15bit_read
  apply Nat.eq_of_testBit_eq
  intro i
  have e : (65536 : Nat) = 2 ^ 16 := by norm_num
  rw [e]
  simp only [Nat.testBit_and, Nat.testBit_mod_two_pow]
  by_cases hi : i < 16
  · simp [hi]
  · have : Nat.testBit 0xFFFE i = false := by
      apply Nat.testBit_lt_two_pow
      calc (0xFFFE : Nat) < 2 ^ 16 := by norm_num
        _ ≤ 2 ^ i := Nat.pow_le_pow_right (by norm_num) (by omega)
    simp [this]

theorem attr_of_mem (b : bucket_builder) (hb : b.inv) (it : Nat × attr) (h : it ∈ b.keys) :
    b.attr_of it.1 = it.2 := by
  unfold bucket_builder.attr_of
  rw [map_find_of_mem b.keys it.1 it.2 hb.sorted h]
  rfl

theorem mem_keys_of (b : bucket_builder) (k : Nat) (h : k ∈ b.keys_of) :
    ∃ it ∈ b.keys, it.1 = k := by
  obtain ⟨it, h1, h2⟩ := List.mem_map.mp h
  exact ⟨it, h1, h2⟩

theorem attr_of_tag (b : bucket_builder) (hb : b.inv) (k : Nat) (h : k ∈ b.keys_of) :
    hash_15bit_read (b.attr_of k).hash = hash_15bit_key k b.smallest_key := by
  obtain ⟨it, h1, rfl⟩ := mem_keys_of b k h
  rw [attr_of_mem b hb it h1]
  exact hb.tags it h1

/-- Two keys of a builder have different tags. -/
theorem tags_differ (b : bucket_builder) (hb : b.inv) (k1 k2 : Nat) (h1 : k1 ∈ b.keys_of)
    (h2 : k2 ∈ b.keys_of) (hne : k1 ≠ k2) :
    hash_15bit_key k1 b.smallest_key ≠ hash_15bit_key k2 b.smallest_key := by
  obtain ⟨it1, m1, rfl⟩ := mem_keys_of b _ h1
  obtain ⟨it2, m2, rfl⟩ := mem_keys_of b _ h2
  intro e
  rw [← hb.tags it1 m1, ← hb.tags it2 m2] at e
  have := List.inj_on_of_nodup_map hb.distinct m1 m2 e
  exact hne (by rw [this])

theorem keys_of_nodup (b : bucket_builder) (hb : b.inv) : b.keys_of.Nodup :=
  hb.sorted.imp (fun h => Nat.ne_of_lt h)

theorem get_key_order_nodup (b : bucket_builder) (hb : b.inv) : b.get_key_order.Nodup :=
  (get_key_order_perm b).nodup_iff.mpr (keys_of_nodup b hb)

/-- The tag words of the page `pack` writes, as a probe reads them. -/
theorem page_tags_pack (b : bucket_builder) (hb : b.inv) (mem : Memory) (bucket : Nat)
    (hm : holds mem bucket b.pack) :
    page_tags mem bucket =
      b.get_key_order.map (fun k => (b.attr_of k).hash % 65536) ++
        List.replicate (32 - b.keys.length) 0 := by
  have hn : b.keys.length ≤ 32 := hb.bound
  rw [pack_eq b hn] at hm
  have hlen : (b.get_key_order.map (fun k => (b.attr_of k).hash) ++
      List.replicate (32 - b.keys.length) 0).length = 32 := by
    simp only [List.length_append, List.length_map, List.length_replicate,
      get_key_order_length]
    omega
  rw [page_tags_of_holds mem bucket _ _ hlen hm]
  simp [List.map_append, List.map_map, Function.comp]

/-- The value slot of the key at position `j` of `get_key_order`. -/
theorem slot_pack (b : bucket_builder) (hb : b.inv) (mem : Memory) (bucket : Nat)
    (hm : holds mem bucket b.pack) (pre : List Nat) (k : Nat) (post : List Nat)
    (ho : b.get_key_order = pre ++ k :: post) :
    of_le_bytes (load_bytes mem (bucket + 64 + slot_width b.use_64bit * pre.length)
      (slot_width b.use_64bit)) = b.saved_of k % 256 ^ slot_width b.use_64bit := by
  have hn : b.keys.length ≤ 32 := hb.bound
  rw [pack_eq b hn] at hm
  have hlenT : ((b.get_key_order.map (fun k => (b.attr_of k).hash) ++
      List.replicate (32 - b.keys.length) 0).flatMap (fun t => le_bytes 2 t)).length = 64 := by
    rw [flatMap_le_bytes_length 2 (fun t => t)]
    simp only [List.length_append, List.length_map, List.length_replicate,
      get_key_order_length]
    omega
  have hol := get_key_order_length b
  rw [ho] at hol
  simp only [List.length_append, List.length_cons] at hol
  have hj : pre.length < (b.get_key_order.map b.saved_of ++
      List.replicate (32 - b.keys.length) 0).length := by
    simp only [List.length_append, List.length_map, List.length_replicate,
      get_key_order_length]
    omega
  rw [slot_of_holds mem bucket (slot_width b.use_64bit) _ _ hlenT pre.length hj hm]
  congr 1
  rw [ho, List.map_append, List.append_assoc, List.getD_append_right _ _ _ _ (by simp)]
  simp

/-- The probe of a packed page for a key of the builder finds the slot of the
key. -/
theorem lookup_one_present (b : bucket_builder) (hb : b.inv) (mem : Memory)
    (r : bucket_reader) (idx : Nat)
    (hidx : idx * bucket_builder.get_size_bytes r.use_64bit < 2 ^ 64)
    (hm : holds mem (r.data + idx * bucket_builder.get_size_bytes r.use_64bit) b.pack)
    (pre : List Nat) (k : Nat) (post : List Nat)
    (ho : b.get_key_order = pre ++ k :: post) (ptr_i : Nat) :
    r.lookup_one mem k (idx : Int) b.smallest_key ptr_i =
      (if ((b.attr_of k).hash % 65536) &&& 1 = 0 then
        (1, r.data + idx * bucket_builder.get_size_bytes r.use_64bit + 64 + 8 * pre.length)
      else if r.use_64bit then
        (u32_to_int (load_u64 mem
            (r.data + idx * bucket_builder.get_size_bytes r.use_64bit + 64 + 8 * pre.length)),
         r.apdx + (load_u64 mem
            (r.data + idx * bucket_builder.get_size_bytes r.use_64bit + 64 + 8 * pre.length)
              >>> 32))
      else
        (u32_to_int (load_u32 mem (r.apdx + load_u32 mem
            (r.data + idx * bucket_builder.get_size_bytes r.use_64bit + 64 + 8 * pre.length))),
         r.apdx + load_u32 mem
            (r.data + idx * bucket_builder.get_size_bytes r.use_64bit + 64 + 8 * pre.length)
              + 4)) := by
  have hbp : get_bucket_ptr r.data (int_to_u64 (idx : Int)) r.use_64bit =
      r.data + idx * bucket_builder.get_size_bytes r.use_64bit :=
    get_bucket_ptr_index r.data idx r.use_64bit hidx
  have hperm := get_key_order_perm b
  have hnd := get_key_order_nodup b hb
  have hk : k ∈ b.keys_of := hperm.mem_iff.mp (by rw [ho]; simp)
  have hpt := page_tags_pack b hb mem _ hm
  rw [ho, List.map_append, List.map_cons, List.append_assoc, List.cons_append] at hpt
  rw [← hbp] at hpt
  have hnd2 := hnd
  rw [ho] at hnd2
  have hkpre : k ∉ pre := by
    intro hin
    have := (List.nodup_append.mp hnd2).2.2
    exact this hin (List.mem_cons_self _ _)
  have h := lookup_one_hit mem r k (idx : Int) b.smallest_key ptr_i _ _ _ hpt
    (by
      intro y hy
      obtain ⟨k', hk', rfl⟩ := List.mem_map.mp hy
      have hk'2 : k' ∈ b.keys_of := hperm.mem_iff.mp (by rw [ho]; simp [hk'])
      rw [hash_15bit_read_mod, attr_of_tag b hb k' hk'2]
      apply tags_differ b hb k k' hk hk'2
      intro e
      rw [e] at hkpre
      exact hkpre hk')
    (by rw [hash_15bit_read_mod, attr_of_tag b hb k hk])
  rw [h, List.length_map, hbp]


/-! ## C7 and C8: the tags and the size of a page -/

theorem holds_block_at (page : List Nat) : holds (block_at 0 page) 0 page := by
  intro i _
  simp [block_at]

theorem page_tags_block_at (page : List Nat) :
    page_tags (block_at 0 page) 0 = (List.range 32).map (fun i => page_tag page i) := by
  unfold page_tags
  apply List.map_congr_left
  intro i _
  simp [load_u16, load_bytes, block_at, page_tag, of_le_bytes, List.range_succ]

/-- The tag word `i` of a packed page: the tag of key `i` of `get_key_order`
for `i` below the number of keys, zero from there on. -/
theorem page_tag_pack (b : bucket_builder) (hb : b.inv) (i : Nat) (hi : i < 32) :
    page_tag b.pack i =
      if h : i < b.get_key_order.length then (b.attr_of (b.get_key_order[i])).hash % 65536
      else 0 := by
  have h1 := page_tags_pack b hb (block_at 0 b.pack) 0 (holds_block_at _)
  rw [page_tags_block_at] at h1
  have h2 := congrArg (fun l => l.getD i 0) h1
  simp only [] at h2
  rw [List.getD_eq_getElem _ _ (by simp; exact hi)] at h2
  simp only [List.getElem_map, List.getElem_range] at h2
  rw [h2]
  by_cases h : i < b.get_key_order.length
  · rw [dif_pos h, List.getD_append _ _ _ _ (by simp; exact h),
      List.getD_eq_getElem _ _ (by simp; exact h)]
    simp
  · rw [dif_neg h, List.getD_append_right _ _ _ _ (by simp; omega)]
    rw [List.getD_eq_getElem?_getD]
    cases hg : (List.replicate (32 - b.keys.length) 0)[i -
        (List.map (fun k => (b.attr_of k).hash % 65536) b.get_key_order).length]? with
    | none => rfl
    | some x =>
      have := List.getElem?_mem hg
      rw [List.mem_replicate] at this
      simp [this.2]

theorem get_key_order_mem (b : bucket_builder) (i : Nat) (h : i < b.get_key_order.length) :
    b.get_key_order[i] ∈ b.keys_of :=
  (get_key_order_perm b).mem_iff.mp (List.getElem_mem h)

/-- C7: in every builder reachable by `push` (and `clear` and
`populate_appendix`) the tags, bit 0 masked off, are pairwise distinct and
non-zero, and so are the tag words that `populate_appendix` and `pack` store
in the page for the keys; the remaining tag words of the page are zero. -/
theorem C7_tag_uniqueness (b : bucket_builder) (hb : b.reachable) (oob : Nat) (a : appendix) :
    (b.keys.map (fun it => hash_15bit_read it.2.hash)).Nodup ∧
    (∀ it ∈ b.keys, hash_15bit_read it.2.hash ≠ 0) ∧
    (∀ i, i < b.keys.length →
      hash_15bit_read (page_tag (b.populate_appendix oob a).1.pack i) ≠ 0) ∧
    (∀ i j, i < b.keys.length → j < b.keys.length → i ≠ j →
      hash_15bit_read (page_tag (b.populate_appendix oob a).1.pack i) ≠
        hash_15bit_read (page_tag (b.populate_appendix oob a).1.pack j)) ∧
    (∀ i, b.keys.length ≤ i → i < 32 →
      page_tag (b.populate_appendix oob a).1.pack i = 0) := by
  have hi := reachable_inv b hb
  have hi' := inv_populate b oob a hi
  have hlen : (b.populate_appendix oob a).1.get_key_order.length = b.keys.length := by
    rw [get_key_order_length]
    have := congrArg List.length (populate_entries_map b.use_64bit oob b.keys a)
    simpa using this
  have hbound : b.keys.length ≤ 32 := hi.bound
  have htag : ∀ i (h : i < (b.populate_appendix oob a).1.get_key_order.length),
      hash_15bit_read (page_tag (b.populate_appendix oob a).1.pack i) =
        hash_15bit_key ((b.populate_appendix oob a).1.get_key_order[i]) b.smallest_key := by
    intro i h
    rw [page_tag_pack _ hi' i (by omega), dif_pos h, hash_15bit_read_mod,
      attr_of_tag _ hi' _ (get_key_order_mem _ i h)]
    rfl
  refine ⟨hi.distinct, ?_, ?_, ?_, ?_⟩
  · intro it hit
    rw [hi.tags it hit]
    exact hash_15bit_key_ne_zero _ _
  · intro i h
    rw [htag i (by omega)]
    exact hash_15bit_key_ne_zero _ _
  · intro i j h1 h2 hne
    rw [htag i (by omega), htag j (by omega)]
    have hs : (b.populate_appendix oob a).1.smallest_key = b.smallest_key := rfl
    rw [← hs]
    apply tags_differ _ hi' _ _ (get_key_order_mem _ i (by omega))
      (get_key_order_mem _ j (by omega))
    intro e
    exact hne ((List.Nodup.getElem_inj_iff (get_key_order_nodup _ hi')).mp e)
  · intro i h1 h2
    rw [page_tag_pack _ hi' i h2, dif_neg (by omega)]

theorem C7_tag_uniqueness_witness :
    example_bucket.reachable ∧
    (∀ i j, i < example_bucket.keys.length → j < example_bucket.keys.length → i ≠ j →
      hash_15bit_read (page_tag (example_bucket.populate_appendix 0 ⟨[]⟩).1.pack i) ≠
        hash_15bit_read (page_tag (example_bucket.populate_appendix 0 ⟨[]⟩).1.pack j)) :=
  ⟨example_bucket_reachable,
   (C7_tag_uniqueness example_bucket example_bucket_reachable 0 ⟨[]⟩).2.2.2.1⟩


theorem slot_writes_bounds (wd : Nat) (tag sv : Nat → Nat) (order : List Nat) (hc vc : Nat) :
    ∀ w ∈ slot_writes wd tag sv order hc vc,
      (hc ≤ w.1 ∧ w.1 + w.2.length ≤ hc + 2 * order.length) ∨
      (vc ≤ w.1 ∧ w.1 + w.2.length ≤ vc + wd * order.length) := by
  induction order generalizing hc vc with
  | nil => simp [slot_writes]
  | cons k order ih =>
    intro w hw
    simp only [slot_writes, List.mem_cons] at hw
    have hmul : wd * (order.length + 1) = wd * order.length + wd := by ring
    simp only [List.length_cons]
    rcases hw with h | h | h
    · left; rw [h]; simp only [le_bytes_length]; omega
    · right; rw [h]; simp only [le_bytes_length]; omega
    · rcases ih (hc + 2) (vc + wd) w h with h1 | h1
      · left; omega
      · right; omega

theorem pack_length (b : bucket_builder) :
    b.pack.length = bucket_builder.get_size_bytes b.use_64bit := by
  unfold bucket_builder.pack
  generalize pack_writes b b.get_key_order 0 CACHE_LINE_SIZE = ws
  have : ∀ (page : List Nat),
      (ws.foldl (fun page w => store_bytes page w.1 w.2) page).length = page.length := by
    induction ws with
    | nil => intro page; rfl
    | cons w ws ih =>
      intro page
      simp only [List.foldl_cons]
      rw [ih, store_bytes_length]
  rw [this, List.length_replicate]

/-- After a successful `push` the key of the record is in the builder, and so
are the keys that were. -/
theorem push_keys (b : bucket_builder) (m : record) (hb : b.inv) (h : (b.push m).1 = 0) :
    m.key ∈ (b.push m).2.keys_of ∧ ∀ k ∈ b.keys_of, k ∈ (b.push m).2.keys_of := by
  rcases push_cases b m hb with ⟨a, hf, hp⟩ | ⟨hf, hne, hp⟩ | ⟨hf, hl, hp⟩
  · rw [hp]
    simp only []
    rw [keys_of_map_set_old b m.key _ a hb hf]
    exact ⟨mem_keys_of_find b m.key a hf, fun k hk => hk⟩
  · rw [hp] at h; simp at h
  · rw [hp]
    simp only []
    constructor
    · apply List.mem_map.mpr
      exact ⟨(m.key, _), (mem_map_set_new b.keys m.key _ hf _).mpr (Or.inl rfl), rfl⟩
    · intro k hk
      obtain ⟨it, h1, h2⟩ := mem_keys_of b k hk
      apply List.mem_map.mpr
      exact ⟨it, (mem_map_set_new b.keys m.key _ hf _).mpr (Or.inr h1), h2⟩

theorem push_fail_same (b : bucket_builder) (m : record) (hb : b.inv) (h : ¬ (b.push m).1 = 0) :
    (b.push m).2 = b := by
  rcases push_cases b m hb with ⟨a, hf, hp⟩ | ⟨hf, hne, hp⟩ | ⟨hf, hl, hp⟩
  · rw [hp] at h; simp at h
  · rw [hp]
  · rw [hp] at h; simp at h

/-- The loop of `build` on any records: every bucket satisfies the builder
invariant and every record consumed has its key in a bucket. -/
theorem build_loop_cover (n : Nat) (stream pre : List record) (E : List bucket_builder)
    (bb : bucket_builder)
    (hc : ∀ m ∈ pre, m.key ∈ (E ++ [bb]).flatMap bucket_builder.keys_of)
    (hi : ∀ b ∈ E ++ [bb], b.inv) :
    (∀ m ∈ pre ++ stream.take n, m.key ∈
      (E ++ (build_loop_buckets n stream bb).1 ++
        [(build_loop_buckets n stream bb).2]).flatMap bucket_builder.keys_of) ∧
    (∀ b ∈ E ++ (build_loop_buckets n stream bb).1 ++ [(build_loop_buckets n stream bb).2],
      b.inv) := by
  induction n generalizing stream pre E bb with
  | zero =>
    simp only [build_loop_buckets, List.take_zero, List.append_nil]
    exact ⟨hc, hi⟩
  | succ n ih =>
    cases stream with
    | nil =>
      simp only [build_loop_buckets, List.take_nil, List.append_nil]
      exact ⟨hc, hi⟩
    | cons m s =>
      have htake : pre ++ (m :: s).take (n + 1) = (pre ++ [m]) ++ s.take n := by simp
      have hbb : bb.inv := hi bb (by simp)
      rw [htake]
      simp only [build_loop_buckets]
      by_cases h : (bb.push m).1 = 0
      · simp only [h, if_true]
        have hk := push_keys bb m hbb h
        apply ih s (pre ++ [m]) E (bb.push m).2
        · intro m' hm'
          rw [flatMap_snoc]
          rcases List.mem_append.mp hm' with h1 | h1
          · have := hc m' h1
            rw [flatMap_snoc] at this
            rcases List.mem_append.mp this with h2 | h2
            · exact List.mem_append_left _ h2
            · exact List.mem_append_right _ (hk.2 _ h2)
          · simp only [List.mem_singleton] at h1
            rw [h1]; exact List.mem_append_right _ hk.1
        · intro b hb
          rcases List.mem_append.mp hb with h1 | h1
          · exact hi b (List.mem_append_left _ h1)
          · simp only [List.mem_singleton] at h1
            rw [h1]; exact inv_push bb m hbb
      · simp only [h, if_false]
        rw [push_fail_same bb m hbb h]
        have hpe := push_empty bb.clear m rfl
        have h0 : (bb.clear.push m).1 = 0 := by rw [hpe]
        have hk := push_keys bb.clear m (inv_clear bb) h0
        have := ih s (pre ++ [m]) (E ++ [bb]) (bb.clear.push m).2
          (by
            intro m' hm'
            rw [flatMap_snoc]
            rcases List.mem_append.mp hm' with h1 | h1
            · exact List.mem_append_left _ (hc m' h1)
            · simp only [List.mem_singleton] at h1
              rw [h1]; exact List.mem_append_right _ hk.1)
          (by
            intro b hb
            rcases List.mem_append.mp hb with h1 | h1
            · exact hi b h1
            · simp only [List.mem_singleton] at h1
              rw [h1]; exact inv_push _ m (inv_clear bb))
        simpa [List.append_assoc] using this

theorem build_buckets_cover (u : Bool) (n : Nat) (stream : List record) :
    (∀ m ∈ stream.take n, m.key ∈
      (build_buckets u n stream).flatMap bucket_builder.keys_of) ∧
    (∀ b ∈ build_buckets u n stream, b.inv) := by
  have h := build_loop_cover n stream [] [] (bucket_builder.new u) (by simp)
    (by
      intro b hb
      simp only [List.nil_append, List.mem_singleton] at hb
      rw [hb]; exact inv_new u)
  simp only [List.nil_append] at h
  unfold build_buckets
  simp only []
  split
  · exact h
  · rename_i h0
    have hk : (build_loop_buckets n stream (bucket_builder.new u)).2.keys = [] := by
      unfold bucket_builder.get_used_bytes at h0
      apply List.length_eq_zero.mp
      omega
    constructor
    · intro m hm
      have := h.1 m hm
      rw [flatMap_snoc] at this
      rcases List.mem_append.mp this with h1 | h1
      · exact h1
      · simp [bucket_builder.keys_of, hk] at h1
    · intro b hb
      exact h.2 b (List.mem_append_left _ hb)

theorem flatMap_keys_length (B : List bucket_builder) (h : ∀ b ∈ B, b.inv) :
    (B.flatMap bucket_builder.keys_of).length ≤ 32 * B.length := by
  induction B with
  | nil => simp
  | cons b B ih =>
    rw [List.flatMap_cons, List.length_append, List.length_cons]
    have h1 := (h b (List.mem_cons_self _ _)).bound
    have h2 := ih (fun b' hb' => h b' (List.mem_cons_of_mem _ hb'))
    have h3 : b.keys_of.length = b.keys.length := by simp [bucket_builder.keys_of]
    unfold MAX_KEYS_IN_PAGE at h1
    omega

/-- C8: a reachable builder holds at most 32 keys; the page packed from it has
`get_size_bytes` bytes, 64 + 32 * 8 = 320 in 64-bit mode and 64 + 32 * 4 = 192
in 32-bit mode, every store of `pack` lies inside it, and its non-zero tag
words are those of the keys, at most 32; a build over `d` distinct keys emits
at least `d / 32` buckets, rounded up; and the 40 singleton keys 100 .. 139
give at least 2 buckets with `ranges[0] = 100` and `ranges[1] <= 132`. -/
theorem C8_population_bound (b : bucket_builder) (hb : b.reachable) :
    b.get_distinct_key_num ≤ 32 ∧
    (b.pack.length = bucket_builder.get_size_bytes b.use_64bit ∧
      bucket_builder.get_size_bytes true = 64 + 32 * 8 ∧
      bucket_builder.get_size_bytes false = 64 + 32 * 4 ∧
      (∀ w ∈ pack_writes b b.get_key_order 0 CACHE_LINE_SIZE,
        w.1 + w.2.length ≤ bucket_builder.get_size_bytes b.use_64bit) ∧
      (∀ i, i < 32 → (page_tag b.pack i ≠ 0 ↔ i < b.get_distinct_key_num))) ∧
    (∀ (use_64bit : Bool) (oob n : Nat) (stream : List record),
      (((stream.take n).map (fun m => m.key)).dedup.length + 31) / 32 ≤
        ((db_builder.new use_64bit).build oob n stream).bucket_num ∧
      ((db_builder.new use_64bit).build oob n stream).bucket_num =
        (build_buckets use_64bit n stream).length) ∧
    (2 ≤ ((db_builder.new true).build 0 40 records_100_139).bucket_num ∧
      ((db_builder.new true).build 0 40 records_100_139).get_ranges[0]? = some 100 ∧
      ∃ r, ((db_builder.new true).build 0 40 records_100_139).get_ranges[1]? = some r ∧
        r ≤ 132) := by
  have hi := reachable_inv b hb
  have hbound : b.keys.length ≤ 32 := hi.bound
  refine ⟨hbound, ⟨pack_length b, rfl, rfl, ?_, ?_⟩, ?_, ?_⟩
  · intro w hw
    rw [pack_writes_eq] at hw
    have := slot_writes_bounds _ _ _ _ _ _ w hw
    rw [get_key_order_length] at this
    have hmul : slot_width b.use_64bit * b.keys.length ≤ slot_width b.use_64bit * 32 :=
      Nat.mul_le_mul_left _ hbound
    have hsz : bucket_builder.get_size_bytes b.use_64bit = 64 + slot_width b.use_64bit * 32 := by
      unfold bucket_builder.get_size_bytes slot_width; cases b.use_64bit <;> rfl
    unfold CACHE_LINE_SIZE at this
    rw [hsz]
    omega
  · intro i h32
    rw [page_tag_pack b hi i h32]
    unfold bucket_builder.get_distinct_key_num
    rw [← get_key_order_length]
    by_cases h : i < b.get_key_order.length
    · rw [dif_pos h]
      simp only [h, iff_true]
      intro e
      have h1 := attr_of_tag b hi _ (get_key_order_mem b i h)
      rw [← hash_15bit_read_mod, e] at h1
      exact hash_15bit_key_ne_zero _ _ h1.symm
    · simp [dif_neg h, h]
  · intro use_64bit oob n stream
    have hc := build_buckets_cover use_64bit n stream
    have hnum := build_bucket_num (db_builder.new use_64bit) oob n stream
    have h0 : (db_builder.new use_64bit).bucket_num = 0 := rfl
    have hu : (db_builder.new use_64bit).use_64bit = use_64bit := rfl
    rw [h0, hu, Nat.zero_add] at hnum
    refine ⟨?_, hnum⟩
    rw [hnum]
    have hsub : ((stream.take n).map (fun m => m.key)).dedup ⊆
        (build_buckets use_64bit n stream).flatMap bucket_builder.keys_of := by
      intro k hk
      rw [List.mem_dedup] at hk
      obtain ⟨m, hm, rfl⟩ := List.mem_map.mp hk
      exact hc.1 m hm
    have hle := ((List.nodup_dedup _).subperm hsub).length_le
    have := flatMap_keys_length _ hc.2
    omega
  · decide

theorem C8_population_bound_witness :
    example_bucket.reachable ∧ example_bucket.get_distinct_key_num ≤ 32 ∧
    example_bucket.pack.length = 320 :=
  ⟨example_bucket_reachable,
   (C8_population_bound example_bucket example_bucket_reachable).1,
   (C8_population_bound example_bucket example_bucket_reachable).2.1.1⟩


/-! ## C2: the round trip of `pack` and `lookup_batch` -/

theorem handle64_decode (off cnt : Nat) (ho : off < 2 ^ 32) (hc : cnt < 2 ^ 32) :
    handle64 off cnt % 2 ^ 32 = cnt ∧ handle64 off cnt >>> 32 = off ∧
    handle64 off cnt < 2 ^ 64 := by
  have e1 : (off <<< 32) % 2 ^ 64 = 2 ^ 32 * off := by
    rw [Nat.shiftLeft_eq, Nat.mod_eq_of_lt, Nat.mul_comm]
    calc off * 2 ^ 32 < 2 ^ 32 * 2 ^ 32 := by omega
      _ = 2 ^ 64 := by norm_num
  have e2 : cnt % 2 ^ 32 = cnt := Nat.mod_eq_of_lt hc
  have e3 : handle64 off cnt = 2 ^ 32 * off + cnt := by
    unfold handle64
    rw [e1, e2]; exact (Nat.mul_add_lt_is_or hc off).symm
  rw [e3, Nat.shiftRight_eq_div_pow]
  refine ⟨by omega, by omega, by omega⟩

theorem bytes_at_getD (D : List Nat) (off m i : Nat) (hi : i < m) :
    (bytes_at D off m).getD i 0 = D.getD (off + i) 0 := by
  unfold bytes_at
  rw [List.getD_eq_getElem?_getD, List.getD_eq_getElem?_getD, List.getElem?_take_of_lt hi,
    List.getElem?_drop]

/-- The values a caller reads through a pointer into a block that holds the
little-endian 64-bit words `S` at offset `off`. -/
theorem load_u64s_of_bytes (mem : Memory) (base off n : Nat) (D S : List Nat)
    (hm : holds mem base D) (hlen : S.length = n) (hoff : off + 8 * n ≤ D.length)
    (hb : bytes_at D off (8 * n) = S.flatMap (fun v => le_bytes 8 v)) :
    load_u64s mem (base + off) n = S.map (fun v => v % 2 ^ 64) := by
  unfold load_u64s
  apply List.ext_getElem
  · simp [hlen]
  · intro j h1 h2
    simp only [List.length_map, List.length_range] at h1
    simp only [List.getElem_map, List.getElem_range]
    have hbj : load_bytes mem (base + off + 8 * j) 8 = le_bytes 8 (S.getD j 0) := by
      apply load_bytes_eq _ _ _ _ (le_bytes_length 8 _)
      intro t ht
      have e : base + off + 8 * j + t = base + (off + (8 * j + t)) := by omega
      rw [e, hm _ (by omega), ← bytes_at_getD D off (8 * n) (8 * j + t) (by omega),
        hb]
      have := flatMap_le_bytes_getD 8 S [] j t (by omega) ht
      rwa [List.append_nil] at this
    unfold load_u64
    rw [hbj, of_le_bytes_le_bytes, List.getD_eq_getElem _ _ (by omega)]
    norm_num

theorem qsort_singleton (v : Nat) : qsort compare_uint64 [v] = [v] := by
  simp [qsort, msort_with_tmp]

theorem holds_append_left (mem : Memory) (base : Nat) (D Y : List Nat) (h : holds mem base (D ++ Y)) :
    holds mem base D := by
  intro i hi
  rw [h i (by rw [List.length_append]; omega), List.getD_append _ _ _ _ hi]

/-- The probe of the page packed from a 64-bit builder, for a key of the
builder: the count of the key and a pointer to its values in ascending order,
into the value slot of the key if it has one value and into the appendix
otherwise.  `D` is the appendix as the reader holds it, which may have grown
since the bucket was packed. -/
theorem lookup_filled (b : bucket_builder) (vals : Nat → List Nat) (hf : filled b vals)
    (oob : Nat) (A : appendix) (mem : Memory) (r : bucket_reader) (hr : r.use_64bit = true)
    (idx : Nat) (hidx : idx * 320 < 2 ^ 64)
    (hpage : holds mem (r.data + idx * 320) (b.populate_appendix oob A).1.pack)
    (D : List Nat) (hD : ∃ Y, D = (b.populate_appendix oob A).2.data ++ Y)
    (happ : holds mem r.apdx D)
    (hsz : (b.populate_appendix oob A).2.data.length < 2 ^ 32)
    (k : Nat) (hk : k ∈ b.keys_of) (ptr_i : Nat) :
    ∃ ptr, r.lookup_one mem k (idx : Int) b.smallest_key ptr_i =
        ((((vals k).length : Nat) : Int), ptr) ∧
      load_u64s mem ptr (vals k).length = qsort compare_uint64 (vals k) ∧
      ((vals k).length = 1 →
        ∃ slot, slot < b.keys.length ∧ ptr = r.data + idx * 320 + 64 + 8 * slot) ∧
      ((vals k).length ≠ 1 →
        ∃ off, A.data.length ≤ off ∧
          off + 8 * (vals k).length ≤ (b.populate_appendix oob A).2.data.length ∧
          ptr = r.apdx + off) := by
  have hinv' := inv_populate b oob A hf.inv
  have hmode : (b.populate_appendix oob A).1.use_64bit = true := hf.mode
  have hkeys : (b.populate_appendix oob A).1.keys = (populate_entries true oob b.keys A).1 := by
    unfold bucket_builder.populate_appendix; simp only [hf.mode]
  have hdata : (b.populate_appendix oob A).2.data = (populate_entries true oob b.keys A).2.data := by
    unfold bucket_builder.populate_appendix; simp only [hf.mode]
  have hkeys_of : (b.populate_appendix oob A).1.keys_of = b.keys_of := by
    have hm := populate_entries_map b.use_64bit oob b.keys A
    have := congrArg (List.map (fun t : Nat × Nat × Nat => t.1)) hm
    simpa [List.map_map, Function.comp] using this
  have hlen' : (b.populate_appendix oob A).1.keys.length = b.keys.length := by
    have := congrArg List.length hkeys_of
    simpa [bucket_builder.keys_of] using this
  obtain ⟨e, he, hek⟩ := mem_keys_of b k hk
  obtain ⟨k0, it⟩ := e
  simp only at hek
  subst hek
  have hat := hf.attrs (k0, it) he
  have hne := hf.nonempty (k0, it) he
  have hty := hf.typed (k0, it) he
  simp only at hat hne hty
  have hcount : it.count = (vals k0).length := by rw [hat]; rfl
  have hvals : it.values64 = vals k0 := by rw [hat]; rfl
  have hsaved : it.saved_val64 = (vals k0).getD 0 0 := by rw [hat]; rfl
  have hhash : it.hash = hash_15bit_key k0 b.smallest_key := by rw [hat]; rfl
  have hHlt := hash_15bit_key_lt k0 b.smallest_key
  have hHev := hash_15bit_key_even k0 b.smallest_key
  obtain ⟨it', hit', hsingle, hmulti⟩ := populate_entries_spec oob b.keys A k0 it he
  rw [← hkeys] at hit'
  have hattr : (b.populate_appendix oob A).1.attr_of k0 = it' :=
    attr_of_mem _ hinv' (k0, it') hit'
  have hkin : k0 ∈ (b.populate_appendix oob A).1.get_key_order :=
    (get_key_order_perm _).mem_iff.mpr (by rw [hkeys_of]; exact hk)
  obtain ⟨pre, post, ho⟩ := List.append_of_mem hkin
  have holen := get_key_order_length (b.populate_appendix oob A).1
  rw [ho, hlen'] at holen
  simp only [List.length_append, List.length_cons] at holen
  have hsize : bucket_builder.get_size_bytes r.use_64bit = 320 := by rw [hr]; rfl
  have hpage2 : holds mem (r.data + idx * bucket_builder.get_size_bytes r.use_64bit)
      (b.populate_appendix oob A).1.pack := by rw [hsize]; exact hpage
  have hlook := lookup_one_present _ hinv' mem r idx (by rw [hsize]; exact hidx) hpage2 pre k0
    post ho ptr_i
  have hsk : (b.populate_appendix oob A).1.smallest_key = b.smallest_key := rfl
  rw [hsk, hattr, hsize, hr] at hlook
  have hslot := slot_pack _ hinv' mem _ hpage pre k0 post ho
  rw [hmode] at hslot
  have hsw : slot_width true = 8 := rfl
  rw [hsw] at hslot
  have hsv : (b.populate_appendix oob A).1.saved_of k0 = it'.saved_val64 := by
    unfold bucket_builder.saved_of; rw [hmode, hattr]; rfl
  rw [hsv] at hslot
  have h256 : (256 : Nat) ^ 8 = 2 ^ 64 := by norm_num
  rw [h256] at hslot
  by_cases hc : it.count ≤ 1
  · have hit := hsingle hc
    have hlen1 : (vals k0).length = 1 := by
      have : (vals k0).length ≠ 0 := fun h => hne (List.length_eq_zero.mp h)
      omega
    obtain ⟨v, hv⟩ : ∃ v, vals k0 = [v] := by
      match hvk : vals k0, hlen1 with
      | [v], _ => exact ⟨v, rfl⟩
    have hbit : (it'.hash % 65536) &&& 1 = 0 := by
      rw [hit, hhash, Nat.and_one_is_mod]
      have : hash_15bit_key k0 b.smallest_key % 65536 = hash_15bit_key k0 b.smallest_key :=
        Nat.mod_eq_of_lt (by norm_num at hHlt ⊢; exact hHlt)
      rw [this]; exact hHev
    rw [if_pos hbit] at hlook
    refine ⟨r.data + idx * 320 + 64 + 8 * pre.length, ?_, ?_, ?_, ?_⟩
    · rw [hlook, hlen1]; rfl
    · rw [hlen1, hv, qsort_singleton]
      have hl : load_u64 mem (r.data + idx * 320 + 64 + 8 * pre.length) = v := by
        unfold load_u64
        rw [hslot, hit, hsaved, hv]
        have := hty v (by rw [hv]; simp)
        simp only [List.getD_cons_zero]
        exact Nat.mod_eq_of_lt this
      simp [load_u64s, List.range_succ, hl]
    · intro _
      exact ⟨pre.length, by omega, rfl⟩
    · intro h; exact absurd hlen1 h
  · obtain ⟨off, ho1, ho2, hs1, hh1, _, hb1⟩ := hmulti hc
    rw [← hdata] at ho2 hb1
    rw [hvals] at ho2 hs1 hb1
    have hoff : off < 2 ^ 32 := by omega
    have hcnt : (vals k0).length < 2 ^ 31 := by omega
    have hdec := handle64_decode off (vals k0).length hoff (by omega)
    have hbit : ¬ (it'.hash % 65536) &&& 1 = 0 := by
      rw [hh1, hhash, or_one_even _ hHev, Nat.and_one_is_mod]
      have : (hash_15bit_key k0 b.smallest_key + 1) % 65536 =
          hash_15bit_key k0 b.smallest_key + 1 :=
        Nat.mod_eq_of_lt (by norm_num at hHlt ⊢; omega)
      rw [this]; omega
    rw [if_neg hbit] at hlook
    simp only [if_true] at hlook
    have hl : load_u64 mem (r.data + idx * 320 + 64 + 8 * pre.length) =
        handle64 off (vals k0).length := by
      unfold load_u64
      rw [hslot, hs1]
      exact Nat.mod_eq_of_lt hdec.2.2
    rw [hl, hdec.2.1] at hlook
    have hu : u32_to_int (handle64 off (vals k0).length) = (((vals k0).length : Nat) : Int) := by
      unfold u32_to_int
      rw [hdec.1, if_pos hcnt]
    rw [hu] at hlook
    refine ⟨_, hlook, ?_, ?_, ?_⟩
    · obtain ⟨Y, hY⟩ := hD
      have hq := (qsort_perm compare_uint64 (vals k0))
      have hm2 : holds mem r.apdx (b.populate_appendix oob A).2.data := by
        apply holds_append_left mem r.apdx _ Y
        rw [← hY]; exact happ
      rw [load_u64s_of_bytes mem r.apdx off _ _ (qsort compare_uint64 (vals k0)) hm2
        hq.length_eq ho2 hb1]
      have hid : ∀ v ∈ qsort compare_uint64 (vals k0), v % 2 ^ 64 = id v := by
        intro v hv
        exact Nat.mod_eq_of_lt (hty v (hq.mem_iff.mp hv))
      rw [List.map_congr_left hid, List.map_id]
    · intro h1
      rw [hcount] at hc
      omega
    · intro _
      exact ⟨off, ho1, ho2, rfl⟩


theorem filled_push (b : bucket_builder) (pre : List record) (m : record)
    (hf : filled b (values_of pre)) (hc : ∀ m' ∈ pre, m'.key ∈ b.keys_of)
    (hs : ∀ k ∈ b.keys_of, ∃ m' ∈ pre, m'.key = k)
    (hm : m.wf) (hp : (b.push m).1 = 0) :
    filled (b.push m).2 (values_of (pre ++ [m])) ∧
    (∀ m' ∈ pre ++ [m], m'.key ∈ (b.push m).2.keys_of) ∧
    (∀ k ∈ (b.push m).2.keys_of, ∃ m' ∈ pre ++ [m], m'.key = k) ∧
    (b.keys ≠ [] → (b.push m).2.smallest_key = b.smallest_key) ∧
    (b.keys = [] → (b.push m).2.smallest_key = m.key) := by
  have hinv := hf.inv
  have hpk := push_keys b m hinv hp
  have hcov : ∀ m' ∈ pre ++ [m], m'.key ∈ (b.push m).2.keys_of := by
    intro m' hm'
    rcases List.mem_append.mp hm' with h | h
    · exact hpk.2 _ (hc m' h)
    · simp only [List.mem_singleton] at h; rw [h]; exact hpk.1
  rcases push_cases b m hinv with ⟨a, hfd, hpe⟩ | ⟨hfd, hne, hpe⟩ | ⟨hfd, hl, hpe⟩
  · have hamem := map_find_some_mem _ _ _ hfd
    have ha := hf.attrs (m.key, a) hamem
    have hvne := hf.nonempty (m.key, a) hamem
    simp only at ha hvne
    have hko : (b.push m).2.keys_of = b.keys_of := by
      rw [hpe]; exact keys_of_map_set_old b m.key _ a hinv hfd
    have hent : ∀ it ∈ (b.push m).2.keys,
        it = (m.key, attr.pushed b.use_64bit a m.value) ∨ (it ∈ b.keys ∧ it.1 ≠ m.key) := by
      intro it hit
      rw [hpe] at hit
      exact (mem_map_set _ _ _ hinv.sorted it).mp hit
    have hsk : (b.push m).2.smallest_key = b.smallest_key := by rw [hpe]; rfl
    refine ⟨⟨inv_push b m hinv, by rw [hpe]; exact hf.mode, ?_, ?_, ?_⟩, hcov, ?_,
      fun _ => hsk, ?_⟩
    · intro it hit
      rw [hsk]
      rcases hent it hit with h | h
      · rw [h, values_of_append]
        simp only [if_true]
        rw [ha, hf.mode, attr_pushed_spec _ _ _ _ hvne]
      · rw [values_of_append]
        have : ¬ m.key = it.1 := fun e => h.2 e.symm
        simp only [this, if_false, List.append_nil]
        exact hf.attrs it h.1
    · intro it hit
      rw [values_of_append]
      rcases hent it hit with h | h
      · rw [h]; simp
      · have := hf.nonempty it h.1
        intro e
        exact this (List.append_eq_nil.mp e).1
    · intro it hit v hv
      rw [values_of_append] at hv
      rcases List.mem_append.mp hv with h1 | h1
      · rcases hent it hit with h | h
        · rw [h] at h1; exact hf.typed (m.key, a) hamem v h1
        · exact hf.typed it h.1 v h1
      · by_cases he : m.key = it.1
        · simp only [he, if_true, List.mem_singleton] at h1
          rw [h1]; exact hm.2
        · simp [he] at h1
    · intro k hk
      rw [hko] at hk
      obtain ⟨m', h1, h2⟩ := hs k hk
      exact ⟨m', List.mem_append_left _ h1, h2⟩
    · intro h0
      rw [h0] at hamem
      simp at hamem
  · rw [hpe] at hp; simp at hp
  · have habs : ∀ m' ∈ pre, m'.key ≠ m.key := by
      intro m' hm' e
      have := hc m' hm'
      rw [e] at this
      exact (map_find_none_iff b.keys m.key).mp hfd this
    have hent : ∀ it ∈ (b.push m).2.keys,
        it = (m.key, attr_spec true (hash_15bit_key m.key (b.base_for m)) [m.value]) ∨
          it ∈ b.keys := by
      intro it hit
      rw [hpe] at hit
      have := (mem_map_set_new b.keys m.key _ hfd it).mp hit
      rw [attr_pushed_fresh, hf.mode] at this
      exact this
    have hsk : (b.push m).2.smallest_key = b.base_for m := by rw [hpe]; rfl
    have hbase : b.keys ≠ [] → b.base_for m = b.smallest_key := by
      intro h0
      unfold bucket_builder.base_for
      have : b.keys.length ≠ 0 := fun h => h0 (List.length_eq_zero.mp h)
      simp [this]
    have hold : ∀ it ∈ b.keys, it.1 ≠ m.key := by
      intro it hit e
      exact (map_find_none_iff b.keys m.key).mp hfd (List.mem_map.mpr ⟨it, hit, e⟩)
    refine ⟨⟨inv_push b m hinv, by rw [hpe]; exact hf.mode, ?_, ?_, ?_⟩, hcov, ?_, ?_, ?_⟩
    · intro it hit
      rw [hsk]
      rcases hent it hit with h | h
      · rw [h, values_of_append, values_of_absent pre m.key habs]
        simp
      · rw [values_of_append]
        have : ¬ m.key = it.1 := fun e => hold it h e.symm
        simp only [this, if_false, List.append_nil]
        rw [hbase (by intro h0; rw [h0] at h; simp at h)]
        exact hf.attrs it h
    · intro it hit
      rw [values_of_append]
      rcases hent it hit with h | h
      · rw [h]; simp
      · have := hf.nonempty it h
        intro e
        exact this (List.append_eq_nil.mp e).1
    · intro it hit v hv
      rw [values_of_append] at hv
      rcases List.mem_append.mp hv with h1 | h1
      · rcases hent it hit with h | h
        · rw [h, values_of_absent pre m.key habs] at h1; simp at h1
        · exact hf.typed it h v h1
      · by_cases he : m.key = it.1
        · simp only [he, if_true, List.mem_singleton] at h1
          rw [h1]; exact hm.2
        · simp [he] at h1
    · intro k hk
      obtain ⟨it, hit, rfl⟩ := mem_keys_of _ k hk
      rcases hent it hit with h | h
      · exact ⟨m, by simp, by rw [h]⟩
      · obtain ⟨m', h1, h2⟩ := hs it.1 (List.mem_map.mpr ⟨it, h, rfl⟩)
        exact ⟨m', List.mem_append_left _ h1, h2⟩
    · intro h0
      rw [hsk]; exact hbase h0
    · intro h0
      rw [hsk]
      unfold bucket_builder.base_for
      simp [h0]

theorem push_all_filled (l pre : List record) (b0 b : bucket_builder)
    (hf : filled b0 (values_of pre)) (hc : ∀ m' ∈ pre, m'.key ∈ b0.keys_of)
    (hs : ∀ k ∈ b0.keys_of, ∃ m' ∈ pre, m'.key = k)
    (hwf : ∀ m ∈ l, m.wf) (hp : push_all b0 l = some b) :
    filled b (values_of (pre ++ l)) ∧ (∀ m' ∈ pre ++ l, m'.key ∈ b.keys_of) := by
  induction l generalizing pre b0 with
  | nil =>
    simp only [push_all, Option.some.injEq] at hp
    subst hp
    simp only [List.append_nil]
    exact ⟨hf, hc⟩
  | cons m l ih =>
    simp only [push_all] at hp
    by_cases h : (b0.push m).1 = 0
    · simp only [h, if_true] at hp
      have hstep := filled_push b0 pre m hf hc hs (hwf m (List.mem_cons_self _ _)) h
      have := ih (pre ++ [m]) (b0.push m).2 hstep.1 hstep.2.1 hstep.2.2.1
        (fun m' hm' => hwf m' (List.mem_cons_of_mem _ hm')) hp
      simpa [List.append_assoc] using this
    · simp [h] at hp

theorem filled_new (vals : Nat → List Nat) : filled (bucket_builder.new true) vals := by
  constructor
  · exact inv_new true
  · rfl
  · intro it hit; simp [bucket_builder.new] at hit
  · intro it hit; simp [bucket_builder.new] at hit
  · intro it hit; simp [bucket_builder.new] at hit


/-! ## C2: the claim -/

theorem holds_block_at_mid (base addr : Nat) (P Q R : List Nat) (h : addr = base + P.length) :
    holds (block_at base (P ++ Q ++ R)) addr Q := by
  intro i hi
  subst h
  unfold block_at
  have h1 : base ≤ base + P.length + i := by omega
  have h2 : base + P.length + i - base = P.length + i := by omega
  rw [if_pos h1, h2]
  simp only [List.getD_eq_getElem?_getD]
  rw [List.append_assoc, List.getElem?_append_right (by omega)]
  rw [List.getElem?_append_left (by omega)]
  congr 2
  omega

theorem holds_block_at_left (base : Nat) (P Q : List Nat) :
    holds (block_at base (P ++ Q)) base P := by
  have := holds_block_at_mid base base [] P Q rfl
  simpa using this

theorem holds_block_at_right (base addr : Nat) (P Q : List Nat) (h : addr = base + P.length) :
    holds (block_at base (P ++ Q)) addr Q := by
  have := holds_block_at_mid base addr P Q [] h
  simpa using this

theorem pair_bucket_eq :
    pair_bucket = ⟨true, 1, [(1, ⟨2, 8584, 5, 0, [5, 6], []⟩)]⟩ := by
  decide

theorem pair_populate :
    pair_bucket.populate_appendix 0 full_appendix =
      (⟨true, 1, [(1, ⟨2, 8585, 2, 0, [5, 6], []⟩)]⟩,
       ⟨List.replicate (2 ^ 32) 0 ++ [5, 0, 0, 0, 0, 0, 0, 0, 6, 0, 0, 0, 0, 0, 0, 0]⟩) := by
  have h := add_element64_spec full_appendix [5, 6]
  have hq : qsort compare_uint64 [5, 6] = [5, 6] := by decide
  have hl : full_appendix.data.length = 2 ^ 32 := by
    unfold full_appendix; exact List.length_replicate _ _
  have hh : handle64 (2 ^ 32) ([5, 6] : List Nat).length = 2 := by decide
  have hb : (List.flatMap [5, 6] (fun v => le_bytes 8 v)) =
      [5, 0, 0, 0, 0, 0, 0, 0, 6, 0, 0, 0, 0, 0, 0, 0] := by decide
  rw [hl, hh, hq, hb] at h
  obtain ⟨h1, h2, h3⟩ := h
  rw [pair_bucket_eq]
  unfold bucket_builder.populate_appendix
  simp only [populate_entries, if_true]
  have hc : ¬ (2 ≤ 1) := by decide
  simp only [hc, if_false, h1, h3]
  have h4 : (full_appendix.add_element64 [5, 6]).2.1 =
      ⟨List.replicate (2 ^ 32) 0 ++ [5, 0, 0, 0, 0, 0, 0, 0, 6, 0, 0, 0, 0, 0, 0, 0]⟩ := by
    cases hx : (full_appendix.add_element64 [5, 6]).2.1
    rw [hx] at h2
    simp only at h2
    rw [h2]; rfl
  rw [h4]
  rfl

/-- C2 (amended): in 64-bit mode, let the builder `b` be reached from a new
builder by the successful pushes of the records `l`, let `populate_appendix`
extend the appendix `A` and `pack` write the page, and let the appendix be
smaller than 2^32 bytes afterwards.  With the page at bucket index `idx` and the
appendix in memory, `lookup_batch` with the base `get_smallest_key()` returns
for every pushed key `k` the number of values pushed under `k` in `num[i]`, and
`ptr[i]` addresses exactly those values, sorted ascending: inside a value slot
of the page when `k` has one value, inside the part of the appendix that
`populate_appendix` wrote otherwise. -/
theorem C2_pack_probe_round_trip (l : List record) (b : bucket_builder)
    (hpush : push_all (bucket_builder.new true) l = some b) (hwf : ∀ m ∈ l, m.wf)
    (oob : Nat) (A : appendix)
    (hsz : (b.populate_appendix oob A).2.data.length < 2 ^ 32)
    (mem : Memory) (r : bucket_reader) (hr : r.use_64bit = true)
    (idx : Nat) (hidx : idx < 2 ^ 31)
    (hpage : holds mem (r.data + idx * 320) (b.populate_appendix oob A).1.pack)
    (happ : holds mem r.apdx (b.populate_appendix oob A).2.data)
    (keys : List Nat) (srs : List Int) (bases : List Nat) (num : List Int) (ptr : List Nat)
    (hn : num.length = N) (hp : ptr.length = N) (i : Nat) (hi : i < N)
    (hkey : ∃ m ∈ l, m.key = keys.getD i 0)
    (hsr : srs.getD i 0 = (idx : Int)) (hbase : bases.getD i 0 = b.get_smallest_key) :
    (r.lookup_batch mem keys srs bases num ptr).1.getD i 0 =
      (((values_of l (keys.getD i 0)).length : Nat) : Int) ∧
    load_u64s mem ((r.lookup_batch mem keys srs bases num ptr).2.getD i 0)
        (values_of l (keys.getD i 0)).length =
      qsort compare_uint64 (values_of l (keys.getD i 0)) ∧
    (qsort compare_uint64 (values_of l (keys.getD i 0))).Perm (values_of l (keys.getD i 0)) ∧
    (qsort compare_uint64 (values_of l (keys.getD i 0))).Pairwise (· ≤ ·) ∧
    ((values_of l (keys.getD i 0)).length = 1 → ∃ slot, slot < 32 ∧
      (r.lookup_batch mem keys srs bases num ptr).2.getD i 0 =
        r.data + idx * 320 + 64 + 8 * slot) ∧
    ((values_of l (keys.getD i 0)).length ≠ 1 → ∃ off, A.data.length ≤ off ∧
      off + 8 * (values_of l (keys.getD i 0)).length ≤
        (b.populate_appendix oob A).2.data.length ∧
      (r.lookup_batch mem keys srs bases num ptr).2.getD i 0 = r.apdx + off) := by
  have hfill := push_all_filled l [] (bucket_builder.new true) b (filled_new _)
    (by intro m hm; simp at hm)
    (by intro k hk; simp [bucket_builder.new, bucket_builder.keys_of] at hk) hwf hpush
  simp only [List.nil_append] at hfill
  obtain ⟨m, hm, hmk⟩ := hkey
  have hk : keys.getD i 0 ∈ b.keys_of := by rw [← hmk]; exact hfill.2 m hm
  obtain ⟨p, h1, h2, h3, h4⟩ := lookup_filled b (values_of l) hfill.1 oob A mem r hr idx
    (by omega) hpage _ ⟨[], (List.append_nil _).symm⟩ happ hsz (keys.getD i 0) hk (ptr.getD i 0)
  have hb := lookup_batch_getD mem r keys srs bases num ptr hn hp i hi
  rw [hsr, hbase] at hb
  have hb2 := Prod.mk.inj (hb.trans h1)
  rw [hb2.1, hb2.2]
  refine ⟨rfl, h2, qsort_perm _ _, qsort_sorted _, ?_, h4⟩
  intro h
  obtain ⟨slot, hs, hp⟩ := h3 h
  exact ⟨slot, Nat.lt_of_lt_of_le hs hfill.1.inv.bound, hp⟩

theorem C2_pack_probe_round_trip_witness :
    push_all (bucket_builder.new true) [⟨10, 7⟩, ⟨10, 3⟩, ⟨10, 5⟩, ⟨11, 99⟩] =
      some example_bucket ∧
    ((⟨true, 4096, 4416⟩ : bucket_reader).lookup_batch example_memory [10, 11, 12, 10]
        [0, 0, 0, 0] [10, 10, 10, 10] [0, 0, 0, 0] [0, 0, 0, 0]).1.getD 0 0 = 3 ∧
    load_u64s example_memory
        (((⟨true, 4096, 4416⟩ : bucket_reader).lookup_batch example_memory [10, 11, 12, 10]
          [0, 0, 0, 0] [10, 10, 10, 10] [0, 0, 0, 0] [0, 0, 0, 0]).2.getD 0 0) 3 =
      qsort compare_uint64 [7, 3, 5] ∧
    qsort compare_uint64 [7, 3, 5] = [3, 5, 7] := by
  have h := C2_pack_probe_round_trip [⟨10, 7⟩, ⟨10, 3⟩, ⟨10, 5⟩, ⟨11, 99⟩] example_bucket
    (by decide) (by decide) 0 ⟨[]⟩ (by decide) example_memory ⟨true, 4096, 4416⟩ rfl 0
    (by decide)
    (holds_block_at_left 4096 _ _)
    (holds_block_at_right 4096 4416 _ _ (by decide))
    [10, 11, 12, 10] [0, 0, 0, 0] [10, 10, 10, 10] [0, 0, 0, 0] [0, 0, 0, 0] rfl rfl 0
    (by decide) ⟨⟨10, 7⟩, by decide, rfl⟩ rfl rfl
  have hv : values_of [⟨10, 7⟩, ⟨10, 3⟩, ⟨10, 5⟩, ⟨11, 99⟩]
      (([10, 11, 12, 10] : List Nat).getD 0 0) = [7, 3, 5] := by decide
  rw [hv] at h
  exact ⟨by decide, h.1, h.2.1, by decide⟩

theorem pair_memory_eq :
    pair_memory = block_at 4096
      ((⟨true, 1, [(1, ⟨2, 8585, 2, 0, [5, 6], []⟩)]⟩ : bucket_builder).pack ++
        (List.replicate (2 ^ 32) 0 ++ [5, 0, 0, 0, 0, 0, 0, 0, 6, 0, 0, 0, 0, 0, 0, 0])) := by
  unfold pair_memory
  rw [pair_populate]

theorem pair_lookup :
    (⟨true, 4096, 4416⟩ : bucket_reader).lookup_one pair_memory 1 0 1 0 = (2, 4416) := by
  rw [pair_memory_eq]
  decide

theorem pair_values : load_u64s pair_memory 4416 2 = [0, 0] := by
  rw [pair_memory_eq]
  decide

/-- C2 as stated fails when the appendix is not smaller than 2^32 bytes: the
key 1 is pushed with the values 5 and 6 and `populate_appendix` stores them at
offset 2^32 of an appendix that held 2^32 zero bytes.  The handle keeps the low
32 bits of the offset only, so `lookup_batch` returns `num[0] = 2` and the
address of offset 0 of the appendix, where the two values read are 0 and 0,
not 5 and 6. -/
theorem C2_counterexample :
    push_all (bucket_builder.new true) [⟨1, 5⟩, ⟨1, 6⟩] = some pair_bucket ∧
    holds pair_memory (4096 + 0 * 320) (pair_bucket.populate_appendix 0 full_appendix).1.pack ∧
    holds pair_memory 4416 (pair_bucket.populate_appendix 0 full_appendix).2.data ∧
    pair_bucket.get_smallest_key = 1 ∧
    values_of [⟨1, 5⟩, ⟨1, 6⟩] 1 = [5, 6] ∧
    ((⟨true, 4096, 4416⟩ : bucket_reader).lookup_batch pair_memory [1, 1, 1, 1] [0, 0, 0, 0]
        [1, 1, 1, 1] [0, 0, 0, 0] [0, 0, 0, 0]).1.getD 0 0 = 2 ∧
    ((⟨true, 4096, 4416⟩ : bucket_reader).lookup_batch pair_memory [1, 1, 1, 1] [0, 0, 0, 0]
        [1, 1, 1, 1] [0, 0, 0, 0] [0, 0, 0, 0]).2.getD 0 0 = 4416 + 0 ∧
    load_u64s pair_memory (4416 + 0) 2 = [0, 0] ∧
    ¬ (load_u64s pair_memory
        (((⟨true, 4096, 4416⟩ : bucket_reader).lookup_batch pair_memory [1, 1, 1, 1]
          [0, 0, 0, 0] [1, 1, 1, 1] [0, 0, 0, 0] [0, 0, 0, 0]).2.getD 0 0) 2 =
      qsort compare_uint64 (values_of [⟨1, 5⟩, ⟨1, 6⟩] 1)) := by
  have hb := (lookup_batch_getD pair_memory ⟨true, 4096, 4416⟩ [1, 1, 1, 1] [0, 0, 0, 0]
    [1, 1, 1, 1] [0, 0, 0, 0] [0, 0, 0, 0] rfl rfl 0 (by decide)).trans pair_lookup
  have hb2 := Prod.mk.inj hb
  have hlen : 4416 = 4096 + (pair_bucket.populate_appendix 0 full_appendix).1.pack.length := by
    rw [pack_length, pair_populate]; rfl
  refine ⟨by decide, holds_block_at_left 4096 _ _, holds_block_at_right 4096 4416 _ _ hlen,
    by decide, by decide, hb2.1, hb2.2, pair_values, ?_⟩
  rw [hb2.2, pair_values]
  decide


/-! ## C1: `write` followed by `read` -/

theorem read_chunk (c X rest : List Nat) (n : Nat) (h : X.length = n) :
    (⟨c ++ (X ++ rest), c.length⟩ : mem_binstream).read n =
      (X, ⟨(c ++ X) ++ rest, (c ++ X).length⟩) := by
  unfold mem_binstream.read
  subst h
  refine Prod.ext ?_ ?_
  · apply List.ext_getElem
    · simp
    · intro i h1 h2
      simp only [List.length_map, List.length_range] at h1
      simp only [List.getElem_map, List.getElem_range, List.getD_eq_getElem?_getD]
      rw [List.getElem?_append_right (by omega)]
      rw [show c.length + i - c.length = i by omega, List.getElem?_append_left h1,
        List.getElem?_eq_getElem h1]
      rfl
  · simp [List.append_assoc]

theorem read_le_bytes (c rest : List Nat) (n v : Nat) :
    (⟨c ++ (le_bytes n v ++ rest), c.length⟩ : mem_binstream).read n =
      (le_bytes n v, ⟨(c ++ le_bytes n v) ++ rest, (c ++ le_bytes n v).length⟩) :=
  read_chunk c _ rest n (le_bytes_length n v)

theorem write_vec64_data (s : mem_binstream) (vec : List Nat) :
    binstream_write_vec64 s vec =
      ⟨s.data ++ (le_bytes 8 vec.length ++ vec.flatMap (fun e => le_bytes 8 e)), s.cursor⟩ := by
  unfold binstream_write_vec64
  have : ∀ (l : List Nat) (t : mem_binstream),
      l.foldl (fun acc e => acc.write (le_bytes 8 e)) t =
        ⟨t.data ++ l.flatMap (fun e => le_bytes 8 e), t.cursor⟩ := by
    intro l
    induction l with
    | nil => intro t; simp
    | cons x l ih =>
      intro t
      rw [List.foldl_cons, ih]
      simp only [List.flatMap_cons, mem_binstream.write, List.append_assoc]
  rw [this]
  simp [mem_binstream.write, List.append_assoc]

theorem read_u64s_flat (vec c rest : List Nat) :
    binstream_read_u64s vec.length
        ⟨c ++ (vec.flatMap (fun e => le_bytes 8 e) ++ rest), c.length⟩ =
      (vec.map (fun e => e % 2 ^ 64),
       ⟨(c ++ vec.flatMap (fun e => le_bytes 8 e)) ++ rest,
        (c ++ vec.flatMap (fun e => le_bytes 8 e)).length⟩) := by
  induction vec generalizing c with
  | nil => simp [binstream_read_u64s]
  | cons x vec ih =>
    simp only [List.length_cons, binstream_read_u64s, List.flatMap_cons, List.append_assoc]
    have h := read_le_bytes c (vec.flatMap (fun e => le_bytes 8 e) ++ rest) 8 x
    rw [h]
    simp only []
    rw [ih (c ++ le_bytes 8 x), of_le_bytes_le_bytes]
    simp [List.append_assoc]


theorem write_data (db : db_builder) (ps : List Nat → Nat × Nat) (blob : List Nat) :
    (db.write ps blob mem_binstream.new).2 =
      ⟨[] ++ ([100, 98, 0, 0, 0, 0, 0, 0, 0, 0, 0, 0, 0, 0, 0, 0] ++ (le_bytes 2 1 ++
        (le_bytes 2 1 ++
        (le_bytes 8 ((db.get_db_size + db.apdx.get_size) % 2 ^ 64) ++
        (le_bytes 1 (if db.use_64bit then 1 else 0) ++
        (le_bytes 8 db.apdx.get_size ++
        (le_bytes 8 db.bucket_num ++
        (le_bytes 4 (int_to_u32 db.compression) ++
        (le_bytes 8 db.total_key_num ++
        (le_bytes 8 db.distinct_key_num ++
        (le_bytes 8 db.singleton_num ++
        (le_bytes 8 db.used_bytes ++
        (le_bytes 8 (ps db.prefix_bits).1 ++
        (le_bytes 8 (ps db.prefix_bits).2 ++
        ([98, 108, 98, 0] ++
        ((db.mstream.data ++ db.apdx.data) ++
        (le_bytes 8 db.ranges.length ++
        (db.ranges.flatMap (fun e => le_bytes 8 e) ++
        (le_bytes 8 blob.length ++
        (blob ++ [])))))))))))))))))))),
       ([] : List Nat).length⟩ := by
  have hh : binstream_write_header mem_binstream.new [100, 98] 1 =
      ⟨[100, 98, 0, 0, 0, 0, 0, 0, 0, 0, 0, 0, 0, 0, 0, 0] ++ (le_bytes 2 1 ++ le_bytes 2 1),
       0⟩ := by decide
  unfold db_builder.write
  simp only []
  rw [hh, write_vec64_data]
  simp only [mem_binstream.write, mem_binstream.detach_data, List.append_assoc,
    List.nil_append, List.append_nil, List.length_nil]

theorem read_header_ok (rest : List Nat) :
    binstream_read_header
      ⟨[] ++ ([100, 98, 0, 0, 0, 0, 0, 0, 0, 0, 0, 0, 0, 0, 0, 0] ++ (le_bytes 2 1 ++
        (le_bytes 2 1 ++ rest))), ([] : List Nat).length⟩ [100, 98] =
      (some 1,
       ⟨((([] ++ [100, 98, 0, 0, 0, 0, 0, 0, 0, 0, 0, 0, 0, 0, 0, 0]) ++ le_bytes 2 1) ++
          le_bytes 2 1) ++ rest,
        ((([] ++ [100, 98, 0, 0, 0, 0, 0, 0, 0, 0, 0, 0, 0, 0, 0, 0]) ++ le_bytes 2 1) ++
          le_bytes 2 1).length⟩) := by
  unfold binstream_read_header
  simp only [header_length]
  rw [read_chunk [] [100, 98, 0, 0, 0, 0, 0, 0, 0, 0, 0, 0, 0, 0, 0, 0] _ 16 rfl]
  simp only []
  rw [read_le_bytes, read_le_bytes]
  have h1 : strncmp_zero 16 [100, 98, 0, 0, 0, 0, 0, 0, 0, 0, 0, 0, 0, 0, 0, 0] [100, 98] =
      true := by decide
  have h2 : of_le_bytes (le_bytes 2 1) = 1 := by decide
  simp [h1, h2]


theorem read_write (db : db_builder) (ps : List Nat → Nat × Nat) (blob : List Nat)
    (addr : Nat) (r0 : db_reader)
    (hP : db.mstream.data.length = db.get_db_size)
    (hsize : db.get_db_size + db.apdx.get_size < 2 ^ 64)
    (hbn : db.bucket_num < 2 ^ 64)
    (hr : ∀ x ∈ db.ranges, x < 2 ^ 64) (hrl : db.ranges.length < 2 ^ 64)
    (hne : db.ranges ≠ []) (hbl : blob.length < 2 ^ 64) :
    ∃ rd s, r0.read addr (db.write ps blob mem_binstream.new).2 = (some 0, rd, s) ∧
      rd.buffer = db.mstream.data ++ db.apdx.data ∧
      rd.data = addr ∧
      rd.preader = ⟨db.use_64bit, addr,
        addr + bucket_builder.get_size_bytes db.use_64bit * db.bucket_num⟩ ∧
      rd.ranges = db.ranges ∧ rd.model = blob ∧
      rd.compression = u32_to_int (int_to_u32 db.compression) ∧
      rd.bucket_num = db.bucket_num ∧ rd.use_64bit = db.use_64bit := by
  unfold db_reader.read
  rw [write_data, read_header_ok]
  dsimp only []
  rw [if_neg (show ¬ ((1 : Nat) ≠ 1) by decide)]
  rw [read_le_bytes]
  rw [read_le_bytes]
  rw [read_le_bytes]
  rw [read_le_bytes]
  rw [read_le_bytes]
  rw [read_le_bytes]
  rw [read_le_bytes]
  rw [read_le_bytes]
  rw [read_le_bytes]
  rw [read_le_bytes]
  rw [read_le_bytes]
  rw [read_chunk _ [98, 108, 98, 0] _ 4 rfl]
  have hb : strncmp_zero 4 [98, 108, 98, 0] [98, 108, 98] = true := by decide
  rw [hb]
  rw [if_neg (show ¬ (true = false) by decide)]
  have hsz : of_le_bytes (le_bytes 8 ((db.get_db_size + db.apdx.get_size) % 2 ^ 64)) =
      (db.mstream.data ++ db.apdx.data).length := by
    rw [of_le_bytes_le_bytes, List.length_append, hP]
    unfold appendix.get_size at hsize ⊢
    have : (256 : Nat) ^ 8 = 2 ^ 64 := by norm_num
    rw [this, Nat.mod_mod, Nat.mod_eq_of_lt hsize]
  have hrl2 : of_le_bytes (le_bytes 8 db.ranges.length) = db.ranges.length := by
    rw [of_le_bytes_le_bytes]
    exact Nat.mod_eq_of_lt (by norm_num; exact hrl)
  have hbl2 : of_le_bytes (le_bytes 8 blob.length) = blob.length := by
    rw [of_le_bytes_le_bytes]
    exact Nat.mod_eq_of_lt (by norm_num; exact hbl)
  have hbn2 : of_le_bytes (le_bytes 8 db.bucket_num) = db.bucket_num := by
    rw [of_le_bytes_le_bytes]
    exact Nat.mod_eq_of_lt (by norm_num; exact hbn)
  have hu2 : decide (of_le_bytes (le_bytes 1 (if db.use_64bit = true then 1 else 0)) ≠ 0) =
      db.use_64bit := by
    cases db.use_64bit <;> decide
  have hc2 : of_le_bytes (le_bytes 4 (int_to_u32 db.compression)) =
      int_to_u32 db.compression := by
    rw [of_le_bytes_le_bytes]
    apply Nat.mod_eq_of_lt
    unfold int_to_u32
    have h1 : (0 : Int) ≤ db.compression % 2 ^ 32 := Int.emod_nonneg _ (by norm_num)
    have h2 : db.compression % 2 ^ 32 < 2 ^ 32 := Int.emod_lt_of_pos _ (by norm_num)
    have : (256 : Nat) ^ 4 = 2 ^ 32 := by norm_num
    omega
  have hrm : db.ranges.map (fun e => e % 2 ^ 64) = db.ranges := by
    have : ∀ x ∈ db.ranges, x % 2 ^ 64 = id x := fun x hx => Nat.mod_eq_of_lt (hr x hx)
    rw [List.map_congr_left this, List.map_id]
  dsimp only []
  rw [hsz, read_chunk _ (db.mstream.data ++ db.apdx.data) _ _ rfl]
  unfold binstream_read_vec64
  dsimp only []
  rw [read_le_bytes]
  dsimp only []
  rw [hrl2, read_u64s_flat]
  dsimp only []
  rw [hrm, if_neg hne]
  rw [read_le_bytes]
  dsimp only []
  rw [hbl2, read_chunk _ blob [] _ rfl]
  dsimp only []
  rw [hbn2, hu2, hc2]
  exact ⟨_, _, rfl, rfl, rfl, rfl, rfl, rfl, rfl, rfl, rfl⟩

/-! ## C1: the pages and the appendix of a built database -/

theorem emit_mstream (db : db_builder) (oob : Nat) (b : bucket_builder) :
    (db.emit oob b).1.mstream.data =
      db.mstream.data ++ (b.populate_appendix oob db.apdx).1.pack := rfl

theorem emit_apdx (db : db_builder) (oob : Nat) (b : bucket_builder) :
    (db.emit oob b).1.apdx = (b.populate_appendix oob db.apdx).2 := rfl

theorem populate_appendix_data (b : bucket_builder) (hb : b.use_64bit = true) (oob : Nat)
    (a : appendix) : ∃ X, (b.populate_appendix oob a).2.data = a.data ++ X := by
  unfold bucket_builder.populate_appendix
  rw [hb]
  exact populate_entries_data oob b.keys a

theorem emit_all_grow (oob : Nat) (bs : List bucket_builder) (db : db_builder)
    (h64 : ∀ b ∈ bs, b.use_64bit = true) :
    ∃ Z Y, (emit_all oob db bs).mstream.data = db.mstream.data ++ Z ∧
      Z.length = 320 * bs.length ∧
      (emit_all oob db bs).apdx.data = db.apdx.data ++ Y := by
  induction bs generalizing db with
  | nil => exact ⟨[], [], by simp [emit_all], rfl, by simp [emit_all]⟩
  | cons b bs ih =>
    have hstep : emit_all oob db (b :: bs) = emit_all oob (db.emit oob b).1 bs := rfl
    obtain ⟨Z, Y, h1, h2, h3⟩ := ih (db.emit oob b).1
      (fun b' hb' => h64 b' (List.mem_cons_of_mem _ hb'))
    obtain ⟨X, hX⟩ := populate_appendix_data b (h64 b (List.mem_cons_self _ _)) oob db.apdx
    have hlen : (b.populate_appendix oob db.apdx).1.pack.length = 320 := by
      rw [pack_length, populate_use_64bit, h64 b (List.mem_cons_self _ _)]; rfl
    refine ⟨(b.populate_appendix oob db.apdx).1.pack ++ Z, X ++ Y, ?_, ?_, ?_⟩
    · rw [hstep, h1, emit_mstream, List.append_assoc]
    · rw [List.length_append, hlen, h2, List.length_cons]; omega
    · rw [hstep, h3, emit_apdx, hX, List.append_assoc]

/-- Bucket `j` of the emitted buckets: its page lies at offset `320 * j` of the
buckets' bytes, packed after `populate_appendix` on the appendix of that
moment, which is a prefix of the final appendix. -/
theorem emit_all_page (oob : Nat) (bs : List bucket_builder) (db : db_builder)
    (h64 : ∀ b ∈ bs, b.use_64bit = true) (j : Nat) (b : bucket_builder)
    (hj : bs[j]? = some b) :
    ∃ A Y, bytes_at (emit_all oob db bs).mstream.data (db.mstream.data.length + 320 * j) 320 =
        (b.populate_appendix oob A).1.pack ∧
      (emit_all oob db bs).apdx.data = (b.populate_appendix oob A).2.data ++ Y := by
  induction bs generalizing db j with
  | nil => simp at hj
  | cons b0 bs ih =>
    have hstep : emit_all oob db (b0 :: bs) = emit_all oob (db.emit oob b0).1 bs := rfl
    have hlen : (b0.populate_appendix oob db.apdx).1.pack.length = 320 := by
      rw [pack_length, populate_use_64bit, h64 b0 (List.mem_cons_self _ _)]; rfl
    have h64t : ∀ b' ∈ bs, b'.use_64bit = true :=
      fun b' hb' => h64 b' (List.mem_cons_of_mem _ hb')
    cases j with
    | zero =>
      simp only [List.getElem?_cons_zero, Option.some.injEq] at hj
      subst hj
      obtain ⟨Z, Y, h1, _, h3⟩ := emit_all_grow oob bs (db.emit oob b0).1 h64t
      refine ⟨db.apdx, Y, ?_, ?_⟩
      · rw [hstep, h1, emit_mstream, Nat.mul_zero, Nat.add_zero]
        have := bytes_at_append_self db.mstream.data (b0.populate_appendix oob db.apdx).1.pack Z
        rw [hlen] at this
        exact this
      · rw [hstep, h3, emit_apdx]
    | succ j =>
      simp only [List.getElem?_cons_succ] at hj
      obtain ⟨A, Y, h1, h2⟩ := ih (db.emit oob b0).1 h64t j hj
      refine ⟨A, Y, ?_, ?_⟩
      · rw [hstep, ← h1, emit_mstream, List.length_append, hlen]
        congr 1
        omega
      · rw [hstep, h2]

theorem holds_of_bytes_at (base off : Nat) (D X : List Nat)
    (h : bytes_at D off X.length = X) : holds (block_at base D) (base + off) X := by
  intro i hi
  have := bytes_at_getD D off X.length i hi
  rw [h] at this
  rw [this]
  unfold block_at
  rw [if_pos (by omega)]
  congr 1
  omega

theorem bytes_at_append_left (D R : List Nat) (off n : Nat) (h : off + n ≤ D.length) :
    bytes_at (D ++ R) off n = bytes_at D off n := by
  unfold bytes_at
  rw [List.drop_append_of_le_length (by omega), List.take_append_of_le_length]
  rw [List.length_drop]; omega


/-! ## C1: the claim -/

/-- The bucket of a consumed record: its range is the greatest range not above
the key. -/
theorem key_bucket (u : Bool) (n : Nat) (stream : List record)
    (hs : (stream.map (fun m => m.key)).Pairwise (· ≤ ·))
    (k : Nat) (hk : ∃ m ∈ stream.take n, m.key = k) :
    ∃ (j : Nat) (b : bucket_builder), (build_buckets u n stream)[j]? = some b ∧
      k ∈ b.keys_of ∧ b.smallest_key ≤ k ∧
      ∀ (j' : Nat) (b' : bucket_builder), (build_buckets u n stream)[j']? = some b' →
        b'.smallest_key ≤ k → j' ≤ j := by
  have hgood := build_buckets_good u n stream hs
  obtain ⟨m, hm, rfl⟩ := hk
  have hcov := hgood.1.cover m hm
  obtain ⟨b, hbm, hkb⟩ := List.mem_flatMap.mp hcov
  obtain ⟨i, hi⟩ := List.getElem?_of_mem hbm
  have he := hgood.1.each b hbm
  refine ⟨i, b, hi, hkb, he.2.2.1 _ hkb, ?_⟩
  intro j b' hb' hr
  by_contra hlt
  have hb'm := List.getElem?_mem hb'
  have h2 := (hgood.1.each b' hb'm).2.2.2 (hgood.2 b' hb'm)
  have := flatMap_blocks (· < ·) bucket_builder.keys_of _ hgood.1.sorted i j (by omega) b b'
    hi hb' _ hkb _ h2
  omega

/-- Each bucket `build` emits for sorted, typed records is a 64-bit builder
filled with the values of its keys. -/
theorem build_buckets_filled (n : Nat) (stream : List record)
    (hs : (stream.map (fun m => m.key)).Pairwise (· ≤ ·)) (hwf : ∀ m ∈ stream, m.wf)
    (b : bucket_builder) (hb : b ∈ build_buckets true n stream) :
    filled b (values_of (stream.take n)) := by
  have hgood := build_buckets_good true n stream hs
  have he := hgood.1.each b hb
  have hsound : ∀ it ∈ b.keys, ∃ m ∈ stream.take n, m.key = it.1 := by
    intro it hit
    apply hgood.1.sound
    exact List.mem_flatMap.mpr ⟨b, hb, List.mem_map.mpr ⟨it, hit, rfl⟩⟩
  constructor
  · exact he.1
  · exact he.2.1
  · exact hgood.1.attrs b hb
  · intro it hit
    obtain ⟨m, hm, hmk⟩ := hsound it hit
    exact values_of_ne_nil _ _ m hm hmk
  · intro it hit v hv
    unfold values_of at hv
    obtain ⟨m, hm, rfl⟩ := List.mem_map.mp hv
    exact (hwf m (List.mem_of_mem_take (List.mem_filter.mp hm).1)).2

/-- The reader `read` loads from a database built from sorted, typed records and
written with `write`: its buffer holds the bytes of the buckets followed by
those of the appendix. -/
theorem build_read_write (oob n : Nat) (stream : List record)
    (hs : (stream.map (fun m => m.key)).Pairwise (· ≤ ·)) (hwf : ∀ m ∈ stream, m.wf)
    (hsize : ((db_builder.new true).build oob n stream).get_db_size +
      ((db_builder.new true).build oob n stream).apdx.get_size < 2 ^ 64)
    (hne : build_buckets true n stream ≠ [])
    (ps : List Nat → Nat × Nat) (blob : List Nat) (hblob : blob.length < 2 ^ 64)
    (addr : Nat) :
    ∃ rd s, db_reader.new.read addr
        (((db_builder.new true).build oob n stream).write ps blob mem_binstream.new).2 =
          (some 0, rd, s) ∧
      rd.buffer = ((db_builder.new true).build oob n stream).mstream.data ++
        ((db_builder.new true).build oob n stream).apdx.data ∧
      rd.data = addr ∧
      rd.preader = ⟨true, addr, addr + 320 * (build_buckets true n stream).length⟩ ∧
      rd.ranges = (build_buckets true n stream).map (fun b => b.get_smallest_key) ∧
      rd.model = blob ∧
      ((db_builder.new true).build oob n stream).mstream.data.length =
        320 * (build_buckets true n stream).length ∧
      ((db_builder.new true).build oob n stream).get_db_size =
        320 * (build_buckets true n stream).length := by
  have hgood := build_buckets_good true n stream hs
  have hbe : (db_builder.new true).build oob n stream =
      emit_all oob (db_builder.new true).clear (build_buckets true n stream) :=
    build_eq (db_builder.new true) oob n stream
  have h64 : ∀ b ∈ build_buckets true n stream, b.use_64bit = true :=
    fun b hb => (hgood.1.each b hb).2.1
  have hu : ((db_builder.new true).build oob n stream).use_64bit = true := by
    rw [hbe, emit_all_use_64bit]; rfl
  have hbn : ((db_builder.new true).build oob n stream).bucket_num =
      (build_buckets true n stream).length := by
    rw [hbe, emit_all_bucket_num]
    show 0 + _ = _
    omega
  have hrg : ((db_builder.new true).build oob n stream).ranges =
      (build_buckets true n stream).map (fun b => b.get_smallest_key) :=
    build_ranges (db_builder.new true) oob n stream
  have hdbs : ((db_builder.new true).build oob n stream).get_db_size =
      320 * (build_buckets true n stream).length := by
    unfold db_builder.get_db_size
    rw [hu, hbn, Nat.mul_comm]; rfl
  obtain ⟨Z, Y0, hZ, hZl, hY0⟩ := emit_all_grow oob (build_buckets true n stream)
    (db_builder.new true).clear h64
  rw [← hbe] at hZ hY0
  have hP : ((db_builder.new true).build oob n stream).mstream.data.length =
      ((db_builder.new true).build oob n stream).get_db_size := by
    rw [hZ, hdbs, List.length_append, hZl]
    show 0 + _ = _
    omega
  have hrt : ∀ x ∈ ((db_builder.new true).build oob n stream).ranges, x < 2 ^ 64 := by
    intro x hx
    rw [hrg] at hx
    obtain ⟨b, hb, rfl⟩ := List.mem_map.mp hx
    have h2 := (hgood.1.each b hb).2.2.2 (hgood.2 b hb)
    obtain ⟨m, hm, hmk⟩ := hgood.1.sound _ (List.mem_flatMap.mpr ⟨b, hb, h2⟩)
    unfold bucket_builder.get_smallest_key
    rw [← hmk]
    exact (hwf m (List.mem_of_mem_take hm)).1
  obtain ⟨rd, s, hrw, hbuf, hdata, hpre, hranges, hmodel, _, _, _⟩ :=
    read_write ((db_builder.new true).build oob n stream) ps blob addr db_reader.new hP hsize
      (by rw [hbn]; omega) hrt (by rw [hrg, List.length_map]; omega)
      (by rw [hrg]; simpa using hne) hblob
  refine ⟨rd, s, hrw, hbuf, hdata, ?_, ?_, hmodel, ?_, hdbs⟩
  · rw [hpre, hu, hbn]; rfl
  · rw [hranges, hrg]
  · rw [hP, hdbs]

/-- C1 (amended): in 64-bit mode, let a new builder build a database from a
record stream in non-decreasing key order, let the appendix of the database be
smaller than 2^32 bytes, and let the database be written with `write` and
loaded with `read` from the stream written.  `read` succeeds.  If for the key
`keys[i]` of a record consumed the oracles return the index `b` of the greatest
range not above the key and the base `ranges[b]`, then `query` sets `num[i]` to
the number of records with that key (at least 1), and `ptr[i]` addresses that
many consecutive 64-bit values: the values of the records with that key, in
ascending order. -/
theorem C1_end_to_end_lookup (oob n : Nat) (stream : List record)
    (hs : (stream.map (fun m => m.key)).Pairwise (· ≤ ·)) (hwf : ∀ m ∈ stream, m.wf)
    (hapdx : ((db_builder.new true).build oob n stream).apdx.get_size < 2 ^ 32)
    (hsize : ((db_builder.new true).build oob n stream).get_db_size +
      ((db_builder.new true).build oob n stream).apdx.get_size < 2 ^ 64)
    (ps : List Nat → Nat × Nat) (blob : List Nat) (hblob : blob.length < 2 ^ 64)
    (addr : Nat) (res : Option Int) (rd : db_reader) (s : mem_binstream)
    (hread : db_reader.new.read addr
      (((db_builder.new true).build oob n stream).write ps blob mem_binstream.new).2 =
        (res, rd, s))
    (o : lnmu_oracle) (keys : List Nat) (num : List Int) (ptr : List Nat)
    (hn : num.length = N) (hp : ptr.length = N) (i : Nat) (hi : i < N)
    (hkey : ∃ m ∈ stream.take n, m.key = keys.getD i 0)
    (horacle : ∀ b, b < rd.ranges.length → rd.ranges.getD b 0 ≤ keys.getD i 0 →
      (∀ b', b' < rd.ranges.length → rd.ranges.getD b' 0 ≤ keys.getD i 0 → b' ≤ b) →
      (o.locate rd.ranges rd.compression rd.model keys).2.getD i 0 = (b : Int) ∧
      (o.locate rd.ranges rd.compression rd.model keys).1.getD i 0 = rd.ranges.getD b 0) :
    res = some 0 ∧
    (rd.query o keys num ptr).2.1.getD i 0 =
      (((values_of (stream.take n) (keys.getD i 0)).length : Nat) : Int) ∧
    1 ≤ (values_of (stream.take n) (keys.getD i 0)).length ∧
    load_u64s rd.memory ((rd.query o keys num ptr).2.2.getD i 0)
        (values_of (stream.take n) (keys.getD i 0)).length =
      qsort compare_uint64 (values_of (stream.take n) (keys.getD i 0)) ∧
    (qsort compare_uint64 (values_of (stream.take n) (keys.getD i 0))).Perm
      (values_of (stream.take n) (keys.getD i 0)) ∧
    (qsort compare_uint64 (values_of (stream.take n) (keys.getD i 0))).Pairwise (· ≤ ·) := by
  have hgood := build_buckets_good true n stream hs
  have hbe : (db_builder.new true).build oob n stream =
      emit_all oob (db_builder.new true).clear (build_buckets true n stream) :=
    build_eq (db_builder.new true) oob n stream
  have h64 : ∀ b ∈ build_buckets true n stream, b.use_64bit = true :=
    fun b hb => (hgood.1.each b hb).2.1
  obtain ⟨j, b, hj, hkb, hsk, hgreat⟩ := key_bucket true n stream hs _ hkey
  have hjlt : j < (build_buckets true n stream).length := by
    by_contra h
    rw [List.getElem?_eq_none (by omega)] at hj
    simp at hj
  have hne : build_buckets true n stream ≠ [] := by
    intro h
    rw [h] at hjlt
    simp at hjlt
  obtain ⟨rd', s', hrw, hbuf, hdata, hpre, hranges, hmodel, hP, hdbs⟩ :=
    build_read_write oob n stream hs hwf hsize hne ps blob hblob addr
  rw [hrw] at hread
  have hres : res = some 0 := (Prod.mk.inj hread).1.symm
  have hrd : rd = rd' := (Prod.mk.inj (Prod.mk.inj hread).2).1.symm
  subst hrd
  have hbm := List.getElem?_mem hj
  have hfill := build_buckets_filled n stream hs hwf b hbm
  obtain ⟨A, Y, hpage, hfin⟩ := emit_all_page oob (build_buckets true n stream)
    (db_builder.new true).clear h64 j b hj
  rw [← hbe] at hpage hfin
  have hplen : (b.populate_appendix oob A).1.pack.length = 320 := by
    rw [pack_length, populate_use_64bit, h64 b hbm]; rfl
  have hmem : rd.memory = block_at addr
      (((db_builder.new true).build oob n stream).mstream.data ++
        ((db_builder.new true).build oob n stream).apdx.data) := by
    unfold db_reader.memory
    rw [hdata, hbuf]
  have hrdata : rd.preader.data = addr := by rw [hpre]
  have hrapdx : rd.preader.apdx = addr + 320 * (build_buckets true n stream).length := by
    rw [hpre]
  have hholdp : holds rd.memory (rd.preader.data + j * 320)
      (b.populate_appendix oob A).1.pack := by
    rw [hmem, hrdata, Nat.mul_comm j 320]
    apply holds_of_bytes_at
    rw [hplen, bytes_at_append_left _ _ _ _ (by rw [hP]; omega)]
    have : (db_builder.new true).clear.mstream.data.length + 320 * j = 320 * j := by
      show 0 + _ = _
      omega
    rw [← this]
    exact hpage
  have hholda : holds rd.memory rd.preader.apdx
      ((db_builder.new true).build oob n stream).apdx.data := by
    rw [hmem, hrapdx]
    apply holds_block_at_right
    rw [hP]
  have hszb : (b.populate_appendix oob A).2.data.length < 2 ^ 32 := by
    have : ((db_builder.new true).build oob n stream).apdx.data.length < 2 ^ 32 := hapdx
    rw [hfin, List.length_append] at this
    omega
  have hor := horacle j (by rw [hranges, List.length_map]; exact hjlt)
    (by
      rw [hranges, List.getD_eq_getElem?_getD, List.getElem?_map, hj]
      exact hsk)
    (by
      intro b' hb' hle
      rw [hranges, List.length_map] at hb'
      have hb'2 : (build_buckets true n stream)[b']? =
          some ((build_buckets true n stream).get ⟨b', hb'⟩) := List.getElem?_eq_getElem hb'
      rw [hranges, List.getD_eq_getElem?_getD, List.getElem?_map, hb'2] at hle
      exact hgreat b' _ hb'2 hle)
  have hbase : (o.locate rd.ranges rd.compression rd.model keys).1.getD i 0 =
      b.smallest_key := by
    rw [hor.2, hranges, List.getD_eq_getElem?_getD, List.getElem?_map, hj]
    rfl
  obtain ⟨p, h1, h2, _, _⟩ := lookup_filled b (values_of (stream.take n)) hfill oob A rd.memory
    rd.preader (by rw [hpre]) j (by omega) hholdp _ ⟨Y, hfin⟩ hholda hszb
    (keys.getD i 0) hkb (ptr.getD i 0)
  have hb := lookup_batch_getD rd.memory rd.preader keys
    (o.locate rd.ranges rd.compression rd.model keys).2
    (o.locate rd.ranges rd.compression rd.model keys).1 num ptr hn hp i hi
  rw [hor.1, hbase] at hb
  have hb2 := Prod.mk.inj (hb.trans h1)
  have hq1 : (rd.query o keys num ptr).2.1 =
      (rd.preader.lookup_batch rd.memory keys
        (o.locate rd.ranges rd.compression rd.model keys).2
        (o.locate rd.ranges rd.compression rd.model keys).1 num ptr).1 := rfl
  have hq2 : (rd.query o keys num ptr).2.2 =
      (rd.preader.lookup_batch rd.memory keys
        (o.locate rd.ranges rd.compression rd.model keys).2
        (o.locate rd.ranges rd.compression rd.model keys).1 num ptr).2 := rfl
  rw [hq1, hq2, hb2.1, hb2.2]
  refine ⟨hres, rfl, ?_, h2, qsort_perm _ _, qsort_sorted _⟩
  obtain ⟨m, hm, hmk⟩ := hkey
  have := values_of_ne_nil _ _ m hm hmk
  exact Nat.one_le_iff_ne_zero.mpr (fun h => this (List.length_eq_zero.mp h))

theorem C1_end_to_end_lookup_witness :
    (db_reader.new.read 4096
      (((db_builder.new true).build 0 4 [⟨10, 7⟩, ⟨10, 3⟩, ⟨10, 5⟩, ⟨11, 99⟩]).write
        (fun _ => (0, 0)) [] mem_binstream.new).2).1 = some 0 ∧
    (example_reader.query search_oracle [10, 11, 12, 10] [0, 0, 0, 0] [0, 0, 0, 0]).2.1.getD 0 0 =
      3 ∧
    load_u64s example_reader.memory
      ((example_reader.query search_oracle [10, 11, 12, 10] [0, 0, 0, 0]
        [0, 0, 0, 0]).2.2.getD 0 0) 3 = qsort compare_uint64 [7, 3, 5] ∧
    qsort compare_uint64 [7, 3, 5] = [3, 5, 7] := by
  have hr : example_reader.ranges = [10] := by decide
  have h := C1_end_to_end_lookup 0 4 [⟨10, 7⟩, ⟨10, 3⟩, ⟨10, 5⟩, ⟨11, 99⟩] (by decide)
    (by decide) (by decide) (by decide) (fun _ => (0, 0)) [] (by decide) 4096 _ example_reader _
    rfl search_oracle [10, 11, 12, 10] [0, 0, 0, 0] [0, 0, 0, 0] rfl rfl 0 (by decide)
    ⟨⟨10, 7⟩, by decide, rfl⟩
    (by
      intro b hb _ _
      rw [hr] at hb
      have hb0 : b = 0 := by simpa using hb
      subst hb0
      rw [hr]
      decide)
  have hv : values_of (([⟨10, 7⟩, ⟨10, 3⟩, ⟨10, 5⟩, ⟨11, 99⟩] : List record).take 4)
      (([10, 11, 12, 10] : List Nat).getD 0 0) = [7, 3, 5] := by decide
  rw [hv] at h
  exact ⟨h.1, h.2.1, h.2.2.2.1, by decide⟩


/-! ## C1: a database whose appendix exceeds 2^32 bytes -/

theorem one_key_push (H : Nat) (vals : List Nat) (v : Nat) (hv : vals ≠ []) :
    (⟨true, 1, [(1, attr_spec true H vals)]⟩ : bucket_builder).push ⟨1, v⟩ =
      (0, ⟨true, 1, [(1, attr_spec true H (vals ++ [v]))]⟩) := by
  have hc : (attr_spec true H vals).count ≠ 0 := by
    show vals.length ≠ 0
    exact fun h => hv (List.length_eq_zero.mp h)
  rw [push_existing _ _ (attr_spec true H vals) (by simp [map_find]) hc]
  unfold bucket_builder.set_attr
  rw [attr_pushed_spec true H vals v hv]
  simp [map_set]

theorem one_key_loop (H : Nat) (c n : Nat) (rest : List record) (vals : List Nat)
    (hv : vals ≠ []) :
    build_loop_buckets (c + n) (List.replicate c ⟨1, 0⟩ ++ rest)
        ⟨true, 1, [(1, attr_spec true H vals)]⟩ =
      build_loop_buckets n rest ⟨true, 1, [(1, attr_spec true H (vals ++ List.replicate c 0))]⟩ := by
  induction c generalizing vals with
  | zero => simp
  | succ c ih =>
    rw [show c + 1 + n = (c + n) + 1 by omega, List.replicate_succ, List.cons_append]
    simp only [build_loop_buckets]
    rw [one_key_push H vals 0 hv]
    simp only [if_true]
    rw [ih (vals ++ [0]) (by simp), List.append_assoc]
    rfl

theorem second_key_push (vals : List Nat) :
    (⟨true, 1, [(1, attr_spec true 8584 vals)]⟩ : bucket_builder).push ⟨2, 5⟩ =
      (0, ⟨true, 1, [(1, attr_spec true 8584 vals), (2, attr_spec true 35148 [5])]⟩) := by
  have hh : hash_15bit_key 2 1 = 35148 := by decide
  have hf : map_find (⟨true, 1, [(1, attr_spec true 8584 vals)]⟩ : bucket_builder).keys
      (⟨2, 5⟩ : record).key = none := by simp [map_find]
  have hb : (⟨true, 1, [(1, attr_spec true 8584 vals)]⟩ : bucket_builder).base_for ⟨2, 5⟩ = 1 := by
    simp [bucket_builder.base_for]
  rw [push_new_ok _ _ hf (by simp [MAX_KEYS_IN_PAGE])]
  · rw [hb, attr_pushed_fresh]
    unfold bucket_builder.set_attr bucket_builder.rebase
    simp [map_set, hh]
  · rw [hb]
    rintro ⟨it, hit, ht⟩
    simp only [List.mem_singleton] at hit
    rw [hit, hh] at ht
    revert ht
    show ¬ (hash_15bit_read 8584 = 35148)
    decide

theorem second_key_push_again (vals : List Nat) :
    (⟨true, 1, [(1, attr_spec true 8584 vals), (2, attr_spec true 35148 [5])]⟩ :
        bucket_builder).push ⟨2, 6⟩ =
      (0, ⟨true, 1, [(1, attr_spec true 8584 vals), (2, attr_spec true 35148 [5, 6])]⟩) := by
  rw [push_existing _ _ (attr_spec true 35148 [5]) (by simp [map_find]) (by decide)]
  unfold bucket_builder.set_attr
  simp only [map_set]
  rw [attr_pushed_spec true 35148 [5] 6 (by simp)]
  simp

theorem key_pair_buckets (c : Nat) :
    build_buckets true (c + 1 + 2) (List.replicate (c + 1) ⟨1, 0⟩ ++ [⟨2, 5⟩, ⟨2, 6⟩]) =
      [⟨true, 1, [(1, attr_spec true 8584 (List.replicate (c + 1) 0)),
        (2, attr_spec true 35148 [5, 6])]⟩] := by
  have hfirst : (bucket_builder.new true).push ⟨1, 0⟩ =
      (0, ⟨true, 1, [(1, attr_spec true 8584 [0])]⟩) := by decide
  have hloop : build_loop_buckets (c + 1 + 2)
      (List.replicate (c + 1) ⟨1, 0⟩ ++ [⟨2, 5⟩, ⟨2, 6⟩]) (bucket_builder.new true) =
      ([], ⟨true, 1, [(1, attr_spec true 8584 (List.replicate (c + 1) 0)),
        (2, attr_spec true 35148 [5, 6])]⟩) := by
    rw [show c + 1 + 2 = (c + 2) + 1 by omega, List.replicate_succ, List.cons_append]
    simp only [build_loop_buckets]
    rw [hfirst]
    simp only [if_true]
    rw [one_key_loop 8584 c 2 _ [0] (by simp)]
    simp only [build_loop_buckets]
    rw [second_key_push]
    simp only [if_true]
    rw [second_key_push_again]
    simp only [if_true, List.singleton_append, List.replicate_succ]
  unfold build_buckets
  simp only []
  rw [hloop]
  have hub : (⟨true, 1, [(1, attr_spec true 8584 (List.replicate (c + 1) 0)),
      (2, attr_spec true 35148 [5, 6])]⟩ : bucket_builder).get_used_bytes ≠ 0 := by
    simp [bucket_builder.get_used_bytes]
  simp only [hub, ne_eq, not_false_eq_true, if_true, List.nil_append]

/-- The buckets `build` makes of `big_stream`: one bucket with the keys 1 and 2. -/
theorem big_buckets :
    build_buckets true (2 ^ 29 + 2) big_stream =
      [⟨true, 1, [(1, attr_spec true 8584 (List.replicate (2 ^ 29) 0)),
        (2, attr_spec true 35148 [5, 6])]⟩] := by
  have h := key_pair_buckets (2 ^ 29 - 1)
  rw [show 2 ^ 29 - 1 + 1 = 2 ^ 29 from by norm_num] at h
  exact h

theorem qsort_replicate_zero (n : Nat) :
    qsort compare_uint64 (List.replicate n 0) = List.replicate n 0 := by
  have hp := qsort_perm compare_uint64 (List.replicate n 0)
  rw [List.eq_replicate_iff]
  refine ⟨by rw [hp.length_eq, List.length_replicate], ?_⟩
  intro b hb
  exact (List.mem_replicate.mp (hp.mem_iff.mp hb)).2

theorem flatMap_replicate_zero (n : Nat) :
    (List.replicate n 0).flatMap (fun v => le_bytes 8 v) = List.replicate (8 * n) 0 := by
  induction n with
  | zero => rfl
  | succ n ih =>
    rw [List.replicate_succ, List.flatMap_cons, ih,
      show 8 * (n + 1) = 8 + 8 * n by omega, List.replicate_add]
    rfl

theorem key_pair_populate (n : Nat) (hn : 2 ≤ n) (H1 H2 : Nat) :
    (⟨true, 1, [(1, attr_spec true H1 (List.replicate n 0)),
        (2, attr_spec true H2 [5, 6])]⟩ : bucket_builder).populate_appendix 0 ⟨[]⟩ =
      (⟨true, 1, [(1, ⟨n, H1 ||| 1, handle64 0 n, 0, List.replicate n 0, []⟩),
          (2, ⟨2, H2 ||| 1, handle64 (8 * n) 2, 0, [5, 6], []⟩)]⟩,
       ⟨List.replicate (8 * n) 0 ++ [5, 0, 0, 0, 0, 0, 0, 0, 6, 0, 0, 0, 0, 0, 0, 0]⟩) := by
  have ha1 : attr_spec true H1 (List.replicate n 0) =
      ⟨n, H1, (List.replicate n 0).getD 0 0, 0, List.replicate n 0, []⟩ := by
    unfold attr_spec
    simp
  have ha2 : attr_spec true H2 [5, 6] = ⟨2, H2, 5, 0, [5, 6], []⟩ := rfl
  have he1 : (⟨[]⟩ : appendix).add_element64 (List.replicate n 0) =
      (handle64 0 n, ⟨List.replicate (8 * n) 0⟩, List.replicate n 0) := by
    have h := add_element64_spec ⟨[]⟩ (List.replicate n 0)
    rw [qsort_replicate_zero, flatMap_replicate_zero, List.length_replicate] at h
    obtain ⟨h1, h2, h3⟩ := h
    refine Prod.ext h1 (Prod.ext ?_ h3)
    cases hx : ((⟨[]⟩ : appendix).add_element64 (List.replicate n 0)).2.1
    rw [hx] at h2
    simp only [List.nil_append] at h2
    simp only [h2]
  have he2 : (⟨List.replicate (8 * n) 0⟩ : appendix).add_element64 [5, 6] =
      (handle64 (8 * n) 2,
       ⟨List.replicate (8 * n) 0 ++ [5, 0, 0, 0, 0, 0, 0, 0, 6, 0, 0, 0, 0, 0, 0, 0]⟩,
       [5, 6]) := by
    have h := add_element64_spec ⟨List.replicate (8 * n) 0⟩ [5, 6]
    have hq : qsort compare_uint64 [5, 6] = [5, 6] := by decide
    have hb : (List.flatMap [5, 6] (fun v => le_bytes 8 v)) =
        [5, 0, 0, 0, 0, 0, 0, 0, 6, 0, 0, 0, 0, 0, 0, 0] := by decide
    rw [hq, hb] at h
    simp only [List.length_replicate, List.length_cons, List.length_nil] at h
    obtain ⟨h1, h2, h3⟩ := h
    refine Prod.ext h1 (Prod.ext ?_ h3)
    cases hx : ((⟨List.replicate (8 * n) 0⟩ : appendix).add_element64 [5, 6]).2.1
    rw [hx] at h2
    simp only at h2
    simp only [h2]
  unfold bucket_builder.populate_appendix
  rw [ha1, ha2]
  have hc1 : ¬ (n ≤ 1) := by omega
  have hc2 : ¬ (2 ≤ 1) := by decide
  simp only [populate_entries, hc1, hc2, if_false, if_true, he1, he2]


theorem big_stream_sorted : (big_stream.map (fun m => m.key)).Pairwise (· ≤ ·) := by
  unfold big_stream
  rw [List.map_append, List.map_replicate, List.pairwise_append]
  refine ⟨?_, by decide, ?_⟩
  · apply List.pairwise_of_forall_mem_list
    intro a ha b hb
    rw [(List.mem_replicate.mp ha).2, (List.mem_replicate.mp hb).2]
  · intro a ha b hb
    rw [(List.mem_replicate.mp ha).2]
    simp only [List.map_cons, List.map_nil, List.mem_cons, List.mem_singleton,
      List.mem_nil_iff, or_false, or_self] at hb
    rw [hb]
    decide

theorem big_stream_wf : ∀ m ∈ big_stream, m.wf := by
  intro m hm
  unfold big_stream at hm
  rcases List.mem_append.mp hm with h | h
  · rw [(List.mem_replicate.mp h).2]; decide
  · simp only [List.mem_cons, List.mem_singleton, List.mem_nil_iff, or_false] at h
    rcases h with h | h <;> rw [h] <;> decide

theorem big_stream_take : big_stream.take (2 ^ 29 + 2) = big_stream := by
  apply List.take_of_length_le
  unfold big_stream
  rw [List.length_append, List.length_replicate]
  exact Nat.le_refl _

theorem big_stream_values : values_of big_stream 2 = [5, 6] := by
  unfold big_stream values_of
  rw [List.filter_append, List.map_append]
  have h : (List.replicate (2 ^ 29) (⟨1, 0⟩ : record)).filter (fun m => m.key = 2) = [] := by
    rw [List.filter_eq_nil_iff]
    intro m hm
    rw [(List.mem_replicate.mp hm).2]
    decide
  rw [h]
  decide

theorem big_populate :
    (⟨true, 1, [(1, attr_spec true 8584 (List.replicate (2 ^ 29) 0)),
        (2, attr_spec true 35148 [5, 6])]⟩ : bucket_builder).populate_appendix 0 ⟨[]⟩ =
      (⟨true, 1, [(1, ⟨2 ^ 29, 8585, 2 ^ 29, 0, List.replicate (2 ^ 29) 0, []⟩),
          (2, ⟨2, 35149, 2, 0, [5, 6], []⟩)]⟩,
       ⟨List.replicate (2 ^ 32) 0 ++ [5, 0, 0, 0, 0, 0, 0, 0, 6, 0, 0, 0, 0, 0, 0, 0]⟩) := by
  have h := key_pair_populate (2 ^ 29) (by norm_num) 8584 35148
  rw [show 8 * 2 ^ 29 = 2 ^ 32 from by norm_num,
    show handle64 0 (2 ^ 29) = 2 ^ 29 from by decide,
    show handle64 (2 ^ 32) 2 = 2 from by decide,
    show 8584 ||| 1 = 8585 from by decide,
    show 35148 ||| 1 = 35149 from by decide] at h
  exact h

theorem big_lookup :
    (⟨true, 4096, 4416⟩ : bucket_reader).lookup_one
      (block_at 4096
        ((⟨true, 1, [(1, ⟨2 ^ 29, 8585, 2 ^ 29, 0, List.replicate (2 ^ 29) 0, []⟩),
            (2, ⟨2, 35149, 2, 0, [5, 6], []⟩)]⟩ : bucket_builder).pack ++
          (List.replicate (2 ^ 32) 0 ++ [5, 0, 0, 0, 0, 0, 0, 0, 6, 0, 0, 0, 0, 0, 0, 0])))
      2 0 1 0 = (2, 4416) := by
  decide

theorem big_values :
    load_u64s
      (block_at 4096
        ((⟨true, 1, [(1, ⟨2 ^ 29, 8585, 2 ^ 29, 0, List.replicate (2 ^ 29) 0, []⟩),
            (2, ⟨2, 35149, 2, 0, [5, 6], []⟩)]⟩ : bucket_builder).pack ++
          (List.replicate (2 ^ 32) 0 ++ [5, 0, 0, 0, 0, 0, 0, 0, 6, 0, 0, 0, 0, 0, 0, 0])))
      4416 2 = [0, 0] := by
  decide

/-- The database built from `big_stream`, as the reader loads it. -/
theorem big_reader_spec :
    ((db_builder.new true).build 0 (2 ^ 29 + 2) big_stream).apdx.get_size = 2 ^ 32 + 16 ∧
    ∃ rd s, db_reader.new.read 4096
        (((db_builder.new true).build 0 (2 ^ 29 + 2) big_stream).write
          (fun _ => (0, 0)) [] mem_binstream.new).2 = (some 0, rd, s) ∧
      rd.ranges = [1] ∧
      rd.preader = ⟨true, 4096, 4416⟩ ∧
      rd.memory = block_at 4096
        ((⟨true, 1, [(1, ⟨2 ^ 29, 8585, 2 ^ 29, 0, List.replicate (2 ^ 29) 0, []⟩),
            (2, ⟨2, 35149, 2, 0, [5, 6], []⟩)]⟩ : bucket_builder).pack ++
          (List.replicate (2 ^ 32) 0 ++ [5, 0, 0, 0, 0, 0, 0, 0, 6, 0, 0, 0, 0, 0, 0, 0])) := by
  have hbe : (db_builder.new true).build 0 (2 ^ 29 + 2) big_stream =
      ((db_builder.new true).clear.emit 0
        ⟨true, 1, [(1, attr_spec true 8584 (List.replicate (2 ^ 29) 0)),
          (2, attr_spec true 35148 [5, 6])]⟩).1 := by
    rw [build_eq]
    show emit_all 0 (db_builder.new true).clear (build_buckets true (2 ^ 29 + 2) big_stream) = _
    rw [big_buckets]
    rfl
  have hms : ((db_builder.new true).build 0 (2 ^ 29 + 2) big_stream).mstream.data =
      (⟨true, 1, [(1, ⟨2 ^ 29, 8585, 2 ^ 29, 0, List.replicate (2 ^ 29) 0, []⟩),
          (2, ⟨2, 35149, 2, 0, [5, 6], []⟩)]⟩ : bucket_builder).pack := by
    rw [hbe, emit_mstream]
    show [] ++ (bucket_builder.populate_appendix _ 0 ⟨[]⟩).1.pack = _
    rw [big_populate, List.nil_append]
  have hap : ((db_builder.new true).build 0 (2 ^ 29 + 2) big_stream).apdx =
      ⟨List.replicate (2 ^ 32) 0 ++ [5, 0, 0, 0, 0, 0, 0, 0, 6, 0, 0, 0, 0, 0, 0, 0]⟩ := by
    rw [hbe, emit_apdx]
    show (bucket_builder.populate_appendix _ 0 ⟨[]⟩).2 = _
    rw [big_populate]
  have hsz : ((db_builder.new true).build 0 (2 ^ 29 + 2) big_stream).apdx.get_size =
      2 ^ 32 + 16 := by
    rw [hap]
    unfold appendix.get_size
    rw [List.length_append, List.length_replicate]
    rfl
  have hdb : ((db_builder.new true).build 0 (2 ^ 29 + 2) big_stream).get_db_size = 320 := by
    rw [hbe]; rfl
  obtain ⟨rd, s, hrw, hbuf, hdata, hpre, hranges, _, _, _⟩ :=
    build_read_write 0 (2 ^ 29 + 2) big_stream big_stream_sorted big_stream_wf
      (by rw [hsz, hdb]; norm_num) (by rw [big_buckets]; exact List.cons_ne_nil _ _)
      (fun _ => (0, 0)) [] (by decide) 4096
  rw [big_buckets] at hranges hpre
  have hranges2 : rd.ranges = [1] := by
    rw [hranges]; rfl
  have hpre2 : rd.preader = ⟨true, 4096, 4416⟩ := by
    rw [hpre]; rfl
  refine ⟨hsz, rd, s, hrw, hranges2, hpre2, ?_⟩
  unfold db_reader.memory
  rw [hdata, hbuf, hms, hap]
/-- C1 as stated fails when the appendix is not smaller than 2^32 bytes.  The
stream `big_stream` is in key order; its database has one bucket, with the keys
1 and 2 and the range 1, and its appendix holds the 2^29 values of key 1 in its
first 2^32 bytes, followed by the values 5 and 6 of key 2.  `read` succeeds and
the oracle returns the bucket index 0 and the base 1 for key 2, but the handle
of key 2 keeps the low 32 bits of the offset 2^32 only: `query` returns
`num[0] = 2` and a pointer to offset 0 of the appendix, where the two values
read are 0 and 0, not 5 and 6. -/
theorem C1_counterexample :
    (big_stream.map (fun m => m.key)).Pairwise (· ≤ ·) ∧
    (∀ m ∈ big_stream, m.wf) ∧
    ((db_builder.new true).build 0 (2 ^ 29 + 2) big_stream).apdx.get_size = 2 ^ 32 + 16 ∧
    (⟨2, 5⟩ : record) ∈ big_stream.take (2 ^ 29 + 2) ∧
    values_of (big_stream.take (2 ^ 29 + 2)) 2 = [5, 6] ∧
    ∃ rd s, db_reader.new.read 4096
        (((db_builder.new true).build 0 (2 ^ 29 + 2) big_stream).write
          (fun _ => (0, 0)) [] mem_binstream.new).2 = (some 0, rd, s) ∧
      rd.ranges = [1] ∧
      (search_oracle.locate rd.ranges rd.compression rd.model [2, 2, 2, 2]).2.getD 0 0 = 0 ∧
      (search_oracle.locate rd.ranges rd.compression rd.model [2, 2, 2, 2]).1.getD 0 0 = 1 ∧
      (rd.query search_oracle [2, 2, 2, 2] [0, 0, 0, 0] [0, 0, 0, 0]).2.1.getD 0 0 = 2 ∧
      load_u64s rd.memory
        ((rd.query search_oracle [2, 2, 2, 2] [0, 0, 0, 0] [0, 0, 0, 0]).2.2.getD 0 0) 2 =
          [0, 0] ∧
      ¬ (load_u64s rd.memory
        ((rd.query search_oracle [2, 2, 2, 2] [0, 0, 0, 0] [0, 0, 0, 0]).2.2.getD 0 0) 2 =
          qsort compare_uint64 (values_of (big_stream.take (2 ^ 29 + 2)) 2)) := by
  obtain ⟨hsz, rd, s, hread, hranges, hpre, hmem⟩ := big_reader_spec
  have hloc : search_oracle.locate rd.ranges rd.compression rd.model
      [2, 2, 2, 2] = ([1, 1, 1, 1], [0, 0, 0, 0]) := by
    rw [hranges]
    rfl
  have hq1 : (rd.query search_oracle [2, 2, 2, 2] [0, 0, 0, 0] [0, 0, 0, 0]).2.1 =
      (rd.preader.lookup_batch rd.memory [2, 2, 2, 2]
        (search_oracle.locate rd.ranges rd.compression rd.model [2, 2, 2, 2]).2
        (search_oracle.locate rd.ranges rd.compression rd.model [2, 2, 2, 2]).1
        [0, 0, 0, 0] [0, 0, 0, 0]).1 := rfl
  have hq2 : (rd.query search_oracle [2, 2, 2, 2] [0, 0, 0, 0] [0, 0, 0, 0]).2.2 =
      (rd.preader.lookup_batch rd.memory [2, 2, 2, 2]
        (search_oracle.locate rd.ranges rd.compression rd.model [2, 2, 2, 2]).2
        (search_oracle.locate rd.ranges rd.compression rd.model [2, 2, 2, 2]).1
        [0, 0, 0, 0] [0, 0, 0, 0]).2 := rfl
  have hb := lookup_batch_getD rd.memory rd.preader [2, 2, 2, 2]
    [0, 0, 0, 0] [1, 1, 1, 1] [0, 0, 0, 0] [0, 0, 0, 0] rfl rfl 0 (by decide)
  have hone : rd.preader.lookup_one rd.memory 2 0 1 0 = (2, 4416) := by
    rw [hpre, hmem]
    exact big_lookup
  have hb2 := Prod.mk.inj (hb.trans hone)
  have hvals : load_u64s rd.memory 4416 2 = [0, 0] := by
    rw [hmem]
    exact big_values
  have hmemb : (⟨2, 5⟩ : record) ∈ big_stream := by
    unfold big_stream
    exact List.mem_append_right _ (List.mem_cons_self _ _)
  rw [big_stream_take, big_stream_values]
  refine ⟨big_stream_sorted, big_stream_wf, hsz, hmemb, rfl, rd, s, hread, hranges, ?_⟩
  rw [hq1, hq2, hloc, hb2.1, hb2.2, hvals]
  refine ⟨rfl, rfl, rfl, rfl, ?_⟩
  decide


/-! ## C11, C12, C16: the appendix -/

theorem add_element64_size (a : appendix) (vals : List Nat) :
    (a.add_element64 vals).2.1.get_size = a.get_size + 8 * vals.length := by
  unfold appendix.get_size
  rw [(add_element64_spec a vals).2.1, List.length_append,
    flatMap_le_bytes_length 8 (fun v => v), (qsort_perm compare_uint64 vals).length_eq]

/-- C11: `add_element64(vals)` returns the handle `(offset << 32) | count`, in
64-bit arithmetic with the count cast to 32 bits, where `offset` is the byte
size of the appendix before the call and `count = vals.size()`, and the
appendix grows by exactly `8 * count` bytes.  When `offset < 2^32` and
`count < 2^32` no bit is lost, and the decoding of the reader recovers both:
`handle >> 32 = offset` and `handle & 0xFFFFFFFF = count`. -/
theorem C11_add_element64_handle (a : appendix) (vals : List Nat) :
    (a.add_element64 vals).1 =
      ((a.get_size <<< 32) % 2 ^ 64) ||| (vals.length % 2 ^ 32) ∧
    (a.add_element64 vals).2.1.get_size = a.get_size + 8 * vals.length ∧
    (a.get_size < 2 ^ 32 → vals.length < 2 ^ 32 →
      (a.add_element64 vals).1 = (a.get_size <<< 32) ||| vals.length ∧
      (a.add_element64 vals).1 >>> 32 = a.get_size ∧
      (a.add_element64 vals).1 &&& 0xFFFFFFFF = vals.length ∧
      (a.add_element64 vals).1 < 2 ^ 64) := by
  have hs := (add_element64_spec a vals).1
  refine ⟨hs, add_element64_size a vals, ?_⟩
  intro ho hc
  have hd := handle64_decode a.get_size vals.length ho hc
  have hs2 : (a.add_element64 vals).1 = handle64 a.get_size vals.length := hs
  have e1 : (a.get_size <<< 32) % 2 ^ 64 = a.get_size <<< 32 := by
    apply Nat.mod_eq_of_lt
    rw [Nat.shiftLeft_eq]
    calc a.get_size * 2 ^ 32 < 2 ^ 32 * 2 ^ 32 := by omega
      _ = 2 ^ 64 := by norm_num
  refine ⟨?_, by rw [hs2]; exact hd.2.1, ?_, by rw [hs2]; exact hd.2.2⟩
  · rw [hs2]
    unfold handle64
    rw [e1, Nat.mod_eq_of_lt hc]
  · rw [hs2, show (0xFFFFFFFF : Nat) = 2 ^ 32 - 1 by norm_num, Nat.and_pow_two_sub_one_eq_mod]
    exact hd.1

theorem C11_add_element64_handle_witness :
    (⟨[1, 2, 3, 4]⟩ : appendix).get_size < 2 ^ 32 ∧ ([30, 10, 20] : List Nat).length < 2 ^ 32 ∧
    ((⟨[1, 2, 3, 4]⟩ : appendix).add_element64 [30, 10, 20]).1 >>> 32 = 4 ∧
    ((⟨[1, 2, 3, 4]⟩ : appendix).add_element64 [30, 10, 20]).1 &&& 0xFFFFFFFF = 3 :=
  ⟨by decide, by decide,
   ((C11_add_element64_handle ⟨[1, 2, 3, 4]⟩ [30, 10, 20]).2.2 (by decide) (by decide)).2.1,
   ((C11_add_element64_handle ⟨[1, 2, 3, 4]⟩ [30, 10, 20]).2.2 (by decide) (by decide)).2.2.1⟩

/-- C12: for every vector `vals`, `add_element64(vals)` appends the values of
`vals` in ascending order, duplicates included, each as 8 little-endian bytes;
the vector itself is left sorted.  (`qsort` as glibc's merge sort; the
comparator `a >= b` makes it take the right-hand element on a tie.) -/
theorem C12_add_element64_sorted (a : appendix) (vals : List Nat) :
    (a.add_element64 vals).2.1.data =
      a.data ++ (qsort compare_uint64 vals).flatMap (fun v => le_bytes 8 v) ∧
    (a.add_element64 vals).2.2 = qsort compare_uint64 vals ∧
    (qsort compare_uint64 vals).Perm vals ∧
    (qsort compare_uint64 vals).Pairwise (· ≤ ·) ∧
    (∀ v, (qsort compare_uint64 vals).count v = vals.count v) :=
  ⟨(add_element64_spec a vals).2.1, (add_element64_spec a vals).2.2,
   qsort_perm compare_uint64 vals, qsort_sorted vals,
   fun v => (qsort_perm compare_uint64 vals).count_eq v⟩


theorem add_element32_data (oob : Nat) (a : appendix) (vals : List Nat) :
    (appendix.add_element32 oob a vals).2.1.data =
      a.data ++ (le_bytes 4 (vals.length % 2 ^ 32) ++
        (qsort32 oob vals).flatMap (fun v => le_bytes 8 v)) := by
  unfold appendix.add_element32
  simp only []
  rw [push_fold_data]
  simp only [appendix.push, List.append_assoc]

theorem add_elements_data (oob : Nat) (calls : List (Bool × List Nat)) (a : appendix) :
    ∃ X, (a.add_elements oob calls).data = a.data ++ X := by
  induction calls generalizing a with
  | nil => exact ⟨[], by simp [appendix.add_elements]⟩
  | cons c calls ih =>
    have hstep : a.add_elements oob (c :: calls) =
        appendix.add_elements oob
          (if c.1 then (a.add_element64 c.2).2.1 else (appendix.add_element32 oob a c.2).2.1)
          calls := rfl
    rw [hstep]
    by_cases h : c.1 = true
    · rw [if_pos h]
      obtain ⟨X, hX⟩ := ih (a.add_element64 c.2).2.1
      rw [hX, (add_element64_spec a c.2).2.1, List.append_assoc]
      exact ⟨_, rfl⟩
    · rw [if_neg h]
      obtain ⟨X, hX⟩ := ih (appendix.add_element32 oob a c.2).2.1
      rw [hX, add_element32_data, List.append_assoc]
      exact ⟨_, rfl⟩

/-- C16: the appendix is append-only.  After `add_element64` or
`add_element32`, and after any sequence of such calls, the data of the
appendix is the data it had before followed by new bytes; so the bytes at every
range below the earlier size, such as the payload of a handle issued before,
stay at their offset with their content. -/
theorem C16_appendix_append_only (oob : Nat) (a : appendix) :
    (∀ vals, ∃ X, (a.add_element64 vals).2.1.data = a.data ++ X) ∧
    (∀ vals, ∃ X, (appendix.add_element32 oob a vals).2.1.data = a.data ++ X) ∧
    (∀ calls, ∃ X, (a.add_elements oob calls).data = a.data ++ X) ∧
    (∀ calls off n, off + n ≤ a.get_size →
      bytes_at (a.add_elements oob calls).data off n = bytes_at a.data off n) ∧
    (∀ calls i, i < a.get_size →
      (a.add_elements oob calls).data.getD i 0 = a.data.getD i 0) := by
  refine ⟨fun vals => ⟨_, (add_element64_spec a vals).2.1⟩,
    fun vals => ⟨_, add_element32_data oob a vals⟩,
    fun calls => add_elements_data oob calls a, ?_, ?_⟩
  · intro calls off n h
    obtain ⟨X, hX⟩ := add_elements_data oob calls a
    rw [hX]
    exact bytes_at_append_left a.data X off n h
  · intro calls i h
    obtain ⟨X, hX⟩ := add_elements_data oob calls a
    rw [hX]
    exact List.getD_append _ _ _ _ h

theorem C16_appendix_append_only_witness :
    (0 : Nat) + 8 ≤ ((⟨[]⟩ : appendix).add_element64 [7, 3]).2.1.get_size ∧
    bytes_at ((((⟨[]⟩ : appendix).add_element64 [7, 3]).2.1).add_elements 0
        [(false, [9, 8]), (true, [1, 2])]).data 0 8 =
      bytes_at ((⟨[]⟩ : appendix).add_element64 [7, 3]).2.1.data 0 8 :=
  ⟨by decide,
   (C16_appendix_append_only 0 ((⟨[]⟩ : appendix).add_element64 [7, 3]).2.1).2.2.2.1
     [(false, [9, 8]), (true, [1, 2])] 0 8 (by decide)⟩


/-! ## C20: the header -/

/-- The 16 bytes `write_header` makes of a name: the name up to its first NUL,
cut to 16 bytes and padded with zeros. -/
theorem strncmp_header (n : Nat) (name : List Nat) :
    strncmp_zero n
      ((c_string name).take n ++ List.replicate (n - (c_string name).length) 0) name = true := by
  induction n generalizing name with
  | zero => rfl
  | succ n ih =>
    cases name with
    | nil => simp [strncmp_zero, c_string, List.replicate_succ]
    | cons x t =>
      by_cases hx : x = 0
      · simp [strncmp_zero, c_string, hx, List.replicate_succ]
      · have hc : c_string (x :: t) = x :: c_string t := by
          simp [c_string, List.takeWhile_cons, hx]
        rw [hc]
        simp only [List.take_succ_cons, List.length_cons, List.cons_append, strncmp_zero,
          List.headD_cons, ne_eq, not_true_eq_false, if_false, hx, List.tail_cons,
          Nat.add_sub_add_right]
        exact ih t

theorem header_bytes_length (name : List Nat) :
    ((c_string name).take (min (c_string name).length header_length) ++
      List.replicate (header_length - min (c_string name).length header_length) 0).length =
      16 := by
  simp only [List.length_append, List.length_take, List.length_replicate, header_length]
  omega

theorem header_bytes_eq (name : List Nat) :
    (c_string name).take (min (c_string name).length header_length) ++
      List.replicate (header_length - min (c_string name).length header_length) 0 =
    (c_string name).take 16 ++ List.replicate (16 - (c_string name).length) 0 := by
  unfold header_length
  by_cases h : (c_string name).length ≤ 16
  · rw [Nat.min_eq_left h, List.take_of_length_le (Nat.le_refl _), List.take_of_length_le h]
  · have h2 : 16 ≤ (c_string name).length := by omega
    rw [Nat.min_eq_right h2, Nat.sub_self, Nat.sub_eq_zero_of_le h2]

/-- C20: for every name and every 16-bit version `v`, `write_header(name, v)`
appends exactly 20 bytes: the name cut to 16 bytes and padded with zeros, the
16-bit value 1 and the 16-bit `v`, little-endian.  `read_header(name)` on a
stream positioned at those bytes does not throw, returns `v`, and moves the
read position by exactly 20 bytes. -/
theorem C20_header_round_trip (name : List Nat) (v : Nat) (hv : v < 2 ^ 16)
    (s : mem_binstream) (pre rest : List Nat) :
    (binstream_write_header s name v).data =
      s.data ++ ((c_string name).take 16 ++ List.replicate (16 - (c_string name).length) 0 ++
        le_bytes 2 1 ++ le_bytes 2 v) ∧
    (binstream_write_header s name v).cursor = s.cursor ∧
    ((c_string name).take 16 ++ List.replicate (16 - (c_string name).length) 0 ++
      le_bytes 2 1 ++ le_bytes 2 v).length = 20 ∧
    binstream_read_header
        ⟨pre ++ (((c_string name).take 16 ++
          List.replicate (16 - (c_string name).length) 0 ++ le_bytes 2 1 ++ le_bytes 2 v) ++
          rest), pre.length⟩ name =
      (some v,
       ⟨pre ++ (((c_string name).take 16 ++
          List.replicate (16 - (c_string name).length) 0 ++ le_bytes 2 1 ++ le_bytes 2 v) ++
          rest), pre.length + 20⟩) := by
  have hlen16 : ((c_string name).take 16 ++
      List.replicate (16 - (c_string name).length) 0).length = 16 := by
    rw [← header_bytes_eq]; exact header_bytes_length name
  refine ⟨?_, rfl, ?_, ?_⟩
  · unfold binstream_write_header
    simp only [mem_binstream.write]
    rw [header_bytes_eq]
    simp only [List.append_assoc]
  · rw [List.length_append, List.length_append, hlen16, le_bytes_length, le_bytes_length]
  · unfold binstream_read_header
    simp only [header_length]
    have hdata : pre ++ (((c_string name).take 16 ++
        List.replicate (16 - (c_string name).length) 0 ++ le_bytes 2 1 ++ le_bytes 2 v) ++
        rest) =
        pre ++ (((c_string name).take 16 ++ List.replicate (16 - (c_string name).length) 0) ++
          (le_bytes 2 1 ++ (le_bytes 2 v ++ rest))) := by
      simp only [List.append_assoc]
    rw [hdata, read_chunk pre _ _ 16 hlen16]
    simp only []
    rw [strncmp_header 16 name, read_le_bytes, read_le_bytes]
    have h1 : of_le_bytes (le_bytes 2 1) = 1 := by decide
    have h2 : of_le_bytes (le_bytes 2 v) = v := by
      rw [of_le_bytes_le_bytes]
      exact Nat.mod_eq_of_lt (by norm_num; exact hv)
    simp only [h1, h2, ne_eq, not_true_eq_false, if_false, Bool.true_eq_false]
    refine Prod.ext rfl ?_
    simp only [mem_binstream.mk.injEq, List.append_assoc, List.length_append, le_bytes_length,
      true_and]
    rw [List.length_append] at hlen16
    omega

theorem C20_header_round_trip_witness :
    (1 : Nat) < 2 ^ 16 ∧
    (binstream_write_header mem_binstream.new [100, 98] 1).data =
      [100, 98, 0, 0, 0, 0, 0, 0, 0, 0, 0, 0, 0, 0, 0, 0, 1, 0, 1, 0] ∧
    binstream_read_header
        ⟨[] ++ (((c_string [100, 98]).take 16 ++
          List.replicate (16 - (c_string [100, 98]).length) 0 ++ le_bytes 2 1 ++ le_bytes 2 1) ++
          [7, 7]), ([] : List Nat).length⟩ [100, 98] =
      (some 1,
       ⟨[] ++ (((c_string [100, 98]).take 16 ++
          List.replicate (16 - (c_string [100, 98]).length) 0 ++ le_bytes 2 1 ++ le_bytes 2 1) ++
          [7, 7]), ([] : List Nat).length + 20⟩) :=
  ⟨by decide, by decide,
   (C20_header_round_trip [100, 98] 1 (by decide) mem_binstream.new [] [7, 7]).2.2.2⟩


/-! ## C13, C14, C15: the 32-bit mode -/

/-- C13 (what the code does): `add_element32(vals)` pushes the count (4 bytes)
and takes its result after that, so it returns the size before the call plus
4; it pushes each value through a `uint64_t` variable, 8 bytes each, so the
appendix grows by `4 + 8 * count` bytes; and the values are in the order
`qsort` gives with a comparator that reads 8 bytes at each 4-byte element.  On
the empty appendix and the values 1, 2, 3, 4, 5 it returns 4, not 0, the
appendix grows by 44 bytes, not 24, and the values follow the count in the
order 1, 5, 4, 3, 2, as 8 bytes each. -/
theorem C13_add_element32_layout (oob : Nat) (a : appendix) (vals : List Nat) :
    (appendix.add_element32 oob a vals).1 = (a.get_size + 4) % 2 ^ 32 ∧
    (appendix.add_element32 oob a vals).2.1.data =
      a.data ++ (le_bytes 4 (vals.length % 2 ^ 32) ++
        (qsort32 oob vals).flatMap (fun v => le_bytes 8 v)) ∧
    (appendix.add_element32 0 ⟨[]⟩ [1, 2, 3, 4, 5]).1 = 4 ∧
    (appendix.add_element32 0 ⟨[]⟩ [1, 2, 3, 4, 5]).2.1.get_size = 44 ∧
    (appendix.add_element32 0 ⟨[]⟩ [1, 2, 3, 4, 5]).2.1.data =
      [5, 0, 0, 0, 1, 0, 0, 0, 0, 0, 0, 0, 5, 0, 0, 0, 0, 0, 0, 0, 4, 0, 0, 0, 0, 0, 0, 0,
       3, 0, 0, 0, 0, 0, 0, 0, 2, 0, 0, 0, 0, 0, 0, 0] := by
  refine ⟨?_, add_element32_data oob a vals, by decide, by decide, by decide⟩
  unfold appendix.add_element32 appendix.get_size appendix.push
  simp only [List.length_append, le_bytes_length]

/-- C14 (what the code does): in the 32-bit database built from the key 7 with
the values 1, 2, 3, 4, 5, `read` succeeds and the oracle returns bucket 0 with
base 7, but `query` returns `num = 1`, not 5, and a pointer 8 bytes into the
appendix, where the five 32-bit values read are 0, 5, 0, 4, 0.  The slot of the
key holds the offset 4 that `add_element32` returned, where the reader finds
the low half of the first 8-byte value instead of the count. -/
theorem C14_lookup32_multi :
    five_reader.preader = ⟨false, 4096, 4288⟩ ∧
    five_reader.ranges = [7] ∧
    search_oracle.locate five_reader.ranges five_reader.compression five_reader.model
      [7, 7, 7, 7] = ([7, 7, 7, 7], [0, 0, 0, 0]) ∧
    (five_reader.query search_oracle [7, 7, 7, 7] [0, 0, 0, 0] [0, 0, 0, 0]).2 =
      ([1, 1, 1, 1], [4296, 4296, 4296, 4296]) ∧
    load_u32s five_reader.memory 4296 5 = [0, 5, 0, 4, 0] ∧
    (five_bucket.populate_appendix 0 ⟨[]⟩).2.data =
      [5, 0, 0, 0, 1, 0, 0, 0, 0, 0, 0, 0, 5, 0, 0, 0, 0, 0, 0, 0, 4, 0, 0, 0, 0, 0, 0, 0,
       3, 0, 0, 0, 0, 0, 0, 0, 2, 0, 0, 0, 0, 0, 0, 0] ∧
    ((⟨false, 4096, 4288⟩ : bucket_reader).lookup_batch
      (block_at 4096 ((five_bucket.populate_appendix 0 ⟨[]⟩).1.pack ++
        (five_bucket.populate_appendix 0 ⟨[]⟩).2.data))
      [7, 7, 7, 7] [0, 0, 0, 0] [7, 7, 7, 7] [0, 0, 0, 0] [0, 0, 0, 0]) =
      ([1, 1, 1, 1], [4296, 4296, 4296, 4296]) := by
  decide


theorem populate_entries_single (u : Bool) (oob : Nat) (l : List (Nat × attr)) (a : appendix)
    (it : Nat × attr) (h : it ∈ (populate_entries u oob l a).1) (hc : it.2.count ≤ 1) :
    it ∈ l := by
  induction l generalizing a with
  | nil => simp [populate_entries] at h
  | cons y l ih =>
    obtain ⟨k, x⟩ := y
    simp only [populate_entries] at h
    by_cases h1 : x.count ≤ 1
    · simp only [h1, if_true, List.mem_cons] at h
      rcases h with h | h
      · rw [h]; exact List.mem_cons_self _ _
      · exact List.mem_cons_of_mem _ (ih a h)
    · cases u
      · simp only [h1, if_false, Bool.false_eq_true, List.mem_cons] at h
        rcases h with h | h
        · rw [h] at hc; exact absurd hc h1
        · exact List.mem_cons_of_mem _ (ih _ h)
      · simp only [h1, if_false, if_true, List.mem_cons] at h
        rcases h with h | h
        · rw [h] at hc; exact absurd hc h1
        · exact List.mem_cons_of_mem _ (ih _ h)

/-- In a reachable builder the tag of a key with one value has bit 0 clear:
`populate_appendix` flags the keys with several values only. -/
theorem reachable_single_even (b : bucket_builder) (hb : b.reachable) :
    ∀ it ∈ b.keys, it.2.count ≤ 1 → it.2.hash % 2 = 0 := by
  induction hb with
  | new u => intro it h; simp [bucket_builder.new] at h
  | push b m hb ih =>
    have hinv := reachable_inv b hb
    intro it hit hc
    rcases push_cases b m hinv with ⟨a, hfd, hpe⟩ | ⟨_, _, hpe⟩ | ⟨hfd, _, hpe⟩
    · rw [hpe] at hit
      rcases (mem_map_set _ _ _ hinv.sorted it).mp hit with h | h
      · rw [h] at hc
        simp only [attr_pushed_count] at hc
        have := hinv.counts _ (map_find_some_mem _ _ _ hfd)
        simp only at this
        omega
      · exact ih it h.1 hc
    · rw [hpe] at hit
      exact ih it hit hc
    · rw [hpe] at hit
      rcases (mem_map_set_new b.keys m.key _ hfd it).mp hit with h | h
      · rw [h]
        simp only [attr_pushed_hash]
        exact hash_15bit_key_even _ _
      · exact ih it h hc
  | clear b _ _ => intro it h; simp [bucket_builder.clear] at h
  | populate b oob a _ ih =>
    intro it hit hc
    exact ih it (populate_entries_single b.use_64bit oob b.keys a it hit hc) hc

/-- C15 (what the code does): for a page packed from a reachable 32-bit
builder and a key with one value at slot index `pre.length` of the page,
`lookup_batch` returns `num = 1` and `ptr = page + 64 + 8 * slot`: the pointer is
computed with the 8-byte stride of 64-bit slots.  `pack` stores the value of
the key in the 4-byte slot at `page + 64 + 4 * slot`, so for every slot but the
first the pointer is not the address of the key's slot. -/
theorem C15_singleton32_pointer (b : bucket_builder) (hb : b.reachable)
    (h32 : b.use_64bit = false) (mem : Memory) (r : bucket_reader) (hr : r.use_64bit = false)
    (idx : Nat) (hidx : idx < 2 ^ 31)
    (hm : holds mem (r.data + idx * 192) b.pack)
    (pre : List Nat) (k : Nat) (post : List Nat) (ho : b.get_key_order = pre ++ k :: post)
    (hone : (b.attr_of k).count = 1)
    (keys : List Nat) (srs : List Int) (bases : List Nat) (num : List Int) (ptr : List Nat)
    (hn : num.length = N) (hp : ptr.length = N) (i : Nat) (hi : i < N)
    (hkey : keys.getD i 0 = k) (hsr : srs.getD i 0 = (idx : Int))
    (hbase : bases.getD i 0 = b.get_smallest_key) :
    (r.lookup_batch mem keys srs bases num ptr).1.getD i 0 = 1 ∧
    (r.lookup_batch mem keys srs bases num ptr).2.getD i 0 =
      r.data + idx * 192 + 64 + 8 * pre.length ∧
    load_u32 mem (r.data + idx * 192 + 64 + 4 * pre.length) =
      (b.attr_of k).saved_val32 % 2 ^ 32 ∧
    pre.length < 32 ∧
    (pre.length ≠ 0 →
      (r.lookup_batch mem keys srs bases num ptr).2.getD i 0 ≠
        r.data + idx * 192 + 64 + 4 * pre.length) := by
  have hinv := reachable_inv b hb
  have hkmem : k ∈ b.keys_of := (get_key_order_perm b).mem_iff.mp (by rw [ho]; simp)
  obtain ⟨it, hit, hitk⟩ := mem_keys_of b k hkmem
  have hattr : b.attr_of k = it.2 := by rw [← hitk]; exact attr_of_mem b hinv it hit
  have heven : (b.attr_of k).hash % 2 = 0 := by
    rw [hattr]
    apply reachable_single_even b hb it hit
    rw [← hattr, hone]
  have hbit : ((b.attr_of k).hash % 65536) &&& 1 = 0 := by
    rw [Nat.and_one_is_mod]
    omega
  have hsz : bucket_builder.get_size_bytes r.use_64bit = 192 := by rw [hr]; rfl
  have hm2 : holds mem (r.data + idx * bucket_builder.get_size_bytes r.use_64bit) b.pack := by
    rw [hsz]; exact hm
  have h1 := lookup_one_present b hinv mem r idx (by rw [hsz]; omega) hm2 pre k post ho
    (ptr.getD i 0)
  rw [if_pos hbit, hsz] at h1
  have hb1 := lookup_batch_getD mem r keys srs bases num ptr hn hp i hi
  rw [hkey, hsr, hbase] at hb1
  have hb2 := Prod.mk.inj (hb1.trans h1)
  have hslot := slot_pack b hinv mem (r.data + idx * 192) hm pre k post ho
  have hlen : pre.length < 32 := by
    have h2 := get_key_order_length b
    rw [ho, List.length_append, List.length_cons] at h2
    have h3 : b.keys.length ≤ 32 := hinv.bound
    omega
  refine ⟨hb2.1, hb2.2, ?_, hlen, ?_⟩
  · have hw : slot_width b.use_64bit = 4 := by rw [h32]; rfl
    rw [hw] at hslot
    unfold bucket_builder.saved_of at hslot
    rw [h32] at hslot
    unfold load_u32
    rw [hslot]
    norm_num
  · intro h0
    rw [hb2.2]
    omega

theorem holds_block_at_base (base : Nat) (page : List Nat) :
    holds (block_at base page) base page := by
  intro i _
  simp [block_at]

theorem two_bucket_reachable : two_bucket.reachable :=
  .populate _ _ _ (.push _ _ (.push _ _ (.new false)))

theorem C15_singleton32_pointer_witness :
    two_bucket.get_key_order = [11] ++ 10 :: [] ∧
    (two_bucket.attr_of 10).count = 1 ∧
    ((⟨false, 4096, 4288⟩ : bucket_reader).lookup_batch (block_at 4096 two_bucket.pack)
      [10, 10, 10, 10] [0, 0, 0, 0] [10, 10, 10, 10] [0, 0, 0, 0] [0, 0, 0, 0]).1.getD 0 0 = 1 ∧
    ((⟨false, 4096, 4288⟩ : bucket_reader).lookup_batch (block_at 4096 two_bucket.pack)
      [10, 10, 10, 10] [0, 0, 0, 0] [10, 10, 10, 10] [0, 0, 0, 0] [0, 0, 0, 0]).2.getD 0 0 =
        4096 + 0 * 192 + 64 + 8 * 1 ∧
    load_u32 (block_at 4096 two_bucket.pack) (4096 + 0 * 192 + 64 + 4 * 1) = 111 ∧
    load_u32 (block_at 4096 two_bucket.pack) (4096 + 0 * 192 + 64 + 8 * 1) = 0 := by
  have h := C15_singleton32_pointer two_bucket two_bucket_reachable (by decide)
    (block_at 4096 two_bucket.pack) ⟨false, 4096, 4288⟩ rfl 0 (by decide)
    (holds_block_at_base 4096 two_bucket.pack) [11] 10 [] (by decide) (by decide)
    [10, 10, 10, 10] [0, 0, 0, 0] [10, 10, 10, 10] [0, 0, 0, 0] [0, 0, 0, 0] rfl rfl 0
    (by decide) rfl rfl (by decide)
  exact ⟨by decide, by decide, h.1, h.2.1, by decide, by decide⟩


/-! ## C17, C18, C19: `write` and `read` in both modes -/

/-- A property of bucket builders that `push` and `clear` keep holds of every
bucket the loop of `build` emits and of the builder it ends with. -/
theorem build_loop_all (P : bucket_builder → Prop) (R : record → Prop)
    (hpush : ∀ b m, R m → P b → P (b.push m).2) (hclear : ∀ b, P b → P b.clear)
    (n : Nat) (stream : List record) (hR : ∀ m ∈ stream, R m) (bb : bucket_builder)
    (hbb : P bb) :
    (∀ b ∈ (build_loop_buckets n stream bb).1, P b) ∧ P (build_loop_buckets n stream bb).2 := by
  induction n generalizing stream bb with
  | zero => simp [build_loop_buckets, hbb]
  | succ n ih =>
    cases stream with
    | nil => simp [build_loop_buckets, hbb]
    | cons m stream =>
      have hm := hR m (List.mem_cons_self _ _)
      have hR2 : ∀ m' ∈ stream, R m' := fun m' h => hR m' (List.mem_cons_of_mem _ h)
      simp only [build_loop_buckets]
      by_cases h : (bb.push m).1 = 0
      · simp only [h, if_true]
        exact ih stream hR2 _ (hpush bb m hm hbb)
      · simp only [h, if_false]
        have h2 := ih stream hR2 ((bb.push m).2.clear.push m).2
          (hpush _ m hm (hclear _ (hpush bb m hm hbb)))
        refine ⟨?_, h2.2⟩
        intro b hb
        rcases List.mem_cons.mp hb with hb | hb
        · rw [hb]; exact hpush bb m hm hbb
        · exact h2.1 b hb

theorem build_buckets_all (P : bucket_builder → Prop) (R : record → Prop)
    (hpush : ∀ b m, R m → P b → P (b.push m).2) (hclear : ∀ b, P b → P b.clear)
    (u : Bool) (hnew : P (bucket_builder.new u))
    (n : Nat) (stream : List record) (hR : ∀ m ∈ stream, R m) :
    ∀ b ∈ build_buckets u n stream, P b := by
  have h := build_loop_all P R hpush hclear n stream hR (bucket_builder.new u) hnew
  unfold build_buckets
  simp only []
  intro b hb
  split at hb
  · rcases List.mem_append.mp hb with hb | hb
    · exact h.1 b hb
    · simp only [List.mem_singleton] at hb
      rw [hb]; exact h.2
  · exact h.1 b hb

/-- Every bucket `build` emits has the mode of the builder, and its
`smallest_key` is a 64-bit value when the records are. -/
theorem build_buckets_typed (u : Bool) (n : Nat) (stream : List record)
    (hwf : ∀ m ∈ stream, m.wf) :
    ∀ b ∈ build_buckets u n stream, b.inv ∧ b.use_64bit = u ∧ b.smallest_key < 2 ^ 64 := by
  apply build_buckets_all (fun b => b.inv ∧ b.use_64bit = u ∧ b.smallest_key < 2 ^ 64)
    record.wf
  · intro b m hm hb
    refine ⟨inv_push b m hb.1, ?_, ?_⟩
    · rcases push_cases b m hb.1 with ⟨a, _, hp⟩ | ⟨_, _, hp⟩ | ⟨_, _, hp⟩
      · rw [hp]; exact hb.2.1
      · rw [hp]; exact hb.2.1
      · rw [hp]; exact hb.2.1
    · rcases push_cases b m hb.1 with ⟨a, _, hp⟩ | ⟨_, _, hp⟩ | ⟨_, _, hp⟩
      · rw [hp]; exact hb.2.2
      · rw [hp]; exact hb.2.2
      · rw [hp]
        show b.base_for m < 2 ^ 64
        unfold bucket_builder.base_for
        split
        · exact hm.1
        · exact hb.2.2
  · intro b hb
    exact ⟨inv_clear b, hb.2.1, by show (0 : Nat) < 2 ^ 64; norm_num⟩
  · exact ⟨inv_new u, rfl, by show (0 : Nat) < 2 ^ 64; norm_num⟩
  · exact hwf

theorem build_buckets_mode (u : Bool) (n : Nat) (stream : List record) :
    ∀ b ∈ build_buckets u n stream, b.inv ∧ b.use_64bit = u := by
  apply build_buckets_all (fun b => b.inv ∧ b.use_64bit = u) (fun _ => True)
  · intro b m _ hb
    refine ⟨inv_push b m hb.1, ?_⟩
    rcases push_cases b m hb.1 with ⟨a, _, hp⟩ | ⟨_, _, hp⟩ | ⟨_, _, hp⟩
    · rw [hp]; exact hb.2
    · rw [hp]; exact hb.2
    · rw [hp]; exact hb.2
  · intro b hb
    exact ⟨inv_clear b, hb.2⟩
  · exact ⟨inv_new u, rfl⟩
  · intro m _; trivial

theorem emit_all_mstream_length (oob : Nat) (bs : List bucket_builder) (db : db_builder)
    (hu : ∀ b ∈ bs, b.use_64bit = db.use_64bit) :
    (emit_all oob db bs).mstream.data.length =
      db.mstream.data.length + bucket_builder.get_size_bytes db.use_64bit * bs.length := by
  induction bs generalizing db with
  | nil => simp [emit_all]
  | cons b bs ih =>
    have hstep : emit_all oob db (b :: bs) = emit_all oob (db.emit oob b).1 bs := rfl
    have hu1 : (db.emit oob b).1.use_64bit = db.use_64bit := rfl
    rw [hstep, ih (db.emit oob b).1 (fun b' hb' => by
      rw [hu1]; exact hu b' (List.mem_cons_of_mem _ hb')), hu1, emit_mstream,
      List.length_append, pack_length, populate_use_64bit, hu b (List.mem_cons_self _ _),
      List.length_cons]
    rw [Nat.mul_succ]
    omega


theorem emit_all_compression (oob : Nat) (db : db_builder) (bs : List bucket_builder) :
    (emit_all oob db bs).compression = db.compression := by
  induction bs generalizing db with
  | nil => simp [emit_all]
  | cons b bs ih =>
    have : emit_all oob db (b :: bs) = emit_all oob (db.emit oob b).1 bs := rfl
    rw [this, ih]
    rfl

theorem built_db_eq (u : Bool) (c : Int) (oob n : Nat) (stream : List record) :
    built_db u c oob n stream =
      emit_all oob ((db_builder.new u).set_compression c).clear (build_buckets u n stream) := by
  unfold built_db
  rw [build_eq]
  rfl

/-- The fields of a built database that the layout depends on. -/
theorem built_db_facts (u : Bool) (c : Int) (oob n : Nat) (stream : List record) :
    (built_db u c oob n stream).use_64bit = u ∧
    (built_db u c oob n stream).compression = c ∧
    (built_db u c oob n stream).bucket_num = (build_buckets u n stream).length ∧
    (built_db u c oob n stream).ranges =
      (build_buckets u n stream).map (fun b => b.get_smallest_key) ∧
    (built_db u c oob n stream).mstream.data.length = (built_db u c oob n stream).get_db_size ∧
    (built_db u c oob n stream).get_db_size =
      (built_db u c oob n stream).bucket_num * bucket_builder.get_size_bytes u ∧
    (built_db u c oob n stream).ranges.length = (built_db u c oob n stream).bucket_num := by
  have hu : (built_db u c oob n stream).use_64bit = u := by
    rw [built_db_eq, emit_all_use_64bit]; rfl
  have hbn : (built_db u c oob n stream).bucket_num = (build_buckets u n stream).length := by
    rw [built_db_eq, emit_all_bucket_num]
    show 0 + _ = _
    omega
  have hrg : (built_db u c oob n stream).ranges =
      (build_buckets u n stream).map (fun b => b.get_smallest_key) := by
    rw [built_db_eq, emit_all_ranges]
    rfl
  have hsz : (built_db u c oob n stream).get_db_size =
      (built_db u c oob n stream).bucket_num * bucket_builder.get_size_bytes u := by
    unfold db_builder.get_db_size
    rw [hu]
  have hms : (built_db u c oob n stream).mstream.data.length =
      (built_db u c oob n stream).get_db_size := by
    rw [hsz, hbn, built_db_eq, emit_all_mstream_length]
    · show 0 + bucket_builder.get_size_bytes u * _ = _
      rw [Nat.mul_comm]
      omega
    · intro b hb
      exact (build_buckets_mode u n stream b hb).2
  refine ⟨hu, ?_, hbn, hrg, hms, hsz, ?_⟩
  · rw [built_db_eq, emit_all_compression]; rfl
  · rw [hrg, List.length_map, hbn]

/-- The bytes `write` appends to a new stream, section by section. -/
theorem write_layout (db : db_builder) (ps : List Nat → Nat × Nat) (blob : List Nat) :
    (db.write ps blob mem_binstream.new).2.data =
      [100, 98, 0, 0, 0, 0, 0, 0, 0, 0, 0, 0, 0, 0, 0, 0] ++ (le_bytes 2 1 ++
        (le_bytes 2 1 ++
        (le_bytes 8 ((db.get_db_size + db.apdx.get_size) % 2 ^ 64) ++
        (le_bytes 1 (if db.use_64bit then 1 else 0) ++
        (le_bytes 8 db.apdx.get_size ++
        (le_bytes 8 db.bucket_num ++
        (le_bytes 4 (int_to_u32 db.compression) ++
        (le_bytes 8 db.total_key_num ++
        (le_bytes 8 db.distinct_key_num ++
        (le_bytes 8 db.singleton_num ++
        (le_bytes 8 db.used_bytes ++
        (le_bytes 8 (ps db.prefix_bits).1 ++
        (le_bytes 8 (ps db.prefix_bits).2 ++
        ([98, 108, 98, 0] ++
        (db.mstream.data ++
        (db.apdx.data ++
        (le_bytes 8 db.ranges.length ++
        (db.ranges.flatMap (fun e => le_bytes 8 e) ++
        (le_bytes 8 blob.length ++ blob))))))))))))))))))) := by
  rw [write_data]
  simp only [List.nil_append, List.append_nil, List.append_assoc]


theorem bytes_at_of_split (D P X R : List Nat) (off n : Nat) (h : D = P ++ X ++ R)
    (hl : P.length = off) (hx : X.length = n) : bytes_at D off n = X := by
  rw [h, ← hl, ← hx]
  exact bytes_at_append_self P X R

/-- The layout of the bytes `write` produces for a built database. -/
theorem write_layout_built (u : Bool) (c : Int) (oob n : Nat) (stream : List record)
    (ps : List Nat → Nat × Nat) (blob : List Nat) :
    ((built_db u c oob n stream).write ps blob mem_binstream.new).2.data =
      [100, 98, 0, 0, 0, 0, 0, 0, 0, 0, 0, 0, 0, 0, 0, 0] ++ (le_bytes 2 1 ++
        (le_bytes 2 1 ++
        (le_bytes 8 (((built_db u c oob n stream).get_db_size +
          (built_db u c oob n stream).apdx.get_size) % 2 ^ 64) ++
        (le_bytes 1 (if u then 1 else 0) ++
        (le_bytes 8 (built_db u c oob n stream).apdx.get_size ++
        (le_bytes 8 (built_db u c oob n stream).bucket_num ++
        (le_bytes 4 (int_to_u32 c) ++
        (le_bytes 8 (built_db u c oob n stream).total_key_num ++
        (le_bytes 8 (built_db u c oob n stream).distinct_key_num ++
        (le_bytes 8 (built_db u c oob n stream).singleton_num ++
        (le_bytes 8 (built_db u c oob n stream).used_bytes ++
        (le_bytes 8 (ps (built_db u c oob n stream).prefix_bits).1 ++
        (le_bytes 8 (ps (built_db u c oob n stream).prefix_bits).2 ++
        ([98, 108, 98, 0] ++
        ((built_db u c oob n stream).mstream.data ++
        ((built_db u c oob n stream).apdx.data ++
        (le_bytes 8 (built_db u c oob n stream).bucket_num ++
        ((built_db u c oob n stream).ranges.flatMap (fun e => le_bytes 8 e) ++
        (le_bytes 8 blob.length ++ blob))))))))))))))))))) ∧
    bytes_at ((built_db u c oob n stream).write ps blob mem_binstream.new).2.data 97 4 =
      [98, 108, 98, 0] ∧
    bytes_at ((built_db u c oob n stream).write ps blob mem_binstream.new).2.data 101
        ((built_db u c oob n stream).bucket_num * (if u then 320 else 192)) =
      (built_db u c oob n stream).mstream.data ∧
    (built_db u c oob n stream).mstream.data.length =
      (built_db u c oob n stream).bucket_num * (if u then 320 else 192) ∧
    bucket_builder.get_size_bytes u = (if u then 320 else 192) ∧
    bytes_at ((built_db u c oob n stream).write ps blob mem_binstream.new).2.data
        (101 + (built_db u c oob n stream).bucket_num * (if u then 320 else 192))
        (built_db u c oob n stream).apdx.get_size =
      (built_db u c oob n stream).apdx.data ∧
    (built_db u c oob n stream).ranges.length = (built_db u c oob n stream).bucket_num ∧
    ((built_db u c oob n stream).ranges.flatMap (fun e => le_bytes 8 e)).length =
      8 * (built_db u c oob n stream).bucket_num ∧
    ((built_db u c oob n stream).write ps blob mem_binstream.new).2.data.length =
      101 + (built_db u c oob n stream).bucket_num * (if u then 320 else 192) +
        (built_db u c oob n stream).apdx.get_size + 8 +
        8 * (built_db u c oob n stream).bucket_num + 8 + blob.length := by
  obtain ⟨hu, hc, _, _, hms, hsz, hrl⟩ := built_db_facts u c oob n stream
  have hgs : bucket_builder.get_size_bytes u = (if u then 320 else 192) := rfl
  have hml : (built_db u c oob n stream).mstream.data.length =
      (built_db u c oob n stream).bucket_num * (if u then 320 else 192) := by
    rw [hms, hsz, hgs]
  have hfl : ((built_db u c oob n stream).ranges.flatMap (fun e => le_bytes 8 e)).length =
      8 * (built_db u c oob n stream).bucket_num := by
    rw [flatMap_le_bytes_length 8 (fun e => e), hrl]
  have hD := write_layout (built_db u c oob n stream) ps blob
  rw [hu, hc, hrl] at hD
  refine ⟨hD, ?_, ?_, hml, hgs, ?_, hrl, hfl, ?_⟩
  · apply bytes_at_of_split _
      ([100, 98, 0, 0, 0, 0, 0, 0, 0, 0, 0, 0, 0, 0, 0, 0] ++ (le_bytes 2 1 ++
        (le_bytes 2 1 ++
        (le_bytes 8 (((built_db u c oob n stream).get_db_size +
          (built_db u c oob n stream).apdx.get_size) % 2 ^ 64) ++
        (le_bytes 1 (if u then 1 else 0) ++
        (le_bytes 8 (built_db u c oob n stream).apdx.get_size ++
        (le_bytes 8 (built_db u c oob n stream).bucket_num ++
        (le_bytes 4 (int_to_u32 c) ++
        (le_bytes 8 (built_db u c oob n stream).total_key_num ++
        (le_bytes 8 (built_db u c oob n stream).distinct_key_num ++
        (le_bytes 8 (built_db u c oob n stream).singleton_num ++
        (le_bytes 8 (built_db u c oob n stream).used_bytes ++
        (le_bytes 8 (ps (built_db u c oob n stream).prefix_bits).1 ++
        le_bytes 8 (ps (built_db u c oob n stream).prefix_bits).2)))))))))))))
      [98, 108, 98, 0]
      ((built_db u c oob n stream).mstream.data ++
        ((built_db u c oob n stream).apdx.data ++
        (le_bytes 8 (built_db u c oob n stream).bucket_num ++
        ((built_db u c oob n stream).ranges.flatMap (fun e => le_bytes 8 e) ++
        (le_bytes 8 blob.length ++ blob)))))
    · rw [hD]; simp only [List.append_assoc]
    · simp only [List.length_append, le_bytes_length, List.length_cons, List.length_nil]
    · rfl
  · apply bytes_at_of_split _
      ([100, 98, 0, 0, 0, 0, 0, 0, 0, 0, 0, 0, 0, 0, 0, 0] ++ (le_bytes 2 1 ++
        (le_bytes 2 1 ++
        (le_bytes 8 (((built_db u c oob n stream).get_db_size +
          (built_db u c oob n stream).apdx.get_size) % 2 ^ 64) ++
        (le_bytes 1 (if u then 1 else 0) ++
        (le_bytes 8 (built_db u c oob n stream).apdx.get_size ++
        (le_bytes 8 (built_db u c oob n stream).bucket_num ++
        (le_bytes 4 (int_to_u32 c) ++
        (le_bytes 8 (built_db u c oob n stream).total_key_num ++
        (le_bytes 8 (built_db u c oob n stream).distinct_key_num ++
        (le_bytes 8 (built_db u c oob n stream).singleton_num ++
        (le_bytes 8 (built_db u c oob n stream).used_bytes ++
        (le_bytes 8 (ps (built_db u c oob n stream).prefix_bits).1 ++
        (le_bytes 8 (ps (built_db u c oob n stream).prefix_bits).2 ++
        [98, 108, 98, 0]))))))))))))))
      (built_db u c oob n stream).mstream.data
      ((built_db u c oob n stream).apdx.data ++
        (le_bytes 8 (built_db u c oob n stream).bucket_num ++
        ((built_db u c oob n stream).ranges.flatMap (fun e => le_bytes 8 e) ++
        (le_bytes 8 blob.length ++ blob))))
    · rw [hD]; simp only [List.append_assoc]
    · simp only [List.length_append, le_bytes_length, List.length_cons, List.length_nil]
    · exact hml
  · apply bytes_at_of_split _
      ([100, 98, 0, 0, 0, 0, 0, 0, 0, 0, 0, 0, 0, 0, 0, 0] ++ (le_bytes 2 1 ++
        (le_bytes 2 1 ++
        (le_bytes 8 (((built_db u c oob n stream).get_db_size +
          (built_db u c oob n stream).apdx.get_size) % 2 ^ 64) ++
        (le_bytes 1 (if u then 1 else 0) ++
        (le_bytes 8 (built_db u c oob n stream).apdx.get_size ++
        (le_bytes 8 (built_db u c oob n stream).bucket_num ++
        (le_bytes 4 (int_to_u32 c) ++
        (le_bytes 8 (built_db u c oob n stream).total_key_num ++
        (le_bytes 8 (built_db u c oob n stream).distinct_key_num ++
        (le_bytes 8 (built_db u c oob n stream).singleton_num ++
        (le_bytes 8 (built_db u c oob n stream).used_bytes ++
        (le_bytes 8 (ps (built_db u c oob n stream).prefix_bits).1 ++
        (le_bytes 8 (ps (built_db u c oob n stream).prefix_bits).2 ++
        ([98, 108, 98, 0] ++ (built_db u c oob n stream).mstream.data)))))))))))))))
      (built_db u c oob n stream).apdx.data
      (le_bytes 8 (built_db u c oob n stream).bucket_num ++
        ((built_db u c oob n stream).ranges.flatMap (fun e => le_bytes 8 e) ++
        (le_bytes 8 blob.length ++ blob)))
    · rw [hD]; simp only [List.append_assoc]
    · simp only [List.length_append, le_bytes_length, List.length_cons, List.length_nil, hml]
      omega
    · rfl
  · rw [hD]
    simp only [List.length_append, le_bytes_length, List.length_cons, List.length_nil, hml,
      hfl]
    unfold appendix.get_size
    omega

/-- C18 (amended): the bytes the first `write` produces for a database built
once on a newly constructed builder, in order: the 16-byte name "db" padded
with zeros, the 16-bit 1 and the 16-bit version 1 (20 bytes), the 64-bit total, the byte for `use_64bit`, the 64-bit appendix size,
the 64-bit bucket count, the 32-bit compression, the four 64-bit key
statistics, the two 8-byte prefix statistics, the bytes 'b', 'l', 'b', 0 at
offset 97, the `bucket_count * bucket_size` bucket bytes from offset 101
(`bucket_size` 320 in 64-bit mode and 192 otherwise), the appendix bytes, the
64-bit number of ranges, equal to the bucket count, and the ranges, the 64-bit
model length and the model; the total length is
`101 + bucket_count * bucket_size + appendix_size + 8 + 8 * R + 8 + model_size`. -/
theorem C18_write_layout (u : Bool) (c : Int) (oob n : Nat) (stream : List record)
    (ps : List Nat → Nat × Nat) (blob : List Nat) :
    ((built_db u c oob n stream).write ps blob mem_binstream.new).2.data =
      [100, 98, 0, 0, 0, 0, 0, 0, 0, 0, 0, 0, 0, 0, 0, 0] ++ (le_bytes 2 1 ++
        (le_bytes 2 1 ++
        (le_bytes 8 (((built_db u c oob n stream).get_db_size +
          (built_db u c oob n stream).apdx.get_size) % 2 ^ 64) ++
        (le_bytes 1 (if u then 1 else 0) ++
        (le_bytes 8 (built_db u c oob n stream).apdx.get_size ++
        (le_bytes 8 (built_db u c oob n stream).bucket_num ++
        (le_bytes 4 (int_to_u32 c) ++
        (le_bytes 8 (built_db u c oob n stream).total_key_num ++
        (le_bytes 8 (built_db u c oob n stream).distinct_key_num ++
        (le_bytes 8 (built_db u c oob n stream).singleton_num ++
        (le_bytes 8 (built_db u c oob n stream).used_bytes ++
        (le_bytes 8 (ps (built_db u c oob n stream).prefix_bits).1 ++
        (le_bytes 8 (ps (built_db u c oob n stream).prefix_bits).2 ++
        ([98, 108, 98, 0] ++
        ((built_db u c oob n stream).mstream.data ++
        ((built_db u c oob n stream).apdx.data ++
        (le_bytes 8 (built_db u c oob n stream).bucket_num ++
        ((built_db u c oob n stream).ranges.flatMap (fun e => le_bytes 8 e) ++
        (le_bytes 8 blob.length ++ blob))))))))))))))))))) ∧
    bytes_at ((built_db u c oob n stream).write ps blob mem_binstream.new).2.data 97 4 =
      [98, 108, 98, 0] ∧
    bytes_at ((built_db u c oob n stream).write ps blob mem_binstream.new).2.data 101
        ((built_db u c oob n stream).bucket_num * (if u then 320 else 192)) =
      (built_db u c oob n stream).mstream.data ∧
    (built_db u c oob n stream).mstream.data.length =
      (built_db u c oob n stream).bucket_num * (if u then 320 else 192) ∧
    bucket_builder.get_size_bytes u = (if u then 320 else 192) ∧
    bytes_at ((built_db u c oob n stream).write ps blob mem_binstream.new).2.data
        (101 + (built_db u c oob n stream).bucket_num * (if u then 320 else 192))
        (built_db u c oob n stream).apdx.get_size =
      (built_db u c oob n stream).apdx.data ∧
    (built_db u c oob n stream).ranges.length = (built_db u c oob n stream).bucket_num ∧
    ((built_db u c oob n stream).ranges.flatMap (fun e => le_bytes 8 e)).length =
      8 * (built_db u c oob n stream).bucket_num ∧
    ((built_db u c oob n stream).write ps blob mem_binstream.new).2.data.length =
      101 + (built_db u c oob n stream).bucket_num * (if u then 320 else 192) +
        (built_db u c oob n stream).apdx.get_size + 8 +
        8 * (built_db u c oob n stream).bucket_num + 8 + blob.length :=
  write_layout_built u c oob n stream ps blob

/-- The claim as first stated fails for a second `write`: after its first
`write` the builder of the example still has 1 bucket, 24 appendix bytes and 1
range, and its stream of bucket pages is empty.  Its next `write` announces 1
bucket at offset 37 and produces 149 bytes, not the
`101 + 1 * 320 + 24 + 8 + 8 * 1 + 8 + 0 = 469` of the layout: the bytes at
offset 101 are those of the appendix, no bucket page stands before them. -/
theorem C18_counterexample :
    written_db.bucket_num = 1 ∧ written_db.apdx.get_size = 24 ∧
    written_db.ranges.length = 1 ∧ written_db.mstream.data = [] ∧
    bytes_at (written_db.write (fun _ => (0, 0)) [] mem_binstream.new).2.data 37 8 =
      le_bytes 8 1 ∧
    (written_db.write (fun _ => (0, 0)) [] mem_binstream.new).2.data.length = 149 ∧
    (written_db.write (fun _ => (0, 0)) [] mem_binstream.new).2.data.length ≠
      101 + written_db.bucket_num * 320 + written_db.apdx.get_size + 8 +
        8 * written_db.ranges.length + 8 + 0 ∧
    bytes_at (written_db.write (fun _ => (0, 0)) [] mem_binstream.new).2.data 101 24 =
      written_db.apdx.data := by
  decide

/-- The reader `read` makes of the stream `write` produced: all the fields that
`read` assigns. -/
theorem read_write_fields (db : db_builder) (ps : List Nat → Nat × Nat) (blob : List Nat)
    (addr : Nat) (r0 : db_reader)
    (hP : db.mstream.data.length = db.get_db_size)
    (hsize : db.get_db_size + db.apdx.get_size < 2 ^ 64)
    (hbn : db.bucket_num < 2 ^ 64)
    (hr : ∀ x ∈ db.ranges, x < 2 ^ 64) (hrl : db.ranges.length < 2 ^ 64)
    (hne : db.ranges ≠ []) (hbl : blob.length < 2 ^ 64) :
    ∃ rd s, r0.read addr (db.write ps blob mem_binstream.new).2 = (some 0, rd, s) ∧
      rd.buffer = db.mstream.data ++ db.apdx.data ∧
      rd.data = addr ∧
      rd.apdx = addr + bucket_builder.get_size_bytes db.use_64bit * db.bucket_num ∧
      rd.preader = ⟨db.use_64bit, addr,
        addr + bucket_builder.get_size_bytes db.use_64bit * db.bucket_num⟩ ∧
      rd.ranges = db.ranges ∧ rd.model = blob ∧
      rd.compression = u32_to_int (int_to_u32 db.compression) ∧
      rd.bucket_num = db.bucket_num ∧ rd.use_64bit = db.use_64bit ∧
      rd.appendix_bytes = db.apdx.get_size % 2 ^ 64 ∧
      rd.total_key_num = db.total_key_num % 2 ^ 64 ∧
      rd.distinct_key_num = db.distinct_key_num % 2 ^ 64 ∧
      rd.singleton_num = db.singleton_num % 2 ^ 64 ∧
      rd.used_bytes = db.used_bytes % 2 ^ 64 + db.ranges.length * 8 +
        db.apdx.get_size % 2 ^ 64 + blob.length ∧
      rd.total_bytes = (db.mstream.data ++ db.apdx.data).length + db.ranges.length * 8 +
        blob.length ∧
      rd.min = db.ranges.headD 0 ∧ rd.max = db.ranges.getLastD 0 ∧
      rd.prefix_bits_mean = (ps db.prefix_bits).1 % 2 ^ 64 ∧
      rd.prefix_bits_stddev = (ps db.prefix_bits).2 % 2 ^ 64 ∧
      rd.stats_counter = r0.stats_counter := by
  unfold db_reader.read
  rw [write_data, read_header_ok]
  dsimp only []
  rw [if_neg (show ¬ ((1 : Nat) ≠ 1) by decide)]
  rw [read_le_bytes]
  rw [read_le_bytes]
  rw [read_le_bytes]
  rw [read_le_bytes]
  rw [read_le_bytes]
  rw [read_le_bytes]
  rw [read_le_bytes]
  rw [read_le_bytes]
  rw [read_le_bytes]
  rw [read_le_bytes]
  rw [read_le_bytes]
  rw [read_chunk _ [98, 108, 98, 0] _ 4 rfl]
  have hb : strncmp_zero 4 [98, 108, 98, 0] [98, 108, 98] = true := by decide
  rw [hb]
  rw [if_neg (show ¬ (true = false) by decide)]
  have hsz : of_le_bytes (le_bytes 8 ((db.get_db_size + db.apdx.get_size) % 2 ^ 64)) =
      (db.mstream.data ++ db.apdx.data).length := by
    rw [of_le_bytes_le_bytes, List.length_append, hP]
    unfold appendix.get_size at hsize ⊢
    have : (256 : Nat) ^ 8 = 2 ^ 64 := by norm_num
    rw [this, Nat.mod_mod, Nat.mod_eq_of_lt hsize]
  have hrl2 : of_le_bytes (le_bytes 8 db.ranges.length) = db.ranges.length := by
    rw [of_le_bytes_le_bytes]
    exact Nat.mod_eq_of_lt (by norm_num; exact hrl)
  have hbl2 : of_le_bytes (le_bytes 8 blob.length) = blob.length := by
    rw [of_le_bytes_le_bytes]
    exact Nat.mod_eq_of_lt (by norm_num; exact hbl)
  have hbn2 : of_le_bytes (le_bytes 8 db.bucket_num) = db.bucket_num := by
    rw [of_le_bytes_le_bytes]
    exact Nat.mod_eq_of_lt (by norm_num; exact hbn)
  have hu2 : decide (of_le_bytes (le_bytes 1 (if db.use_64bit = true then 1 else 0)) ≠ 0) =
      db.use_64bit := by
    cases db.use_64bit <;> decide
  have hc2 : of_le_bytes (le_bytes 4 (int_to_u32 db.compression)) =
      int_to_u32 db.compression := by
    rw [of_le_bytes_le_bytes]
    apply Nat.mod_eq_of_lt
    unfold int_to_u32
    have h1 : (0 : Int) ≤ db.compression % 2 ^ 32 := Int.emod_nonneg _ (by norm_num)
    have h2 : db.compression % 2 ^ 32 < 2 ^ 32 := Int.emod_lt_of_pos _ (by norm_num)
    have : (256 : Nat) ^ 4 = 2 ^ 32 := by norm_num
    omega
  have hrm : db.ranges.map (fun e => e % 2 ^ 64) = db.ranges := by
    have : ∀ x ∈ db.ranges, x % 2 ^ 64 = id x := fun x hx => Nat.mod_eq_of_lt (hr x hx)
    rw [List.map_congr_left this, List.map_id]
  dsimp only []
  rw [hsz, read_chunk _ (db.mstream.data ++ db.apdx.data) _ _ rfl]
  unfold binstream_read_vec64
  dsimp only []
  rw [read_le_bytes]
  dsimp only []
  rw [hrl2, read_u64s_flat]
  dsimp only []
  rw [hrm, if_neg hne]
  rw [read_le_bytes]
  dsimp only []
  rw [hbl2, read_chunk _ blob [] _ rfl]
  dsimp only []
  rw [hbn2, hu2, hc2]
  have h256 : (256 : Nat) ^ 8 = 2 ^ 64 := by norm_num
  simp only [of_le_bytes_le_bytes, h256]
  exact ⟨_, _, rfl, rfl, rfl, rfl, rfl, rfl, rfl, rfl, rfl, rfl, rfl, rfl, rfl, rfl, rfl, rfl,
    rfl, rfl, rfl, rfl, rfl⟩


theorem emit_all_mstream_grow (oob : Nat) (bs : List bucket_builder) (db : db_builder) :
    ∃ Z, (emit_all oob db bs).mstream.data = db.mstream.data ++ Z := by
  induction bs generalizing db with
  | nil => exact ⟨[], by simp [emit_all]⟩
  | cons b bs ih =>
    have hstep : emit_all oob db (b :: bs) = emit_all oob (db.emit oob b).1 bs := rfl
    obtain ⟨Z, hZ⟩ := ih (db.emit oob b).1
    rw [hstep, hZ, emit_mstream, List.append_assoc]
    exact ⟨_, rfl⟩

/-- In either mode, the page of bucket `j` lies at offset `bucket_size * j` of the
buckets' bytes: the pages are in emission order. -/
theorem emit_all_page_any (oob : Nat) (bs : List bucket_builder) (db : db_builder)
    (hu : ∀ b ∈ bs, b.use_64bit = db.use_64bit) (j : Nat) (b : bucket_builder)
    (hj : bs[j]? = some b) :
    ∃ A, bytes_at (emit_all oob db bs).mstream.data
        (db.mstream.data.length + bucket_builder.get_size_bytes db.use_64bit * j)
        (bucket_builder.get_size_bytes db.use_64bit) =
      (b.populate_appendix oob A).1.pack := by
  induction bs generalizing db j with
  | nil => simp at hj
  | cons b0 bs ih =>
    have hstep : emit_all oob db (b0 :: bs) = emit_all oob (db.emit oob b0).1 bs := rfl
    have hu1 : (db.emit oob b0).1.use_64bit = db.use_64bit := rfl
    have hlen : (b0.populate_appendix oob db.apdx).1.pack.length =
        bucket_builder.get_size_bytes db.use_64bit := by
      rw [pack_length, populate_use_64bit, hu b0 (List.mem_cons_self _ _)]
    have hut : ∀ b' ∈ bs, b'.use_64bit = (db.emit oob b0).1.use_64bit :=
      fun b' hb' => by rw [hu1]; exact hu b' (List.mem_cons_of_mem _ hb')
    cases j with
    | zero =>
      simp only [List.getElem?_cons_zero, Option.some.injEq] at hj
      subst hj
      obtain ⟨Z, h1⟩ := emit_all_mstream_grow oob bs (db.emit oob b0).1
      refine ⟨db.apdx, ?_⟩
      rw [hstep, h1, emit_mstream, Nat.mul_zero, Nat.add_zero]
      have := bytes_at_append_self db.mstream.data (b0.populate_appendix oob db.apdx).1.pack Z
      rw [hlen] at this
      exact this
    | succ j =>
      simp only [List.getElem?_cons_succ] at hj
      obtain ⟨A, h1⟩ := ih (db.emit oob b0).1 hut j hj
      refine ⟨A, ?_⟩
      rw [hstep, ← h1, emit_mstream, List.length_append, hlen, hu1]
      congr 1
      rw [Nat.mul_succ]
      omega

theorem u32_to_int_of_int (c : Int) (h1 : -2 ^ 31 ≤ c) (h2 : c < 2 ^ 31) :
    u32_to_int (int_to_u32 c) = c := by
  unfold u32_to_int int_to_u32
  have h3 : (0 : Int) ≤ c % 2 ^ 32 := Int.emod_nonneg _ (by norm_num)
  have h4 : c % 2 ^ 32 < 2 ^ 32 := Int.emod_lt_of_pos _ (by norm_num)
  have h5 : ((c % 2 ^ 32).toNat : Int) = c % 2 ^ 32 := Int.toNat_of_nonneg h3
  have h6 : (c % 2 ^ 32).toNat < 2 ^ 32 := by omega
  rw [Nat.mod_eq_of_lt h6]
  by_cases hc : 0 ≤ c
  · have h7 : c % 2 ^ 32 = c := Int.emod_eq_of_lt hc (by omega)
    rw [if_pos (by omega), h5, h7]
  · have h7 : c % 2 ^ 32 = c + 2 ^ 32 := by
      have := Int.emod_emod_of_dvd c (show (2 : Int) ^ 32 ∣ 2 ^ 32 from dvd_rfl)
      have h8 : (c + 2 ^ 32) % 2 ^ 32 = c % 2 ^ 32 := by simp
      rw [← h8]
      exact Int.emod_eq_of_lt (by omega) (by omega)
    rw [if_neg (by omega), h5, h7]
    omega

/-- The round trip of `write` and `read` for a builder built once and holding
at least one bucket: for a builder constructed for either mode, with the
compression set, after one `build` on 64-bit records (and `build_model`, whose
model is stored as `blob`), `write` to a new in-memory stream followed by
`read` of that stream returns 0, the sizes and counts being values of their C
types.  The reader has the builder's `use_64bit`, compression, bucket count,
appendix size and total, distinct and singleton key counts; its buffer holds
the bytes of the builder's packed pages, page `j` of emission order at offset
`bucket_size * j`, followed by the builder's appendix bytes; its range list is
the builder's; and `query` returns what `lookup_batch` returns on the builder's
pages and appendix for the oracle's answer on the builder's ranges,
compression and model. -/
theorem serialize_round_trip (u : Bool) (c : Int) (hc : -2 ^ 31 ≤ c ∧ c < 2 ^ 31)
    (oob n : Nat) (stream : List record) (hwf : ∀ m ∈ stream, m.wf)
    (hne : (built_db u c oob n stream).ranges ≠ [])
    (ps : List Nat → Nat × Nat) (blob : List Nat) (hblob : blob.length < 2 ^ 64)
    (hsize : (built_db u c oob n stream).get_db_size +
      (built_db u c oob n stream).apdx.get_size < 2 ^ 64)
    (hstats : (built_db u c oob n stream).total_key_num < 2 ^ 64 ∧
      (built_db u c oob n stream).distinct_key_num < 2 ^ 64 ∧
      (built_db u c oob n stream).singleton_num < 2 ^ 64)
    (addr : Nat) (r0 : db_reader) :
    ∃ rd s, r0.read addr ((built_db u c oob n stream).write ps blob mem_binstream.new).2 =
        (some 0, rd, s) ∧
      rd.use_64bit = u ∧ rd.compression = c ∧
      rd.bucket_num = (built_db u c oob n stream).bucket_num ∧
      rd.appendix_bytes = (built_db u c oob n stream).apdx.get_size ∧
      rd.total_key_num = (built_db u c oob n stream).total_key_num ∧
      rd.distinct_key_num = (built_db u c oob n stream).distinct_key_num ∧
      rd.singleton_num = (built_db u c oob n stream).singleton_num ∧
      rd.ranges = (built_db u c oob n stream).ranges ∧
      rd.model = blob ∧
      rd.buffer = (built_db u c oob n stream).mstream.data ++
        (built_db u c oob n stream).apdx.data ∧
      bytes_at rd.buffer 0 (built_db u c oob n stream).get_db_size =
        (built_db u c oob n stream).mstream.data ∧
      bytes_at rd.buffer (built_db u c oob n stream).get_db_size
        (built_db u c oob n stream).apdx.get_size = (built_db u c oob n stream).apdx.data ∧
      (∀ (j : Nat) (b : bucket_builder), (build_buckets u n stream)[j]? = some b →
        ∃ A, bytes_at rd.buffer (bucket_builder.get_size_bytes u * j)
          (bucket_builder.get_size_bytes u) = (b.populate_appendix oob A).1.pack) ∧
      rd.preader = ⟨u, addr, addr + (built_db u c oob n stream).get_db_size⟩ ∧
      (∀ (o : lnmu_oracle) (keys : List Nat) (num : List Int) (ptr : List Nat),
        (rd.query o keys num ptr).2 =
          (⟨u, addr, addr + (built_db u c oob n stream).get_db_size⟩ :
              bucket_reader).lookup_batch
            (block_at addr ((built_db u c oob n stream).mstream.data ++
              (built_db u c oob n stream).apdx.data)) keys
            (o.locate (built_db u c oob n stream).ranges c blob keys).2
            (o.locate (built_db u c oob n stream).ranges c blob keys).1 num ptr) := by
  obtain ⟨hu, hcomp, hbn, hrg, hms, hsz, hrl⟩ := built_db_facts u c oob n stream
  have htyped := build_buckets_typed u n stream hwf
  have hsz2 : 0 < bucket_builder.get_size_bytes u := by
    unfold bucket_builder.get_size_bytes; split <;> norm_num
  have hbnlt : (built_db u c oob n stream).bucket_num < 2 ^ 64 := by
    have h1 : (built_db u c oob n stream).bucket_num ≤
        (built_db u c oob n stream).bucket_num * bucket_builder.get_size_bytes u :=
      Nat.le_mul_of_pos_right _ hsz2
    omega
  have hrt : ∀ x ∈ (built_db u c oob n stream).ranges, x < 2 ^ 64 := by
    intro x hx
    rw [hrg] at hx
    obtain ⟨b, hb, rfl⟩ := List.mem_map.mp hx
    exact (htyped b hb).2.2
  obtain ⟨rd, s, hread, hbuf, hdata, hapdx, hpre, hranges, hmodel, hcmp, hbnum, huse, happ,
      htk, hdk, hsn, _⟩ :=
    read_write_fields (built_db u c oob n stream) ps blob addr r0 hms hsize hbnlt hrt
      (by rw [hrl]; exact hbnlt) hne hblob
  have hpre2 : rd.preader = ⟨u, addr, addr + (built_db u c oob n stream).get_db_size⟩ := by
    rw [hpre, hu, hsz, Nat.mul_comm]
  have hcmp2 : rd.compression = c := by
    rw [hcmp, hcomp]; exact u32_to_int_of_int c hc.1 hc.2
  refine ⟨rd, s, hread, by rw [huse, hu], hcmp2, hbnum, ?_, ?_, ?_, ?_, hranges, hmodel, hbuf,
    ?_, ?_, ?_, hpre2, ?_⟩
  · rw [happ]; exact Nat.mod_eq_of_lt (by omega)
  · rw [htk]; exact Nat.mod_eq_of_lt hstats.1
  · rw [hdk]; exact Nat.mod_eq_of_lt hstats.2.1
  · rw [hsn]; exact Nat.mod_eq_of_lt hstats.2.2
  · rw [hbuf, ← hms]
    have := bytes_at_append_self [] (built_db u c oob n stream).mstream.data
      (built_db u c oob n stream).apdx.data
    simpa using this
  · rw [hbuf, ← hms]
    have := bytes_at_append_self (built_db u c oob n stream).mstream.data
      (built_db u c oob n stream).apdx.data []
    simpa [appendix.get_size] using this
  · intro j b hj
    obtain ⟨A, hA⟩ := emit_all_page_any oob (build_buckets u n stream)
      ((db_builder.new u).set_compression c).clear
      (fun b' hb' => (build_buckets_mode u n stream b' hb').2) j b hj
    rw [← built_db_eq] at hA
    refine ⟨A, ?_⟩
    have hjlt : j < (build_buckets u n stream).length := by
      by_contra h
      rw [List.getElem?_eq_none (by omega)] at hj
      simp at hj
    have h0 : ((db_builder.new u).set_compression c).clear.mstream.data.length +
        bucket_builder.get_size_bytes ((db_builder.new u).set_compression c).clear.use_64bit * j =
        bucket_builder.get_size_bytes u * j := by
      show 0 + bucket_builder.get_size_bytes u * j = _
      omega
    have h1 : bucket_builder.get_size_bytes
        ((db_builder.new u).set_compression c).clear.use_64bit =
        bucket_builder.get_size_bytes u := rfl
    rw [h0, h1] at hA
    rw [hbuf, bytes_at_append_left _ _ _ _ (by
      rw [hms, hsz, hbn]
      have : bucket_builder.get_size_bytes u * (j + 1) ≤
          bucket_builder.get_size_bytes u * (build_buckets u n stream).length :=
        Nat.mul_le_mul_left _ hjlt
      rw [Nat.mul_succ] at this
      rw [Nat.mul_comm (build_buckets u n stream).length]
      exact this)]
    exact hA
  · intro o keys num ptr
    have hq : (rd.query o keys num ptr).2 =
        rd.preader.lookup_batch rd.memory keys
          (o.locate rd.ranges rd.compression rd.model keys).2
          (o.locate rd.ranges rd.compression rd.model keys).1 num ptr := rfl
    rw [hq, hpre2, hranges, hcmp2, hmodel]
    unfold db_reader.memory
    rw [hdata, hbuf]

/-- The round trip for the database built from the records (10, 7), (10, 3),
(10, 5) and (11, 99). -/
theorem serialize_round_trip_example :
    (-2 ^ 31 ≤ (1 : Int) ∧ (1 : Int) < 2 ^ 31) ∧
    ∃ rd s, db_reader.new.read 4096
        ((built_db true 1 0 4 [⟨10, 7⟩, ⟨10, 3⟩, ⟨10, 5⟩, ⟨11, 99⟩]).write
          (fun _ => (0, 0)) [] mem_binstream.new).2 = (some 0, rd, s) ∧
      rd.use_64bit = true ∧ rd.compression = 1 ∧
      rd.ranges = (built_db true 1 0 4 [⟨10, 7⟩, ⟨10, 3⟩, ⟨10, 5⟩, ⟨11, 99⟩]).ranges := by
  obtain ⟨rd, s, h1, h2, h3, _, _, _, _, _, h4, _⟩ :=
    serialize_round_trip true 1 (by decide) 0 4 [⟨10, 7⟩, ⟨10, 3⟩, ⟨10, 5⟩, ⟨11, 99⟩]
      (by decide) (by decide) (fun _ => (0, 0)) [] (by decide) (by decide) (by decide) 4096
      db_reader.new
  exact ⟨by decide, rd, s, h1, h2, h3, h4⟩


/-- C17 fails for a builder that has been built twice, `rebuilt_db`: `clear`
resets neither `bucket_num` nor the appendix, so the builder holds 1 page of
320 bytes, 1 range and 48 appendix bytes but counts 2 buckets.  `write`
announces 688 = 640 + 48 bytes of pages and appendix and 2 buckets while it
writes 320 + 48.  With an empty model the stream written has 493 bytes, so the
688 bytes `read` takes from offset 101 as pages and appendix run past its end
(read as zero here, the range vector that follows is empty and `read` gives no
result).  With the model `padded_blob` the stream is long enough: `read`
returns 0 with a reader of 2 buckets whose range list is `[77]`, not the
builder's `[10]`, whose model is empty, whose second bucket page starts with
the builder's appendix bytes and whose `apdx` points behind that page.  For a
database without buckets, built from no record, the range vector `read` reads
is empty and `read` gives no result either. -/
theorem C17_round_trip_rebuilt :
    rebuilt_db.bucket_num = 2 ∧ rebuilt_db.get_db_size = 640 ∧
    rebuilt_db.mstream.data.length = 320 ∧ rebuilt_db.apdx.get_size = 48 ∧
    rebuilt_db.ranges = [10] ∧
    (rebuilt_db.write (fun _ => (0, 0)) [] mem_binstream.new).2.data.length = 493 ∧
    bytes_at (rebuilt_db.write (fun _ => (0, 0)) [] mem_binstream.new).2.data 20 8 =
      le_bytes 8 688 ∧
    bytes_at (rebuilt_db.write (fun _ => (0, 0)) [] mem_binstream.new).2.data 37 8 =
      le_bytes 8 2 ∧
    (db_reader.new.read 4096
      (rebuilt_db.write (fun _ => (0, 0)) [] mem_binstream.new).2).1 = none ∧
    (rebuilt_db.write (fun _ => (0, 0)) padded_blob mem_binstream.new).2.data.length =
      101 + 688 + 24 ∧
    (db_reader.new.read 4096
      (rebuilt_db.write (fun _ => (0, 0)) padded_blob mem_binstream.new).2).1 = some 0 ∧
    (db_reader.new.read 4096
      (rebuilt_db.write (fun _ => (0, 0)) padded_blob mem_binstream.new).2).2.1.bucket_num =
      2 ∧
    (db_reader.new.read 4096
      (rebuilt_db.write (fun _ => (0, 0)) padded_blob mem_binstream.new).2).2.1.ranges =
      [77] ∧
    (db_reader.new.read 4096
      (rebuilt_db.write (fun _ => (0, 0)) padded_blob mem_binstream.new).2).2.1.model = [] ∧
    bytes_at (db_reader.new.read 4096
      (rebuilt_db.write (fun _ => (0, 0)) padded_blob mem_binstream.new).2).2.1.buffer
        320 48 = rebuilt_db.apdx.data ∧
    (db_reader.new.read 4096
      (rebuilt_db.write (fun _ => (0, 0)) padded_blob mem_binstream.new).2).2.1.apdx =
      4096 + 640 ∧
    (built_db true 1 0 0 []).ranges = [] ∧
    (db_reader.new.read 4096
      ((built_db true 1 0 0 []).write (fun _ => (0, 0)) [] mem_binstream.new).2).1 = none := by
  decide

/-! ## C21: the errors of `read_header` -/

theorem c_string_cons_ne (x : Nat) (t : List Nat) (hx : x ≠ 0) :
    c_string (x :: t) = x :: c_string t := by
  simp [c_string, List.takeWhile_cons, hx]

theorem c_string_cons_zero (t : List Nat) : c_string (0 :: t) = [] := by
  simp [c_string, List.takeWhile_cons]

/-- The comparison `strncmp(a, b, n)` is zero exactly when the strings agree
in their first `n` characters. -/
theorem strncmp_zero_iff (n : Nat) (a b : List Nat) :
    strncmp_zero n a b = true ↔ (c_string a).take n = (c_string b).take n := by
  induction n generalizing a b with
  | zero => simp [strncmp_zero]
  | succ n ih =>
    cases a with
    | nil =>
      cases b with
      | nil => simp [strncmp_zero]
      | cons y t =>
        by_cases hy : y = 0
        · subst hy; simp [strncmp_zero, c_string_cons_zero, c_string]
        · simp [strncmp_zero, c_string_cons_ne y t hy, c_string, Ne.symm hy, hy]
    | cons x s =>
      cases b with
      | nil =>
        by_cases hx : x = 0
        · subst hx; simp [strncmp_zero, c_string_cons_zero, c_string]
        · simp [strncmp_zero, c_string_cons_ne x s hx, c_string, hx]
      | cons y t =>
        by_cases hx : x = 0
        · subst hx
          by_cases hy : y = 0
          · subst hy; simp [strncmp_zero, c_string_cons_zero]
          · simp [strncmp_zero, c_string_cons_zero, c_string_cons_ne y t hy, Ne.symm hy, hy]
        · by_cases hy : y = 0
          · subst hy
            simp [strncmp_zero, c_string_cons_zero, c_string_cons_ne x s hx, hx]
          · rw [c_string_cons_ne x s hx, c_string_cons_ne y t hy]
            by_cases hxy : x = y
            · subst hxy
              simp only [strncmp_zero, List.headD_cons, ne_eq, not_true_eq_false, if_false, hx,
                List.tail_cons, List.take_succ_cons, List.cons.injEq, true_and]
              exact ih s t
            · simp [strncmp_zero, hxy]

theorem c_string_length_le (l : List Nat) : (c_string l).length ≤ l.length :=
  (List.takeWhile_sublist _).length_le

theorem c_string_all_ne (l : List Nat) : ∀ x ∈ c_string l, x ≠ 0 := by
  intro x hx
  have := List.mem_takeWhile_imp hx
  simpa using this

theorem c_string_padded (l : List Nat) (k : Nat) (h : ∀ x ∈ l, x ≠ 0) :
    c_string (l ++ List.replicate k 0) = l := by
  induction l with
  | nil =>
    cases k with
    | zero => rfl
    | succ k => simp [c_string, List.replicate_succ]
  | cons x t ih =>
    have hx : x ≠ 0 := h x (List.mem_cons_self _ _)
    rw [List.cons_append, c_string_cons_ne _ _ hx,
      ih (fun y hy => h y (List.mem_cons_of_mem _ hy))]

/-- The string of the tag `write_header` makes of a name is the name cut to 16
characters. -/
theorem c_string_header (name : List Nat) :
    c_string ((c_string name).take 16 ++ List.replicate (16 - (c_string name).length) 0) =
      (c_string name).take 16 :=
  c_string_padded _ _ (fun x hx => c_string_all_ne name x (List.mem_of_mem_take hx))

theorem write_header_data (s : mem_binstream) (name : List Nat) (v : Nat) :
    (binstream_write_header s name v).data =
      s.data ++ (((c_string name).take 16 ++ List.replicate (16 - (c_string name).length) 0) ++
        (le_bytes 2 1 ++ le_bytes 2 v)) := by
  unfold binstream_write_header
  simp only [mem_binstream.write]
  rw [header_bytes_eq]
  simp only [List.append_assoc]

theorem read_length (s : mem_binstream) (n : Nat) : (s.read n).1.length = n := by
  simp [mem_binstream.read]

/-- When `read_header` throws: exactly when the string of the 16-byte tag is
not `expected` cut to 16 characters, or the marker read is not 1. -/
theorem read_header_none_iff (s : mem_binstream) (expected : List Nat) :
    (binstream_read_header s expected).1 = none ↔
      (c_string (s.read 16).1 ≠ (c_string expected).take 16 ∨
       of_le_bytes ((s.read 16).2.read 2).1 ≠ 1) := by
  have hlen : (c_string (s.read 16).1).length ≤ 16 :=
    Nat.le_trans (c_string_length_le _) (Nat.le_of_eq (read_length s 16))
  have hiff := strncmp_zero_iff 16 (s.read 16).1 expected
  rw [List.take_of_length_le hlen] at hiff
  unfold binstream_read_header
  simp only [header_length]
  by_cases h1 : strncmp_zero 16 (s.read 16).1 expected = true
  · have heq := hiff.mp h1
    simp only [h1, Bool.true_eq_false, if_false]
    by_cases h2 : of_le_bytes ((s.read 16).2.read 2).1 = 1
    · simp [h2, heq]
    · simp [h2, heq]
  · have hne : c_string (s.read 16).1 ≠ (c_string expected).take 16 := fun h => h1 (hiff.mpr h)
    have hf : strncmp_zero 16 (s.read 16).1 expected = false := by
      cases hh : strncmp_zero 16 (s.read 16).1 expected
      · rfl
      · exact absurd hh h1
    simp [hf, hne]

/-- C21 (amended): `read_header(expected)` throws exactly when the string held
in the 16-byte tag of the stream (its bytes before the first NUL) is not
`expected` cut to 16 characters, or the 16-bit endianness marker read is not 1.
For a tag written by `write_header(name, v)` it throws for every `name` whose
first 16 characters are not those of `expected`. -/
theorem C21_read_header_errors (s : mem_binstream) (expected name : List Nat) (v : Nat)
    (pre rest : List Nat) :
    ((binstream_read_header s expected).1 = none ↔
      (c_string (s.read 16).1 ≠ (c_string expected).take 16 ∨
       of_le_bytes ((s.read 16).2.read 2).1 ≠ 1)) ∧
    ((c_string name).take 16 ≠ (c_string expected).take 16 →
      (binstream_read_header
        ⟨pre ++ ((binstream_write_header mem_binstream.new name v).data ++ rest), pre.length⟩
        expected).1 = none) := by
  refine ⟨read_header_none_iff s expected, ?_⟩
  intro hne
  rw [read_header_none_iff]
  left
  rw [write_header_data]
  have hlen16 : ((c_string name).take 16 ++
      List.replicate (16 - (c_string name).length) 0).length = 16 := by
    rw [← header_bytes_eq]; exact header_bytes_length name
  have hd : pre ++ ((mem_binstream.new.data ++
      (((c_string name).take 16 ++ List.replicate (16 - (c_string name).length) 0) ++
        (le_bytes 2 1 ++ le_bytes 2 v))) ++ rest) =
      pre ++ (((c_string name).take 16 ++ List.replicate (16 - (c_string name).length) 0) ++
        ((le_bytes 2 1 ++ le_bytes 2 v) ++ rest)) := by
    simp [mem_binstream.new]
  rw [hd, read_chunk pre _ _ 16 hlen16]
  simp only []
  rw [c_string_header]
  exact hne

theorem C21_read_header_errors_witness :
    ((binstream_read_header ⟨[100, 99, 0, 0, 0, 0, 0, 0, 0, 0, 0, 0, 0, 0, 0, 0, 1, 0, 1, 0], 0⟩
        [100, 98]).1 = none) ∧
    (binstream_read_header
        ⟨[] ++ ((binstream_write_header mem_binstream.new [100, 99] 1).data ++ [7]),
          ([] : List Nat).length⟩ [100, 98]).1 = none :=
  ⟨(C21_read_header_errors ⟨[100, 99, 0, 0, 0, 0, 0, 0, 0, 0, 0, 0, 0, 0, 0, 0, 1, 0, 1, 0], 0⟩
      [100, 98] [100, 99] 1 [] [7]).1.mpr (Or.inl (by decide)),
   (C21_read_header_errors ⟨[], 0⟩ [100, 98] [100, 99] 1 [] [7]).2 (by decide)⟩

/-- The claim as first stated fails twice.  A tag with bytes behind its first
NUL differs from the tag `write_header` produces for "db", and `read_header`
accepts it; and a tag written for a name of 17 characters is accepted for
another name with the same first 16 characters. -/
theorem C21_counterexample :
    ((⟨[100, 98, 0, 7, 0, 0, 0, 0, 0, 0, 0, 0, 0, 0, 0, 0, 1, 0, 1, 0], 0⟩ :
        mem_binstream).read 16).1 ≠
      ((⟨(binstream_write_header mem_binstream.new [100, 98] 1).data, 0⟩ :
        mem_binstream).read 16).1 ∧
    (binstream_read_header
      ⟨[100, 98, 0, 7, 0, 0, 0, 0, 0, 0, 0, 0, 0, 0, 0, 0, 1, 0, 1, 0], 0⟩ [100, 98]).1 =
        some 1 ∧
    ([97, 97, 97, 97, 97, 97, 97, 97, 97, 97, 97, 97, 97, 97, 97, 97, 98] : List Nat) ≠
      [97, 97, 97, 97, 97, 97, 97, 97, 97, 97, 97, 97, 97, 97, 97, 97, 99] ∧
    (binstream_read_header
      ⟨(binstream_write_header mem_binstream.new
        [97, 97, 97, 97, 97, 97, 97, 97, 97, 97, 97, 97, 97, 97, 97, 97, 98] 1).data, 0⟩
      [97, 97, 97, 97, 97, 97, 97, 97, 97, 97, 97, 97, 97, 97, 97, 97, 99]).1 = some 1 := by
  decide

/-! ## C23: vectors on a stream -/

theorem write_vec_data (w : Nat) (s : mem_binstream) (vec : List Nat) :
    binstream_write_vec w s vec =
      ⟨s.data ++ (le_bytes 8 vec.length ++ vec.flatMap (fun e => le_bytes w e)), s.cursor⟩ := by
  unfold binstream_write_vec
  have : ∀ (l : List Nat) (t : mem_binstream),
      l.foldl (fun acc e => acc.write (le_bytes w e)) t =
        ⟨t.data ++ l.flatMap (fun e => le_bytes w e), t.cursor⟩ := by
    intro l
    induction l with
    | nil => intro t; simp
    | cons x l ih =>
      intro t
      rw [List.foldl_cons, ih]
      simp only [List.flatMap_cons, mem_binstream.write, List.append_assoc]
  rw [this]
  simp [mem_binstream.write, List.append_assoc]

theorem vec_bytes_length (w : Nat) (vec : List Nat) :
    (vec.flatMap (fun e => le_bytes w e)).length = vec.length * w := by
  induction vec with
  | nil => simp
  | cons x vec ih =>
    rw [List.flatMap_cons, List.length_append, ih, le_bytes_length, List.length_cons]
    ring

theorem read_elems_flat (w : Nat) (vec c rest : List Nat) (h : ∀ e ∈ vec, e < 256 ^ w) :
    binstream_read_elems w vec.length
        ⟨c ++ (vec.flatMap (fun e => le_bytes w e) ++ rest), c.length⟩ =
      (vec,
       ⟨(c ++ vec.flatMap (fun e => le_bytes w e)) ++ rest,
        (c ++ vec.flatMap (fun e => le_bytes w e)).length⟩) := by
  induction vec generalizing c with
  | nil => simp [binstream_read_elems]
  | cons x vec ih =>
    simp only [List.length_cons, binstream_read_elems, List.flatMap_cons, List.append_assoc]
    have h1 := read_le_bytes c (vec.flatMap (fun e => le_bytes w e) ++ rest) w x
    rw [h1]
    simp only []
    rw [ih (c ++ le_bytes w x) (fun e he => h e (List.mem_cons_of_mem _ he)),
      of_le_bytes_le_bytes, Nat.mod_eq_of_lt (h x (List.mem_cons_self _ _))]
    simp [List.append_assoc]

/-- The operator `>>` on a stream positioned at a written vector, whatever
follows it. -/
theorem read_vec_flat (w : Nat) (vec c rest : List Nat) (hlen : vec.length < 2 ^ 64)
    (h : ∀ e ∈ vec, e < 256 ^ w) :
    binstream_read_vec w
        ⟨c ++ ((le_bytes 8 vec.length ++ vec.flatMap (fun e => le_bytes w e)) ++ rest),
          c.length⟩ =
      (vec,
       ⟨c ++ ((le_bytes 8 vec.length ++ vec.flatMap (fun e => le_bytes w e)) ++ rest),
        c.length + (8 + vec.length * w)⟩) := by
  unfold binstream_read_vec
  have hd : c ++ ((le_bytes 8 vec.length ++ vec.flatMap (fun e => le_bytes w e)) ++ rest) =
      c ++ (le_bytes 8 vec.length ++ (vec.flatMap (fun e => le_bytes w e) ++ rest)) := by
    simp only [List.append_assoc]
  rw [hd, read_le_bytes]
  simp only []
  rw [of_le_bytes_le_bytes, Nat.mod_eq_of_lt (by norm_num; exact hlen),
    read_elems_flat w vec _ rest h]
  refine Prod.ext rfl ?_
  simp only [mem_binstream.mk.injEq, List.append_assoc, List.length_append, le_bytes_length,
    vec_bytes_length, true_and]

/-- C23: for every vector `v` of elements of `w` bytes, the operator `<<`
appends the 8-byte count `v.size()` and then the elements in order, and leaves
the read cursor alone; the operator `>>` at that position yields `v` and
advances the read cursor by exactly `8 + v.size() * w`, whatever was written
after the vector; and two vectors written one after the other are read back in
the order they were written. -/
theorem C23_vector_round_trip (w : Nat) (s : mem_binstream) (v v2 rest : List Nat)
    (hpos : s.cursor = s.data.length)
    (hlen : v.length < 2 ^ 64) (helem : ∀ e ∈ v, e < 256 ^ w)
    (hlen2 : v2.length < 2 ^ 64) (helem2 : ∀ e ∈ v2, e < 256 ^ w) :
    (binstream_write_vec w s v).data =
      s.data ++ (le_bytes 8 v.length ++ v.flatMap (fun e => le_bytes w e)) ∧
    (binstream_write_vec w s v).cursor = s.cursor ∧
    binstream_read_vec w ((binstream_write_vec w s v).write rest) =
      (v, ⟨((binstream_write_vec w s v).write rest).data, s.cursor + (8 + v.length * w)⟩) ∧
    binstream_read_vec w (binstream_write_vec w (binstream_write_vec w s v) v2) =
      (v, ⟨(binstream_write_vec w (binstream_write_vec w s v) v2).data,
           s.cursor + (8 + v.length * w)⟩) ∧
    binstream_read_vec w
        ⟨(binstream_write_vec w (binstream_write_vec w s v) v2).data,
          s.cursor + (8 + v.length * w)⟩ =
      (v2, ⟨(binstream_write_vec w (binstream_write_vec w s v) v2).data,
            s.cursor + (8 + v.length * w) + (8 + v2.length * w)⟩) := by
  obtain ⟨d, c⟩ := s
  simp only at hpos
  subst hpos
  refine ⟨?_, ?_, ?_, ?_, ?_⟩
  · rw [write_vec_data]
  · rw [write_vec_data]
  · rw [write_vec_data]
    simp only [mem_binstream.write, List.append_assoc]
    have := read_vec_flat w v d rest hlen helem
    simp only [List.append_assoc] at this
    exact this
  · rw [write_vec_data, write_vec_data]
    simp only [List.append_assoc]
    have := read_vec_flat w v d (le_bytes 8 v2.length ++ v2.flatMap (fun e => le_bytes w e))
      hlen helem
    simp only [List.append_assoc] at this
    exact this
  · rw [write_vec_data, write_vec_data]
    simp only []
    have := read_vec_flat w v2 (d ++ (le_bytes 8 v.length ++ v.flatMap (fun e => le_bytes w e)))
      [] hlen2 helem2
    simp only [List.append_nil, List.length_append, le_bytes_length,
      vec_bytes_length] at this
    exact this

theorem C23_vector_round_trip_witness :
    (binstream_write_vec 4 ⟨[9], 1⟩ [1, 2]).data =
      [9] ++ (le_bytes 8 2 ++ [1, 0, 0, 0, 2, 0, 0, 0]) ∧
    binstream_read_vec 4 (binstream_write_vec 4 (binstream_write_vec 4 ⟨[9], 1⟩ [1, 2]) [3]) =
      ([1, 2], ⟨(binstream_write_vec 4 (binstream_write_vec 4 ⟨[9], 1⟩ [1, 2]) [3]).data,
        1 + (8 + 2 * 4)⟩) ∧
    binstream_read_vec 4
        ⟨(binstream_write_vec 4 (binstream_write_vec 4 ⟨[9], 1⟩ [1, 2]) [3]).data,
          1 + (8 + 2 * 4)⟩ =
      ([3], ⟨(binstream_write_vec 4 (binstream_write_vec 4 ⟨[9], 1⟩ [1, 2]) [3]).data,
        1 + (8 + 2 * 4) + (8 + 1 * 4)⟩) :=
  have h := C23_vector_round_trip 4 ⟨[9], 1⟩ [1, 2] [3] [] rfl (by decide) (by decide)
    (by decide) (by decide)
  ⟨h.1, h.2.2.2.1, h.2.2.2.2⟩

/-! ## C26, C29: the statistics of `build` -/

theorem foldl_add_sum {α : Type} (f : α → Nat) (l : List α) (init : Nat) :
    l.foldl (fun c it => c + f it) init = init + (l.map f).sum := by
  induction l generalizing init with
  | nil => simp
  | cons x l ih => rw [List.foldl_cons, ih, List.map_cons, List.sum_cons]; omega

theorem sum_map_ite_eq_length_filter {α : Type} (p : α → Bool) (l : List α) :
    (l.map (fun x => if p x = true then 1 else 0)).sum = (l.filter p).length := by
  induction l with
  | nil => rfl
  | cons x l ih =>
    rw [List.map_cons, List.sum_cons, ih, List.filter_cons]
    cases p x
    · simp
    · simp; omega

/-- The counts of a bucket builder, key by key. -/
theorem populate_counts (b : bucket_builder) (oob : Nat) (a : appendix) :
    (b.populate_appendix oob a).1.keys.map (fun it => (it.1, it.2.count)) =
      b.keys.map (fun it => (it.1, it.2.count)) := by
  have hm := populate_entries_map b.use_64bit oob b.keys a
  have := congrArg (List.map (fun t : Nat × Nat × Nat => (t.1, t.2.1))) hm
  simpa [List.map_map, Function.comp_def] using this

theorem populate_keys_length (b : bucket_builder) (oob : Nat) (a : appendix) :
    (b.populate_appendix oob a).1.keys.length = b.keys.length := by
  have := congrArg List.length (populate_counts b oob a)
  simpa using this

theorem populate_count_list (b : bucket_builder) (oob : Nat) (a : appendix) :
    (b.populate_appendix oob a).1.keys.map (fun it => it.2.count) =
      b.keys.map (fun it => it.2.count) := by
  have := congrArg (List.map (fun t : Nat × Nat => t.2)) (populate_counts b oob a)
  simpa [List.map_map, Function.comp_def] using this

/-- What one emitted bucket adds to the statistics of the database. -/
theorem emit_stats (db : db_builder) (oob : Nat) (b : bucket_builder) :
    (db.emit oob b).1.distinct_key_num = db.distinct_key_num + b.keys.length ∧
    (db.emit oob b).1.total_key_num =
      db.total_key_num + (b.keys.map (fun it => it.2.count)).sum ∧
    (db.emit oob b).1.singleton_num =
      db.singleton_num + ((b.keys.map (fun it => it.2.count)).filter (fun c => c = 1)).length ∧
    (db.emit oob b).1.used_bytes = db.used_bytes + b.keys.length * 10 := by
  have h1 : (db.emit oob b).1.distinct_key_num =
      db.distinct_key_num + (b.populate_appendix oob db.apdx).1.keys.length := rfl
  have h2 : (db.emit oob b).1.total_key_num =
      db.total_key_num + (b.populate_appendix oob db.apdx).1.get_total_key_num := rfl
  have h3 : (db.emit oob b).1.singleton_num =
      db.singleton_num + (b.populate_appendix oob db.apdx).1.get_singleton_num := rfl
  have h4 : (db.emit oob b).1.used_bytes =
      db.used_bytes + (b.populate_appendix oob db.apdx).1.keys.length * 10 := rfl
  refine ⟨?_, ?_, ?_, ?_⟩
  · rw [h1, populate_keys_length]
  · rw [h2]
    unfold bucket_builder.get_total_key_num
    rw [foldl_add_sum, Nat.zero_add, populate_count_list]
  · rw [h3]
    unfold bucket_builder.get_singleton_num
    rw [foldl_add_sum, Nat.zero_add]
    have : (b.populate_appendix oob db.apdx).1.keys.map
        (fun it => if it.2.count = 1 then 1 else 0) =
        ((b.populate_appendix oob db.apdx).1.keys.map (fun it => it.2.count)).map
          (fun c => if decide (c = 1) = true then 1 else 0) := by
      simp [List.map_map, Function.comp_def]
    rw [this, populate_count_list, sum_map_ite_eq_length_filter]
  · rw [h4, populate_keys_length]

/-- The statistics after a sequence of buckets, in terms of all their entries. -/
theorem emit_all_stats (oob : Nat) (bs : List bucket_builder) (db : db_builder) :
    (emit_all oob db bs).distinct_key_num =
      db.distinct_key_num + (bs.flatMap (fun b => b.keys)).length ∧
    (emit_all oob db bs).total_key_num =
      db.total_key_num + ((bs.flatMap (fun b => b.keys)).map (fun it => it.2.count)).sum ∧
    (emit_all oob db bs).singleton_num =
      db.singleton_num +
        (((bs.flatMap (fun b => b.keys)).map (fun it => it.2.count)).filter
          (fun c => c = 1)).length ∧
    (emit_all oob db bs).used_bytes =
      db.used_bytes + (bs.flatMap (fun b => b.keys)).length * 10 := by
  induction bs generalizing db with
  | nil => simp [emit_all]
  | cons b bs ih =>
    have he : emit_all oob db (b :: bs) = emit_all oob (db.emit oob b).1 bs := rfl
    obtain ⟨e1, e2, e3, e4⟩ := emit_stats db oob b
    obtain ⟨i1, i2, i3, i4⟩ := ih (db.emit oob b).1
    rw [he, i1, i2, i3, i4, e1, e2, e3, e4]
    simp only [List.flatMap_cons, List.length_append, List.map_append, List.sum_append,
      List.filter_append]
    refine ⟨?_, ?_, ?_, ?_⟩ <;> omega

/-- The used bytes of a database built in 64-bit mode do not exceed its size:
every bucket accounts 10 bytes for each of its at most 32 keys. -/
theorem build_used_bytes_64 (db : db_builder) (h64 : db.use_64bit = true) (oob n : Nat)
    (stream : List record) :
    (db.build oob n stream).used_bytes ≤ (db.build oob n stream).get_db_size := by
  obtain ⟨_, _, _, s4⟩ := emit_all_stats oob (build_buckets db.use_64bit n stream) db.clear
  have hinv := (build_buckets_cover db.use_64bit n stream).2
  have hlen := flatMap_keys_length _ hinv
  have hk : ((build_buckets db.use_64bit n stream).flatMap bucket_builder.keys_of).length =
      ((build_buckets db.use_64bit n stream).flatMap (fun b => b.keys)).length := by
    have : (build_buckets db.use_64bit n stream).flatMap bucket_builder.keys_of =
        ((build_buckets db.use_64bit n stream).flatMap (fun b => b.keys)).map
          (fun it => it.1) := by
      rw [List.map_flatMap]; rfl
    rw [this, List.length_map]
  unfold db_builder.get_db_size
  rw [build_eq, s4, emit_all_bucket_num, emit_all_use_64bit]
  have hu : db.clear.use_64bit = true := h64
  have h0 : db.clear.used_bytes = 0 := rfl
  rw [hu, h0]
  unfold bucket_builder.get_size_bytes
  simp only [if_true]
  rw [hk] at hlen
  have : db.clear.bucket_num = db.bucket_num := rfl
  nlinarith

/-- C29 fails in 32-bit mode: the database built from the 40 singleton records
with the keys 100 .. 139 has 2 buckets, of 32 and of 8 keys; `used_bytes` is
400, 10 for each key, and `get_db_size()` is 2 * 192 = 384, so that
`get_utilization()` is above 1. -/
theorem C29_utilization_32bit :
    (built_db false 1 0 40 records_100_139).bucket_num = 2 ∧
    (build_buckets false 40 records_100_139).map (fun b => b.get_used_bytes) = [320, 80] ∧
    (built_db false 1 0 40 records_100_139).used_bytes = 400 ∧
    (built_db false 1 0 40 records_100_139).get_db_size = 384 ∧
    ¬ ((built_db false 1 0 40 records_100_139).used_bytes ≤
      (built_db false 1 0 40 records_100_139).get_db_size) := by
  decide

/-! ## C22: the errors of `read` -/

/-- A header of another version than 1: `read` returns 1 and the reader is as
it was before the call. -/
theorem read_bad_version (r : db_reader) (addr : Nat) (s : mem_binstream) (version : Nat)
    (h : (binstream_read_header s [100, 98]).1 = some version) (hv : version ≠ 1) :
    r.read addr s = (some 1, r, (binstream_read_header s [100, 98]).2) := by
  unfold db_reader.read
  generalize binstream_read_header s [100, 98] = hd at h ⊢
  obtain ⟨o, s1⟩ := hd
  dsimp only at h
  subst h
  dsimp only
  rw [if_pos hv]

/-- C22 fails for the second kind of error: on a stream with a good header
whose 4 bytes behind the statistics are not "blb\0", `read` returns 1 and
leaves a reader that is neither as before the call (here a newly constructed
one) nor empty: the header fields and the statistics read so far stay, and
`data` and `apdx` point into the block that has been freed. -/
theorem C22_read_blob_error :
    (bad_blob_stream.read 101).1.drop 97 = [120, 108, 98, 0] ∧
    (binstream_read_header bad_blob_stream [100, 98]).1 = some 1 ∧
    db_reader.new.read 4096 bad_blob_stream =
      (some 1,
       { db_reader.new with
           bucket_num := 1, data := 4096, apdx := 4416, total_bytes := 344,
           appendix_bytes := 24, distinct_key_num := 2, used_bytes := 20, singleton_num := 1,
           total_key_num := 4 },
       ⟨bad_blob_stream.data, 101⟩) ∧
    (db_reader.new.read 4096 bad_blob_stream).2.1 ≠ db_reader.new := by
  decide

/-! ## C24, C25: the slot count and the occurrence list -/

/-- The comparison of 32-bit lanes with zero sees only which of the 16-bit
lanes are zero. -/
theorem cmpeq32_zero_pattern (n : Nat) : ∀ (l : List Nat) (k : Nat), l.length ≤ n →
    SIMD_CMPEQ_EPI32 l (List.replicate k 0) =
      SIMD_CMPEQ_EPI32 (l.map (fun x => if x = 0 then 0 else 1)) (List.replicate k 0) := by
  induction n using Nat.strong_induction_on with
  | _ n ih =>
    intro l k hl
    match l, k with
    | [], _ => simp [SIMD_CMPEQ_EPI32]
    | [x], _ => simp [SIMD_CMPEQ_EPI32]
    | x0 :: x1 :: b, 0 => simp [SIMD_CMPEQ_EPI32]
    | x0 :: x1 :: b, 1 => simp [SIMD_CMPEQ_EPI32]
    | x0 :: x1 :: b, k + 2 =>
      simp only [List.replicate_succ, List.map_cons, SIMD_CMPEQ_EPI32]
      have hb : b.length ≤ n - 2 := by simp only [List.length_cons] at hl; omega
      have hlt : n - 2 < n := by simp only [List.length_cons] at hl; omega
      rw [ih (n - 2) hlt b k hb]
      by_cases h0 : x0 = 0 <;> by_cases h1 : x1 = 0 <;> simp [h0, h1]

theorem key_num_step_pattern (l : List Nat) (result : Nat) :
    key_num_step l result = key_num_step (l.map (fun x => if x = 0 then 0 else 1)) result := by
  unfold key_num_step
  have hz : SIMD_SET1_EPI16 0 = List.replicate 16 0 := by decide
  simp only [hz]
  rw [cmpeq32_zero_pattern l.length l 16 (Nat.le_refl _)]

theorem get_bucket_key_num_eq (mem : Memory) (ptr : Nat) :
    get_bucket_key_num mem ptr =
      key_num_step (SIMD_LOADU_SI mem (ptr + 32)) (key_num_step (SIMD_LOADU_SI mem (ptr + 0)) 0) :=
  rfl

/-- What the two iterations return on a tag line of `n` non-zero lanes
followed by zero lanes. -/
theorem key_num_of_pattern (n : Nat) (hn : n ≤ 32) :
    key_num_step ((List.replicate n 1 ++ List.replicate (32 - n) 0).drop 16)
        (key_num_step ((List.replicate n 1 ++ List.replicate (32 - n) 0).take 16) 0) =
      if n = 0 then 0 else if n ≤ 16 then 2 * ((n - 1) / 2) + 1 else 2 * ((n - 17) / 2) + 16 := by
  interval_cases n <;> decide

theorem packed_tag_ne_zero (b : bucket_builder) (hb : b.inv) (k : Nat) (hk : k ∈ b.keys_of) :
    (b.attr_of k).hash % 65536 ≠ 0 := by
  intro h0
  have h1 := attr_of_tag b hb k hk
  rw [← hash_15bit_read_mod, h0] at h1
  exact hash_15bit_key_ne_zero k b.smallest_key h1.symm

/-- What `get_bucket_key_num` returns for the page packed from a builder with
`n` keys: `n` when `n` is 0 or odd and at most 16, and less than `n` in all
other cases. -/
theorem get_bucket_key_num_pack (b : bucket_builder) (hb : b.inv) (mem : Memory) (ptr : Nat)
    (hm : holds mem ptr b.pack) :
    get_bucket_key_num mem ptr =
      if b.keys.length = 0 then 0
      else if b.keys.length ≤ 16 then 2 * ((b.keys.length - 1) / 2) + 1
      else 2 * ((b.keys.length - 17) / 2) + 16 := by
  have hn : b.keys.length ≤ 32 := hb.bound
  have hpt := page_tags_pack b hb mem ptr hm
  have hpat : (page_tags mem ptr).map (fun x => if x = 0 then 0 else 1) =
      List.replicate b.keys.length 1 ++ List.replicate (32 - b.keys.length) 0 := by
    rw [hpt, List.map_append, List.map_map, List.map_replicate]
    congr 1
    rw [List.eq_replicate_iff]
    refine ⟨by rw [List.length_map, get_key_order_length], ?_⟩
    intro x hx
    obtain ⟨k, hk, rfl⟩ := List.mem_map.mp hx
    have hk2 : k ∈ b.keys_of := (get_key_order_perm b).mem_iff.mp hk
    simp only [Function.comp_apply, packed_tag_ne_zero b hb k hk2, if_false]
  have hl0 : (SIMD_LOADU_SI mem (ptr + 0)).length = 16 := by simp [simd_loadu_eq]
  have hsplit := page_tags_split mem ptr
  have h0 : SIMD_LOADU_SI mem (ptr + 0) = (page_tags mem ptr).take 16 := by
    rw [hsplit, List.take_left' hl0]
  have h1 : SIMD_LOADU_SI mem (ptr + 32) = (page_tags mem ptr).drop 16 := by
    rw [hsplit, List.drop_left' hl0]
  rw [get_bucket_key_num_eq, key_num_step_pattern (SIMD_LOADU_SI mem (ptr + 32)),
    key_num_step_pattern (SIMD_LOADU_SI mem (ptr + 0)), h0, h1, List.map_take,
    List.map_drop, hpat]
  exact key_num_of_pattern b.keys.length hn

/-- C24 fails on a page with two keys: the page packed from the builder with
the keys 10 and 11 has two non-zero tag lanes, the lanes 0 and 1, and
`get_bucket_key_num` returns 1.  The loop compares 32-bit lanes, so that the
highest non-zero one, lane `j` of a 32-byte half, adds `(4 * j + 3) >> 1`. -/
theorem C24_slot_count_two_keys :
    (example_bucket.populate_appendix 0 ⟨[]⟩).1.get_distinct_key_num = 2 ∧
    page_tags example_memory 4096 =
      [35148, 8585] ++ List.replicate 30 0 ∧
    get_bucket_key_num example_memory 4096 = 1 := by
  decide

/-- C25 fails on the database built from the records (10, 7), (10, 3), (10, 5)
and (11, 99): it holds two distinct keys, with 3 values and with 1 value, and
the occurrence list of the loaded reader is `[1]`. -/
theorem C25_occurence_list_two_keys :
    example_reader.get_distinct_key_num = 2 ∧
    example_reader.bucket_num = 1 ∧
    get_bucket_key_num example_reader.memory (get_bucket_ptr example_reader.data 0 true) = 1 ∧
    example_reader.get_occurence_list = [1] := by
  decide

/-! ## C27, C28: `query` and `is_in_appendix` -/

/-- What `query` changes of the reader: `stats_counter`, which it increments,
and no other field; the buffer, the pointers, the ranges, the model, the
statistics read from the stream and the four sums that only `query_perf` adds
to are as before the call. -/
theorem query_frame (o : lnmu_oracle) (r : db_reader) (keys : List Nat) (num : List Int)
    (ptr : List Nat) :
    (r.query o keys num ptr).1 =
      { r with stats_counter :=
          if r.stats_counter < 2 ^ 53 then r.stats_counter + 1 else r.stats_counter } ∧
    (r.query o keys num ptr).1.stats_inference = r.stats_inference ∧
    (r.query o keys num ptr).1.stats_search = r.stats_search ∧
    (r.query o keys num ptr).1.stats_validate = r.stats_validate ∧
    (r.query o keys num ptr).1.stats_lookup = r.stats_lookup ∧
    (r.stats_counter < 2 ^ 53 →
      (r.query o keys num ptr).1.stats_counter = r.stats_counter + 1) :=
  ⟨rfl, rfl, rfl, rfl, rfl, fun h => if_pos h⟩

/-- C27 fails on the loaded reader of the example: `query` ends with
`stats_counter++`, so a call of `query` leaves another reader than the one it
was called on, with `stats_counter` 1 where it was 0, and a second call leaves
2; `stats_counter` is the number the averages `get_stats_inference_ns`,
`get_stats_search_ns`, `get_stats_validate_ns` and `get_stats_lookup_ns` divide
by. -/
theorem C27_query_counts :
    example_reader.stats_counter = 0 ∧
    (example_reader.query search_oracle [10, 11, 12, 10] [0, 0, 0, 0]
      [0, 0, 0, 0]).1.stats_counter = 1 ∧
    ((example_reader.query search_oracle [10, 11, 12, 10] [0, 0, 0, 0]
      [0, 0, 0, 0]).1.query search_oracle [10, 11, 12, 10] [0, 0, 0, 0]
      [0, 0, 0, 0]).1.stats_counter = 2 ∧
    (example_reader.query search_oracle [10, 11, 12, 10] [0, 0, 0, 0] [0, 0, 0, 0]).1 ≠
      example_reader := by
  decide

/-- C28 fails for the first list of the appendix in 64-bit mode: in the reader
of the example the key 10 has 3 values, `query` returns for it the pointer
4416, which is `apdx`, the start of the list at appendix offset 0, and
`is_in_appendix` is false for it; it is false as well for the pointer 4160
of the singleton key 11. -/
theorem C28_is_in_appendix_first_list :
    (example_reader.query search_oracle [10, 11, 12, 10] [0, 0, 0, 0] [0, 0, 0, 0]).2 =
      ([3, 1, 0, 3], [4416, 4160, 0, 4416]) ∧
    example_reader.apdx = 4416 ∧
    example_reader.appendix_bytes = 24 ∧
    example_reader.is_in_appendix 4416 = false ∧
    example_reader.is_in_appendix 4160 = false := by
  decide

/-! ## C30: the common prefix -/

/-- C30 fails on the bucket with the keys 7 and 8: the keys 0...0111 and
0...1000 have their 60 leading bits in common, and `get_common_prefix_bits`
returns 63, the number of leading zero bits of the difference 8 - 7. -/
theorem C30_common_prefix_seven_eight :
    seven_eight_bucket.keys_of = [7, 8] ∧
    seven_eight_bucket.get_smallest_key = 7 ∧
    common_leading_bits 7 8 = 60 ∧
    seven_eight_bucket.get_common_prefix_bits = 63 := by
  refine ⟨by decide, by decide, by decide, ?_⟩
  have h : seven_eight_bucket.get_common_prefix_bits = (63 - BSR64 1) % 256 := by
    unfold bucket_builder.get_common_prefix_bits
    have hk : seven_eight_bucket.keys.foldl (fun l it => if it.1 > l then it.1 else l)
        seven_eight_bucket.smallest_key = 8 := by decide
    rw [hk]
    have hs : seven_eight_bucket.smallest_key = 7 := by decide
    rw [hs]
    have hd : sub64 8 7 = 1 := by decide
    simp only [hd]
    rfl
  rw [h]
  have : BSR64 1 = 0 := by
    unfold BSR64
    simp [Nat.log2]
  rw [this]

/-! ## C31: the probe -/

/-- The probe of `lookup_batch` in 64-bit mode on the page `get_bucket_ptr`
returns: a miss when no tag word matches, and otherwise the slot of the first
tag word that matches. -/
theorem probe_page (mem : Memory) (r : bucket_reader) (h64 : r.use_64bit = true)
    (keys : List Nat) (srs : List Int) (bases : List Nat) (num : List Int) (ptr : List Nat)
    (hn : num.length = N) (hp : ptr.length = N) (i : Nat) (hi : i < N) :
    ((∀ x ∈ page_tags mem (get_bucket_ptr r.data (int_to_u64 (srs.getD i 0)) true),
        hash_15bit_read x ≠ hash_15bit_key (keys.getD i 0) (bases.getD i 0)) →
      ((r.lookup_batch mem keys srs bases num ptr).1.getD i 0,
       (r.lookup_batch mem keys srs bases num ptr).2.getD i 0) = (0, ptr.getD i 0)) ∧
    (∀ (pre : List Nat) (x : Nat) (post : List Nat),
      page_tags mem (get_bucket_ptr r.data (int_to_u64 (srs.getD i 0)) true) =
        pre ++ x :: post →
      (∀ y ∈ pre, hash_15bit_read y ≠ hash_15bit_key (keys.getD i 0) (bases.getD i 0)) →
      hash_15bit_read x = hash_15bit_key (keys.getD i 0) (bases.getD i 0) →
      ((r.lookup_batch mem keys srs bases num ptr).1.getD i 0,
       (r.lookup_batch mem keys srs bases num ptr).2.getD i 0) =
        if x &&& 1 = 0 then
          (1, get_bucket_ptr r.data (int_to_u64 (srs.getD i 0)) true + 64 + 8 * pre.length)
        else
          (u32_to_int (load_u64 mem
            (get_bucket_ptr r.data (int_to_u64 (srs.getD i 0)) true + 64 + 8 * pre.length)),
           r.apdx + (load_u64 mem
            (get_bucket_ptr r.data (int_to_u64 (srs.getD i 0)) true + 64 + 8 * pre.length)
              >>> 32))) ∧
    ((r.lookup_batch mem keys srs bases num ptr).1.getD i 0 ≠ 0 →
      ∃ x ∈ page_tags mem (get_bucket_ptr r.data (int_to_u64 (srs.getD i 0)) true),
        hash_15bit_read x = hash_15bit_key (keys.getD i 0) (bases.getD i 0)) ∧
    ((∀ x ∈ page_tags mem (get_bucket_ptr r.data (int_to_u64 (srs.getD i 0)) true), x = 0) →
      (r.lookup_batch mem keys srs bases num ptr).1.getD i 0 = 0) := by
  have hb := lookup_batch_getD mem r keys srs bases num ptr hn hp i hi
  have hmiss : (∀ x ∈ page_tags mem (get_bucket_ptr r.data (int_to_u64 (srs.getD i 0)) true),
        hash_15bit_read x ≠ hash_15bit_key (keys.getD i 0) (bases.getD i 0)) →
      ((r.lookup_batch mem keys srs bases num ptr).1.getD i 0,
       (r.lookup_batch mem keys srs bases num ptr).2.getD i 0) = (0, ptr.getD i 0) := by
    intro hno
    rw [hb]
    apply lookup_one_miss
    rw [h64]
    intro x hx
    exact fun h => hno x hx h.symm
  refine ⟨hmiss, ?_, ?_, ?_⟩
  · intro pre x post hpt hpre hx
    rw [hb]
    have h := lookup_one_hit mem r (keys.getD i 0) (srs.getD i 0) (bases.getD i 0)
      (ptr.getD i 0) pre x post (by rw [h64]; exact hpt)
      (fun y hy h => hpre y hy h.symm) hx.symm
    rw [h, h64]
    simp only [if_true]
  · intro hne
    by_contra hno
    have hno2 : ∀ x ∈ page_tags mem (get_bucket_ptr r.data (int_to_u64 (srs.getD i 0)) true),
        hash_15bit_read x ≠ hash_15bit_key (keys.getD i 0) (bases.getD i 0) :=
      fun x hx h => hno ⟨x, hx, h⟩
    exact hne (congrArg Prod.fst (hmiss hno2))
  · intro hz
    apply congrArg Prod.fst (hmiss _)
    intro x hx h
    rw [hz x hx] at h
    exact hash_15bit_key_ne_zero _ _ h.symm

/-- C31 (amended), in 64-bit mode, for a search result that is the index `idx`
of a bucket (an `int` that is not negative): for every page, key and base,
when no tag word of the first 64 bytes of page `idx`, bit 0 masked off, is
`hash_15bit_key(key, base)`, `lookup_batch` sets `num` to 0 and leaves `ptr`,
so that `num` is not 0 only if some tag word matches; when word `s` is the
first that matches, slot `s` is used: with bit 0 of the tag clear `num` is 1
and `ptr` the address of the slot, with bit 0 set `num` is the low 32 bits of
the slot, as an `int`, and `ptr` is `apdx` plus the high 32 bits.  Zero tag
words never match: an all-zero page gives `num = 0` for every key. -/
theorem C31_probe_condition (mem : Memory) (r : bucket_reader) (h64 : r.use_64bit = true)
    (keys : List Nat) (srs : List Int) (bases : List Nat) (num : List Int) (ptr : List Nat)
    (hn : num.length = N) (hp : ptr.length = N) (i : Nat) (hi : i < N)
    (idx : Nat) (hidx : idx < 2 ^ 31) (hsr : srs.getD i 0 = (idx : Int)) :
    ((∀ x ∈ page_tags mem (r.data + idx * 320),
        hash_15bit_read x ≠ hash_15bit_key (keys.getD i 0) (bases.getD i 0)) →
      ((r.lookup_batch mem keys srs bases num ptr).1.getD i 0,
       (r.lookup_batch mem keys srs bases num ptr).2.getD i 0) = (0, ptr.getD i 0)) ∧
    (∀ (pre : List Nat) (x : Nat) (post : List Nat),
      page_tags mem (r.data + idx * 320) = pre ++ x :: post →
      (∀ y ∈ pre, hash_15bit_read y ≠ hash_15bit_key (keys.getD i 0) (bases.getD i 0)) →
      hash_15bit_read x = hash_15bit_key (keys.getD i 0) (bases.getD i 0) →
      ((r.lookup_batch mem keys srs bases num ptr).1.getD i 0,
       (r.lookup_batch mem keys srs bases num ptr).2.getD i 0) =
        if x &&& 1 = 0 then
          (1, r.data + idx * 320 + 64 + 8 * pre.length)
        else
          (u32_to_int (load_u64 mem (r.data + idx * 320 + 64 + 8 * pre.length)),
           r.apdx + (load_u64 mem (r.data + idx * 320 + 64 + 8 * pre.length) >>> 32))) ∧
    ((r.lookup_batch mem keys srs bases num ptr).1.getD i 0 ≠ 0 →
      ∃ x ∈ page_tags mem (r.data + idx * 320),
        hash_15bit_read x = hash_15bit_key (keys.getD i 0) (bases.getD i 0)) ∧
    ((∀ x ∈ page_tags mem (r.data + idx * 320), x = 0) →
      (r.lookup_batch mem keys srs bases num ptr).1.getD i 0 = 0) := by
  have hbp : get_bucket_ptr r.data (int_to_u64 (srs.getD i 0)) true = r.data + idx * 320 := by
    rw [hsr]
    exact get_bucket_ptr_index r.data idx true (show idx * 320 < 2 ^ 64 by omega)
  have h := probe_page mem r h64 keys srs bases num ptr hn hp i hi
  rw [hbp] at h
  exact h

theorem C31_probe_condition_witness :
    ([0, 0, 0, 0] : List Int).length = N ∧ ([0, 0, 0, 0] : List Nat).length = N ∧
    page_tags example_memory (4096 + 0 * 320) =
      [] ++ 35148 :: (8585 :: List.replicate 30 0) ∧
    hash_15bit_read 35148 = hash_15bit_key 11 10 ∧
    (((⟨true, 4096, 4416⟩ : bucket_reader).lookup_batch example_memory [10, 11, 12, 10]
        [0, 0, 0, 0] [10, 10, 10, 10] [0, 0, 0, 0] [0, 0, 0, 0]).1.getD 1 0,
     ((⟨true, 4096, 4416⟩ : bucket_reader).lookup_batch example_memory [10, 11, 12, 10]
        [0, 0, 0, 0] [10, 10, 10, 10] [0, 0, 0, 0] [0, 0, 0, 0]).2.getD 1 0) =
      (1, 4096 + 64 + 8 * 0) :=
  ⟨rfl, rfl, by decide, by decide,
   (C31_probe_condition example_memory ⟨true, 4096, 4416⟩ rfl [10, 11, 12, 10] [0, 0, 0, 0]
      [10, 10, 10, 10] [0, 0, 0, 0] [0, 0, 0, 0] rfl rfl 1 (by decide) 0 (by decide) rfl).2.1
      [] 35148 (8585 :: List.replicate 30 0) (by decide) (by decide) (by decide)⟩

/-- The claim as first stated fails on a page that `pack` does not produce,
the page of the search result 0: tag word 0 is the tag of the key 10 with bit 0
set and its value slot is zero; the tag matches and `lookup_batch` returns
`num = 0`. -/
theorem C31_counterexample :
    (∃ x ∈ page_tags (block_at 0 zero_count_page) (0 + 0 * 320),
      hash_15bit_read x = hash_15bit_key 10 10) ∧
    ((⟨true, 0, 320⟩ : bucket_reader).lookup_batch (block_at 0 zero_count_page)
      [10, 10, 10, 10] [0, 0, 0, 0] [10, 10, 10, 10] [7, 7, 7, 7] [0, 0, 0, 0]).1.getD 0 0 = 0 := by
  decide

/-! ## C32: the formula of `get_common_prefix_bits` -/

/-- In a reachable builder that is not empty, `smallest_key` is one of the keys. -/
theorem reachable_smallest_mem (b : bucket_builder) (hb : b.reachable) :
    b.keys ≠ [] → b.smallest_key ∈ b.keys_of := by
  induction hb with
  | new u => intro h; exact absurd rfl h
  | clear b _ _ => intro h; exact absurd rfl h
  | populate b oob a _ ih =>
    intro h
    have hm := populate_entries_map b.use_64bit oob b.keys a
    have h1 : (b.populate_appendix oob a).1.keys_of = b.keys_of := by
      have := congrArg (List.map (fun t : Nat × Nat × Nat => t.1)) hm
      simpa [bucket_builder.keys_of, bucket_builder.populate_appendix, List.map_map,
        Function.comp_def] using this
    rw [h1]
    apply ih
    intro h0
    apply h
    have : (b.populate_appendix oob a).1.keys_of = [] := by
      rw [h1]; simp [bucket_builder.keys_of, h0]
    simpa [bucket_builder.keys_of] using this
  | push b m hb ih =>
    intro _
    have hinv := reachable_inv b hb
    rcases push_cases b m hinv with ⟨a, hf, hp⟩ | ⟨_, hne, hp⟩ | ⟨hf, hl, hp⟩
    · have hk := push_keys b m hinv (by rw [hp])
      have hne : b.keys ≠ [] := by
        intro h0; rw [h0] at hf; simp [map_find] at hf
      have hs : (b.push m).2.smallest_key = b.smallest_key := by rw [hp]; rfl
      rw [hs]
      exact hk.2 _ (ih hne)
    · rw [hp]; exact ih hne
    · have hk := push_keys b m hinv (by rw [hp])
      have hs : (b.push m).2.smallest_key = b.base_for m := by rw [hp]; rfl
      rw [hs]
      unfold bucket_builder.base_for
      by_cases h0 : b.keys.length = 0
      · rw [if_pos h0]; exact hk.1
      · rw [if_neg h0]
        exact hk.2 _ (ih (fun h => h0 (by rw [h]; rfl)))

theorem foldl_largest (l : List (Nat × attr)) (init M : Nat) (hi : init ≤ M)
    (hM : M = init ∨ M ∈ l.map (fun it => it.1)) (hmax : ∀ k ∈ l.map (fun it => it.1), k ≤ M) :
    l.foldl (fun l it => if it.1 > l then it.1 else l) init = M := by
  induction l generalizing init with
  | nil =>
    rcases hM with h | h
    · exact h.symm
    · simp at h
  | cons x l ih =>
    rw [List.foldl_cons]
    have hx : x.1 ≤ M := hmax x.1 (by simp)
    have hmax2 : ∀ k ∈ l.map (fun it => it.1), k ≤ M := fun k hk => hmax k (by
      simp only [List.map_cons, List.mem_cons]; exact Or.inr hk)
    by_cases hgt : x.1 > init
    · rw [if_pos hgt]
      apply ih x.1 hx _ hmax2
      rcases hM with h | h
      · omega
      · simp only [List.map_cons, List.mem_cons] at h
        rcases h with h | h
        · exact Or.inl h
        · exact Or.inr h
    · rw [if_neg hgt]
      apply ih init hi _ hmax2
      rcases hM with h | h
      · exact Or.inl h
      · simp only [List.map_cons, List.mem_cons] at h
        rcases h with h | h
        · left; omega
        · exact Or.inr h

/-- C32: for every builder that is not empty, with `M` its largest key,
`get_common_prefix_bits()` returns 64 when `M` is `smallest_key` and
`63 - floor(log2(M - smallest_key))` otherwise; the result is at most 64. -/
theorem C32_common_prefix_formula (b : bucket_builder) (hb : b.reachable)
    (hk : ∀ k ∈ b.keys_of, k < 2 ^ 64) (M : Nat) (hM : M ∈ b.keys_of)
    (hmax : ∀ k ∈ b.keys_of, k ≤ M) :
    b.get_smallest_key ≤ M ∧
    (M = b.get_smallest_key → b.get_common_prefix_bits = 64) ∧
    (M ≠ b.get_smallest_key →
      b.get_common_prefix_bits = 63 - Nat.log2 (M - b.get_smallest_key) ∧
      Nat.log2 (M - b.get_smallest_key) = Nat.log 2 (M - b.get_smallest_key)) ∧
    b.get_common_prefix_bits ≤ 64 := by
  have hne : b.keys ≠ [] := by
    intro h0
    simp [bucket_builder.keys_of, h0] at hM
  have hsk := reachable_smallest_mem b hb hne
  have hle : b.smallest_key ≤ M := hmax _ hsk
  have hM64 := hk M hM
  have hfold := foldl_largest b.keys b.smallest_key M hle (Or.inr hM) hmax
  have hsub : sub64 M b.smallest_key = M - b.smallest_key := by
    unfold sub64
    rw [Nat.mod_eq_of_lt hM64, Nat.mod_eq_of_lt (by omega : b.smallest_key < 2 ^ 64)]
    have : M + (2 ^ 64 - b.smallest_key) = (M - b.smallest_key) + 2 ^ 64 := by omega
    rw [this, Nat.add_mod_right, Nat.mod_eq_of_lt (by omega)]
  have hval : b.get_common_prefix_bits =
      if M - b.smallest_key = 0 then 64 else (63 - Nat.log2 (M - b.smallest_key)) % 256 := by
    unfold bucket_builder.get_common_prefix_bits
    simp only [hfold, hsub, BSR64]
  have hmod : (63 - Nat.log2 (M - b.smallest_key)) % 256 = 63 - Nat.log2 (M - b.smallest_key) :=
    Nat.mod_eq_of_lt (by omega)
  refine ⟨hle, ?_, ?_, ?_⟩
  · intro he
    rw [hval, if_pos (by rw [he]; exact Nat.sub_self _)]
  · intro hne2
    have hd : M - b.smallest_key ≠ 0 := by
      have : M ≠ b.smallest_key := hne2
      omega
    rw [hval, if_neg hd, hmod]
    exact ⟨rfl, Nat.log2_eq_log_two⟩
  · rw [hval]
    split
    · exact Nat.le_refl _
    · rw [hmod]; omega

theorem C32_common_prefix_formula_witness :
    seven_eight_bucket.get_smallest_key ≤ 8 ∧
    seven_eight_bucket.get_common_prefix_bits = 63 - Nat.log2 (8 - 7) ∧
    seven_eight_bucket.get_common_prefix_bits ≤ 64 :=
  have h := C32_common_prefix_formula seven_eight_bucket (.push _ _ (.push _ _ (.new true)))
    (by decide) 8 (by decide) (by decide)
  ⟨h.1, (h.2.2.1 (by decide)).1, h.2.2.2⟩

/-! ## C33: the order of the slots -/

/-- C33 fails on two pages.  The page of the singleton keys 10 (value 222) and
11 (value 111) has the slots in key order, with the values 222 and 111
descending.  The page of the key 10 with the values 100 and 30 and the
singleton key 11 (value 5) has the flagged tag of the key 10 and its handle in
slot 0, before the singleton. -/
theorem C33_pack_order :
    descending_bucket.get_key_order = [10, 11] ∧
    (descending_bucket.attr_of 10).count = 1 ∧ (descending_bucket.attr_of 11).count = 1 ∧
    load_u64s (block_at 0 descending_bucket.pack) 64 2 = [222, 111] ∧
    multi_first_bucket.get_key_order = [10, 11] ∧
    (multi_first_bucket.attr_of 10).count = 2 ∧ (multi_first_bucket.attr_of 11).count = 1 ∧
    (page_tags (block_at 0 multi_first_bucket.pack) 0).take 2 = [8585, 35148] ∧
    load_u64s (block_at 0 multi_first_bucket.pack) 64 2 = [handle64 0 2, 5] := by
  decide

/-! ## C34: the layout of a page -/

theorem page_tags_getElem_eq (mem : Memory) (bucket i : Nat) (hi : i < 32) :
    (page_tags mem bucket)[i]? = some (load_u16 mem (bucket + 2 * i)) := by
  unfold page_tags
  rw [List.getElem?_map, List.getElem?_range hi]
  rfl

/-- The value slot `j` of a packed page, for every `j` below 32. -/
theorem slot_pack_any (b : bucket_builder) (hb : b.inv) (mem : Memory) (bucket : Nat)
    (hm : holds mem bucket b.pack) (j : Nat) (hj : j < 32) :
    of_le_bytes (load_bytes mem (bucket + 64 + slot_width b.use_64bit * j)
      (slot_width b.use_64bit)) =
      (b.get_key_order.map b.saved_of ++ List.replicate (32 - b.keys.length) 0).getD j 0 %
        256 ^ slot_width b.use_64bit := by
  have hn : b.keys.length ≤ 32 := hb.bound
  rw [pack_eq b hn] at hm
  apply slot_of_holds mem bucket (slot_width b.use_64bit) _ _ _ j _ hm
  · rw [flatMap_le_bytes_length 2 (fun t => t)]
    simp only [List.length_append, List.length_map, List.length_replicate, get_key_order_length]
    omega
  · simp only [List.length_append, List.length_map, List.length_replicate, get_key_order_length]
    omega

/-- The tag word and the value slot of the key at position `i` of the order of
`pack`. -/
theorem pack_slot_of_key (b : bucket_builder) (hinv : b.inv) (mem : Memory) (ptr : Nat)
    (hm : holds mem ptr b.pack) (i k : Nat) (hik : b.get_key_order[i]? = some k) :
    i < b.keys.length ∧ k ∈ b.keys_of ∧
    load_u16 mem (ptr + 2 * i) = (b.attr_of k).hash % 65536 ∧
    of_le_bytes (load_bytes mem (ptr + 64 + slot_width b.use_64bit * i)
      (slot_width b.use_64bit)) = b.saved_of k % 256 ^ slot_width b.use_64bit := by
  have hn : b.keys.length ≤ 32 := hinv.bound
  have hlen := get_key_order_length b
  have hpt := page_tags_pack b hinv mem ptr hm
  have hi : i < b.get_key_order.length := by
    by_contra hge
    rw [List.getElem?_eq_none (by omega)] at hik
    exact absurd hik (by simp)
  have hi32 : i < 32 := by omega
  have hk : k ∈ b.keys_of := by
    obtain ⟨h1, h2⟩ := List.getElem?_eq_some.mp hik
    rw [← h2]
    exact get_key_order_mem b i h1
  refine ⟨by omega, hk, ?_, ?_⟩
  · have h1 := page_tags_getElem_eq mem ptr i hi32
    rw [hpt, List.getElem?_append_left (by rw [List.length_map]; exact hi),
      List.getElem?_map, hik] at h1
    simp only [Option.map_some', Option.some.injEq] at h1
    exact h1.symm
  · rw [slot_pack_any b hinv mem ptr hm i hi32, List.getD_eq_getElem?_getD,
      List.getElem?_append_left (by rw [List.length_map]; exact hi), List.getElem?_map, hik]
    rfl

/-- C34: `pack` writes a page in which, `n` being the number of keys of the
builder, the tag words 0 .. n-1 are the tags of the keys in the order of
`get_key_order`, all non-zero, the tag words n .. 31 are zero, the value slot
`i < n` holds the saved value of the key whose tag is in tag word `i`, and
the value slots n .. 31 are zero; the order is a permutation of the keys,
which are distinct, so that every key has exactly one slot.  (The tag is a
16-bit and the saved value a 64-bit or 32-bit member: the reductions below
are the identity on them.) -/
theorem C34_page_layout (b : bucket_builder) (hb : b.reachable) (mem : Memory) (ptr : Nat)
    (hm : holds mem ptr b.pack) :
    b.get_key_order.Perm b.keys_of ∧ b.keys_of.Nodup ∧
    b.get_key_order.length = b.keys.length ∧ b.keys.length ≤ 32 ∧
    (∀ i k, b.get_key_order[i]? = some k →
      load_u16 mem (ptr + 2 * i) = (b.attr_of k).hash % 65536 ∧
      load_u16 mem (ptr + 2 * i) ≠ 0 ∧
      of_le_bytes (load_bytes mem (ptr + 64 + slot_width b.use_64bit * i)
        (slot_width b.use_64bit)) = b.saved_of k % 256 ^ slot_width b.use_64bit) ∧
    (∀ i, b.keys.length ≤ i → i < 32 →
      load_u16 mem (ptr + 2 * i) = 0 ∧
      of_le_bytes (load_bytes mem (ptr + 64 + slot_width b.use_64bit * i)
        (slot_width b.use_64bit)) = 0) := by
  have hinv := reachable_inv b hb
  have hn : b.keys.length ≤ 32 := hinv.bound
  have hlen := get_key_order_length b
  have hpt := page_tags_pack b hinv mem ptr hm
  refine ⟨get_key_order_perm b, keys_of_nodup b hinv, hlen, hn, ?_, ?_⟩
  · intro i k hik
    obtain ⟨_, hk, htag, hslot⟩ := pack_slot_of_key b hinv mem ptr hm i k hik
    refine ⟨htag, ?_, hslot⟩
    rw [htag]; exact packed_tag_ne_zero b hinv k hk
  · intro i hge hi32
    constructor
    · have h1 := page_tags_getElem_eq mem ptr i hi32
      rw [hpt, List.getElem?_append_right (by rw [List.length_map, hlen]; exact hge),
        List.getElem?_replicate] at h1
      rw [List.length_map, hlen] at h1
      rw [if_pos (by omega)] at h1
      simp only [Option.some.injEq] at h1
      exact h1.symm
    · rw [slot_pack_any b hinv mem ptr hm i hi32, List.getD_eq_getElem?_getD,
        List.getElem?_append_right (by rw [List.length_map, hlen]; exact hge),
        List.getElem?_replicate]
      rw [List.length_map, hlen]
      rw [if_pos (by omega)]
      rfl

theorem C34_page_layout_witness :
    (example_bucket.populate_appendix 0 ⟨[]⟩).1.get_key_order[1]? = some 10 ∧
    load_u16 (block_at 4096 (example_bucket.populate_appendix 0 ⟨[]⟩).1.pack) (4096 + 2 * 1) =
      ((example_bucket.populate_appendix 0 ⟨[]⟩).1.attr_of 10).hash % 65536 ∧
    ((example_bucket.populate_appendix 0 ⟨[]⟩).1.attr_of 10).hash = 8585 ∧
    of_le_bytes (load_bytes (block_at 4096 (example_bucket.populate_appendix 0 ⟨[]⟩).1.pack)
        (4096 + 64 + slot_width (example_bucket.populate_appendix 0 ⟨[]⟩).1.use_64bit * 1)
        (slot_width (example_bucket.populate_appendix 0 ⟨[]⟩).1.use_64bit)) =
      (example_bucket.populate_appendix 0 ⟨[]⟩).1.saved_of 10 %
        256 ^ slot_width (example_bucket.populate_appendix 0 ⟨[]⟩).1.use_64bit ∧
    (example_bucket.populate_appendix 0 ⟨[]⟩).1.saved_of 10 = handle64 0 3 :=
  have h := (C34_page_layout (example_bucket.populate_appendix 0 ⟨[]⟩).1
    (.populate _ _ _ example_bucket_reachable)
    (block_at 4096 (example_bucket.populate_appendix 0 ⟨[]⟩).1.pack) 4096
    (holds_block_at_base 4096 _)).2.2.2.2.1 1 10 (by decide)
  ⟨by decide, h.1, by decide, h.2.2, by decide⟩

/-! ## C35: the appendix flag -/

theorem first_push (u : Bool) (k v : Nat) (b : bucket_builder) (h0 : b.keys = [])
    (hu : b.use_64bit = u) :
    b.push ⟨k, v⟩ = (0, ⟨u, k, [(k, attr_spec u (hash_15bit_key k k) [v])]⟩) := by
  rw [push_empty b ⟨k, v⟩ h0, hu, attr_pushed_fresh]
  unfold bucket_builder.set_attr bucket_builder.rebase
  simp [h0, hu, map_set]

/-- The buckets of a build over two records whose tags collide relative to
the first key. -/
theorem collide_buckets (u : Bool) (n k1 k2 v1 v2 : Nat) (hk : k1 < k2)
    (hcol : hash_15bit_key k2 k1 = hash_15bit_key k1 k1) :
    build_buckets u (n + 2) [⟨k1, v1⟩, ⟨k2, v2⟩] =
      [⟨u, k1, [(k1, attr_spec u (hash_15bit_key k1 k1) [v1])]⟩,
       ⟨u, k2, [(k2, attr_spec u (hash_15bit_key k2 k2) [v2])]⟩] := by
  have h1 := first_push u k1 v1 (bucket_builder.new u) rfl rfl
  have hspec : (attr_spec u (hash_15bit_key k1 k1) [v1]).hash = hash_15bit_key k1 k1 := by
    unfold attr_spec; cases u <;> rfl
  have h2 : (⟨u, k1, [(k1, attr_spec u (hash_15bit_key k1 k1) [v1])]⟩ : bucket_builder).push
      ⟨k2, v2⟩ = (1, ⟨u, k1, [(k1, attr_spec u (hash_15bit_key k1 k1) [v1])]⟩) := by
    apply push_new_collides
    · have : k1 ≠ k2 := by omega
      simp [map_find, this]
    · refine ⟨(k1, attr_spec u (hash_15bit_key k1 k1) [v1]), List.mem_singleton.mpr rfl, ?_⟩
      show hash_15bit_read (attr_spec u (hash_15bit_key k1 k1) [v1]).hash = hash_15bit_key k2 k1
      rw [hspec, hcol]
      exact (hash_15bit_read_even _ (hash_15bit_key_lt k1 k1) (hash_15bit_key_even k1 k1)).1
  have h3 := first_push u k2 v2
    (⟨u, k1, [(k1, attr_spec u (hash_15bit_key k1 k1) [v1])]⟩ : bucket_builder).clear rfl rfl
  have hloop : build_loop_buckets (n + 2) [⟨k1, v1⟩, ⟨k2, v2⟩] (bucket_builder.new u) =
      ([⟨u, k1, [(k1, attr_spec u (hash_15bit_key k1 k1) [v1])]⟩],
       ⟨u, k2, [(k2, attr_spec u (hash_15bit_key k2 k2) [v2])]⟩) := by
    simp only [build_loop_buckets]
    rw [h1]
    simp only [if_true]
    rw [h2]
    simp only [one_ne_zero, if_false]
    rw [h3]
    cases n <;> rfl
  unfold build_buckets
  rw [hloop]
  simp [bucket_builder.get_used_bytes]

/-- C36: a push into an empty (new or cleared) builder never fails.  When
`push` rejects a record in the loop of `build`, the current bucket is emitted,
its `smallest_key` being appended to the ranges, and the loop goes on with a
builder that holds the rejected record alone, whose key is its
`smallest_key`, the next range.  For two records with the keys `k1 < k2` whose
tags relative to `k1` are equal, the build emits two buckets of one key each
with the ranges `[k1, k2]`. -/
theorem C36_flush_on_rejection (b0 bucket_b : bucket_builder) (m : record) (oob n : Nat)
    (stream : List record) (db : db_builder) (u : Bool) (c : Int) (k1 k2 v1 v2 : Nat)
    (h0 : b0.keys = []) (hrej : (bucket_b.push m).1 ≠ 0)
    (hk : k1 < k2) (hcol : hash_15bit_key k2 k1 = hash_15bit_key k1 k1) :
    (b0.push m).1 = 0 ∧
    build_loop oob (n + 1) (m :: stream) db bucket_b =
      build_loop oob n stream (db.emit oob (bucket_b.push m).2).1
        ((bucket_b.push m).2.clear.push m).2 ∧
    (db.emit oob (bucket_b.push m).2).1.ranges =
      db.ranges ++ [(bucket_b.push m).2.get_smallest_key] ∧
    (db.emit oob (bucket_b.push m).2).1.bucket_num = db.bucket_num + 1 ∧
    ((bucket_b.push m).2.clear.push m).1 = 0 ∧
    ((bucket_b.push m).2.clear.push m).2.keys_of = [m.key] ∧
    ((bucket_b.push m).2.clear.push m).2.get_smallest_key = m.key ∧
    (built_db u c oob (n + 2) [⟨k1, v1⟩, ⟨k2, v2⟩]).bucket_num = 2 ∧
    (built_db u c oob (n + 2) [⟨k1, v1⟩, ⟨k2, v2⟩]).get_ranges = [k1, k2] ∧
    (build_buckets u (n + 2) [⟨k1, v1⟩, ⟨k2, v2⟩]).map
      (fun b => b.get_distinct_key_num) = [1, 1] := by
  have hfacts := built_db_facts u c oob (n + 2) [⟨k1, v1⟩, ⟨k2, v2⟩]
  have hcb := collide_buckets u n k1 k2 v1 v2 hk hcol
  have hclr := first_push (bucket_b.push m).2.clear.use_64bit m.key m.value
    (bucket_b.push m).2.clear rfl rfl
  refine ⟨?_, ?_, rfl, rfl, ?_, ?_, ?_, ?_, ?_, ?_⟩
  · rw [push_empty b0 m h0]
  · simp only [build_loop]
    rw [if_neg hrej]
    rfl
  · rw [hclr]
  · rw [hclr]; rfl
  · rw [hclr]; rfl
  · rw [hfacts.2.2.1, hcb]; rfl
  · unfold db_builder.get_ranges
    rw [hfacts.2.2.2.1, hcb]; rfl
  · rw [hcb]; rfl

theorem C36_flush_on_rejection_witness :
    (((bucket_builder.new true).push ⟨1, 5⟩).2.push ⟨107054, 6⟩).1 ≠ 0 ∧
    hash_15bit_key 107054 1 = hash_15bit_key 1 1 ∧
    ((bucket_builder.new true).push ⟨107054, 6⟩).1 = 0 ∧
    (built_db true 1 0 2 [⟨1, 5⟩, ⟨107054, 6⟩]).bucket_num = 2 ∧
    (built_db true 1 0 2 [⟨1, 5⟩, ⟨107054, 6⟩]).get_ranges = [1, 107054] :=
  have h := C36_flush_on_rejection (bucket_builder.new true)
    ((bucket_builder.new true).push ⟨1, 5⟩).2 ⟨107054, 6⟩ 0 0 [] (db_builder.new true) true 1
    1 107054 5 6 rfl (by decide) (by decide) (by decide)
  ⟨by decide, by decide, h.1, h.2.2.2.2.2.2.2.1, h.2.2.2.2.2.2.2.2.1⟩

/-- C37: a `push` that returns failure leaves the builder as it was: the same
keys with the same counts, value lists and tags, and the same `smallest_key`. -/
theorem C37_atomic_rejection (b : bucket_builder) (hb : b.reachable) (m : record)
    (h : (b.push m).1 ≠ 0) :
    (b.push m).2 = b ∧
    (b.push m).2.keys = b.keys ∧
    (b.push m).2.get_smallest_key = b.get_smallest_key ∧
    (b.push m).2.get_distinct_key_num = b.get_distinct_key_num ∧
    (b.push m).2.get_total_key_num = b.get_total_key_num := by
  have hs := push_fail_same b m (reachable_inv b hb) h
  rw [hs]
  exact ⟨rfl, rfl, rfl, rfl, rfl⟩

theorem C37_atomic_rejection_witness :
    (((bucket_builder.new true).push ⟨1, 5⟩).2.push ⟨107054, 6⟩).1 ≠ 0 ∧
    (((bucket_builder.new true).push ⟨1, 5⟩).2.push ⟨107054, 6⟩).2 =
      ((bucket_builder.new true).push ⟨1, 5⟩).2 :=
  ⟨by decide,
   (C37_atomic_rejection ((bucket_builder.new true).push ⟨1, 5⟩).2
     (.push _ _ (.new true)) ⟨107054, 6⟩ (by decide)).1⟩

/-- An instance of C6 with two buckets: the build over the records (1, 5) and
(107054, 6), whose tags relative to 1 are equal, emits two buckets with the
ranges 1 and 107054, and the second range is greater than the first. -/
theorem C6_ranges_increasing_witness :
    (([⟨1, 5⟩, ⟨107054, 6⟩] : List record).map (fun m => m.key)).Pairwise (· ≤ ·) ∧
    ((db_builder.new true).build 0 2 [⟨1, 5⟩, ⟨107054, 6⟩]).get_ranges[0]? = some 1 ∧
    ((db_builder.new true).build 0 2 [⟨1, 5⟩, ⟨107054, 6⟩]).get_ranges[0 + 1]? =
      some 107054 ∧
    (1 : Nat) ≤ 107054 ∧ (1 : Nat) < 107054 :=
  have hr : ((db_builder.new true).build 0 2 [⟨1, 5⟩, ⟨107054, 6⟩]).get_ranges =
      [1, 107054] := by
    have hb : build_buckets (db_builder.new true).use_64bit 2 [⟨1, 5⟩, ⟨107054, 6⟩] = _ :=
      collide_buckets true 0 1 107054 5 6 (by decide) (by decide)
    unfold db_builder.get_ranges
    rw [build_ranges, hb]
    rfl
  have h0 : ((db_builder.new true).build 0 2 [⟨1, 5⟩, ⟨107054, 6⟩]).get_ranges[0]? =
      some 1 := by rw [hr]; rfl
  have h1 : ((db_builder.new true).build 0 2 [⟨1, 5⟩, ⟨107054, 6⟩]).get_ranges[0 + 1]? =
      some 107054 := by rw [hr]; rfl
  ⟨by decide, h0, h1,
   (C6_ranges_increasing (db_builder.new true) 0 2 [⟨1, 5⟩, ⟨107054, 6⟩] (by decide)).2
     0 1 107054 h0 h1,
   (C6_ranges_increasing (db_builder.new true) 0 2 [⟨1, 5⟩, ⟨107054, 6⟩] (by decide)).1
     0 (0 + 1) 1 107054 (by decide) h0 h1⟩

/-! ## C38, C39: a builder used twice -/

/-- What a second `build` has in common with a build on a new builder: the
ranges and the statistics; the bucket count adds to the one before. -/
theorem build_reused (db : db_builder) (oob n : Nat) (stream : List record) :
    (db.build oob n stream).ranges =
      ((db_builder.new db.use_64bit).build oob n stream).ranges ∧
    (db.build oob n stream).distinct_key_num =
      ((db_builder.new db.use_64bit).build oob n stream).distinct_key_num ∧
    (db.build oob n stream).total_key_num =
      ((db_builder.new db.use_64bit).build oob n stream).total_key_num ∧
    (db.build oob n stream).singleton_num =
      ((db_builder.new db.use_64bit).build oob n stream).singleton_num ∧
    (db.build oob n stream).used_bytes =
      ((db_builder.new db.use_64bit).build oob n stream).used_bytes ∧
    (db.build oob n stream).bucket_num =
      db.bucket_num + ((db_builder.new db.use_64bit).build oob n stream).bucket_num := by
  obtain ⟨s1, s2, s3, s4⟩ := emit_all_stats oob (build_buckets db.use_64bit n stream) db.clear
  obtain ⟨t1, t2, t3, t4⟩ := emit_all_stats oob (build_buckets db.use_64bit n stream)
    (db_builder.new db.use_64bit).clear
  have hu : (db_builder.new db.use_64bit).use_64bit = db.use_64bit := rfl
  refine ⟨?_, ?_, ?_, ?_, ?_, ?_⟩
  · rw [build_ranges, build_ranges, hu]
  · rw [build_eq, build_eq, hu, s1, t1]; rfl
  · rw [build_eq, build_eq, hu, s2, t2]; rfl
  · rw [build_eq, build_eq, hu, s3, t3]; rfl
  · rw [build_eq, build_eq, hu, s4, t4]; rfl
  · rw [build_bucket_num, build_bucket_num, hu]
    show _ = db.bucket_num + (0 + _)
    omega

/-- C38 fails for the bucket count and the appendix: a second `build` over the
records (10, 7), (10, 3), (10, 5) and (11, 99) on the same builder leaves 2 as
the bucket count, 640 as `get_db_size()` and 48 appendix bytes, where the
first build, on a new builder, left 1, 320 and 24; the stream of bucket pages
holds 320 bytes after both. -/
theorem C38_build_twice :
    (built_db true 1 0 4 [⟨10, 7⟩, ⟨10, 3⟩, ⟨10, 5⟩, ⟨11, 99⟩]).bucket_num = 1 ∧
    (built_db true 1 0 4 [⟨10, 7⟩, ⟨10, 3⟩, ⟨10, 5⟩, ⟨11, 99⟩]).get_db_size = 320 ∧
    (built_db true 1 0 4 [⟨10, 7⟩, ⟨10, 3⟩, ⟨10, 5⟩, ⟨11, 99⟩]).apdx.get_size = 24 ∧
    rebuilt_db.bucket_num = 2 ∧
    rebuilt_db.get_db_size = 640 ∧
    rebuilt_db.apdx.get_size = 48 ∧
    rebuilt_db.mstream.data.length = 320 ∧
    rebuilt_db.get_ranges = [10] := by
  decide

/-- The stream `write` produces, split around the bucket pages: 101 bytes of
header, fields, statistics and the tag "blb", the pages, and the rest, and the
same with another stream of pages in the builder. -/
theorem write_split (db : db_builder) (ps : List Nat → Nat × Nat) (blob : List Nat) :
    ∃ pre post, pre.length = 101 ∧
      ∀ m : mem_binstream,
        (({ db with mstream := m } : db_builder).write ps blob mem_binstream.new).2.data =
          pre ++ (m.data ++ post) := by
  refine ⟨[100, 98, 0, 0, 0, 0, 0, 0, 0, 0, 0, 0, 0, 0, 0, 0] ++ (le_bytes 2 1 ++
        (le_bytes 2 1 ++
        (le_bytes 8 ((db.get_db_size + db.apdx.get_size) % 2 ^ 64) ++
        (le_bytes 1 (if db.use_64bit then 1 else 0) ++
        (le_bytes 8 db.apdx.get_size ++
        (le_bytes 8 db.bucket_num ++
        (le_bytes 4 (int_to_u32 db.compression) ++
        (le_bytes 8 db.total_key_num ++
        (le_bytes 8 db.distinct_key_num ++
        (le_bytes 8 db.singleton_num ++
        (le_bytes 8 db.used_bytes ++
        (le_bytes 8 (ps db.prefix_bits).1 ++
        (le_bytes 8 (ps db.prefix_bits).2 ++ [98, 108, 98, 0]))))))))))))),
    db.apdx.data ++ (le_bytes 8 db.ranges.length ++
      (db.ranges.flatMap (fun e => le_bytes 8 e) ++ (le_bytes 8 blob.length ++ blob))), ?_, ?_⟩
  · simp only [List.length_append, le_bytes_length, List.length_cons, List.length_nil]
  · intro m
    rw [write_layout]
    simp only [List.append_assoc]
    rfl

/-- C39 (amended): `write` leaves the builder as it was except for its stream
of bucket pages, which it empties; a second `write` produces the bytes of the
first without the bucket pages, the 101 bytes before them followed by the
bytes behind them, so that the two byte sequences are identical exactly when
the builder holds no bucket page. -/
theorem C39_write_twice (db : db_builder) (ps : List Nat → Nat × Nat) (blob : List Nat) :
    (db.write ps blob mem_binstream.new).1 = { db with mstream := mem_binstream.new } ∧
    ((db.write ps blob mem_binstream.new).1.write ps blob mem_binstream.new).2.data =
      (db.write ps blob mem_binstream.new).2.data.take 101 ++
        (db.write ps blob mem_binstream.new).2.data.drop (101 + db.mstream.data.length) ∧
    (((db.write ps blob mem_binstream.new).1.write ps blob mem_binstream.new).2.data =
      (db.write ps blob mem_binstream.new).2.data ↔ db.mstream.data = []) := by
  obtain ⟨pre, post, hlen, hw⟩ := write_split db ps blob
  have h1 : (db.write ps blob mem_binstream.new).1 = { db with mstream := mem_binstream.new } :=
    rfl
  have hfirst : (db.write ps blob mem_binstream.new).2.data = pre ++ (db.mstream.data ++ post) :=
    hw db.mstream
  have hsecond : ((db.write ps blob mem_binstream.new).1.write ps blob
      mem_binstream.new).2.data = pre ++ post := by
    rw [h1]
    exact hw mem_binstream.new
  refine ⟨h1, ?_, ?_⟩
  · rw [hsecond, hfirst, List.take_left' hlen, ← hlen, ← List.length_append, ← List.append_assoc,
      List.drop_left]
  · rw [hsecond, hfirst]
    constructor
    · intro h
      have h2 := List.append_cancel_left h
      have h3 := congrArg List.length h2
      rw [List.length_append] at h3
      exact List.length_eq_zero.mp (by omega)
    · intro h
      rw [h, List.nil_append]

/-- The claim as first stated fails: for the database built from the records
(10, 7), (10, 3), (10, 5) and (11, 99) the first `write` produces 469 bytes
and the second 149, the 320 bytes of the bucket page missing. -/
theorem C39_counterexample :
    ((built_db true 1 0 4 [⟨10, 7⟩, ⟨10, 3⟩, ⟨10, 5⟩, ⟨11, 99⟩]).write
      (fun _ => (0, 0)) [] mem_binstream.new).2.data.length = 469 ∧
    (((built_db true 1 0 4 [⟨10, 7⟩, ⟨10, 3⟩, ⟨10, 5⟩, ⟨11, 99⟩]).write
      (fun _ => (0, 0)) [] mem_binstream.new).1.write
        (fun _ => (0, 0)) [] mem_binstream.new).2.data.length = 149 ∧
    (((built_db true 1 0 4 [⟨10, 7⟩, ⟨10, 3⟩, ⟨10, 5⟩, ⟨11, 99⟩]).write
      (fun _ => (0, 0)) [] mem_binstream.new).1.write
        (fun _ => (0, 0)) [] mem_binstream.new).2.data ≠
    ((built_db true 1 0 4 [⟨10, 7⟩, ⟨10, 3⟩, ⟨10, 5⟩, ⟨11, 99⟩]).write
      (fun _ => (0, 0)) [] mem_binstream.new).2.data := by
  decide

end Ranger
